import Mathlib

/-! # The resumable lexer of yajl (`src/src/yajl_lex.c`)

The C lexer is a coroutine written with `switch`/`goto`: every place where a byte is
read is preceded by `CHECK_EOF(state, n)`, which on end of input stores the label `n`
in the lexer and returns `yajl_tok_eof`; the next call jumps back to `entry_n`.

The embedding makes these labels explicit.  For each C function there is

* a type of control points (one constructor per `CHECK_EOF` label),
* a step function: the code that runs from the `readChar` after a label up to the next
  `CHECK_EOF` or `return`,
* a suspend function: the store `CHECK_EOF` performs when the input is exhausted.

`run` iterates a step function over the unread bytes.  Bytes are natural numbers
(`unsigned char`), the input `(jsonText, jsonTextLen)` is a list, `*offset` is a number
that is threaded through, and an out-of-bounds read or a failed `assert` is `none`.
-/

namespace Yajl

/-! ## Data model -/

/-- Modelled from the spec: the enum `yajl_tok` is declared in `yajl_lex.h`, which is
not among the sources; the constructors are the tokens named by `tokToStr` and used by
`yajl_lex_lex`. -/
inductive yajl_tok where
  | bool | colon | comma | eof | error | left_brace | left_bracket | null
  | right_brace | right_bracket | integer | double | string | string_with_escapes
  | comment
  deriving DecidableEq

/-- Modelled from the spec: the enum `yajl_lex_error` is declared in `yajl_lex.h`, which
is not among the sources; the constructors are the codes of `yajl_lex_error_to_string`
(C prefix `yajl_lex_` dropped). -/
inductive yajl_lex_error where
  | e_ok | string_invalid_utf8 | string_invalid_escaped_char | string_invalid_json_char
  | string_invalid_hex_char | invalid_char | invalid_string
  | missing_integer_after_decimal | missing_integer_after_exponent
  | missing_integer_after_minus | unallowed_comment | leading_zeros
  | missing_integer_before_exponent | missing_integer_before_decimal
  | missing_exponent_before_plus
  deriving DecidableEq

/-- The enum `yajl_lex_state` (C prefix `state_` dropped). -/
inductive yajl_lex_state where
  | start | expect | string | number | comment
  deriving DecidableEq

/-- The struct `yajl_lexer_t`.  Modelled from the spec: the byte buffer `yajl_buf`
(`yajl_buf.h` is not among the sources) is an append-only byte container with clear,
truncate and data accessors; it is a list of bytes, `yajl_buf_clear` gives `[]`,
`yajl_buf_append` is `++`, `yajl_buf_data`/`yajl_buf_len` read the list.  The allocator
field is left out. -/
structure yajl_lexer_t where
  lineOff : Nat
  charOff : Nat
  error : yajl_lex_error
  buf : List Nat
  state : yajl_lex_state
  substate : Nat
  subsubstate : Nat
  resultTok : yajl_tok
  allowComments : Bool
  validateUTF8 : Bool
  deriving DecidableEq

/-- The function `yajl_lex_alloc`: `memset` to zero, then the two flags.  The zero
value of `resultTok` is the first enumerator and is overwritten before it is read. -/
def yajl_lex_alloc (allowComments validateUTF8 : Bool) : yajl_lexer_t :=
  { lineOff := 0, charOff := 0, error := .e_ok, buf := [], state := .start,
    substate := 0, subsubstate := 0, resultTok := .bool,
    allowComments := allowComments, validateUTF8 := validateUTF8 }

/-! ## Character table -/

def VEC : Nat := 0x01
def IJC : Nat := 0x02
def VHC : Nat := 0x04
def NFP : Nat := 0x08
def NUC : Nat := 0x10

/-- The table `charLookupTable[256]`, row by row as in the source. -/
def charLookupTable : List Nat := [
  2, 2, 2, 2, 2, 2, 2, 2, 2, 2, 2, 2, 2, 2, 2, 2,
  2, 2, 2, 2, 2, 2, 2, 2, 2, 2, 2, 2, 2, 2, 2, 2,
  0, 0, 11, 0, 0, 0, 0, 0, 0, 0, 0, 0, 0, 0, 0, 1,
  4, 4, 4, 4, 4, 4, 4, 4, 4, 4, 0, 0, 0, 0, 0, 0,
  0, 4, 4, 4, 4, 4, 4, 0, 0, 0, 0, 0, 0, 0, 0, 0,
  0, 0, 0, 0, 0, 0, 0, 0, 0, 0, 0, 0, 11, 0, 0, 0,
  0, 4, 5, 4, 4, 4, 5, 0, 0, 0, 0, 0, 0, 0, 1, 0,
  0, 0, 1, 0, 1, 0, 0, 0, 0, 0, 0, 0, 0, 0, 0, 0,
  16, 16, 16, 16, 16, 16, 16, 16, 16, 16, 16, 16, 16, 16, 16, 16,
  16, 16, 16, 16, 16, 16, 16, 16, 16, 16, 16, 16, 16, 16, 16, 16,
  16, 16, 16, 16, 16, 16, 16, 16, 16, 16, 16, 16, 16, 16, 16, 16,
  16, 16, 16, 16, 16, 16, 16, 16, 16, 16, 16, 16, 16, 16, 16, 16,
  16, 16, 16, 16, 16, 16, 16, 16, 16, 16, 16, 16, 16, 16, 16, 16,
  16, 16, 16, 16, 16, 16, 16, 16, 16, 16, 16, 16, 16, 16, 16, 16,
  16, 16, 16, 16, 16, 16, 16, 16, 16, 16, 16, 16, 16, 16, 16, 16,
  16, 16, 16, 16, 16, 16, 16, 16, 16, 16, 16, 16, 16, 16, 16, 16]

/-- The test `charLookupTable[c] & bit` of the source, as a Boolean. -/
def hasFlag (c bit : Nat) : Bool := (charLookupTable.getD c 0) &&& bit != 0

/-- The test `c >= '0' && c <= '9'`. -/
def isDigit (c : Nat) : Bool := decide (0x30 ≤ c) && decide (c ≤ 0x39)

/-- The mask of `yajl_string_scan`: `IJC|NFP|(utf8check ? NUC : 0)`. -/
def scanMask (utf8check : Bool) : Nat := IJC ||| NFP ||| (if utf8check then NUC else 0)

/-- The function `yajl_string_scan`: the number of leading bytes of the buffer that
carry no bit of the mask. -/
def yajl_string_scan : List Nat → Bool → Nat
  | [], _ => 0
  | c :: rest, utf8check =>
    if hasFlag c (scanMask utf8check) then 0 else yajl_string_scan rest utf8check + 1

/-- The increment `++` of an `unsigned int` (32 bits). -/
def uintSucc (n : Nat) : Nat := (n + 1) % 4294967296

/-! ## Control points, steps and runs -/

/-- What the code after a `readChar` does: go on to the `CHECK_EOF` of another label,
return a token after `unread` calls of `unreadChar`, or read outside an array. -/
inductive Step (PC σ : Type) where
  | next (pc : PC) (s : σ)
  | ret (tok : yajl_tok) (s : σ) (unread : Nat)
  | fault

/-- How a scan over the available input ends: `CHECK_EOF` fired at a label, or a token
was returned, or the behaviour is undefined. -/
inductive Run (PC σ : Type) where
  | suspended (pc : PC) (s : σ) (offset : Nat)
  | done (tok : yajl_tok) (s : σ) (offset : Nat)
  | fault

/-- What follows a step: scanning goes on with `k`, or the function returns at the
offset left by the `unreadChar` calls; `offset` is the offset after the `readChar`. -/
def Step.cont {PC σ : Type} (k : PC → σ → Run PC σ) (offset : Nat) : Step PC σ → Run PC σ
  | .next pc s => k pc s
  | .ret tok s unread => .done tok s (offset - unread)
  | .fault => .fault

/-- Iterate a step function over the unread bytes `jsonText[offset..]`; the step
receives the offset after the `readChar`. -/
def run {PC σ : Type} (step : PC → σ → Nat → Nat → Step PC σ) :
    PC → σ → List Nat → Nat → Run PC σ
  | pc, s, [], offset => .suspended pc s offset
  | pc, s, c :: rest, offset =>
    (step pc s c (offset + 1)).cont (fun pc1 s1 => run step pc1 s1 rest (offset + 1))
      (offset + 1)

/-- A scan followed by what the caller does when it is suspended. -/
def Run.andThen {PC σ : Type} (r : Run PC σ) (k : PC → σ → Nat → Run PC σ) : Run PC σ :=
  match r with
  | .suspended pc s offset => k pc s offset
  | .done tok s offset => .done tok s offset
  | .fault => .fault

/-! ## yajl_lex_utf8_char -/

/-- The labels `entry_1` .. `entry_6` of `yajl_lex_utf8_char`. -/
inductive Utf8PC where
  | e1 | e2 | e3 | e4 | e5 | e6
  deriving DecidableEq

def Utf8PC.label : Utf8PC → Nat
  | .e1 => 1 | .e2 => 2 | .e3 => 3 | .e4 => 4 | .e5 => 5 | .e6 => 6

/-- The tail of `yajl_lex_utf8_char`: `lexer->error = yajl_lex_string_invalid_utf8;
return yajl_tok_error;` (no `unreadChar`). -/
def utf8_invalid (lexer : yajl_lexer_t) : Step Utf8PC yajl_lexer_t :=
  .ret .error { lexer with error := .string_invalid_utf8 } 0

/-- The `if` chain of `yajl_lex_utf8_char` on the lead byte `curChar`, which the caller
has already read: return at once, or go to the `CHECK_EOF` of the first continuation
byte. -/
def yajl_lex_utf8_char_lead (lexer : yajl_lexer_t) (curChar : Nat) :
    Step Utf8PC yajl_lexer_t :=
  if curChar ≤ 0x7f then .ret .string lexer 0
  else if curChar >>> 5 = 0x6 then .next .e1 lexer
  else if curChar >>> 4 = 0x0e then .next .e2 lexer
  else if curChar >>> 3 = 0x1e then .next .e4 lexer
  else utf8_invalid lexer

/-- The code of `yajl_lex_utf8_char` after `curChar = readChar(...)` at each label. -/
def yajl_lex_utf8_char_step : Utf8PC → yajl_lexer_t → Nat → Step Utf8PC yajl_lexer_t
  | .e1, lexer, curChar =>
    if curChar >>> 6 = 0x2 then .ret .string lexer 0 else utf8_invalid lexer
  | .e2, lexer, curChar =>
    if curChar >>> 6 = 0x2 then .next .e3 lexer else utf8_invalid lexer
  | .e3, lexer, curChar =>
    if curChar >>> 6 = 0x2 then .ret .string lexer 0 else utf8_invalid lexer
  | .e4, lexer, curChar =>
    if curChar >>> 6 = 0x2 then .next .e5 lexer else utf8_invalid lexer
  | .e5, lexer, curChar =>
    if curChar >>> 6 = 0x2 then .next .e6 lexer else utf8_invalid lexer
  | .e6, lexer, curChar =>
    if curChar >>> 6 = 0x2 then .ret .string lexer 0 else utf8_invalid lexer

/-- The store of `CHECK_EOF(lexer->subsubstate, n)`. -/
def yajl_lex_utf8_char_susp (pc : Utf8PC) (lexer : yajl_lexer_t) : yajl_lexer_t :=
  { lexer with subsubstate := pc.label }

/-! ## yajl_lex_string -/

/-- The control points of `yajl_lex_string`: `top` is the head of the `for (;;)` loop
(the fast scan followed by `CHECK_EOF(lexer->substate, 1)`), `e1`, `e2`, `e3` are the
labels `entry_1`, `entry_2`, `entry_3`, and `utf8 k` is label `entry_k` of
`yajl_lex_utf8_char`, called from `entry_utf8_char`. -/
inductive StrPC where
  | top | e1 | e2 | e3 | utf8 (k : Utf8PC)
  deriving DecidableEq

/-- The result of the call at `entry_utf8_char` seen from `yajl_lex_string`:
`if (t != yajl_tok_string) return t;`, otherwise the loop goes round. -/
def string_of_utf8 : Step Utf8PC yajl_lexer_t → Step StrPC yajl_lexer_t
  | .next k lexer => .next (.utf8 k) lexer
  | .ret tok lexer unread =>
    if tok = .string then .next .top lexer else .ret tok lexer unread
  | .fault => .fault

/-- The body of the loop of `yajl_lex_string` after `curChar = readChar(...)` at
`entry_1`. -/
def yajl_lex_string_char (lexer : yajl_lexer_t) (curChar : Nat) :
    Step StrPC yajl_lexer_t :=
  if curChar = 0x22 then  -- the closing quote
    .ret lexer.resultTok lexer 0
  else if curChar = 0x5c then  -- backslash
    .next .e2 { lexer with resultTok := .string_with_escapes }
  else if hasFlag curChar IJC then
    .ret .error { lexer with error := .string_invalid_json_char } 1
  else if lexer.validateUTF8 then
    string_of_utf8
      (yajl_lex_utf8_char_lead { lexer with substate := 4, subsubstate := 0 } curChar)
  else .next .top lexer

/-- The code of `yajl_lex_string` after a `readChar` at each control point.  At `top`
a byte without a bit of the scan mask is one that `yajl_string_scan` skips; the first
byte with such a bit is the one read at `entry_1`. -/
def yajl_lex_string_step : StrPC → yajl_lexer_t → Nat → Step StrPC yajl_lexer_t
  | .top, lexer, curChar =>
    if hasFlag curChar (scanMask lexer.validateUTF8) then yajl_lex_string_char lexer curChar
    else .next .top lexer
  | .e1, lexer, curChar => yajl_lex_string_char lexer curChar
  | .e2, lexer, curChar =>
    if curChar = 0x75 then  -- the letter u: `for (lexer->subsubstate = 0; ... < 4; ...)`
      .next .e3 { lexer with subsubstate := 0 }
    else if !hasFlag curChar VEC then
      .ret .error { lexer with error := .string_invalid_escaped_char } 1
    else .next .top lexer
  | .e3, lexer, curChar =>
    if !hasFlag curChar VHC then
      .ret .error { lexer with error := .string_invalid_hex_char } 1
    else if uintSucc lexer.subsubstate < 4 then
      .next .e3 { lexer with subsubstate := uintSucc lexer.subsubstate }
    else .next .top { lexer with subsubstate := uintSucc lexer.subsubstate }
  | .utf8 k, lexer, curChar => string_of_utf8 (yajl_lex_utf8_char_step k lexer curChar)

/-- The store of the `CHECK_EOF` that fires at a control point of `yajl_lex_string`. -/
def yajl_lex_string_susp : StrPC → yajl_lexer_t → yajl_lexer_t
  | .top, lexer => { lexer with substate := 1 }
  | .e1, lexer => { lexer with substate := 1 }
  | .e2, lexer => { lexer with substate := 2 }
  | .e3, lexer => { lexer with substate := 3 }
  | .utf8 k, lexer => yajl_lex_utf8_char_susp k lexer

/-! ## yajl_lex_number -/

/-- The labels `entry_1` .. `entry_9` of `yajl_lex_number`. -/
inductive NumPC where
  | e1 | e2 | e3 | e4 | e5 | e6 | e7 | e8 | e9
  deriving DecidableEq

def NumPC.label : NumPC → Nat
  | .e1 => 1 | .e2 => 2 | .e3 => 3 | .e4 => 4 | .e5 => 5
  | .e6 => 6 | .e7 => 7 | .e8 => 8 | .e9 => 9

/-- From `if (c == 'e' || c == 'E')` to the end of `yajl_lex_number`. -/
def number_exponent (lexer : yajl_lexer_t) (c : Nat) : Step NumPC yajl_lexer_t :=
  if c = 0x65 ∨ c = 0x45 then .next .e7 lexer
  else .ret lexer.resultTok lexer 1  -- we always go "one too far"

/-- From `if (c == '.')` on. -/
def number_fraction (lexer : yajl_lexer_t) (c : Nat) : Step NumPC yajl_lexer_t :=
  if c = 0x2e then .next .e5 lexer else number_exponent lexer c

/-- From `if (c == '0')` on: a single zero, or a series of digits. -/
def number_integer (lexer : yajl_lexer_t) (c : Nat) : Step NumPC yajl_lexer_t :=
  if c = 0x30 then .next .e3 lexer
  else if 0x31 ≤ c ∧ c ≤ 0x39 then .next .e4 lexer
  else .ret .error { lexer with error := .missing_integer_after_minus } 1

/-- From `if (c >= '0' && c <= '9')` after the optional sign of the exponent. -/
def number_exponent_digits (lexer : yajl_lexer_t) (c : Nat) : Step NumPC yajl_lexer_t :=
  if isDigit c then .next .e9 lexer
  else .ret .error { lexer with error := .missing_integer_after_exponent } 1

/-- The code of `yajl_lex_number` after `c = readChar(...)` at each label. -/
def yajl_lex_number_step : NumPC → yajl_lexer_t → Nat → Step NumPC yajl_lexer_t
  | .e1, lexer, c => if c = 0x2d then .next .e2 lexer else number_integer lexer c
  | .e2, lexer, c => number_integer lexer c
  | .e3, lexer, c =>
    if isDigit c then .ret .error { lexer with error := .leading_zeros } 1
    else number_fraction lexer c
  | .e4, lexer, c => if isDigit c then .next .e4 lexer else number_fraction lexer c
  | .e5, lexer, c =>
    if c < 0x30 ∨ c > 0x39 then
      .ret .error { lexer with error := .missing_integer_after_decimal } 1
    else .next .e6 lexer
  | .e6, lexer, c =>
    if isDigit c then .next .e6 lexer
    else number_exponent { lexer with resultTok := .double } c
  | .e7, lexer, c =>
    if c = 0x2b ∨ c = 0x2d then .next .e8 lexer else number_exponent_digits lexer c
  | .e8, lexer, c => number_exponent_digits lexer c
  | .e9, lexer, c =>
    if isDigit c then .next .e9 lexer
    else .ret .double { lexer with resultTok := .double } 1

/-- The store of `CHECK_EOF(lexer->substate, n)`. -/
def yajl_lex_number_susp (pc : NumPC) (lexer : yajl_lexer_t) : yajl_lexer_t :=
  { lexer with substate := pc.label }

/-! ## yajl_lex_comment -/

/-- The labels `entry_1` .. `entry_4` of `yajl_lex_comment`. -/
inductive ComPC where
  | e1 | e2 | e3 | e4
  deriving DecidableEq

def ComPC.label : ComPC → Nat
  | .e1 => 1 | .e2 => 2 | .e3 => 3 | .e4 => 4

/-- The code of `yajl_lex_comment` after `c = readChar(...)` at each label.  At
`entry_4` a byte other than `/` is unread and read again at `entry_3` (the
`CHECK_EOF` there cannot fire: the byte is available), so it is handled as at
`entry_3`. -/
def yajl_lex_comment_step : ComPC → yajl_lexer_t → Nat → Step ComPC yajl_lexer_t
  | .e1, lexer, c =>
    if c = 0x2f then .next .e2 lexer
    else if c = 0x2a then .next .e3 lexer
    else .ret .error { lexer with error := .invalid_char } 0
  | .e2, lexer, c => if c ≠ 0x0a then .next .e2 lexer else .ret .comment lexer 0
  | .e3, lexer, c => if c = 0x2a then .next .e4 lexer else .next .e3 lexer
  | .e4, lexer, c =>
    if c = 0x2f then .ret .comment lexer 0
    else if c = 0x2a then .next .e4 lexer
    else .next .e3 lexer

/-- The store of `CHECK_EOF(lexer->substate, n)`. -/
def yajl_lex_comment_susp (pc : ComPC) (lexer : yajl_lexer_t) : yajl_lexer_t :=
  { lexer with substate := pc.label }

/-! ## yajl_lex_lex -/

/-- The array `expect[] = "rue\0alse\0ull"` of `yajl_lex_lex`, with its terminating
zero byte. -/
def expect : List Nat :=
  [0x72, 0x75, 0x65, 0, 0x61, 0x6c, 0x73, 0x65, 0, 0x75, 0x6c, 0x6c, 0]

/-- The control points of `yajl_lex_lex`: the head of the `for (;;)` loop, the head of
the `do` loop at `entry_expect`, and the control points of the three functions called
at `entry_string`, `entry_number` and `entry_comment`. -/
inductive LexPC where
  | top | expect | str (p : StrPC) | num (p : NumPC) | com (p : ComPC)
  deriving DecidableEq

/-- The lexer together with the locals `startOffset` and `entryState` of
`yajl_lex_lex`. -/
structure LexCtx where
  lexer : yajl_lexer_t
  startOffset : Nat
  entryState : yajl_lex_state
  deriving DecidableEq

/-- The lines `tok = yajl_lex_string(...); goto lexed;` and
`tok = yajl_lex_number(...); goto lexed;`: a step of the callee is a step of
`yajl_lex_lex`. -/
def liftStep {PC : Type} (f : PC → LexPC) (x : LexCtx) :
    Step PC yajl_lexer_t → Step LexPC LexCtx
  | .next p lexer => .next (f p) { x with lexer := lexer }
  | .ret tok lexer unread => .ret tok { x with lexer := lexer } unread
  | .fault => .fault

/-- The lines after `tok = yajl_lex_comment(...)`: a finished comment clears the
buffer, resets `state`, `entryState` and `startOffset` and goes round the loop; an
error goes to `lexed`. -/
def lex_of_comment (x : LexCtx) (offset : Nat) :
    Step ComPC yajl_lexer_t → Step LexPC LexCtx
  | .next p lexer => .next (.com p) { x with lexer := lexer }
  | .ret tok lexer unread =>
    if tok = .comment then
      .next .top { lexer := { lexer with buf := [], state := .start },
                   startOffset := offset - unread, entryState := .start }
    else .ret tok { x with lexer := lexer } unread
  | .fault => .fault

/-- The six whitespace labels of the `switch (c)` of `yajl_lex_lex`: tab, newline,
vertical tab, form feed, carriage return and space. -/
def isSpace (c : Nat) : Prop :=
  c = 0x09 ∨ c = 0x0a ∨ c = 0x0b ∨ c = 0x0c ∨ c = 0x0d ∨ c = 0x20

instance (c : Nat) : Decidable (isSpace c) :=
  inferInstanceAs
    (Decidable (c = 0x09 ∨ c = 0x0a ∨ c = 0x0b ∨ c = 0x0c ∨ c = 0x0d ∨ c = 0x20))

/-- The `switch (c)` of `yajl_lex_lex` after `c = readChar(...)`. -/
def lex_switch (x : LexCtx) (c : Nat) : Step LexPC LexCtx :=
  if c = 0x7b then .ret .left_bracket x 0
  else if c = 0x7d then .ret .right_bracket x 0
  else if c = 0x5b then .ret .left_brace x 0
  else if c = 0x5d then .ret .right_brace x 0
  else if c = 0x2c then .ret .comma x 0
  else if c = 0x3a then .ret .colon x 0
  else if isSpace c then
    .next .top { x with startOffset := x.startOffset + 1 }
  else if c = 0x74 then
    .next .expect
      { x with lexer := { x.lexer with state := .expect, substate := 0, resultTok := .bool } }
  else if c = 0x66 then
    .next .expect
      { x with lexer := { x.lexer with state := .expect, substate := 4, resultTok := .bool } }
  else if c = 0x6e then
    .next .expect
      { x with lexer := { x.lexer with state := .expect, substate := 9, resultTok := .null } }
  else if c = 0x22 then
    -- `yajl_lex_string` entered with substate 0 sets `resultTok` and starts its loop
    .next (.str .top)
      { x with lexer := { x.lexer with state := .string, substate := 0,
                                       resultTok := .string } }
  else if c = 0x2d ∨ isDigit c then
    -- the byte is unread, `yajl_lex_number` entered with substate 0 sets `resultTok`
    -- and reads the same byte at `entry_1`
    liftStep .num x
      (yajl_lex_number_step .e1
        { x.lexer with state := .number, substate := 0, resultTok := .integer } c)
  else if c = 0x2f then
    if !x.lexer.allowComments then
      .ret .error { x with lexer := { x.lexer with error := .unallowed_comment } } 1
    else
      .next (.com .e1) { x with lexer := { x.lexer with state := .comment, substate := 0 } }
  else .ret .error { x with lexer := { x.lexer with error := .invalid_char } } 0

/-- The body of the `do` loop at `entry_expect` after `c = readChar(...)`. -/
def lex_expect (x : LexCtx) (c : Nat) : Step LexPC LexCtx :=
  match expect.get? x.lexer.substate with
  | none => .fault
  | some e =>
    if c ≠ e then
      .ret .error { x with lexer := { x.lexer with error := .invalid_string } } 1
    else
      match expect.get? (uintSucc x.lexer.substate) with
      | none => .fault
      | some e1 =>
        if e1 ≠ 0 then
          .next .expect { x with lexer := { x.lexer with substate := uintSucc x.lexer.substate } }
        else
          .ret x.lexer.resultTok
            { x with lexer := { x.lexer with substate := uintSucc x.lexer.substate } } 0

/-- The code of `yajl_lex_lex` after a `readChar` at each control point; `offset` is
the offset after the read. -/
def yajl_lex_lex_step : LexPC → LexCtx → Nat → Nat → Step LexPC LexCtx
  | .top, x, c, _ => lex_switch x c
  | .expect, x, c, _ => lex_expect x c
  | .str p, x, c, _ => liftStep .str x (yajl_lex_string_step p x.lexer c)
  | .num p, x, c, _ => liftStep .num x (yajl_lex_number_step p x.lexer c)
  | .com p, x, c, offset => lex_of_comment x offset (yajl_lex_comment_step p x.lexer c)

/-- What is stored when the input is exhausted at a control point: nothing in the two
loops of `yajl_lex_lex` itself (`tok = yajl_tok_eof; goto lexed;`), the store of the
callee's `CHECK_EOF` otherwise. -/
def yajl_lex_lex_susp : LexPC → LexCtx → LexCtx
  | .top, x => x
  | .expect, x => x
  | .str p, x => { x with lexer := yajl_lex_string_susp p x.lexer }
  | .num p, x => { x with lexer := yajl_lex_number_susp p x.lexer }
  | .com p, x => { x with lexer := yajl_lex_comment_susp p x.lexer }

/-- Where `*outBuf` points: nowhere, at `jsonText + i`, or at `yajl_buf_data(buf) + i`. -/
inductive OutPtr where
  | null | text (i : Nat) | buf (i : Nat)
  deriving DecidableEq

/-- What a call of `yajl_lex_lex` leaves behind: the returned token, the lexer, and the
out-parameters `*offset`, `*outBuf`, `*outLen`. -/
structure LexOut where
  tok : yajl_tok
  lexer : yajl_lexer_t
  offset : Nat
  outBuf : OutPtr
  outLen : Nat
  deriving DecidableEq

/-- The special case for strings at the end of `yajl_lex_lex`:
`assert(*outLen >= 2); (*outBuf)++; *outLen -= 2;`. -/
def skip_quotes (r : LexOut) : Option LexOut :=
  if r.tok = .string ∨ r.tok = .string_with_escapes then
    if 2 ≤ r.outLen then
      some { r with
        outBuf := (match r.outBuf with
          | .null => .null | .text i => .text (i + 1) | .buf i => .buf (i + 1)),
        outLen := r.outLen - 2 }
    else none
  else some r

/-- The code of `yajl_lex_lex` from the label `lexed` on. -/
def lexed (tok : yajl_tok) (x : LexCtx) (jsonText : List Nat) (offset : Nat) :
    Option LexOut :=
  if tok = .eof ∨ x.entryState ≠ .start then
    let buf := x.lexer.buf ++ (jsonText.drop x.startOffset).take (offset - x.startOffset)
    if tok ≠ .eof then
      if tok ≠ .error then
        skip_quotes { tok := tok, lexer := { x.lexer with buf := buf, state := .start },
                      offset := offset, outBuf := .buf 0, outLen := buf.length }
      else
        skip_quotes { tok := tok, lexer := { x.lexer with buf := buf, state := .start },
                      offset := offset, outBuf := .null, outLen := 0 }
    else
      skip_quotes { tok := tok, lexer := { x.lexer with buf := buf },
                    offset := offset, outBuf := .null, outLen := 0 }
  else
    if tok ≠ .error then
      skip_quotes { tok := tok, lexer := { x.lexer with state := .start },
                    offset := offset, outBuf := .text x.startOffset,
                    outLen := offset - x.startOffset }
    else
      skip_quotes { tok := tok, lexer := { x.lexer with state := .start },
                    offset := offset, outBuf := .null, outLen := 0 }

/-- The re-entry `switch` of `yajl_lex_utf8_char` reached through `entry_utf8_char`
(where `curChar` is 0): with `subsubstate` 0 the function returns `yajl_tok_string` at
once and the loop of `yajl_lex_string` goes round; with 1..6 it jumps to the label.
The Boolean tells whether the first read is guarded by a `CHECK_EOF`. -/
def utf8_entry (lexer : yajl_lexer_t) : Option (StrPC × Bool) :=
  match lexer.subsubstate with
  | 0 => some (.top, true)
  | 1 => some (.utf8 .e1, false)
  | 2 => some (.utf8 .e2, false)
  | 3 => some (.utf8 .e3, false)
  | 4 => some (.utf8 .e4, false)
  | 5 => some (.utf8 .e5, false)
  | 6 => some (.utf8 .e6, false)
  | _ => none

/-- The re-entry `switch (lexer->substate)` of `yajl_lex_string`. -/
def string_entry (lexer : yajl_lexer_t) : Option (StrPC × yajl_lexer_t × Bool) :=
  match lexer.substate with
  | 0 => some (.top, { lexer with resultTok := .string }, true)
  | 1 => some (.e1, lexer, false)
  | 2 => some (.e2, lexer, false)
  | 3 => some (.e3, lexer, false)
  | 4 => (utf8_entry lexer).map (fun pg => (pg.1, lexer, pg.2))
  | _ => none

/-- The re-entry `switch (lexer->substate)` of `yajl_lex_number`. -/
def number_entry (lexer : yajl_lexer_t) : Option (NumPC × yajl_lexer_t × Bool) :=
  match lexer.substate with
  | 0 => some (.e1, { lexer with resultTok := .integer }, true)
  | 1 => some (.e1, lexer, false)
  | 2 => some (.e2, lexer, false)
  | 3 => some (.e3, lexer, false)
  | 4 => some (.e4, lexer, false)
  | 5 => some (.e5, lexer, false)
  | 6 => some (.e6, lexer, false)
  | 7 => some (.e7, lexer, false)
  | 8 => some (.e8, lexer, false)
  | 9 => some (.e9, lexer, false)
  | _ => none

/-- The re-entry `switch (lexer->substate)` of `yajl_lex_comment`. -/
def comment_entry (lexer : yajl_lexer_t) : Option (ComPC × yajl_lexer_t × Bool) :=
  match lexer.substate with
  | 0 => some (.e1, lexer, true)
  | 1 => some (.e1, lexer, false)
  | 2 => some (.e2, lexer, false)
  | 3 => some (.e3, lexer, false)
  | 4 => some (.e4, lexer, false)
  | _ => none

/-- A jump to a label `entry_n` lands behind the end-of-input test of `CHECK_EOF`, so
the `readChar` that follows is not guarded: with no byte left it reads
`jsonText[jsonTextLen]`. -/
def entry_guard {PC : Type} (f : PC → LexPC) (lexer : yajl_lexer_t)
    (jsonText : List Nat) (offset : Nat) :
    Option (PC × yajl_lexer_t × Bool) → Option (LexPC × LexCtx)
  | none => none
  | some (p, lexer1, guarded) =>
    if guarded ∨ offset < jsonText.length then
      some (f p, { lexer := lexer1, startOffset := offset, entryState := lexer.state })
    else none

/-- The `switch (entryState)` at the head of `yajl_lex_lex` together with the re-entry
switch of the function it jumps into: the control point at which scanning goes on, or
`none` when the jump leads to an unguarded read past the input, to `assert(0)`, or when
`assert(*offset <= jsonTextLen)` fails. -/
def lex_entry (lexer : yajl_lexer_t) (jsonText : List Nat) (offset : Nat) :
    Option (LexPC × LexCtx) :=
  match lexer.state with
  | .start =>
    if offset ≤ jsonText.length then
      some (.top, { lexer := { lexer with buf := [] }, startOffset := offset,
                    entryState := .start })
    else none
  | .expect => some (.expect, { lexer := lexer, startOffset := offset, entryState := .expect })
  | .string => entry_guard .str lexer jsonText offset (string_entry lexer)
  | .number => entry_guard .num lexer jsonText offset (number_entry lexer)
  | .comment => entry_guard .com lexer jsonText offset (comment_entry lexer)

/-- The end of a call of `yajl_lex_lex`: when the input is exhausted the `CHECK_EOF`
store is made and the token is `yajl_tok_eof`; in both cases the code at `lexed` runs. -/
def lex_finish (jsonText : List Nat) : Run LexPC LexCtx → Option LexOut
  | .suspended pc1 x1 offset1 => lexed .eof (yajl_lex_lex_susp pc1 x1) jsonText offset1
  | .done tok x1 offset1 => lexed tok x1 jsonText offset1
  | .fault => none

/-- The function `yajl_lex_lex`: enter at the control point the lexer state names,
scan the unread bytes, and finish at `lexed`. -/
def yajl_lex_lex (lexer : yajl_lexer_t) (jsonText : List Nat) (offset : Nat) :
    Option LexOut :=
  match lex_entry lexer jsonText offset with
  | none => none
  | some (pc, x) => lex_finish jsonText (run yajl_lex_lex_step pc x (jsonText.drop offset) offset)

/-- The bytes `(*outBuf)[0 .. *outLen)` a call hands back. -/
def LexOut.payload (r : LexOut) (jsonText : List Nat) : List Nat :=
  match r.outBuf with
  | .null => []
  | .text i => (jsonText.drop i).take r.outLen
  | .buf i => (r.lexer.buf.drop i).take r.outLen

/-! # Definitions used by the statements and proofs -/

/-! ## Invariants of a scan -/

/-- The value of `lexer->state` while scanning at a control point. -/
def LexPC.state : LexPC → yajl_lex_state
  | .top => .start
  | .expect => .expect
  | .str _ => .string
  | .num _ => .number
  | .com _ => .comment

/-- The tokens `lexer->resultTok` can hold at a control point that returns it. -/
def GoodTok : LexPC → yajl_tok → Prop
  | .top, _ => True
  | .com _, _ => True
  | .expect, t => t = .bool ∨ t = .null
  | .str _, t => t = .string ∨ t = .string_with_escapes
  | .num _, t => t = .integer ∨ t = .double

/-- What holds at every control point of a scan at offset `off`. -/
structure Inv (pc : LexPC) (x : LexCtx) (off : Nat) : Prop where
  state : x.lexer.state = pc.state
  start_le : x.startOffset ≤ off
  buf : x.entryState = .start → x.lexer.buf = []
  top : pc = .top → x.startOffset = off ∧ x.entryState = .start
  tok : GoodTok pc x.lexer.resultTok
  utf8 : ∀ k, pc = .str (.utf8 k) → x.lexer.substate = 4

/-- What a step keeps. -/
def StepInv (x : LexCtx) (off : Nat) : Step LexPC LexCtx → Prop
  | .next pc1 x1 => Inv pc1 x1 (off + 1) ∧ (x.entryState = .start → x1.entryState = .start)
  | .ret tok x1 u => tok ≠ .eof ∧ tok ≠ .comment ∧ u ≤ 1 ∧ x1.startOffset = x.startOffset ∧
      x1.entryState = x.entryState ∧ x1.lexer.buf = x.lexer.buf ∧
      x1.startOffset ≤ off + 1 - u
  | .fault => True


/-- The locals of `yajl_lex_lex` when it is entered in `state_start`: the buffer has
been cleared and `startOffset` is the caller's offset. -/
def ctx0 (lexer : yajl_lexer_t) (offset : Nat) : LexCtx :=
  { lexer := { lexer with buf := [] }, startOffset := offset, entryState := .start }

/-! ## The keywords -/

def kw_true : List Nat := [0x74, 0x72, 0x75, 0x65]
def kw_false : List Nat := [0x66, 0x61, 0x6c, 0x73, 0x65]
def kw_null : List Nat := [0x6e, 0x75, 0x6c, 0x6c]

/-! ## The number grammar of the specification -/

/-- The exponent part `[eE][+-]?[0-9]+` of a number: marker, optional sign, digits. -/
structure JsonExp where
  marker : Nat
  sign : Option Nat
  digits : List Nat

/-- The parts of a number text of the grammar: optional `-`, then `0` or
`[1-9][0-9]*`, optional `.` and digits, optional exponent. -/
structure JsonNumber where
  minus : Bool
  int : List Nat
  frac : Option (List Nat)
  exp : Option JsonExp

/-- A list of decimal digits. -/
def allDigits (ds : List Nat) : Prop := ∀ c ∈ ds, isDigit c = true

/-- The integer part is `0` or `[1-9][0-9]*`. -/
def intPartOk : List Nat → Prop
  | [] => False
  | d :: ds => (d = 0x30 ∧ ds = []) ∨ (0x31 ≤ d ∧ d ≤ 0x39 ∧ allDigits ds)

/-- The fraction, when present, is `.` and at least one digit. -/
def fracPartOk : Option (List Nat) → Prop
  | none => True
  | some ds => ds ≠ [] ∧ allDigits ds

/-- The exponent, when present, is `e` or `E`, an optional `+` or `-`, and at least one
digit. -/
def expPartOk : Option JsonExp → Prop
  | none => True
  | some e => (e.marker = 0x65 ∨ e.marker = 0x45) ∧
      (∀ s, e.sign = some s → s = 0x2b ∨ s = 0x2d) ∧ e.digits ≠ [] ∧ allDigits e.digits

/-- The parts form a number of the grammar. -/
def JsonNumber.wf (n : JsonNumber) : Prop :=
  intPartOk n.int ∧ fracPartOk n.frac ∧ expPartOk n.exp

def fracBytes : Option (List Nat) → List Nat
  | none => []
  | some ds => 0x2e :: ds

def expBytes : Option JsonExp → List Nat
  | none => []
  | some e => e.marker :: (e.sign.toList ++ e.digits)

/-- The text of a number. -/
def JsonNumber.bytes (n : JsonNumber) : List Nat :=
  (if n.minus then [0x2d] else []) ++ n.int ++ fracBytes n.frac ++ expBytes n.exp

/-- The byte `t` can extend the number text `n`: `n` followed by `t` is the beginning of
a number of the grammar. -/
def canExtend (n : JsonNumber) (t : Nat) : Prop :=
  ∃ m : JsonNumber, m.wf ∧ (n.bytes ++ [t]) <+: m.bytes

/-- The token of a number text: `integer` without fraction and exponent, `double`
otherwise. -/
def JsonNumber.tok (n : JsonNumber) : yajl_tok :=
  match n.frac, n.exp with
  | none, none => .integer
  | _, _ => .double

/-- The control point of `yajl_lex_number` after the last byte of a number text. -/
def JsonNumber.endPC (n : JsonNumber) : NumPC :=
  match n.frac, n.exp with
  | _, some _ => .e9
  | some _, none => .e6
  | none, none => if n.int = [0x30] then .e3 else .e4

/-- The value of `resultTok` after the last byte of a number text: it becomes `double`
when the scan leaves the fraction. -/
def JsonNumber.endTok (n : JsonNumber) : yajl_tok :=
  match n.frac, n.exp with
  | some _, some _ => .double
  | _, _ => .integer

/-- The lexer inside `yajl_lex_number` entered from the main loop. -/
def numCtx (x : LexCtx) (tok : yajl_tok) : LexCtx :=
  { x with lexer := { x.lexer with state := .number, substate := 0, resultTok := tok } }

/-- The number text `0`. -/
def number_zero : JsonNumber := { minus := false, int := [0x30], frac := none, exp := none }

/-! ## String literals of the specification -/

/-- The characters that may follow a backslash: `" \ / b f n r t`. -/
def validEscape (c : Nat) : Prop :=
  c = 0x22 ∨ c = 0x5c ∨ c = 0x2f ∨ c = 0x62 ∨ c = 0x66 ∨ c = 0x6e ∨ c = 0x72 ∨ c = 0x74

/-- A hexadecimal digit: `0-9 A-F a-f`. -/
def isHex (c : Nat) : Prop :=
  (0x30 ≤ c ∧ c ≤ 0x39) ∨ (0x41 ≤ c ∧ c ≤ 0x46) ∨ (0x61 ≤ c ∧ c ≤ 0x66)

/-- A continuation byte of UTF-8: top two bits `10`. -/
def isCont (c : Nat) : Prop := c >>> 6 = 0x2

/-- The items of the body of a string literal: a byte that stands for itself, a
backslash escape, a `\u` escape with four digits, or a multi-byte UTF-8 sequence. -/
inductive StrItem where
  | plain (c : Nat)
  | escape (c : Nat)
  | unicode (h1 h2 h3 h4 : Nat)
  | utf8_2 (b0 b1 : Nat)
  | utf8_3 (b0 b1 b2 : Nat)
  | utf8_4 (b0 b1 b2 b3 : Nat)

/-- The bytes of an item. -/
def StrItem.bytes : StrItem → List Nat
  | .plain c => [c]
  | .escape c => [0x5c, c]
  | .unicode h1 h2 h3 h4 => [0x5c, 0x75, h1, h2, h3, h4]
  | .utf8_2 b0 b1 => [b0, b1]
  | .utf8_3 b0 b1 b2 => [b0, b1, b2]
  | .utf8_4 b0 b1 b2 b3 => [b0, b1, b2, b3]

/-- The item is well formed for a lexer with the flag `validateUTF8 = v`: a plain byte
is no control byte, quote or backslash, and is ASCII when UTF-8 is validated; an escape
has a valid escape character; a `\u` escape has four hexadecimal digits; a multi-byte
sequence (only distinguished when UTF-8 is validated) has a lead byte with top bits
`110`, `1110` or `11110` and continuation bytes with top bits `10`. -/
def StrItem.ok (v : Bool) : StrItem → Prop
  | .plain c => 0x20 ≤ c ∧ c ≠ 0x22 ∧ c ≠ 0x5c ∧ (v = true → c ≤ 0x7f)
  | .escape c => validEscape c
  | .unicode h1 h2 h3 h4 => isHex h1 ∧ isHex h2 ∧ isHex h3 ∧ isHex h4
  | .utf8_2 b0 b1 => v = true ∧ b0 >>> 5 = 0x6 ∧ isCont b1
  | .utf8_3 b0 b1 b2 => v = true ∧ b0 >>> 4 = 0x0e ∧ isCont b1 ∧ isCont b2
  | .utf8_4 b0 b1 b2 b3 => v = true ∧ b0 >>> 3 = 0x1e ∧ isCont b1 ∧ isCont b2 ∧ isCont b3

/-- The item is a backslash escape. -/
def StrItem.isEscape : StrItem → Bool
  | .escape _ => true
  | .unicode _ _ _ _ => true
  | _ => false

/-- The bytes of a body. -/
def bodyBytes : List StrItem → List Nat
  | [] => []
  | i :: items => i.bytes ++ bodyBytes items

/-- The body is well formed. -/
def bodyOk (v : Bool) (items : List StrItem) : Prop := ∀ i ∈ items, i.ok v

/-- The token of a well-formed literal. -/
def bodyTok (items : List StrItem) : yajl_tok :=
  if items.any StrItem.isEscape then .string_with_escapes else .string

/-- The lexer inside `yajl_lex_string` entered from the main loop. -/
def strCtx (x : LexCtx) : LexCtx :=
  { x with lexer := { x.lexer with state := .string, substate := 0, resultTok := .string } }

/-- What scanning a well-formed item does to the lexer: only the scratch fields change,
and `resultTok` becomes `string_with_escapes` at a backslash. -/
def ItemEffect (i : StrItem) (l l1 : yajl_lexer_t) : Prop :=
  l1.validateUTF8 = l.validateUTF8 ∧
  l1.resultTok = (if i.isEscape then .string_with_escapes else l.resultTok)

/-- How a step moves between the recognizers: from the head of the main loop it stays
there on white space, enters a comment, or starts a token at a byte that is neither
white space nor `/`; inside a token it stays in the same recognizer and keeps
`startOffset`; a comment ends at the head of the main loop or with an error. -/
def StepFrame (pc : LexPC) (x : LexCtx) (c : Nat) : Step LexPC LexCtx → Prop
  | .next pc1 x1 =>
    (pc = .top → (pc1 = .top ∧ isSpace c) ∨ pc1.state = .comment ∨
      (pc1.state ≠ .start ∧ pc1.state ≠ .comment ∧ ¬ isSpace c ∧ c ≠ 0x2f ∧
        x1.startOffset = x.startOffset)) ∧
    (pc.state = .comment → pc1.state = .comment ∨ pc1 = .top) ∧
    (pc.state ≠ .start → pc.state ≠ .comment →
      pc1.state = pc.state ∧ x1.startOffset = x.startOffset)
  | .ret tok _ u =>
    (pc.state = .comment → tok = .error) ∧
    (pc = .top → tok ≠ .error → ¬ isSpace c ∧ c ≠ 0x2f ∧ u = 0)
  | .fault => True

/-! ## Two scans that behave alike -/

/-- The lexers of two scans at the same control point agree on what the rest of the scan
reads: the flags, `resultTok` inside a token, the index into `expect[]`, the counter of
the `\u` loop. -/
structure LexRel (pc : LexPC) (l1 l2 : yajl_lexer_t) : Prop where
  comments : l1.allowComments = l2.allowComments
  utf8 : l1.validateUTF8 = l2.validateUTF8
  good : GoodTok pc l2.resultTok
  tok : pc.state ≠ .start → pc.state ≠ .comment → l1.resultTok = l2.resultTok
  sub : pc = .expect → l1.substate = l2.substate
  subsub : pc = .str .e3 → l1.subsubstate = l2.subsubstate

/-- The locals of a scan of a whole text (first) and of a scan of its second chunk
(second), `k` bytes further on: either both are inside a token of this chunk, or the
second was entered inside a token whose first bytes `held` are in the buffer and begin
at offset `s1` of the whole text. -/
def CtxRel (k s1 : Nat) (held : List Nat) (x1 x2 : LexCtx) : Prop :=
  x1.entryState = .start ∧
  ((x2.entryState = .start ∧ x1.startOffset = k + x2.startOffset) ∨
   (x2.entryState ≠ .start ∧ x2.startOffset = 0 ∧ x1.startOffset = s1 ∧
    x2.lexer.buf = held))

/-- Two configurations that behave alike. -/
def Sim (k s1 : Nat) (held : List Nat) (pc : LexPC) (x1 x2 : LexCtx) : Prop :=
  LexRel pc x1.lexer x2.lexer ∧ CtxRel k s1 held x1 x2 ∧
  (x2.entryState ≠ .start → pc ≠ .top)

/-- Two steps that behave alike. -/
def StepSim (k s1 : Nat) (held : List Nat) :
    Step LexPC LexCtx → Step LexPC LexCtx → Prop
  | .next pc1 x1, .next pc2 x2 => pc1 = pc2 ∧ Sim k s1 held pc2 x1 x2
  | .ret t1 x1 u1, .ret t2 x2 u2 => t1 = t2 ∧ u1 = u2 ∧ u1 ≤ 1 ∧ t1 ≠ .eof ∧
      (t1 = .error → x1.lexer.error = x2.lexer.error) ∧ CtxRel k s1 held x1 x2
  | .fault, .fault => True
  | _, _ => False

/-- Two scans that behave alike. -/
def RunSim (k s1 : Nat) (held : List Nat) :
    Run LexPC LexCtx → Run LexPC LexCtx → Prop
  | .suspended pc1 x1 o1, .suspended pc2 x2 o2 =>
      (pc1 = pc2 ∨ (pc1 = .str .top ∧ pc2 = .str .e1)) ∧ Sim k s1 held pc2 x1 x2 ∧
      o1 = k + o2
  | .done t1 x1 o1, .done t2 x2 o2 => t1 = t2 ∧ o1 = k + o2 ∧ t1 ≠ .eof ∧
      (t1 = .error → x1.lexer.error = x2.lexer.error) ∧ CtxRel k s1 held x1 x2
  | .fault, .fault => True
  | _, _ => False

/-! ## `yajl_lex_utf8_char` as a whole -/

/-- A step of `yajl_lex_utf8_char` in the form `run` iterates (the offset is not
looked at). -/
def utf8_step (pc : Utf8PC) (lexer : yajl_lexer_t) (curChar : Nat) (_offset : Nat) :
    Step Utf8PC yajl_lexer_t :=
  yajl_lex_utf8_char_step pc lexer curChar

/-- What `yajl_lex_utf8_char` returns: the token, the lexer and `*offset`; at a
`CHECK_EOF` with no input left the label is stored and the token is `yajl_tok_eof`. -/
def utf8_finish : Run Utf8PC yajl_lexer_t → Option (yajl_tok × yajl_lexer_t × Nat)
  | .suspended pc lexer offset => some (.eof, yajl_lex_utf8_char_susp pc lexer, offset)
  | .done tok lexer offset => some (tok, lexer, offset)
  | .fault => none

/-- The `switch (lexer->subsubstate)` of `yajl_lex_utf8_char`: `none` is `assert(0)`,
`some none` is `case 0: break`, `some (some k)` is `goto entry_k`. -/
def utf8_char_entry (lexer : yajl_lexer_t) : Option (Option Utf8PC) :=
  match lexer.subsubstate with
  | 0 => some none
  | 1 => some (some .e1)
  | 2 => some (some .e2)
  | 3 => some (some .e3)
  | 4 => some (some .e4)
  | 5 => some (some .e5)
  | 6 => some (some .e6)
  | _ => none

/-- The function `yajl_lex_utf8_char`.  With `subsubstate == 0` the lead byte
`curChar` has been read by the caller and `offset` is behind it; with `subsubstate`
1..6 the function jumps to a label behind the end-of-input test, so the next read is
not guarded. -/
def yajl_lex_utf8_char (lexer : yajl_lexer_t) (jsonText : List Nat) (offset : Nat)
    (curChar : Nat) : Option (yajl_tok × yajl_lexer_t × Nat) :=
  match utf8_char_entry lexer with
  | none => none
  | some none =>
    utf8_finish ((yajl_lex_utf8_char_lead lexer curChar).cont
      (fun pc l => run utf8_step pc l (jsonText.drop offset) offset) offset)
  | some (some pc) =>
    if offset < jsonText.length then
      utf8_finish (run utf8_step pc lexer (jsonText.drop offset) offset)
    else none

/-! ## The UTF-8 validator of the specification -/

/-- The top `k` bits of the byte `b` are the bit pattern `p`. -/
def topBits (k p b : Nat) : Prop := b / 2 ^ (8 - k) = p

instance (k p b : Nat) : Decidable (topBits k p b) :=
  inferInstanceAs (Decidable (b / 2 ^ (8 - k) = p))

/-- The number of additional bytes the validator expects after a leading byte: 0 if
the lead is at most `0x7F`, 1 if its top three bits are `110`, 2 if its top four are
`1110`, 3 if its top five are `11110`; no other lead is accepted. -/
def utf8_expected (lead : Nat) : Option Nat :=
  if lead ≤ 0x7F then some 0
  else if topBits 3 0b110 lead then some 1
  else if topBits 4 0b1110 lead then some 2
  else if topBits 5 0b11110 lead then some 3
  else none

/-- A continuation byte has top two bits `10`. -/
def isContinuation (b : Nat) : Prop := topBits 2 0b10 b

instance (b : Nat) : Decidable (isContinuation b) :=
  inferInstanceAs (Decidable (topBits 2 0b10 b))

/-- The sequence of `lead` and the bytes after it is accepted: the lead is valid and
each of the expected continuation bytes is there and has top two bits `10`. -/
def Utf8Accepted (lead : Nat) (rest : List Nat) : Prop :=
  ∃ n, utf8_expected lead = some n ∧ n ≤ rest.length ∧ ∀ b ∈ rest.take n, isContinuation b

/-- The sequence is rejected: the lead is not valid, or one of the expected
continuation bytes, after good ones, is bad. -/
def Utf8Rejected (lead : Nat) (rest : List Nat) : Prop :=
  utf8_expected lead = none ∨
  ∃ n i b, utf8_expected lead = some n ∧ i < n ∧ (∀ a ∈ rest.take i, isContinuation a) ∧
    rest.get? i = some b ∧ ¬ isContinuation b

/-- The verdict on the continuation bytes when `n` of them are expected: `some true`
when all `n` are there and good, `some false` at the first bad one, `none` when the
input ends first. -/
def contsVerdict : Nat → List Nat → Option Bool
  | 0, _ => some true
  | _ + 1, [] => none
  | n + 1, b :: rest => if isContinuation b then contsVerdict n rest else some false

/-- The number of continuation bytes still expected at a label of
`yajl_lex_utf8_char`. -/
def Utf8PC.remaining : Utf8PC → Nat
  | .e1 => 1 | .e2 => 2 | .e3 => 1 | .e4 => 3 | .e5 => 2 | .e6 => 1

/-! ## The text of the token being scanned -/

/-- The bytes of the token being scanned at offset `off`: what the buffer holds of it
from earlier chunks, then the bytes of this chunk from `startOffset` on. -/
def tokText (x : LexCtx) (jsonText : List Nat) (off : Nat) : List Nat :=
  x.lexer.buf ++ (jsonText.drop x.startOffset).take (off - x.startOffset)

/-- The bytes of the unfinished item at a control point of `yajl_lex_string`: nothing
at the head of the loop, the backslash, the beginning of a `\u` escape with as many
hexadecimal digits as `subsubstate` counts, or the beginning of a multi-byte UTF-8
sequence. -/
def StrPartial (l : yajl_lexer_t) : StrPC → List Nat → Prop
  | .top, part => part = []
  | .e1, part => part = []
  | .e2, part => part = [0x5c]
  | .e3, part => ∃ hs, part = 0x5c :: 0x75 :: hs ∧ hs.length = l.subsubstate ∧
      l.subsubstate < 4 ∧ ∀ h ∈ hs, isHex h
  | .utf8 .e1, part => l.validateUTF8 = true ∧ ∃ b0, part = [b0] ∧ b0 >>> 5 = 0x6
  | .utf8 .e2, part => l.validateUTF8 = true ∧ ∃ b0, part = [b0] ∧ b0 >>> 4 = 0x0e
  | .utf8 .e3, part => l.validateUTF8 = true ∧
      ∃ b0 b1, part = [b0, b1] ∧ b0 >>> 4 = 0x0e ∧ isCont b1
  | .utf8 .e4, part => l.validateUTF8 = true ∧ ∃ b0, part = [b0] ∧ b0 >>> 3 = 0x1e
  | .utf8 .e5, part => l.validateUTF8 = true ∧
      ∃ b0 b1, part = [b0, b1] ∧ b0 >>> 3 = 0x1e ∧ isCont b1
  | .utf8 .e6, part => l.validateUTF8 = true ∧
      ∃ b0 b1 b2, part = [b0, b1, b2] ∧ b0 >>> 3 = 0x1e ∧ isCont b1 ∧ isCont b2

/-- The beginning of a string literal as it stands at a control point of
`yajl_lex_string`: the opening quote, well-formed items, and an unfinished item. -/
def StrPrefix (l : yajl_lexer_t) (p : StrPC) (bytes : List Nat) : Prop :=
  ∃ items part, bodyOk l.validateUTF8 items ∧ StrPartial l p part ∧
    bytes = 0x22 :: (bodyBytes items ++ part)

/-- What the bytes of the token read so far look like at a control point: inside a
token there is at least one, inside a string they are the beginning of a literal. -/
def TokPrefix : LexPC → yajl_lexer_t → List Nat → Prop
  | .top, _, _ => True
  | .str p, l, bytes => StrPrefix l p bytes
  | .expect, _, bytes => bytes ≠ []
  | .num _, _, bytes => bytes ≠ []
  | .com _, _, bytes => bytes ≠ []

/-- A whole string literal: quote, well-formed items, quote. -/
def StringText (v : Bool) (bytes : List Nat) : Prop :=
  ∃ items, bodyOk v items ∧ bytes = 0x22 :: (bodyBytes items ++ [0x22])

/-- The number of `unreadChar` calls that go with an error code: none for
`invalid_char` and `string_invalid_utf8`, one for every other code. -/
def ErrUnread (e : yajl_lex_error) (u : Nat) : Prop :=
  e ≠ .e_ok ∧ u = if e = .invalid_char ∨ e = .string_invalid_utf8 then 0 else 1

/-- What a step of `yajl_lex_string` does to the text of the literal. -/
def StrStepTok (l : yajl_lexer_t) (bytes : List Nat) (c : Nat) :
    Step StrPC yajl_lexer_t → Prop
  | .next p1 l1 => l1.validateUTF8 = l.validateUTF8 ∧ l1.buf = l.buf ∧
      StrPrefix l1 p1 (bytes ++ [c])
  | .ret tok l1 u =>
      (tok = .string ∨ tok = .string_with_escapes →
        u = 0 ∧ StringText l.validateUTF8 (bytes ++ [c])) ∧
      (tok = .error → ErrUnread l1.error u)
  | .fault => True

/-- What a step of `yajl_lex_lex` does to the text of the token. -/
def StepTok (x : LexCtx) (bytes : List Nat) (c : Nat) : Step LexPC LexCtx → Prop
  | .next pc1 x1 => x1.lexer.validateUTF8 = x.lexer.validateUTF8 ∧
      (pc1 = .top ∨ (x1.lexer.buf = x.lexer.buf ∧ x1.startOffset = x.startOffset ∧
        TokPrefix pc1 x1.lexer (bytes ++ [c])))
  | .ret tok x1 u =>
      (tok = .string ∨ tok = .string_with_escapes →
        u = 0 ∧ StringText x.lexer.validateUTF8 (bytes ++ [c])) ∧
      (tok = .error → ErrUnread x1.lexer.error u)
  | .fault => True

/-- What a scan does to the text of the token: where it is suspended the bytes read so
far are the beginning of a token, and a string token it returns is a whole literal. -/
def RunTok (jsonText : List Nat) (v : Bool) : Run LexPC LexCtx → Prop
  | .suspended pc1 x1 o1 => x1.lexer.validateUTF8 = v ∧
      TokPrefix pc1 x1.lexer (tokText x1 jsonText o1)
  | .done tok x1 o1 => tok = .string ∨ tok = .string_with_escapes →
      StringText v (tokText x1 jsonText o1)
  | .fault => True

/-! ## Lexers that calls of `yajl_lex_lex` leave behind -/

/-- The function `yajl_lex_reset`. -/
def yajl_lex_reset (lxr : yajl_lexer_t) : yajl_lexer_t :=
  { lxr with error := .e_ok, state := .start }

/-- A lexer as `yajl_lex_lex` can leave it: it was suspended at a control point (the
head of the main loop when no token is in progress), and its buffer holds the bytes of
the token read so far. -/
def Held (l : yajl_lexer_t) : Prop :=
  ∃ pc x, x.lexer.state = pc.state ∧ (∀ k, pc = .str (.utf8 k) → x.lexer.substate = 4) ∧
    GoodTok pc x.lexer.resultTok ∧ TokPrefix pc x.lexer x.lexer.buf ∧
    l = (yajl_lex_lex_susp pc x).lexer

/-- The lexers reachable from a fresh one: `yajl_lex_alloc`, then calls of
`yajl_lex_lex` on chunks of bytes and of `yajl_lex_reset`. -/
inductive Reachable : yajl_lexer_t → Prop
  | fresh (allowComments validateUTF8 : Bool) :
      Reachable (yajl_lex_alloc allowComments validateUTF8)
  | lex (lexer : yajl_lexer_t) (jsonText : List Nat) (offset : Nat) (r : LexOut) :
      Reachable lexer → (∀ b ∈ jsonText, b < 256) →
      yajl_lex_lex lexer jsonText offset = some r → Reachable r.lexer
  | reset (lexer : yajl_lexer_t) : Reachable lexer → Reachable (yajl_lex_reset lexer)

/-! ## UTF-8 byte sequences -/

/-- The byte `b` lies in the range `lo..hi`. -/
def inRange (lo hi b : Nat) : Bool := decide (lo ≤ b) && decide (b ≤ hi)

/-- Well-formed UTF-8 (the Unicode Standard, table 3-7), read byte by byte: `n` is the
number of continuation bytes still due and `lo..hi` the range of the next one.  The
ranges exclude overlong encodings (`C0`, `C1`, `E0 80..9F`, `F0 80..8F`), encoded
surrogates (`ED A0..BF`) and code points above U+10FFFF (`F4 90..`, `F5..`). -/
def wellFormedFrom : Nat → Nat → Nat → List Nat → Bool
  | 0, _, _, [] => true
  | _ + 1, _, _, [] => false
  | 0, _, _, b :: rest =>
    if b ≤ 0x7f then wellFormedFrom 0 0x80 0xbf rest
    else if inRange 0xc2 0xdf b then wellFormedFrom 1 0x80 0xbf rest
    else if inRange 0xe0 0xef b then
      wellFormedFrom 2 (if b = 0xe0 then 0xa0 else 0x80) (if b = 0xed then 0x9f else 0xbf) rest
    else if inRange 0xf0 0xf4 b then
      wellFormedFrom 3 (if b = 0xf0 then 0x90 else 0x80) (if b = 0xf4 then 0x8f else 0xbf) rest
    else false
  | n + 1, lo, hi, b :: rest =>
    if inRange lo hi b then wellFormedFrom n 0x80 0xbf rest else false

/-- Well-formed UTF-8 byte sequences. -/
def wellFormedUtf8 (bytes : List Nat) : Bool := wellFormedFrom 0 0x80 0xbf bytes

/-- The structure of UTF-8 as `yajl_lex_utf8_char` checks it, read byte by byte: `n` is
the number of continuation bytes still due. -/
def structuralFrom : Nat → List Nat → Bool
  | 0, [] => true
  | _ + 1, [] => false
  | 0, b :: rest =>
    if b ≤ 0x7f then structuralFrom 0 rest
    else if topBits 3 0b110 b then structuralFrom 1 rest
    else if topBits 4 0b1110 b then structuralFrom 2 rest
    else if topBits 5 0b11110 b then structuralFrom 3 rest
    else false
  | n + 1, b :: rest => if isContinuation b then structuralFrom n rest else false

/-- Byte sequences with the structure of UTF-8: each unit is a byte up to `0x7F`, or a
lead byte with top bits `110`, `1110` or `11110` followed by one, two or three
continuation bytes with top bits `10`. -/
def structuralUtf8 (bytes : List Nat) : Bool := structuralFrom 0 bytes

/-! ## Comments -/

/-- A complete comment: `//` up to and including the next newline, or `/*` up to and
including the next `*/`. -/
def IsComment (C : List Nat) : Prop :=
  (∃ body, (∀ c ∈ body, c ≠ 0x0a) ∧ C = [0x2f, 0x2f] ++ body ++ [0x0a]) ∨
  (∃ body, ¬ [0x2a, 0x2f] <:+: body ∧ C = [0x2f, 0x2a] ++ body ++ [0x2a, 0x2f])

/-- The locals of `yajl_lex_lex` behind a complete comment that ends at `offset`: the
buffer is cleared and `state`, `entryState` and `startOffset` are reset. -/
def afterComment (x : LexCtx) (offset : Nat) : LexCtx :=
  { lexer := { x.lexer with buf := [], state := .start },
    startOffset := offset, entryState := .start }

/-! ## yajl_lex_peek -/

/-- Modelled from the spec: `yajl_buf_truncate` is declared in `yajl_buf.h`, which is
not among the sources; it truncates the buffer to a length. -/
def yajl_buf_truncate (buf : List Nat) (len : Nat) : List Nat := buf.take len

/-- What a call of `yajl_lex_peek` leaves behind: the returned token, the lexer, and the
caller's offset (the parameter `offset` is passed by value). -/
structure PeekOut where
  tok : yajl_tok
  lexer : yajl_lexer_t
  offset : Nat
  deriving DecidableEq

/-- The function `yajl_lex_peek`: remember the length of the buffer and the three state
fields, call `yajl_lex_lex` on a copy of the offset, put the state fields back and
truncate the buffer to the remembered length. -/
def yajl_lex_peek (lexer : yajl_lexer_t) (jsonText : List Nat) (offset : Nat) :
    Option PeekOut :=
  let bufLen := lexer.buf.length
  let state := lexer.state
  let substate := lexer.substate
  let subsubstate := lexer.subsubstate
  match yajl_lex_lex lexer jsonText offset with
  | none => none
  | some r =>
    some { tok := r.tok,
           lexer := { r.lexer with
             state := state, substate := substate, subsubstate := subsubstate,
             buf := yajl_buf_truncate r.lexer.buf bufLen },
           offset := offset }

/-! ## The state after a call -/

/-- A token is in progress after a call: the call returned `eof` and the buffer holds
the bytes of the partial token. -/
def TokenInProgress (r : LexOut) : Prop := r.tok = .eof ∧ r.lexer.buf ≠ []

instance (r : LexOut) : Decidable (TokenInProgress r) :=
  inferInstanceAs (Decidable (r.tok = .eof ∧ r.lexer.buf ≠ []))

/-! # The reverse parser (`src/src/yajl_rev_parser.c`)

The function `yajl_rev_do_parse` (the version compiled under `#else`, with
`YAJL_SUPPLEMENTARY` not defined) is a loop around the label `around_again`: each round
looks at the top of the state stack, in most states asks the lexer for a token, calls a
callback, and changes the stack.  The lexer `yajl_rev_lex_lex` and the callbacks are not
part of the sources: the results of the successive lexer calls on the chunk are a
parameter (a list), and so is the behaviour of the client's callbacks.  Running off the
end of the list is the lexer returning `yajl_tok_eof` at the end of the chunk.
-/

/-- Modelled from the spec: the enum `yajl_state` is declared in `yajl_parser.h`, which
is not among the sources; the constructors are the parser state codes (C prefix
`yajl_state_` dropped). -/
inductive yajl_state where
  | start | parse_complete | parse_error | lexical_error
  | map_start | map_sep | map_need_val | map_got_val | map_need_key
  | array_start | array_got_val | array_need_val | got_value
  deriving DecidableEq

/-- Modelled from the spec: the enum `yajl_status` is declared in `api/yajl_parse.h`,
which is not among the sources (C prefix `yajl_status_` dropped). -/
inductive yajl_status where
  | ok | client_canceled | error
  deriving DecidableEq

/-- The bits of `hand->flags` that `yajl_rev_do_parse` and `yajl_rev_do_finish` test. -/
structure yajl_flags where
  allow_trailing_garbage : Bool
  allow_multiple_values : Bool
  allow_partial_values : Bool
  resume_after_cancel : Bool
  deriving DecidableEq

/-- Modelled from the spec: the struct `yajl_callbacks` is declared in
`api/yajl_parse.h`, which is not among the sources; a field tells whether the function
pointer is set. -/
structure yajl_callbacks where
  yajl_null : Bool
  yajl_boolean : Bool
  yajl_integer : Bool
  yajl_double : Bool
  yajl_number : Bool
  yajl_string : Bool
  yajl_start_map : Bool
  yajl_map_key : Bool
  yajl_end_map : Bool
  yajl_start_array : Bool
  yajl_end_array : Bool
  deriving DecidableEq

/-- A call of a callback with its arguments.  The `double` that `strtod` computes is
not modelled: the event carries the text. -/
inductive yajl_event where
  | null | boolean (b : Bool) | integer (i : Int) | double (text : List Nat)
  | number (text : List Nat) | string (bytes : List Nat)
  | start_map | map_key (bytes : List Nat) | end_map | start_array | end_array
  deriving DecidableEq

/-- Modelled from the spec: the struct `yajl_handle_t` is declared in `yajl_parser.h`,
which is not among the sources; these are the fields `yajl_rev_do_parse` uses.  The
state stack has its top at the head.  `ctx` stands for the client's context: it records
the callbacks called so far. -/
structure yajl_handle_t where
  callbacks : Option yajl_callbacks
  ctx : List yajl_event
  parseError : Option String
  bytesConsumed : Nat
  decodeBuf : List Nat
  stateStack : List yajl_state
  flags : yajl_flags
  startOffset : Nat
  endOffset : Nat
  deriving DecidableEq

/-- What is not part of the sources and is taken as a parameter: the return value of a
callback (given the calls so far, the last one being the current call),
`yajl_parse_integer` (the value and whether `errno` is `ERANGE`), whether `strtod`
overflows, and `yajl_string_decode`. -/
structure ParseEnv where
  client : List yajl_event → Bool
  yajl_parse_integer : List Nat → Int × Bool
  strtod_overflow : List Nat → Bool
  yajl_string_decode : List Nat → List Nat

/-- What a call of `yajl_rev_lex_lex` hands back: the token, `*offset` and the bytes
`(*outBuf)[0 .. *outLen)`. -/
structure LexResult where
  tok : yajl_tok
  offset : Int
  buf : List Nat
  deriving DecidableEq

/-- The locals `offset`, `bufLen` and `cont` of `yajl_rev_do_parse`. -/
structure RevLocals where
  offset : Int
  bufLen : Nat
  cont : Bool
  deriving DecidableEq

/-- How a round of the loop ends: `return`, or `goto around_again`. -/
inductive Round where
  | ret (status : yajl_status) (hand : yajl_handle_t)
  | again (hand : yajl_handle_t) (locals : RevLocals)
  deriving DecidableEq

/-- The cast `(size_t) i` of an `ssize_t` (64 bits). -/
def toSizeT (i : Int) : Nat := (i % 18446744073709551616).toNat

def LLONG_MAX : Int := 9223372036854775807
def LLONG_MIN : Int := -9223372036854775808

/-- Modelled from the spec: the macros of `yajl_bytestack.h`, which is not among the
sources.  `yajl_bs_current` reads the top of the stack. -/
def yajl_bs_current (s : List yajl_state) : Option yajl_state := s.head?

/-- Modelled from the spec: `yajl_bs_set` overwrites the top of the stack. -/
def yajl_bs_set (s : List yajl_state) (v : yajl_state) : Option (List yajl_state) :=
  match s with
  | [] => none
  | _ :: rest => some (v :: rest)

/-- Modelled from the spec: `yajl_bs_push` puts a state on the stack. -/
def yajl_bs_push (s : List yajl_state) (v : yajl_state) : List yajl_state := v :: s

/-- Modelled from the spec: `yajl_bs_pop` removes the top of the stack. -/
def yajl_bs_pop (s : List yajl_state) : Option (List yajl_state) :=
  match s with
  | [] => none
  | _ :: rest => some rest

/-- Whether `hand->callbacks && hand->callbacks->f` holds. -/
def registered (hand : yajl_handle_t) (f : yajl_callbacks → Bool) : Bool :=
  match hand.callbacks with
  | none => false
  | some c => f c

/-- The assignments to `bytesConsumed`, `startOffset` and `endOffset` before a
callback is called. -/
def mark (hand : yajl_handle_t) (l : RevLocals) (jsonTextLen : Int) : yajl_handle_t :=
  { hand with
    bytesConsumed := toSizeT (l.offset - jsonTextLen),
    startOffset := toSizeT (l.offset - jsonTextLen),
    endOffset := (toSizeT (l.offset - jsonTextLen) + l.bufLen) % 18446744073709551616 }

/-- A call `cont = hand->callbacks->f(hand->ctx, ...)` with the assignments before it. -/
def callback (env : ParseEnv) (hand : yajl_handle_t) (l : RevLocals) (jsonTextLen : Int)
    (e : yajl_event) : yajl_handle_t × RevLocals :=
  ({ mark hand l jsonTextLen with ctx := hand.ctx ++ [e] },
   { l with cont := env.client (hand.ctx ++ [e]) })

/-- The callback is called when it is registered. -/
def callback_if (env : ParseEnv) (hand : yajl_handle_t) (l : RevLocals) (jsonTextLen : Int)
    (f : yajl_callbacks → Bool) (e : yajl_event) : yajl_handle_t × RevLocals :=
  if registered hand f then callback env hand l jsonTextLen e else (hand, l)

/-- The lines `yajl_bs_set(hand->stateStack, s); goto around_again;`. -/
def set_again (hand : yajl_handle_t) (l : RevLocals) (s : yajl_state) : Option Round :=
  (yajl_bs_set hand.stateStack s).map fun st => .again { hand with stateStack := st } l

/-- The lines `yajl_bs_set(hand->stateStack, yajl_state_parse_error);
hand->parseError = msg; goto around_again;`. -/
def parse_error_again (hand : yajl_handle_t) (l : RevLocals) (msg : String) : Option Round :=
  (yajl_bs_set hand.stateStack .parse_error).map fun st =>
    .again { hand with stateStack := st, parseError := some msg } l

/-- The lines `yajl_bs_pop(hand->stateStack); goto around_again;`. -/
def pop_again (hand : yajl_handle_t) (l : RevLocals) : Option Round :=
  (yajl_bs_pop hand.stateStack).map fun st => .again { hand with stateStack := st } l

/-- The lines `hand->bytesConsumed = (size_t) (offset - jsonTextLen); return s;`. -/
def consumed_ret (hand : yajl_handle_t) (l : RevLocals) (jsonTextLen : Int)
    (s : yajl_status) : Option Round :=
  some (.ret s { hand with bytesConsumed := toSizeT (l.offset - jsonTextLen) })

/-- The block "got a value.  transition depends on the state we're in." -/
def got_a_value (s : List yajl_state) : Option (List yajl_state) :=
  match yajl_bs_current s with
  | none => none
  | some st =>
    if st = .start ∨ st = .got_value then yajl_bs_set s .parse_complete
    else if st = .map_need_val ∨ st = .map_start then yajl_bs_set s .map_sep
    else yajl_bs_set s .array_got_val

/-- From the `break` of the token switch of the value states to `goto around_again`:
the transition of the top, then the push of `stateToPush` when it is not
`yajl_state_start`. -/
def value_done (hand : yajl_handle_t) (l : RevLocals) (stateToPush : yajl_state) :
    Option Round :=
  (got_a_value hand.stateStack).map fun st =>
    .again { hand with
      stateStack := if stateToPush ≠ .start then yajl_bs_push st stateToPush else st } l

/-- The result of a call of `yajl_rev_lex_lex`: the next result of the list, or
`yajl_tok_eof` at the end of the chunk when the list is used up. -/
def lexNext (jsonTextLen : Int) (next : Option LexResult) : LexResult :=
  next.getD { tok := .eof, offset := jsonTextLen, buf := [] }

/-- The locals after a call of the lexer. -/
def lexLocals (l : RevLocals) (t : LexResult) : RevLocals :=
  { l with offset := t.offset, bufLen := t.buf.length }

/-- The case of the states `start`, `got_value`, `map_need_val`, `map_start`,
`array_need_val` and `array_start`: a token is read; a value token calls its callback
and the top of the stack moves on, a closer also pushes the state of the container it
closes, an opener that matches the top pops it. -/
def value_state (env : ParseEnv) (jsonTextLen : Int) (hand : yajl_handle_t) (l0 : RevLocals)
    (next : Option LexResult) : Option Round :=
  let t := lexNext jsonTextLen next
  let l := lexLocals l0 t
  match t.tok with
  | .eof => consumed_ret hand l jsonTextLen .ok
  | .error => set_again hand l .lexical_error
  | .string =>
    let (h, l1) := callback_if env hand l jsonTextLen (·.yajl_string) (.string t.buf)
    value_done h l1 .start
  | .string_with_escapes =>
    if registered hand (·.yajl_string) then
      let hd := { hand with decodeBuf := env.yajl_string_decode t.buf }
      let (h, l1) := callback env hd l jsonTextLen (.string hd.decodeBuf)
      value_done h l1 .start
    else value_done hand l .start
  | .bool =>
    let (h, l1) := callback_if env hand l jsonTextLen (·.yajl_boolean)
      (.boolean (t.buf.head? = some 0x74))
    value_done h l1 .start
  | .null =>
    let (h, l1) := callback_if env hand l jsonTextLen (·.yajl_null) .null
    value_done h l1 .start
  | .right_bracket =>
    let (h, l1) := callback_if env hand l jsonTextLen (·.yajl_end_map) .end_map
    value_done h l1 .map_start
  | .right_brace =>
    let (h, l1) := callback_if env hand l jsonTextLen (·.yajl_end_array) .end_array
    value_done h l1 .array_start
  | .integer =>
    if registered hand (·.yajl_number) then
      let (h, l1) := callback env hand l jsonTextLen (.number t.buf)
      value_done h l1 .start
    else if registered hand (·.yajl_integer) then
      let (i, erange) := env.yajl_parse_integer t.buf
      if (i = LLONG_MIN ∨ i = LLONG_MAX) ∧ erange = true then
        parse_error_again hand l "integer overflow"
      else
        let (h, l1) := callback env hand l jsonTextLen (.integer i)
        value_done h l1 .start
    else value_done hand l .start
  | .double =>
    if registered hand (·.yajl_number) then
      let (h, l1) := callback env hand l jsonTextLen (.number t.buf)
      value_done h l1 .start
    else if registered hand (·.yajl_double) then
      let hd := { hand with decodeBuf := t.buf }
      if env.strtod_overflow t.buf then
        parse_error_again hd l "numeric (floating point) overflow"
      else
        let (h, l1) := callback env hd l jsonTextLen (.double t.buf)
        value_done h l1 .start
    else value_done hand l .start
  | .left_brace =>
    if yajl_bs_current hand.stateStack = some .array_start then
      let (h, l1) := callback_if env hand l jsonTextLen (·.yajl_start_array) .start_array
      pop_again h l1
    else parse_error_again hand l "unallowed token at this point in JSON text"
  | .left_bracket =>
    if yajl_bs_current hand.stateStack = some .map_start then
      let (h, l1) := callback_if env hand l jsonTextLen (·.yajl_start_map) .start_map
      pop_again h l1
    else parse_error_again hand l "unallowed token at this point in JSON text"
  | .colon => parse_error_again hand l "unallowed token at this point in JSON text"
  | .comma => parse_error_again hand l "unallowed token at this point in JSON text"
  | .comment => parse_error_again hand l "invalid token, internal error"

/-- The case `yajl_state_map_need_key`. -/
def map_need_key_state (env : ParseEnv) (jsonTextLen : Int) (hand : yajl_handle_t)
    (l0 : RevLocals) (next : Option LexResult) : Option Round :=
  let t := lexNext jsonTextLen next
  let l := lexLocals l0 t
  match t.tok with
  | .eof => consumed_ret hand l jsonTextLen .ok
  | .error => set_again hand l .lexical_error
  | .string_with_escapes =>
    if registered hand (·.yajl_map_key) then
      let hd := { hand with decodeBuf := env.yajl_string_decode t.buf }
      let (h, l1) := callback env hd { l with bufLen := hd.decodeBuf.length } jsonTextLen
        (.map_key hd.decodeBuf)
      set_again h l1 .map_got_val
    else set_again hand l .map_got_val
  | .string =>
    let (h, l1) := callback_if env hand l jsonTextLen (·.yajl_map_key) (.map_key t.buf)
    set_again h l1 .map_got_val
  | _ => parse_error_again hand l "invalid object key (must be a string)"

/-- The case `yajl_state_map_sep`. -/
def map_sep_state (jsonTextLen : Int) (hand : yajl_handle_t) (l0 : RevLocals)
    (next : Option LexResult) : Option Round :=
  let t := lexNext jsonTextLen next
  let l := lexLocals l0 t
  match t.tok with
  | .colon => set_again hand l .map_need_key
  | .eof => consumed_ret hand l jsonTextLen .ok
  | .error => set_again hand l .lexical_error
  | _ => parse_error_again hand l
      "object key and value must be separated by a colon (':')"

/-- The case `yajl_state_map_got_val` ("actually means just got key"). -/
def map_got_val_state (env : ParseEnv) (jsonTextLen : Int) (hand : yajl_handle_t)
    (l0 : RevLocals) (next : Option LexResult) : Option Round :=
  let t := lexNext jsonTextLen next
  let l := lexLocals l0 t
  match t.tok with
  | .left_bracket =>
    let (h, l1) := callback_if env hand l jsonTextLen (·.yajl_start_map) .start_map
    pop_again h l1
  | .comma => set_again hand l .map_need_val
  | .eof => consumed_ret hand l jsonTextLen .ok
  | .error => set_again hand l .lexical_error
  | _ => parse_error_again hand l
      "before key and value, inside map, I expect ',' or '\x7b'"

/-- The case `yajl_state_array_got_val`. -/
def array_got_val_state (env : ParseEnv) (jsonTextLen : Int) (hand : yajl_handle_t)
    (l0 : RevLocals) (next : Option LexResult) : Option Round :=
  let t := lexNext jsonTextLen next
  let l := lexLocals l0 t
  match t.tok with
  | .left_brace =>
    let (h, l1) := callback_if env hand l jsonTextLen (·.yajl_start_array) .start_array
    pop_again h l1
  | .comma => set_again hand l .array_need_val
  | .eof => consumed_ret hand l jsonTextLen .ok
  | .error => set_again hand l .lexical_error
  | _ => parse_error_again hand l "before array element, I expect ',' or '['"

/-- The case `yajl_state_parse_complete` without `yajl_allow_multiple_values`: unless
trailing garbage is allowed or the chunk is used up, one more token is read, and
anything but `eof` is an error. -/
def parse_complete_state (jsonTextLen : Int) (hand : yajl_handle_t) (l0 : RevLocals)
    (next : Option LexResult) : Option Round :=
  if !hand.flags.allow_trailing_garbage ∧ l0.offset ≠ jsonTextLen then
    let t := lexNext jsonTextLen next
    let l := lexLocals l0 t
    if t.tok ≠ .eof then parse_error_again hand l "trailing garbage"
    else some (.again hand l)
  else consumed_ret hand l0 jsonTextLen .ok

/-- The code at `around_again` when `cont` is 0. -/
def cancelled (jsonTextLen : Int) (hand : yajl_handle_t) (l : RevLocals) : Option Round :=
  let endOffset := (toSizeT (l.offset - jsonTextLen) + l.bufLen) % 18446744073709551616
  if !hand.flags.resume_after_cancel then
    (yajl_bs_set hand.stateStack .parse_error).map fun st =>
      .ret .client_canceled
        { hand with
          stateStack := st,
          parseError := some "client cancelled parse via callback return value",
          endOffset := endOffset }
  else some (.ret .client_canceled { hand with endOffset := endOffset })

/-- One round of the loop of `yajl_rev_do_parse`, from `around_again` to the next
`goto around_again` or `return`; `next` is what the lexer returns if it is called.  (The
round that only turns `parse_complete` into `got_value`, under
`yajl_allow_multiple_values`, calls no lexer: it is taken together with the round that
follows.)  `none` is undefined behaviour: an access to an empty state stack. -/
def rev_round (env : ParseEnv) (jsonTextLen : Int) (hand : yajl_handle_t) (l : RevLocals)
    (next : Option LexResult) : Option Round :=
  if !l.cont then cancelled jsonTextLen hand l
  else
    match yajl_bs_current hand.stateStack with
    | none => none
    | some .parse_complete =>
      if hand.flags.allow_multiple_values then
        match yajl_bs_set hand.stateStack .got_value with
        | none => none
        | some st => value_state env jsonTextLen { hand with stateStack := st } l next
      else parse_complete_state jsonTextLen hand l next
    | some .lexical_error => consumed_ret hand l jsonTextLen .error
    | some .parse_error => consumed_ret hand l jsonTextLen .error
    | some .start => value_state env jsonTextLen hand l next
    | some .got_value => value_state env jsonTextLen hand l next
    | some .map_need_val => value_state env jsonTextLen hand l next
    | some .map_start => value_state env jsonTextLen hand l next
    | some .array_need_val => value_state env jsonTextLen hand l next
    | some .array_start => value_state env jsonTextLen hand l next
    | some .map_need_key => map_need_key_state env jsonTextLen hand l next
    | some .map_sep => map_sep_state jsonTextLen hand l next
    | some .map_got_val => map_got_val_state env jsonTextLen hand l next
    | some .array_got_val => array_got_val_state env jsonTextLen hand l next

/-- The loop of `yajl_rev_do_parse` over the results of the lexer calls.  When the list
is used up the lexer returns `eof` at the end of the chunk; the round that reads it in
the state `parse_complete` is followed by one that returns. -/
def rev_loop (env : ParseEnv) (jsonTextLen : Int) :
    List LexResult → yajl_handle_t → RevLocals → Option (yajl_status × yajl_handle_t)
  | [], hand, l =>
    match rev_round env jsonTextLen hand l none with
    | none => none
    | some (.ret s h) => some (s, h)
    | some (.again h l1) =>
      match rev_round env jsonTextLen h l1 none with
      | some (.ret s h1) => some (s, h1)
      | _ => none
  | t :: rest, hand, l =>
    match rev_round env jsonTextLen hand l (some t) with
    | none => none
    | some (.ret s h) => some (s, h)
    | some (.again h l1) => rev_loop env jsonTextLen rest h l1

/-- The function `yajl_rev_do_parse` on a chunk for which the successive calls of
`yajl_rev_lex_lex` give the results `lexed`: `offset` starts at 0 and `cont` at 1
(`bufLen` is not initialised; it is written by the first lexer call, before it is
read). -/
def yajl_rev_do_parse (env : ParseEnv) (hand : yajl_handle_t) (jsonTextLen : Int)
    (lexed : List LexResult) : Option (yajl_status × yajl_handle_t) :=
  rev_loop env jsonTextLen lexed hand { offset := 0, bufLen := 0, cont := true }

/-- The state a value state moves to when a value has been read (the block "got a
value"): `parse_complete` at the top level, `map_sep` in a map, `array_got_val` in an
array. -/
def scalarNext : yajl_state → yajl_state
  | .start => .parse_complete
  | .got_value => .parse_complete
  | .map_need_val => .map_sep
  | .map_start => .map_sep
  | _ => .array_got_val

/-- The states in which `yajl_rev_do_parse` reads a value. -/
def isValueState (s : yajl_state) : Prop :=
  s = .start ∨ s = .got_value ∨ s = .map_need_val ∨ s = .map_start ∨
  s = .array_need_val ∨ s = .array_start

instance (s : yajl_state) : Decidable (isValueState s) :=
  inferInstanceAs (Decidable (s = .start ∨ s = .got_value ∨ s = .map_need_val ∨
    s = .map_start ∨ s = .array_need_val ∨ s = .array_start))

/-- The tokens of the scalar values. -/
def isScalarTok (t : yajl_tok) : Prop :=
  t = .string ∨ t = .string_with_escapes ∨ t = .bool ∨ t = .null ∨ t = .integer ∨
  t = .double

instance (t : yajl_tok) : Decidable (isScalarTok t) :=
  inferInstanceAs (Decidable (t = .string ∨ t = .string_with_escapes ∨ t = .bool ∨
    t = .null ∨ t = .integer ∨ t = .double))

/-- The conversion of a number token overflows: no `yajl_number` callback is
registered, and `yajl_parse_integer` (for an integer token with a `yajl_integer`
callback) or `strtod` (for a double token with a `yajl_double` callback) reports it. -/
def numericOverflow (env : ParseEnv) (hand : yajl_handle_t) (t : LexResult) : Bool :=
  !registered hand (·.yajl_number) &&
  ((t.tok = .integer && registered hand (·.yajl_integer) &&
      (((env.yajl_parse_integer t.buf).1 = LLONG_MIN ∨
        (env.yajl_parse_integer t.buf).1 = LLONG_MAX) ∧
        (env.yajl_parse_integer t.buf).2 = true)) ||
   (t.tok = .double && registered hand (·.yajl_double) && env.strtod_overflow t.buf))

/-- A client whose callbacks all return 1, with conversions that never overflow. -/
def plainEnv : ParseEnv :=
  { client := fun _ => true,
    yajl_parse_integer := fun _ => (0, false),
    strtod_overflow := fun _ => false,
    yajl_string_decode := fun b => b }

/-- A handle with the given state stack, no callback table and no flag set. -/
def plainHandle (stack : List yajl_state) : yajl_handle_t :=
  { callbacks := none, ctx := [], parseError := none, bytesConsumed := 0, decodeBuf := [],
    stateStack := stack,
    flags := { allow_trailing_garbage := false, allow_multiple_values := false,
               allow_partial_values := false, resume_after_cancel := false },
    startOffset := 0, endOffset := 0 }

/-! ## The integer conversion `yajl_parse_integer` -/

/-- The macro `MAX_VALUE_TO_MULTIPLY`: `((LLONG_MAX / 10) + (LLONG_MAX % 10))`. -/
def MAX_VALUE_TO_MULTIPLY : Int := (LLONG_MAX / 10) + (LLONG_MAX % 10)

/-- What `yajl_parse_integer` returns when it sets `errno` to `ERANGE`. -/
def parse_integer_erange (sign : Int) : Option (Int × Bool) :=
  some (if sign = 1 then LLONG_MAX else LLONG_MIN, true)

/-- The value of a 64-bit two's complement `long long` that an arithmetic result wraps
to. -/
def wrap64 (x : Int) : Int :=
  (x + 9223372036854775808) % 18446744073709551616 - 9223372036854775808

/-- The loop `while (pos < number + length)` of `yajl_parse_integer`, on the bytes from
`pos` on, with the accumulator `ret`.  The result is the value returned and whether
`errno` was set to `ERANGE`.  The arithmetic on `long long` wraps. -/
def parse_integer_loop (sign : Int) : List Nat → Int → Option (Int × Bool)
  | [], ret => some (wrap64 (sign * ret), false)
  | c :: pos, ret =>
    if ret > MAX_VALUE_TO_MULTIPLY then parse_integer_erange sign
    else if wrap64 (LLONG_MAX - wrap64 (ret * 10)) < (c : Int) - 0x30 then
      parse_integer_erange sign
    else if c < 0x30 ∨ c > 0x39 then parse_integer_erange sign
    else parse_integer_loop sign pos (wrap64 (wrap64 (ret * 10) + ((c : Int) - 0x30)))

/-- The function `yajl_parse_integer(number, length)` on the bytes
`number[0 .. length)`.  The result is the value returned and whether `errno` was set to
`ERANGE`; `none` is undefined behaviour: the test for a sign reads a byte outside
`number[0 .. length)`. -/
def yajl_parse_integer (number : List Nat) : Option (Int × Bool) :=
  if number.head? = none then none
  else
    let neg : Bool := number.head? = some 0x2d
    let pos := if neg then number.tail else number
    let sign : Int := if neg then -1 else 1
    if pos.head? = none then none
    else parse_integer_loop sign (if pos.head? = some 0x2b then pos.tail else pos) 0

/-- The number that a sequence of decimal digits (most significant first) denotes. -/
def decimalValue (ds : List Nat) : Nat := Nat.ofDigits 10 (ds.reverse.map (· - 0x30))

/-! ## The reverse parser: calls, rounds and the finish -/

/-- The states in which `yajl_rev_do_parse` reads a token, `parse_complete` apart: the
value states, `map_need_key`, `map_sep`, `map_got_val` and `array_got_val`. -/
def isReadingState (s : yajl_state) : Prop :=
  isValueState s ∨ s = .map_need_key ∨ s = .map_sep ∨ s = .map_got_val ∨ s = .array_got_val

instance (s : yajl_state) : Decidable (isReadingState s) :=
  inferInstanceAs (Decidable (isValueState s ∨ s = .map_need_key ∨ s = .map_sep ∨
    s = .map_got_val ∨ s = .array_got_val))

/-- The rounds of the loop of `yajl_rev_do_parse` that read the tokens `ts`, when each of
them ends in `goto around_again`: the handle and the locals after the last of them. -/
def rev_steps (env : ParseEnv) (jsonTextLen : Int) :
    List LexResult → yajl_handle_t → RevLocals → Option (yajl_handle_t × RevLocals)
  | [], hand, l => some (hand, l)
  | t :: rest, hand, l =>
    match rev_round env jsonTextLen hand l (some t) with
    | some (.again h l1) => rev_steps env jsonTextLen rest h l1
    | _ => none

/-- The switch of `yajl_rev_do_finish` on the top of the stack, after the parse of the
last chunk has returned `yajl_status_ok`. -/
def finish_switch (h : yajl_handle_t) : Option (yajl_status × yajl_handle_t) :=
  match yajl_bs_current h.stateStack with
  | none => none
  | some .parse_error => some (.error, h)
  | some .lexical_error => some (.error, h)
  | some .got_value => some (.ok, h)
  | some .parse_complete => some (.ok, h)
  | some _ =>
    if !h.flags.allow_partial_values then
      (yajl_bs_set h.stateStack .parse_error).map fun st =>
        (.error, { h with stateStack := st, parseError := some "premature EOF" })
    else some (.ok, h)

/-- The function `yajl_rev_do_finish` (the version compiled under `#else`, with
`YAJL_SUPPLEMENTARY` not defined): `yajl_rev_do_parse` on the chunk that is the one
space of `" "`, read from its end (`jsonTextLen` is -1), for which the lexer calls give
the results `lexed`; then the switch on the top of the stack. -/
def yajl_rev_do_finish (env : ParseEnv) (hand : yajl_handle_t) (lexed : List LexResult) :
    Option (yajl_status × yajl_handle_t) :=
  match yajl_rev_do_parse env hand (-1) lexed with
  | none => none
  | some (stat, h) => if stat ≠ .ok then some (stat, h) else finish_switch h

/-- A callback table with every function pointer set. -/
def allCallbacks : yajl_callbacks :=
  { yajl_null := true, yajl_boolean := true, yajl_integer := true, yajl_double := true,
    yajl_number := true, yajl_string := true, yajl_start_map := true, yajl_map_key := true,
    yajl_end_map := true, yajl_start_array := true, yajl_end_array := true }

/-- The table `allCallbacks` without `yajl_number`. -/
def typedCallbacks : yajl_callbacks := { allCallbacks with yajl_number := false }

/-- The client of `plainEnv` with the function `yajl_parse_integer` of the sources (a
call on which it is undefined gives 0). -/
def sourceEnv : ParseEnv :=
  { plainEnv with yajl_parse_integer := fun b => (yajl_parse_integer b).getD (0, false) }

/-- The locals of `yajl_rev_do_parse` at its entry. -/
def entryLocals : RevLocals := { offset := 0, bufLen := 0, cont := true }

/-- A handle with the given callback table and state stack, and no flag set. -/
def handleWith (cb : yajl_callbacks) (stack : List yajl_state) : yajl_handle_t :=
  { plainHandle stack with callbacks := some cb }

/-! ## The admitted transitions of the reverse parser -/

/-- The events of a callback that is called when it is registered. -/
def emit (hand : yajl_handle_t) (f : yajl_callbacks → Bool) (e : yajl_event) :
    List yajl_event :=
  if registered hand f then [e] else []

/-- The callbacks that a scalar value token calls in a value state, when the conversion
of a number does not overflow. -/
def scalarEvents (env : ParseEnv) (hand : yajl_handle_t) (t : LexResult) : List yajl_event :=
  match t.tok with
  | .string => emit hand (·.yajl_string) (.string t.buf)
  | .string_with_escapes =>
    emit hand (·.yajl_string) (.string (env.yajl_string_decode t.buf))
  | .bool => emit hand (·.yajl_boolean) (.boolean (t.buf.head? = some 0x74))
  | .null => emit hand (·.yajl_null) .null
  | .integer =>
    if registered hand (·.yajl_number) then [.number t.buf]
    else emit hand (·.yajl_integer) (.integer (env.yajl_parse_integer t.buf).1)
  | .double =>
    if registered hand (·.yajl_number) then [.number t.buf]
    else emit hand (·.yajl_double) (.double t.buf)
  | _ => []

/-- The tokens of a map key. -/
def isKeyTok (t : yajl_tok) : Prop := t = .string ∨ t = .string_with_escapes

instance (t : yajl_tok) : Decidable (isKeyTok t) :=
  inferInstanceAs (Decidable (t = .string ∨ t = .string_with_escapes))

/-- The callback that a key token calls in the state `map_need_key`. -/
def keyEvents (env : ParseEnv) (hand : yajl_handle_t) (t : LexResult) : List yajl_event :=
  emit hand (·.yajl_map_key)
    (.map_key (if t.tok = .string_with_escapes then env.yajl_string_decode t.buf else t.buf))

/-- The value of `cont` after the callbacks `evs` of a round have been called (a round
calls at most one), the calls before the round being `ctx`. -/
def contAfter (env : ParseEnv) (ctx evs : List yajl_event) : Bool :=
  decide (evs = []) || env.client (ctx ++ evs)

/-- The transitions that do not end in an error state: `Admits env hand s t seg evs`
says that in the state `s` the token `t` is admitted, replaces the top of the stack by
the states `seg` and calls the callbacks `evs`. -/
inductive Admits (env : ParseEnv) (hand : yajl_handle_t) :
    yajl_state → LexResult → List yajl_state → List yajl_event → Prop
  | scalar (s : yajl_state) (t : LexResult) : isValueState s → isScalarTok t.tok →
      numericOverflow env hand t = false →
      Admits env hand s t [scalarNext s] (scalarEvents env hand t)
  | end_array (s : yajl_state) (t : LexResult) : isValueState s → t.tok = .right_brace →
      Admits env hand s t [.array_start, scalarNext s] (emit hand (·.yajl_end_array) .end_array)
  | end_map (s : yajl_state) (t : LexResult) : isValueState s → t.tok = .right_bracket →
      Admits env hand s t [.map_start, scalarNext s] (emit hand (·.yajl_end_map) .end_map)
  | start_array (s : yajl_state) (t : LexResult) : s = .array_start ∨ s = .array_got_val →
      t.tok = .left_brace →
      Admits env hand s t [] (emit hand (·.yajl_start_array) .start_array)
  | start_map (s : yajl_state) (t : LexResult) : s = .map_start ∨ s = .map_got_val →
      t.tok = .left_bracket →
      Admits env hand s t [] (emit hand (·.yajl_start_map) .start_map)
  | array_comma (t : LexResult) : t.tok = .comma →
      Admits env hand .array_got_val t [.array_need_val] []
  | map_comma (t : LexResult) : t.tok = .comma →
      Admits env hand .map_got_val t [.map_need_val] []
  | colon (t : LexResult) : t.tok = .colon → Admits env hand .map_sep t [.map_need_key] []
  | key (t : LexResult) : isKeyTok t.tok →
      Admits env hand .map_need_key t [.map_got_val] (keyEvents env hand t)

/-- What a round that goes round again leaves: the state stack `stack`, the callbacks
`evs` called, and no other change to what the next rounds depend on. -/
def RoundTo (env : ParseEnv) (hand : yajl_handle_t) (t : LexResult)
    (stack : List yajl_state) (evs : List yajl_event) (h1 : yajl_handle_t)
    (l1 : RevLocals) : Prop :=
  h1.stateStack = stack ∧ h1.ctx = hand.ctx ++ evs ∧ h1.callbacks = hand.callbacks ∧
  h1.flags = hand.flags ∧ h1.parseError = hand.parseError ∧
  l1.cont = contAfter env hand.ctx evs ∧ l1.offset = t.offset

/-- The states of the bottom of the state stack. -/
def topLevel (s : yajl_state) : Prop :=
  s = .start ∨ s = .got_value ∨ s = .parse_complete ∨ s = .parse_error ∨ s = .lexical_error

instance (s : yajl_state) : Decidable (topLevel s) :=
  inferInstanceAs (Decidable (s = .start ∨ s = .got_value ∨ s = .parse_complete ∨
    s = .parse_error ∨ s = .lexical_error))

/-- The state stack is not empty and its bottom is one of the states of the top level:
no state of a map or an array lies at the bottom. -/
def Grounded (stack : List yajl_state) : Prop :=
  ∃ b, stack.getLast? = some b ∧ topLevel b

/-- A client whose callbacks all return 0. -/
def cancelEnv : ParseEnv := { plainEnv with client := fun _ => false }

/-! ## The reverse grammar

The tokens of a JSON value in the order in which the reverse lexer hands them out, last
token first, together with the callbacks in the order in which they are to be called:
a map is `}`, then its entries from the last to the first, separated by commas, then
`{`; an entry is the tokens of its value, then the colon, then the key. -/

/-- The kinds of phrases of the reverse grammar. -/
inductive RevKind where
  /-- A complete value. -/
  | value
  /-- What follows the `]` of an array: its items, last first, and the `[`. -/
  | items
  /-- What follows an item of an array: the `[`, or a comma and the items before. -/
  | moreItems
  /-- What follows the `}` of a map: its entries, last first, and the `{`. -/
  | entries
  /-- What follows an entry of a map: the `{`, or a comma and the entries before. -/
  | moreEntries
  /-- An entry of a map: the value, the colon, the key. -/
  | entry
  deriving DecidableEq

/-- The phrases of the reverse grammar with their callbacks: `Rev env hand k ts evs` says
that the tokens `ts` are a phrase of kind `k` and that `evs` are its callbacks (those
registered in `hand`), in order.  The callbacks of the value of an entry come before the
callback of its key; the callback of the end of a map comes before, and that of its
start after, those of its entries. -/
inductive Rev (env : ParseEnv) (hand : yajl_handle_t) :
    RevKind → List LexResult → List yajl_event → Prop
  | scalar (t : LexResult) : isScalarTok t.tok → numericOverflow env hand t = false →
      Rev env hand .value [t] (scalarEvents env hand t)
  | array (c : LexResult) (ts : List LexResult) (evs : List yajl_event) :
      c.tok = .right_brace → Rev env hand .items ts evs →
      Rev env hand .value (c :: ts) (emit hand (·.yajl_end_array) .end_array ++ evs)
  | map (c : LexResult) (ts : List LexResult) (evs : List yajl_event) :
      c.tok = .right_bracket → Rev env hand .entries ts evs →
      Rev env hand .value (c :: ts) (emit hand (·.yajl_end_map) .end_map ++ evs)
  | no_items (o : LexResult) : o.tok = .left_brace →
      Rev env hand .items [o] (emit hand (·.yajl_start_array) .start_array)
  | items (tv ts : List LexResult) (ev evs : List yajl_event) :
      Rev env hand .value tv ev → Rev env hand .moreItems ts evs →
      Rev env hand .items (tv ++ ts) (ev ++ evs)
  | first_item (o : LexResult) : o.tok = .left_brace →
      Rev env hand .moreItems [o] (emit hand (·.yajl_start_array) .start_array)
  | more_items (sep : LexResult) (tv ts : List LexResult) (ev evs : List yajl_event) :
      sep.tok = .comma → Rev env hand .value tv ev → Rev env hand .moreItems ts evs →
      Rev env hand .moreItems (sep :: (tv ++ ts)) (ev ++ evs)
  | no_entries (o : LexResult) : o.tok = .left_bracket →
      Rev env hand .entries [o] (emit hand (·.yajl_start_map) .start_map)
  | entries (te ts : List LexResult) (ee evs : List yajl_event) :
      Rev env hand .entry te ee → Rev env hand .moreEntries ts evs →
      Rev env hand .entries (te ++ ts) (ee ++ evs)
  | first_entry (o : LexResult) : o.tok = .left_bracket →
      Rev env hand .moreEntries [o] (emit hand (·.yajl_start_map) .start_map)
  | more_entries (sep : LexResult) (te ts : List LexResult) (ee evs : List yajl_event) :
      sep.tok = .comma → Rev env hand .entry te ee → Rev env hand .moreEntries ts evs →
      Rev env hand .moreEntries (sep :: (te ++ ts)) (ee ++ evs)
  | entry (tv : List LexResult) (ev : List yajl_event) (colon key : LexResult) :
      Rev env hand .value tv ev → colon.tok = .colon → isKeyTok key.tok →
      Rev env hand .entry (tv ++ [colon, key]) (ev ++ keyEvents env hand key)

/-- The token sequences that the automaton of the admitted transitions reads from a
state `s` on top of the stack until that state is popped (`x` is `[]`) or, at the
bottom of the stack, until nothing more is to be read (`x` is `[parse_complete]`), with
the callbacks called on the way. -/
inductive Lang (env : ParseEnv) (hand : yajl_handle_t) :
    yajl_state → List LexResult → List yajl_event → List yajl_state → Prop
  | done : Lang env hand .parse_complete [] [] [.parse_complete]
  | pop (s : yajl_state) (t : LexResult) (evs : List yajl_event) :
      Admits env hand s t [] evs → Lang env hand s [t] evs []
  | step (s s1 : yajl_state) (t : LexResult) (evs : List yajl_event) (ts : List LexResult)
      (evs1 : List yajl_event) (x : List yajl_state) :
      Admits env hand s t [s1] evs → Lang env hand s1 ts evs1 x →
      Lang env hand s (t :: ts) (evs ++ evs1) x
  | push (s p s1 : yajl_state) (t : LexResult) (evs : List yajl_event)
      (ts1 : List LexResult) (evs1 : List yajl_event) (ts2 : List LexResult)
      (evs2 : List yajl_event) (x : List yajl_state) :
      Admits env hand s t [p, s1] evs → Lang env hand p ts1 evs1 [] →
      Lang env hand s1 ts2 evs2 x →
      Lang env hand s (t :: (ts1 ++ ts2)) (evs ++ (evs1 ++ evs2)) x

/-- The token sequences that take a state stack to `[parse_complete]`. -/
def StackLang (env : ParseEnv) (hand : yajl_handle_t) :
    List yajl_state → List LexResult → List yajl_event → Prop
  | [], _, _ => False
  | [b], ts, evs => Lang env hand b ts evs [.parse_complete]
  | s :: b :: st, ts, evs =>
    ∃ ts1 evs1 ts2 evs2, ts = ts1 ++ ts2 ∧ evs = evs1 ++ evs2 ∧
      Lang env hand s ts1 evs1 [] ∧ StackLang env hand (b :: st) ts2 evs2

/-- The state stacks in which `start`, `got_value` and `parse_complete` occur at the
bottom only, and whose bottom is a state of the top level. -/
def Proper : List yajl_state → Prop
  | [] => False
  | [b] => topLevel b
  | s :: b :: st =>
    (s ≠ .start ∧ s ≠ .got_value ∧ s ≠ .parse_complete) ∧ Proper (b :: st)
/-- What a phrase of the reverse grammar is for the automaton: a value is read in every
value state, which it leaves in the state after a value; the phrases that follow `]`
and `}` are read in the states of arrays and maps until the state is popped. -/
def RevLang (env : ParseEnv) (hand : yajl_handle_t) :
    RevKind → List LexResult → List yajl_event → Prop
  | .value, ts, evs => ∀ s ts1 evs1 x, isValueState s →
      Lang env hand (scalarNext s) ts1 evs1 x → Lang env hand s (ts ++ ts1) (evs ++ evs1) x
  | .items, ts, evs => Lang env hand .array_start ts evs []
  | .moreItems, ts, evs => Lang env hand .array_got_val ts evs []
  | .entries, ts, evs => Lang env hand .map_start ts evs []
  | .moreEntries, ts, evs => Lang env hand .map_got_val ts evs []
  | .entry, ts, evs => ∀ s ts1 evs1 x, s = .map_start ∨ s = .map_need_val →
      Lang env hand .map_got_val ts1 evs1 x → Lang env hand s (ts ++ ts1) (evs ++ evs1) x

/-- What a sequence of the automaton is in the reverse grammar, state by state. -/
def Means (env : ParseEnv) (hand : yajl_handle_t) :
    yajl_state → List LexResult → List yajl_event → List yajl_state → Prop
  | .start, ts, evs, x => x = [.parse_complete] ∧ Rev env hand .value ts evs
  | .got_value, ts, evs, x => x = [.parse_complete] ∧ Rev env hand .value ts evs
  | .parse_complete, ts, evs, x => ts = [] ∧ evs = [] ∧ x = [.parse_complete]
  | .array_start, ts, evs, x => x = [] ∧ Rev env hand .items ts evs
  | .array_got_val, ts, evs, x => x = [] ∧ Rev env hand .moreItems ts evs
  | .array_need_val, ts, evs, x => x = [] ∧ ∃ tv ev ts1 evs1, ts = tv ++ ts1 ∧
      evs = ev ++ evs1 ∧ Rev env hand .value tv ev ∧ Rev env hand .moreItems ts1 evs1
  | .map_start, ts, evs, x => x = [] ∧ Rev env hand .entries ts evs
  | .map_got_val, ts, evs, x => x = [] ∧ Rev env hand .moreEntries ts evs
  | .map_need_val, ts, evs, x => x = [] ∧ ∃ te ee ts1 evs1, ts = te ++ ts1 ∧
      evs = ee ++ evs1 ∧ Rev env hand .entry te ee ∧ Rev env hand .moreEntries ts1 evs1
  | .map_sep, ts, evs, x => x = [] ∧ ∃ colon key ts1 evs1, ts = colon :: key :: ts1 ∧
      evs = keyEvents env hand key ++ evs1 ∧ colon.tok = .colon ∧ isKeyTok key.tok ∧
      Rev env hand .moreEntries ts1 evs1
  | .map_need_key, ts, evs, x => x = [] ∧ ∃ key ts1 evs1, ts = key :: ts1 ∧
      evs = keyEvents env hand key ++ evs1 ∧ isKeyTok key.tok ∧
      Rev env hand .moreEntries ts1 evs1
  | .parse_error, _, _, _ => False
  | .lexical_error, _, _, _ => False

/-- The offset after the tokens `tv` have been read: that of the last of them, or, if
there is none, the offset `o` before. -/
def lastOffset (tv : List LexResult) (o : Int) : Int :=
  (tv.getLast?.map (·.offset)).getD o

/-- The tokens of `{"a":1}` as the reverse lexer hands them out, on a chunk of 7 bytes. -/
def sampleMapTokens : List LexResult :=
  [{ tok := .right_bracket, offset := -1, buf := [0x7d] },
   { tok := .integer, offset := -2, buf := [0x31] },
   { tok := .colon, offset := -3, buf := [0x3a] },
   { tok := .string, offset := -6, buf := [0x61] },
   { tok := .left_bracket, offset := -7, buf := [0x7b] }]

/-- The handle `handleWith cb stack` with `allow_multiple_values` set. -/
def multiHandle (cb : yajl_callbacks) (stack : List yajl_state) : yajl_handle_t :=
  { handleWith cb stack with
    flags := { allow_trailing_garbage := false, allow_multiple_values := true,
               allow_partial_values := false, resume_after_cancel := false } }

/-! ## The handles that the parser can reach -/

/-- The handle that a round leaves. -/
def Round.handle : Round → yajl_handle_t
  | .ret _ h => h
  | .again h _ => h

/-- The handles reachable from the handle `hand0`: by rounds of the loop of
`yajl_rev_do_parse`, whatever the client's callbacks return, whatever the conversions
give, whatever the length of the chunk and the locals are, and whatever the lexer
returns; and by the switch of `yajl_rev_do_finish`. -/
inductive Reached (hand0 : yajl_handle_t) : yajl_handle_t → Prop
  | fresh : Reached hand0 hand0
  | round (env : ParseEnv) (jsonTextLen : Int) (h : yajl_handle_t) (l : RevLocals)
      (next : Option LexResult) (r : Round) : Reached hand0 h →
      rev_round env jsonTextLen h l next = some r → Reached hand0 r.handle
  | finish (h h1 : yajl_handle_t) (s : yajl_status) : Reached hand0 h →
      finish_switch h = some (s, h1) → Reached hand0 h1

/-- The states in whose case `yajl_bs_pop` occurs: `array_start` and `map_start` (an
opener that matches), `map_got_val` and `array_got_val`. -/
def isPoppingState (s : yajl_state) : Prop :=
  s = .array_start ∨ s = .map_start ∨ s = .map_got_val ∨ s = .array_got_val

instance (s : yajl_state) : Decidable (isPoppingState s) :=
  inferInstanceAs (Decidable (s = .array_start ∨ s = .map_start ∨ s = .map_got_val ∨
    s = .array_got_val))

/-! ## Nesting of the events -/

/-- The two kinds of containers. -/
inductive Container where
  | array | map
  deriving DecidableEq

/-- The container to which a state of the stack belongs: an array for the states of an
array, a map for the states of a map, none for the states of the top level and the
error states. -/
def frameOf : yajl_state → Option Container
  | .array_start => some .array
  | .array_got_val => some .array
  | .array_need_val => some .array
  | .map_start => some .map
  | .map_sep => some .map
  | .map_need_val => some .map
  | .map_got_val => some .map
  | .map_need_key => some .map
  | _ => none

/-- The containers that a state stack is in, innermost first. -/
def frames (st : List yajl_state) : List Container := st.filterMap frameOf

/-- Proper nesting, one event: the parser runs backward, so an `end` event opens a
container and a `start` event closes the innermost open container, which has to be of
the same kind; `opened` are the open containers, innermost first, and the result is
`none` when a `start` event does not match. -/
def nestStep (e : yajl_event) (opened : List Container) : Option (List Container) :=
  match e with
  | .end_array => some (.array :: opened)
  | .end_map => some (.map :: opened)
  | .start_array => if opened.head? = some .array then some opened.tail else none
  | .start_map => if opened.head? = some .map then some opened.tail else none
  | _ => some opened

/-- The containers open after the events `evs`, or `none` when the events are not
properly nested.  The events `evs` are properly nested and complete when
`nest evs [] = some []`. -/
def nest : List yajl_event → List Container → Option (List Container)
  | [], opened => some opened
  | e :: es, opened => (nestStep e opened).bind (nest es)

/-! ## The grammar of JSON

The token sequences of the JSON values in the order of the text.  (In the names of the
tokens `left_brace` is `[` and `left_bracket` is `{`.) -/

/-- The kinds of phrases of the grammar of JSON. -/
inductive JsonKind where
  | value | elements | member | members
  deriving DecidableEq

/-- The grammar of JSON, in the words of the specification of the format: a value is a
scalar token, `[` `]`, `[` elements `]`, `{` `}` or `{` members `}`; elements are one or
more values separated by commas; members are one or more members separated by commas; a
member is a string, a colon and a value. -/
inductive Json : JsonKind → List LexResult → Prop
  | scalar (t : LexResult) : isScalarTok t.tok → Json .value [t]
  | empty_array (o c : LexResult) : o.tok = .left_brace → c.tok = .right_brace →
      Json .value [o, c]
  | array (o c : LexResult) (ts : List LexResult) : o.tok = .left_brace →
      c.tok = .right_brace → Json .elements ts → Json .value (o :: (ts ++ [c]))
  | empty_map (o c : LexResult) : o.tok = .left_bracket → c.tok = .right_bracket →
      Json .value [o, c]
  | map (o c : LexResult) (ts : List LexResult) : o.tok = .left_bracket →
      c.tok = .right_bracket → Json .members ts → Json .value (o :: (ts ++ [c]))
  | element (tv : List LexResult) : Json .value tv → Json .elements tv
  | elements (tv : List LexResult) (sep : LexResult) (ts : List LexResult) :
      Json .value tv → sep.tok = .comma → Json .elements ts →
      Json .elements (tv ++ sep :: ts)
  | member (key colon : LexResult) (tv : List LexResult) : isKeyTok key.tok →
      colon.tok = .colon → Json .value tv → Json .member (key :: colon :: tv)
  | last_member (tm : List LexResult) : Json .member tm → Json .members tm
  | members (tm : List LexResult) (sep : LexResult) (ts : List LexResult) :
      Json .member tm → sep.tok = .comma → Json .members ts →
      Json .members (tm ++ sep :: ts)

/-- What a phrase of the reverse grammar is in the grammar of JSON when it is read
backward: a value is a value; what follows a `]` is a `[` and the elements, if any; what
follows an item is a `[` and, if any, elements and a comma; likewise for maps; an entry
is a member. -/
def JsonRev : RevKind → List LexResult → Prop
  | .value, ts => Json .value ts.reverse
  | .items, ts => ∃ o es, ts.reverse = o :: es ∧ o.tok = .left_brace ∧
      (es = [] ∨ Json .elements es)
  | .moreItems, ts => ∃ o es, ts.reverse = o :: es ∧ o.tok = .left_brace ∧
      (es = [] ∨ ∃ es1 sep, es = es1 ++ [sep] ∧ sep.tok = .comma ∧ Json .elements es1)
  | .entries, ts => ∃ o es, ts.reverse = o :: es ∧ o.tok = .left_bracket ∧
      (es = [] ∨ Json .members es)
  | .moreEntries, ts => ∃ o es, ts.reverse = o :: es ∧ o.tok = .left_bracket ∧
      (es = [] ∨ ∃ es1 sep, es = es1 ++ [sep] ∧ sep.tok = .comma ∧ Json .members es1)
  | .entry, ts => Json .member ts.reverse

/-- What a phrase of the grammar of JSON is in the reverse grammar when it is read
backward: a value is a value and a member is an entry; elements, read backward and
followed by what follows an item, are what follows a `]` and, after a comma, what
follows an item; likewise for members. -/
def JsonLang (env : ParseEnv) (hand : yajl_handle_t) : JsonKind → List LexResult → Prop
  | .value, fs => ∃ evs, Rev env hand .value fs.reverse evs
  | .elements, fs => ∀ tail evt, Rev env hand .moreItems tail evt →
      (∃ evs, Rev env hand .items (fs.reverse ++ tail) evs) ∧
      ∀ sep : LexResult, sep.tok = .comma →
        ∃ evs, Rev env hand .moreItems (sep :: (fs.reverse ++ tail)) evs
  | .member, fs => ∃ evs, Rev env hand .entry fs.reverse evs
  | .members, fs => ∀ tail evt, Rev env hand .moreEntries tail evt →
      (∃ evs, Rev env hand .entries (fs.reverse ++ tail) evs) ∧
      ∀ sep : LexResult, sep.tok = .comma →
        ∃ evs, Rev env hand .moreEntries (sep :: (fs.reverse ++ tail)) evs

/-! ## Clients that never stop the parse -/

/-- No callback stops the parse: there is no callback table, or every callback returns
1 and no number of the tokens `ts` overflows in its conversion. -/
def Quiet (env : ParseEnv) (hand : yajl_handle_t) (ts : List LexResult) : Prop :=
  hand.callbacks = none ∨
    ((∀ c, env.client c = true) ∧ ∀ t ∈ ts, numericOverflow env hand t = false)

/-- No error state is in the state stack. -/
def ErrorFree (stack : List yajl_state) : Prop :=
  ∀ s ∈ stack, s ≠ .parse_error ∧ s ≠ .lexical_error

/-! ## Runs with different callback tables -/

/-- The conversion of a number token reports an overflow, whatever callbacks are
registered: `yajl_parse_integer` for an integer token, `strtod` for a double token. -/
def overflows (env : ParseEnv) (t : LexResult) : Bool :=
  (t.tok = .integer &&
      (((env.yajl_parse_integer t.buf).1 = LLONG_MIN ∨
        (env.yajl_parse_integer t.buf).1 = LLONG_MAX) ∧
        (env.yajl_parse_integer t.buf).2 = true)) ||
  (t.tok = .double && env.strtod_overflow t.buf)

/-- The member of the callback table through which an event is delivered. -/
def callbackOf : yajl_event → yajl_callbacks → Bool
  | .null => (·.yajl_null)
  | .boolean _ => (·.yajl_boolean)
  | .integer _ => (·.yajl_integer)
  | .double _ => (·.yajl_double)
  | .number _ => (·.yajl_number)
  | .string _ => (·.yajl_string)
  | .start_map => (·.yajl_start_map)
  | .map_key _ => (·.yajl_map_key)
  | .end_map => (·.yajl_end_map)
  | .start_array => (·.yajl_start_array)
  | .end_array => (·.yajl_end_array)

/-- Two rounds end alike: both are undefined, or both return the same status, or both
go round again; and they leave the same state stack, the same flags, the same `cont`
(set) and the same offset (`bytesConsumed` when they return). -/
def RoundAlike : Option Round → Option Round → Prop
  | none, none => True
  | some (.ret s1 h1), some (.ret s2 h2) =>
      s1 = s2 ∧ h1.stateStack = h2.stateStack ∧ h1.flags = h2.flags ∧
      h1.bytesConsumed = h2.bytesConsumed
  | some (.again h1 l1), some (.again h2 l2) =>
      h1.stateStack = h2.stateStack ∧ h1.flags = h2.flags ∧ l1.cont = true ∧
      l2.cont = true ∧ l1.offset = l2.offset
  | _, _ => False

/-- The status and the state stack with which a call returns. -/
def outcome (r : Option (yajl_status × yajl_handle_t)) :
    Option (yajl_status × List yajl_state) :=
  r.map fun x => (x.1, x.2.stateStack)

/-- The state stack that the rounds reading tokens leave. -/
def stackAfter (r : Option (yajl_handle_t × RevLocals)) : Option (List yajl_state) :=
  r.map fun x => x.1.stateStack

/-! ## The value of `bytesConsumed` -/

/-- When `cont` is 0 after a callback, `bytesConsumed` is the position of `offset` in
the chunk: the assignment before the callback has set it. -/
def Settled (len : Int) (h : yajl_handle_t) (l : RevLocals) : Prop :=
  l.cont = false → h.bytesConsumed = toSizeT (l.offset - len)

/-- A round that goes round again leaves `offset` at `o` and `bytesConsumed` settled. -/
def Settles (len : Int) (o : Int) (r : Option Round) : Prop :=
  ∀ h1 l1, r = some (.again h1 l1) → l1.offset = o ∧ Settled len h1 l1

/-- The offsets at which a call on a chunk of length `len` with the lexer results `ts`
can stop: 0 (the entry of the call), the offset of a lexer result, or `len` (the end of
the chunk). -/
def stopOffset (len : Int) (ts : List LexResult) (o : Int) : Prop :=
  o = 0 ∨ o = len ∨ ∃ t ∈ ts, o = t.offset

/-- The value of the local `offset` when a round returns.  A round in which `cont` is 0,
a round in an error state and a round in `parse_complete` without
`allow_multiple_values` return without a lexer call of their own (in `parse_complete`
the lexer call is followed by `goto around_again`), so `offset` is as it was at
`around_again`; every other round returns after its lexer call has written `offset`. -/
def ret_offset (jsonTextLen : Int) (hand : yajl_handle_t) (l : RevLocals)
    (next : Option LexResult) : Int :=
  if !l.cont then l.offset
  else
    match yajl_bs_current hand.stateStack with
    | some .parse_complete =>
      if hand.flags.allow_multiple_values then (lexNext jsonTextLen next).offset
      else l.offset
    | some .lexical_error => l.offset
    | some .parse_error => l.offset
    | _ => (lexNext jsonTextLen next).offset

/-- The value of the local `offset` when `yajl_rev_do_parse` returns: the loop of
`rev_loop`, keeping the offset of the round that returns instead of its result. -/
def rev_loop_offset (env : ParseEnv) (jsonTextLen : Int) :
    List LexResult → yajl_handle_t → RevLocals → Option Int
  | [], hand, l =>
    match rev_round env jsonTextLen hand l none with
    | none => none
    | some (.ret _ _) => some (ret_offset jsonTextLen hand l none)
    | some (.again h l1) =>
      match rev_round env jsonTextLen h l1 none with
      | some (.ret _ _) => some (ret_offset jsonTextLen h l1 none)
      | _ => none
  | t :: rest, hand, l =>
    match rev_round env jsonTextLen hand l (some t) with
    | none => none
    | some (.ret _ _) => some (ret_offset jsonTextLen hand l (some t))
    | some (.again h l1) => rev_loop_offset env jsonTextLen rest h l1

/-! ## The error code during a scan -/

/-- A step leaves the error code as it is unless it returns an error token. -/
def StepErr {PC σ : Type} (err : σ → yajl_lex_error) (e : yajl_lex_error) :
    Step PC σ → Prop
  | .next _ s1 => err s1 = e
  | .ret tok s1 _ => tok ≠ .error → err s1 = e
  | .fault => True

/-- What the caller of `yajl_lex_lex` gets to see of a result: the token, the payload
bytes, the final offset and the error code. -/
def LexOut.observed (r : LexOut) (jsonText : List Nat) :
    yajl_tok × List Nat × Nat × yajl_lex_error :=
  (r.tok, r.payload jsonText, r.offset, r.lexer.error)

/-! # Theorems -/

/-! ## General facts about runs -/

theorem run_cons {PC σ : Type} (step : PC → σ → Nat → Nat → Step PC σ)
    (pc : PC) (s : σ) (c : Nat) (rest : List Nat) (offset : Nat) :
    run step pc s (c :: rest) offset =
      (step pc s c (offset + 1)).cont (fun pc1 s1 => run step pc1 s1 rest (offset + 1))
        (offset + 1) := rfl

/-- Scanning `A ++ B` is scanning `A` and, when that is suspended, going on with `B`. -/
theorem run_append {PC σ : Type} (step : PC → σ → Nat → Nat → Step PC σ)
    (A B : List Nat) : ∀ (pc : PC) (s : σ) (offset : Nat),
    run step pc s (A ++ B) offset =
      (run step pc s A offset).andThen (fun pc1 s1 offset1 => run step pc1 s1 B offset1) := by
  induction A with
  | nil => intro pc s offset; simp [run, Run.andThen]
  | cons c A ih =>
    intro pc s offset
    simp only [List.cons_append, run_cons]
    cases h : step pc s c (offset + 1) with
    | next pc1 s1 => simp [Step.cont, ih]
    | ret tok s1 u => simp [Step.cont, Run.andThen]
    | fault => simp [Step.cont, Run.andThen]

theorem run_suspended_offset {PC σ : Type} (step : PC → σ → Nat → Nat → Step PC σ)
    (A : List Nat) : ∀ (pc : PC) (s : σ) (offset : Nat) (pc1 : PC) (s1 : σ) (offset1 : Nat),
    run step pc s A offset = .suspended pc1 s1 offset1 → offset1 = offset + A.length := by
  induction A with
  | nil => intro pc s offset pc1 s1 offset1 h; simp [run] at h; simp [h.2.2]
  | cons c A ih =>
    intro pc s offset pc1 s1 offset1 h
    rw [run_cons] at h
    cases h2 : step pc s c (offset + 1) with
    | next pc2 s2 =>
      rw [h2] at h; have := ih _ _ _ _ _ _ h; simp only [List.length_cons]; omega
    | ret tok s2 u => rw [h2] at h; simp [Step.cont] at h
    | fault => rw [h2] at h; simp [Step.cont] at h

/-- Case analysis on the `switch (c)` of `yajl_lex_lex`. -/
theorem lex_switch_elim (P : Step LexPC LexCtx → Prop) (x : LexCtx) (c : Nat)
    (h1 : c = 0x7b → P (.ret .left_bracket x 0))
    (h2 : c = 0x7d → P (.ret .right_bracket x 0))
    (h3 : c = 0x5b → P (.ret .left_brace x 0))
    (h4 : c = 0x5d → P (.ret .right_brace x 0))
    (h5 : c = 0x2c → P (.ret .comma x 0))
    (h6 : c = 0x3a → P (.ret .colon x 0))
    (h7 : isSpace c → P (.next .top { x with startOffset := x.startOffset + 1 }))
    (h8 : c = 0x74 → P (.next .expect
      { x with lexer := { x.lexer with state := .expect, substate := 0, resultTok := .bool } }))
    (h9 : c = 0x66 → P (.next .expect
      { x with lexer := { x.lexer with state := .expect, substate := 4, resultTok := .bool } }))
    (h10 : c = 0x6e → P (.next .expect
      { x with lexer := { x.lexer with state := .expect, substate := 9, resultTok := .null } }))
    (h11 : c = 0x22 → P (.next (.str .top)
      { x with lexer := { x.lexer with state := .string, substate := 0,
                                       resultTok := .string } }))
    (h12 : (c = 0x2d ∨ isDigit c) → P (liftStep .num x
      (yajl_lex_number_step .e1
        { x.lexer with state := .number, substate := 0, resultTok := .integer } c)))
    (h13 : c = 0x2f → x.lexer.allowComments = false →
      P (.ret .error { x with lexer := { x.lexer with error := .unallowed_comment } } 1))
    (h14 : c = 0x2f → x.lexer.allowComments = true →
      P (.next (.com .e1) { x with lexer := { x.lexer with state := .comment, substate := 0 } }))
    (h15 : ¬ isSpace c → c ≠ 0x2f →
      P (.ret .error { x with lexer := { x.lexer with error := .invalid_char } } 0)) :
    P (lex_switch x c) := by
  rw [lex_switch]
  by_cases c1 : c = 0x7b
  · rw [if_pos c1]; exact h1 c1
  rw [if_neg c1]
  by_cases c2 : c = 0x7d
  · rw [if_pos c2]; exact h2 c2
  rw [if_neg c2]
  by_cases c3 : c = 0x5b
  · rw [if_pos c3]; exact h3 c3
  rw [if_neg c3]
  by_cases c4 : c = 0x5d
  · rw [if_pos c4]; exact h4 c4
  rw [if_neg c4]
  by_cases c5 : c = 0x2c
  · rw [if_pos c5]; exact h5 c5
  rw [if_neg c5]
  by_cases c6 : c = 0x3a
  · rw [if_pos c6]; exact h6 c6
  rw [if_neg c6]
  by_cases c7 : isSpace c
  · rw [if_pos c7]; exact h7 c7
  rw [if_neg c7]
  by_cases c8 : c = 0x74
  · rw [if_pos c8]; exact h8 c8
  rw [if_neg c8]
  by_cases c9 : c = 0x66
  · rw [if_pos c9]; exact h9 c9
  rw [if_neg c9]
  by_cases c10 : c = 0x6e
  · rw [if_pos c10]; exact h10 c10
  rw [if_neg c10]
  by_cases c11 : c = 0x22
  · rw [if_pos c11]; exact h11 c11
  rw [if_neg c11]
  by_cases c12 : c = 0x2d ∨ isDigit c
  · rw [if_pos c12]; exact h12 c12
  rw [if_neg c12]
  by_cases c13 : c = 0x2f
  · rw [if_pos c13]
    cases hac : x.lexer.allowComments
    · simpa using h13 c13 hac
    · simpa using h14 c13 hac
  · rw [if_neg c13]; exact h15 c7 c13

/-! ## Invariants of a scan: proofs -/

theorem number_step_inv (p : NumPC) (x0 x : LexCtx) (l : yajl_lexer_t) (c off : Nat)
    (h0 : x0.startOffset = x.startOffset ∧ x0.entryState = x.entryState ∧ x0.lexer.buf = l.buf)
    (hl : l.state = .number) (hso : x.startOffset ≤ off) (hb : x.entryState = .start → l.buf = [])
    (ht : l.resultTok = .integer ∨ l.resultTok = .double) :
    StepInv x0 off (liftStep .num x (yajl_lex_number_step p l c)) := by
  obtain ⟨h01, h02, h03⟩ := h0
  cases p <;>
  simp only [yajl_lex_number_step, number_integer, number_fraction, number_exponent,
    number_exponent_digits] <;>
  split_ifs <;>
  simp only [liftStep, StepInv] <;>
  first
  | refine ⟨⟨hl, by simp; omega, hb, by simp [LexPC.state], ht, by simp⟩, by simp [h02]⟩
  | refine ⟨⟨hl, by simp; omega, hb, by simp [LexPC.state], by simp [GoodTok], by simp⟩, by simp [h02]⟩
  | (rcases ht with ht | ht <;> simp [ht, h01, h02, h03] <;> omega)

theorem utf8_lead_inv (x : LexCtx) (l : yajl_lexer_t) (c off : Nat)
    (hl : l.state = .string) (hso : x.startOffset ≤ off) (hb : x.entryState = .start → l.buf = [])
    (ht : l.resultTok = .string ∨ l.resultTok = .string_with_escapes)
    (hu : l.substate = 4) (s : Step Utf8PC yajl_lexer_t)
    (hs : s = yajl_lex_utf8_char_lead l c ∨ ∃ k, s = yajl_lex_utf8_char_step k l c) :
    StepInv { x with lexer := l } off (liftStep .str x (string_of_utf8 s)) := by
  have key : (s = .ret .string l 0) ∨ (∃ k, s = .next k l) ∨
      (s = .ret .error { l with error := .string_invalid_utf8 } 0) := by
    rcases hs with hs | ⟨k, hs⟩
    · rw [hs, yajl_lex_utf8_char_lead]
      split_ifs <;> simp [utf8_invalid]
    · rw [hs]
      cases k <;> rw [yajl_lex_utf8_char_step] <;> split_ifs <;> simp [utf8_invalid]
  rcases key with h | ⟨k, h⟩ | h <;> rw [h] <;> simp only [string_of_utf8, liftStep, StepInv]
  · exact ⟨⟨hl, by simp; omega, hb, by simp [LexPC.state], ht, by simp⟩, by simp⟩
  · exact ⟨⟨hl, by simp; omega, hb, by simp [LexPC.state], ht, by simp [hu]⟩, by simp⟩
  · simp; omega

theorem string_char_inv (x : LexCtx) (l : yajl_lexer_t) (c off : Nat)
    (hl : l.state = .string) (hso : x.startOffset ≤ off) (hb : x.entryState = .start → l.buf = [])
    (ht : l.resultTok = .string ∨ l.resultTok = .string_with_escapes) :
    StepInv { x with lexer := l } off (liftStep .str x (yajl_lex_string_char l c)) := by
  have hlt : l.resultTok ≠ .eof ∧ l.resultTok ≠ .comment := by
    rcases ht with ht | ht <;> simp [ht]
  rw [yajl_lex_string_char]
  split_ifs
  · simp [liftStep, StepInv, hlt]; omega
  · simp only [liftStep, StepInv]
    exact ⟨⟨hl, by simp; omega, hb, by simp [LexPC.state], by simp [GoodTok], by simp⟩, by simp⟩
  · simp [liftStep, StepInv]; omega
  · exact utf8_lead_inv x { l with substate := 4, subsubstate := 0 } c off hl hso hb ht rfl _
      (Or.inl rfl)
  · simp only [liftStep, StepInv]
    exact ⟨⟨hl, by simp; omega, hb, by simp [LexPC.state], ht, by simp⟩, by simp⟩

theorem string_step_inv (p : StrPC) (x : LexCtx) (l : yajl_lexer_t) (c off : Nat)
    (hl : l.state = .string) (hso : x.startOffset ≤ off) (hb : x.entryState = .start → l.buf = [])
    (ht : l.resultTok = .string ∨ l.resultTok = .string_with_escapes)
    (hu : ∀ k, p = .utf8 k → l.substate = 4) :
    StepInv { x with lexer := l } off (liftStep .str x (yajl_lex_string_step p l c)) := by
  rcases p with _ | _ | _ | _ | k
  · rw [yajl_lex_string_step]
    split_ifs
    · exact string_char_inv x l c off hl hso hb ht
    · simp only [liftStep, StepInv]
      exact ⟨⟨hl, by simp; omega, hb, by simp [LexPC.state], ht, by simp⟩, by simp⟩
  · exact string_char_inv x l c off hl hso hb ht
  · rw [yajl_lex_string_step]
    split_ifs
    · simp only [liftStep, StepInv]
      exact ⟨⟨hl, by simp; omega, hb, by simp [LexPC.state], ht, by simp⟩, by simp⟩
    · simp [liftStep, StepInv]; omega
    · simp only [liftStep, StepInv]
      exact ⟨⟨hl, by simp; omega, hb, by simp [LexPC.state], ht, by simp⟩, by simp⟩
  · rw [yajl_lex_string_step]
    split_ifs
    · simp [liftStep, StepInv]; omega
    · simp only [liftStep, StepInv]
      exact ⟨⟨hl, by simp; omega, hb, by simp [LexPC.state], ht, by simp⟩, by simp⟩
    · simp only [liftStep, StepInv]
      exact ⟨⟨hl, by simp; omega, hb, by simp [LexPC.state], ht, by simp⟩, by simp⟩
  · exact utf8_lead_inv x l c off hl hso hb ht (hu k rfl) _ (Or.inr ⟨k, rfl⟩)

theorem comment_step_inv (p : ComPC) (x : LexCtx) (c off : Nat)
    (hl : x.lexer.state = .comment) (hso : x.startOffset ≤ off)
    (hb : x.entryState = .start → x.lexer.buf = []) :
    StepInv x off (lex_of_comment x (off + 1) (yajl_lex_comment_step p x.lexer c)) := by
  cases p <;>
  simp only [yajl_lex_comment_step] <;>
  split_ifs <;>
  simp only [lex_of_comment, StepInv] <;>
  first
  | (refine ⟨⟨hl, by simp; omega, hb, by simp [LexPC.state], by simp [GoodTok], by simp⟩, by simp⟩)
  | (refine ⟨⟨rfl, by simp, by simp, by simp, by simp [GoodTok], by simp⟩, by simp⟩)
  | (simp; omega)

theorem expect_step_inv (x : LexCtx) (c off : Nat)
    (hl : x.lexer.state = .expect) (hso : x.startOffset ≤ off)
    (hb : x.entryState = .start → x.lexer.buf = [])
    (ht : x.lexer.resultTok = .bool ∨ x.lexer.resultTok = .null) :
    StepInv x off (lex_expect x c) := by
  have hlt : x.lexer.resultTok ≠ .eof ∧ x.lexer.resultTok ≠ .comment := by
    rcases ht with ht | ht <;> simp [ht]
  rw [lex_expect]
  cases expect.get? x.lexer.substate with
  | none => simp [StepInv]
  | some e =>
    simp only
    split_ifs
    · simp [StepInv]; omega
    · cases expect.get? (uintSucc x.lexer.substate) with
      | none => simp [StepInv]
      | some e1 =>
        simp only
        split_ifs
        · simp only [StepInv]
          exact ⟨⟨hl, by simp; omega, hb, by simp [LexPC.state], ht, by simp⟩, by simp⟩
        · simp [StepInv, hlt]; omega

theorem step_inv (pc : LexPC) (x : LexCtx) (c off : Nat) (h : Inv pc x off) :
    StepInv x off (yajl_lex_lex_step pc x c (off + 1)) := by
  cases pc with
  | top =>
    have hso : x.startOffset = off := (h.top rfl).1
    have hes : x.entryState = .start := (h.top rfl).2
    have hb := h.buf hes
    simp only [yajl_lex_lex_step]
    apply lex_switch_elim
    case h12 =>
      intro _
      exact number_step_inv .e1 x x _ c off ⟨rfl, rfl, rfl⟩ rfl (by omega) (fun _ => hb)
        (Or.inl rfl)
    all_goals intros
    all_goals simp only [StepInv]
    all_goals first
      | (refine ⟨⟨?_, ?_, ?_, ?_, ?_, ?_⟩, ?_⟩ <;> simp [LexPC.state, GoodTok, hso, hes, hb] <;> exact h.state)
      | (simp [hso])
  | expect => exact expect_step_inv x c off h.state h.start_le h.buf h.tok
  | str p =>
    exact string_step_inv p x x.lexer c off h.state h.start_le h.buf h.tok
      (fun k hk => h.utf8 k (by rw [hk]))
  | num p =>
    exact number_step_inv p x x x.lexer c off ⟨rfl, rfl, rfl⟩ h.state h.start_le h.buf h.tok
  | com p => exact comment_step_inv p x c off h.state h.start_le h.buf

theorem run_inv_suspended (rest : List Nat) : ∀ (pc : LexPC) (x : LexCtx) (off : Nat)
    (pc1 : LexPC) (x1 : LexCtx) (off1 : Nat), Inv pc x off →
    run yajl_lex_lex_step pc x rest off = .suspended pc1 x1 off1 →
    Inv pc1 x1 off1 ∧ (x.entryState = .start → x1.entryState = .start) := by
  induction rest with
  | nil =>
    intro pc x off pc1 x1 off1 hi h
    simp only [run, Run.suspended.injEq] at h
    obtain ⟨rfl, rfl, rfl⟩ := h
    exact ⟨hi, id⟩
  | cons c rest ih =>
    intro pc x off pc1 x1 off1 hi h
    have hs := step_inv pc x c off hi
    rw [run_cons] at h
    cases hstep : yajl_lex_lex_step pc x c (off + 1) with
    | next pc2 x2 =>
      rw [hstep] at h hs
      simp only [StepInv] at hs
      have := ih pc2 x2 (off + 1) pc1 x1 off1 hs.1 h
      exact ⟨this.1, fun he => this.2 (hs.2 he)⟩
    | ret tok x2 u => rw [hstep] at h; simp [Step.cont] at h
    | fault => rw [hstep] at h; simp [Step.cont] at h

theorem run_inv_done (rest : List Nat) : ∀ (pc : LexPC) (x : LexCtx) (off : Nat)
    (tok : yajl_tok) (x1 : LexCtx) (off1 : Nat), Inv pc x off →
    run yajl_lex_lex_step pc x rest off = .done tok x1 off1 →
    tok ≠ .eof ∧ tok ≠ .comment ∧ x1.startOffset ≤ off1 ∧ off1 ≤ off + rest.length ∧
    (x1.entryState = .start → x1.lexer.buf = []) ∧
    (x.entryState = .start → x1.entryState = .start) := by
  induction rest with
  | nil => intro pc x off tok x1 off1 _ h; simp [run] at h
  | cons c rest ih =>
    intro pc x off tok x1 off1 hi h
    have hs := step_inv pc x c off hi
    rw [run_cons] at h
    cases hstep : yajl_lex_lex_step pc x c (off + 1) with
    | next pc2 x2 =>
      rw [hstep] at h hs
      simp only [StepInv] at hs
      obtain ⟨h1, h2, h3, h4, h5, h6⟩ := ih pc2 x2 (off + 1) tok x1 off1 hs.1 h
      refine ⟨h1, h2, h3, ?_, h5, fun he => h6 (hs.2 he)⟩
      simp only [List.length_cons]; omega
    | ret tok2 x2 u =>
      rw [hstep] at h hs
      simp only [StepInv] at hs
      simp only [Step.cont, Run.done.injEq] at h
      obtain ⟨rfl, rfl, rfl⟩ := h
      obtain ⟨h1, h2, h3, h4, h5, h6, h7⟩ := hs
      refine ⟨h1, h2, h7, ?_, ?_, fun he => h5.trans he⟩
      · simp only [List.length_cons]; omega
      · intro he; rw [h6]; exact hi.buf (h5 ▸ he)
    | fault => rw [hstep] at h; simp [Step.cont] at h

theorem inv_ctx0 (lexer : yajl_lexer_t) (offset : Nat) (h : lexer.state = .start) :
    Inv .top (ctx0 lexer offset) offset :=
  ⟨h, Nat.le_refl _, fun _ => rfl, fun _ => ⟨rfl, rfl⟩, trivial, fun _ hk => by cases hk⟩

/-- Entered in `state_start` the lexer scans from the head of the main loop. -/
theorem lex_start (lexer : yajl_lexer_t) (jsonText : List Nat) (offset : Nat)
    (h : lexer.state = .start) (ho : offset ≤ jsonText.length) :
    yajl_lex_lex lexer jsonText offset =
      lex_finish jsonText
        (run yajl_lex_lex_step .top (ctx0 lexer offset) (jsonText.drop offset) offset) := by
  simp only [yajl_lex_lex, lex_entry, h, ho, if_true, ctx0]

theorem lex_start0 (lexer : yajl_lexer_t) (jsonText : List Nat)
    (h : lexer.state = .start) :
    yajl_lex_lex lexer jsonText 0 =
      lex_finish jsonText (run yajl_lex_lex_step .top (ctx0 lexer 0) jsonText 0) := by
  rw [lex_start lexer jsonText 0 h (Nat.zero_le _)]; rfl

/-! ## C7: keywords -/

/-- C7. From the start state an input beginning with `true` or `false` gives the bool
token and one beginning with `null` the null token, the payload being the keyword in
the caller's buffer and the offset just past it; and an input that agrees with a
keyword on its first `j` bytes (`1 ≤ j`) and then has another byte than the keyword
gives `error` with code `invalid_string` and the offset at that byte. -/
theorem keyword_recognition (lexer : yajl_lexer_t) (h : lexer.state = .start)
    (kw : List Nat) (tok : yajl_tok)
    (hkw : (kw, tok) ∈ [(kw_true, yajl_tok.bool), (kw_false, yajl_tok.bool),
      (kw_null, yajl_tok.null)])
    (rest : List Nat) :
    (∃ r, yajl_lex_lex lexer (kw ++ rest) 0 = some r ∧ r.tok = tok ∧
      r.outBuf = .text 0 ∧ r.outLen = kw.length ∧ r.payload (kw ++ rest) = kw ∧
      r.offset = kw.length) ∧
    (∀ j x, 1 ≤ j → j < kw.length → kw.get? j ≠ some x →
      ∃ r, yajl_lex_lex lexer (kw.take j ++ x :: rest) 0 = some r ∧ r.tok = .error ∧
        r.lexer.error = .invalid_string ∧ r.offset = j) := by
  simp only [List.mem_cons, Prod.mk.injEq, List.mem_singleton, List.not_mem_nil, or_false] at hkw
  rcases hkw with ⟨rfl, rfl⟩ | ⟨rfl, rfl⟩ | ⟨rfl, rfl⟩
  all_goals
    refine ⟨?_, ?_⟩
    · simp [lex_start0 _ _ h, kw_true, kw_false, kw_null, ctx0, run, Step.cont, lex_finish,
        yajl_lex_lex_step, lex_switch, isSpace, lex_expect, expect, uintSucc, lexed,
        skip_quotes, LexOut.payload]
    · intro j x hj1 hj2 hx
      simp only [kw_true, kw_false, kw_null, List.length_cons, List.length_nil] at hj2
      interval_cases j <;>
      simp [kw_true, kw_false, kw_null] at hx <;>
      (have hx2 := Ne.symm hx
       rw [lex_start0 _ _ h]
       simp only [kw_true, kw_false, kw_null, List.take, List.cons_append, List.nil_append,
         run, yajl_lex_lex_step, lex_switch, ctx0]
       simp [isSpace, lex_expect, expect, uintSucc, hx2, lexed, skip_quotes, Step.cont,
         lex_finish])

theorem keyword_recognition_witness :
    ∃ r, yajl_lex_lex (yajl_lex_alloc false true) [0x6e, 0x75, 0x6c, 0x78, 0x20] 0 = some r ∧
      r.tok = .error ∧ r.lexer.error = .invalid_string ∧ r.offset = 3 :=
  (keyword_recognition (yajl_lex_alloc false true) rfl kw_null .null (by simp) [0x20]).2
    3 0x78 (by decide) (by decide) (by decide)

/-! ## Numbers: scanning a number text -/

theorem isDigit_iff (c : Nat) : isDigit c = true ↔ 0x30 ≤ c ∧ c ≤ 0x39 := by
  simp [isDigit]

theorem num_step (p : NumPC) (x : LexCtx) (c : Nat) (rest : List Nat) (off : Nat) :
    run yajl_lex_lex_step (.num p) x (c :: rest) off =
      (liftStep .num x (yajl_lex_number_step p x.lexer c)).cont
        (fun pc1 s1 => run yajl_lex_lex_step pc1 s1 rest (off + 1)) (off + 1) := rfl

/-- At the head of the main loop a `-` or a digit is handed to `yajl_lex_number`. -/
theorem top_number (x : LexCtx) (c : Nat) (rest : List Nat) (off : Nat)
    (hc : c = 0x2d ∨ isDigit c = true) :
    run yajl_lex_lex_step .top x (c :: rest) off =
      run yajl_lex_lex_step (.num .e1) (numCtx x .integer) (c :: rest) off := by
  have hsw : lex_switch x c = liftStep .num x
      (yajl_lex_number_step .e1
        { x.lexer with state := .number, substate := 0, resultTok := .integer } c) := by
    have hd : c = 0x2d ∨ (0x30 ≤ c ∧ c ≤ 0x39) := by
      rcases hc with h | h
      · exact Or.inl h
      · exact Or.inr ((isDigit_iff c).1 h)
    rw [lex_switch]
    rw [if_neg (by omega), if_neg (by omega), if_neg (by omega), if_neg (by omega),
      if_neg (by omega), if_neg (by omega), if_neg (by unfold isSpace; omega),
      if_neg (by omega), if_neg (by omega), if_neg (by omega), if_neg (by omega), if_pos hc]
  rw [num_step, run_cons]
  simp only [yajl_lex_lex_step, hsw, numCtx]
  cases yajl_lex_number_step .e1
        { x.lexer with state := .number, substate := 0, resultTok := .integer } c <;>
    simp [liftStep, Step.cont]

theorem num_digits (p : NumPC) (hp : p = .e4 ∨ p = .e6 ∨ p = .e9) (ds : List Nat) :
    ∀ (x : LexCtx) (rest : List Nat) (off : Nat), allDigits ds →
    run yajl_lex_lex_step (.num p) x (ds ++ rest) off =
      run yajl_lex_lex_step (.num p) x rest (off + ds.length) := by
  induction ds with
  | nil => intro x rest off _; simp
  | cons d ds ih =>
    intro x rest off hd
    have h1 : isDigit d = true := hd d (List.mem_cons_self _ _)
    have h2 : allDigits ds := fun c hc => hd c (List.mem_cons_of_mem _ hc)
    rw [List.cons_append, num_step]
    rcases hp with rfl | rfl | rfl <;>
    simp only [yajl_lex_number_step, h1, if_true, liftStep, Step.cont] <;>
    rw [ih x rest (off + 1) h2] <;>
    simp only [List.length_cons] <;>
    congr 1 <;> omega

/-- The integer part, read at `entry_1` or `entry_2`. -/
theorem num_int (p : NumPC) (hp : p = .e1 ∨ p = .e2) (int : List Nat) (hi : intPartOk int)
    (x : LexCtx) (rest : List Nat) (off : Nat) :
    run yajl_lex_lex_step (.num p) x (int ++ rest) off =
      run yajl_lex_lex_step (.num (if int = [0x30] then .e3 else .e4)) x rest
        (off + int.length) := by
  cases int with
  | nil => exact absurd hi (by simp [intPartOk])
  | cons d ds =>
    simp only [intPartOk] at hi
    rcases hi with ⟨rfl, rfl⟩ | ⟨h1, h2, h3⟩
    · rcases hp with rfl | rfl <;>
      simp [num_step, yajl_lex_number_step, number_integer, liftStep, Step.cont]
    · have hne : ¬ (d :: ds = [0x30]) := by
        intro h; simp only [List.cons.injEq] at h; omega
      have hd : number_integer x.lexer d = .next .e4 x.lexer := by
        rw [number_integer, if_neg (by omega), if_pos ⟨h1, h2⟩]
      rw [if_neg hne, List.cons_append, num_step]
      have hstep : yajl_lex_number_step p x.lexer d = .next .e4 x.lexer := by
        rcases hp with rfl | rfl
        · rw [yajl_lex_number_step, if_neg (by omega), hd]
        · rw [yajl_lex_number_step, hd]
      rw [hstep]
      simp only [liftStep, Step.cont]
      rw [num_digits .e4 (Or.inl rfl) ds x rest (off + 1) h3]
      simp only [List.length_cons]
      congr 1; omega

/-- The fraction, read after the integer part. -/
theorem num_frac (p : NumPC) (hp : p = .e3 ∨ p = .e4) (ds : List Nat)
    (hf : fracPartOk (some ds)) (x : LexCtx) (rest : List Nat) (off : Nat) :
    run yajl_lex_lex_step (.num p) x (fracBytes (some ds) ++ rest) off =
      run yajl_lex_lex_step (.num .e6) x rest (off + (fracBytes (some ds)).length) := by
  obtain ⟨hne, hd⟩ := hf
  cases ds with
  | nil => exact absurd rfl hne
  | cons d ds =>
    have h1 : isDigit d = true := hd d (List.mem_cons_self _ _)
    have h1' := (isDigit_iff d).1 h1
    have h2 : allDigits ds := fun c hc => hd c (List.mem_cons_of_mem _ hc)
    have h5 : yajl_lex_number_step .e5 x.lexer d = .next .e6 x.lexer := by
      rw [yajl_lex_number_step, if_neg (by omega)]
    simp only [fracBytes, List.cons_append, List.length_cons]
    rw [num_step]
    have hstep : yajl_lex_number_step p x.lexer 0x2e = .next .e5 x.lexer := by
      rcases hp with rfl | rfl <;>
      simp [yajl_lex_number_step, number_fraction, isDigit]
    rw [hstep]
    simp only [liftStep, Step.cont]
    rw [num_step, h5]
    simp only [liftStep, Step.cont]
    rw [num_digits .e6 (Or.inr (Or.inl rfl)) ds x rest _ h2]
    congr 1; omega

/-- The exponent digits after the marker and the optional sign, read at `entry_7`. -/
theorem num_exp_tail (e : JsonExp) (he : expPartOk (some e)) (x : LexCtx) (rest : List Nat)
    (off : Nat) :
    run yajl_lex_lex_step (.num .e7) x (e.sign.toList ++ e.digits ++ rest) off =
      run yajl_lex_lex_step (.num .e9) x rest
        (off + (e.sign.toList ++ e.digits).length) := by
  obtain ⟨_, hs, hne, hd⟩ := he
  cases hds : e.digits with
  | nil => exact absurd hds hne
  | cons d ds =>
    rw [hds] at hd
    have h1 : isDigit d = true := hd d (List.mem_cons_self _ _)
    have h1' := (isDigit_iff d).1 h1
    have h2 : allDigits ds := fun c hc => hd c (List.mem_cons_of_mem _ hc)
    have hx : ∀ l : yajl_lexer_t, number_exponent_digits l d = .next .e9 l := by
      intro l; rw [number_exponent_digits, if_pos h1]
    cases hsg : e.sign with
    | none =>
      simp only [Option.toList, List.nil_append, List.cons_append, List.length_cons]
      rw [num_step, yajl_lex_number_step, if_neg (by omega), hx]
      simp only [liftStep, Step.cont]
      rw [num_digits .e9 (Or.inr (Or.inr rfl)) ds x rest _ h2]
      congr 1; omega
    | some s =>
      have hs' := hs s hsg
      simp only [Option.toList, List.cons_append, List.nil_append, List.length_cons]
      rw [num_step, yajl_lex_number_step, if_pos hs']
      simp only [liftStep, Step.cont]
      rw [num_step, yajl_lex_number_step, hx]
      simp only [liftStep, Step.cont]
      rw [num_digits .e9 (Or.inr (Or.inr rfl)) ds x rest _ h2]
      congr 1; omega

/-- The exponent marker, read after the integer part or after the fraction; leaving the
fraction sets `resultTok` to `double`. -/
theorem num_exp_marker (p : NumPC) (hp : p = .e3 ∨ p = .e4 ∨ p = .e6) (m : Nat)
    (hm : m = 0x65 ∨ m = 0x45) (x : LexCtx) (tok : yajl_tok) (rest : List Nat) (off : Nat) :
    run yajl_lex_lex_step (.num p) (numCtx x tok) (m :: rest) off =
      run yajl_lex_lex_step (.num .e7) (numCtx x (if p = .e6 then .double else tok)) rest
        (off + 1) := by
  have hnd : isDigit m = false := by
    rcases hm with rfl | rfl <;> decide
  have hn : ¬ m = 0x2e := by omega
  rw [num_step]
  rcases hp with rfl | rfl | rfl <;>
  simp [yajl_lex_number_step, number_fraction, number_exponent, hnd, hn, hm, liftStep,
    Step.cont, numCtx]

theorem numCtx_numCtx (x : LexCtx) (t1 t2 : yajl_tok) :
    numCtx (numCtx x t1) t2 = numCtx x t2 := rfl

/-- Scanning a number text of the grammar from the head of the main loop leaves
`yajl_lex_number` at the control point `endPC`, having consumed the text. -/
theorem run_number (n : JsonNumber) (hn : n.wf) (x : LexCtx) (rest : List Nat) (off : Nat) :
    run yajl_lex_lex_step .top x (n.bytes ++ rest) off =
      run yajl_lex_lex_step (.num n.endPC) (numCtx x n.endTok) rest
        (off + n.bytes.length) := by
  obtain ⟨minus, int, frac, exp⟩ := n
  obtain ⟨hi, hf, he⟩ := hn
  simp only at hi hf he
  -- the first byte goes to `yajl_lex_number`
  have hfirst : ∀ (tl : List Nat), run yajl_lex_lex_step .top x
      ((if minus then [0x2d] else []) ++ int ++ tl) off =
      run yajl_lex_lex_step (.num (if int = [0x30] then .e3 else .e4)) (numCtx x .integer) tl
        (off + ((if minus then [0x2d] else []) ++ int).length) := by
    intro tl
    cases minus with
    | true =>
      simp only [if_true, List.cons_append, List.nil_append, List.append_assoc]
      rw [top_number x _ _ _ (Or.inl rfl), num_step]
      simp only [yajl_lex_number_step, if_true, liftStep, Step.cont]
      rw [num_int .e2 (Or.inr rfl) int hi]
      simp only [List.length_cons, List.length_append, List.length_nil]
      congr 1; omega
    | false =>
      simp only [Bool.false_eq_true, if_false, List.nil_append]
      cases int with
      | nil => exact absurd hi (by simp [intPartOk])
      | cons d ds =>
        have hd : isDigit d = true := by
          simp only [intPartOk] at hi
          rcases hi with ⟨rfl, _⟩ | ⟨h1, h2, _⟩
          · decide
          · exact (isDigit_iff d).2 ⟨by omega, h2⟩
        rw [List.cons_append, top_number x _ _ _ (Or.inr hd), ← List.cons_append,
          num_int .e1 (Or.inl rfl) (d :: ds) hi]
  have hlen : ∀ (a b c : List Nat), off + (a ++ b ++ c).length
      = off + a.length + b.length + c.length := by
    intro a b c; simp only [List.length_append]; omega
  simp only [JsonNumber.bytes, JsonNumber.endPC, JsonNumber.endTok]
  cases frac with
  | none =>
    cases exp with
    | none =>
      simp only [fracBytes, expBytes, List.append_nil]
      rw [hfirst rest]
    | some e =>
      simp only [fracBytes, expBytes, List.append_nil, List.append_assoc, List.cons_append]
      rw [← List.append_assoc, hfirst, num_exp_marker _ (by split_ifs <;> simp) _ he.1,
        ← List.append_assoc, num_exp_tail e he]
      rw [if_neg (by split_ifs <;> simp)]
      congr 1
      simp only [List.length_append, List.length_cons]; omega
  | some ds =>
    have hfr := num_frac (if int = [0x30] then .e3 else .e4) (by split_ifs <;> simp) ds hf
    cases exp with
    | none =>
      simp only [expBytes, List.append_nil, List.append_assoc]
      rw [← List.append_assoc, hfirst, hfr]
      congr 1
      simp only [List.length_append]; omega
    | some e =>
      simp only [expBytes, List.append_assoc, List.cons_append]
      rw [← List.append_assoc, hfirst, hfr, num_exp_marker _ (by simp) _ he.1,
        ← List.append_assoc, num_exp_tail e he]
      simp only [if_true]
      congr 1
      simp only [List.length_append, List.length_cons]; omega

/-- The byte after a number text that is neither a digit nor a continuation ends the
token: the byte is unread and `integer` or `double` is returned. -/
theorem num_terminator (n : JsonNumber) (t : Nat) (hd : isDigit t = false)
    (hdot : n.frac = none → n.exp = none → t ≠ 0x2e)
    (hexp : n.exp = none → t ≠ 0x65 ∧ t ≠ 0x45) (x : LexCtx) (rest : List Nat) (off : Nat) :
    run yajl_lex_lex_step (.num n.endPC) (numCtx x n.endTok) (t :: rest) off =
      .done n.tok (numCtx x n.tok) off := by
  obtain ⟨minus, int, frac, exp⟩ := n
  simp only at hdot hexp
  rw [num_step]
  simp only [JsonNumber.endPC, JsonNumber.endTok, JsonNumber.tok]
  cases frac with
  | none =>
    cases exp with
    | none =>
      have h1 := hdot rfl rfl
      have h2 := hexp rfl
      simp only
      split_ifs <;>
      simp [yajl_lex_number_step, number_fraction, number_exponent, hd, h1, h2, liftStep,
        Step.cont, numCtx]
    | some e =>
      simp [yajl_lex_number_step, hd, liftStep, Step.cont, numCtx]
  | some ds =>
    cases exp with
    | none =>
      have h2 := hexp rfl
      simp [yajl_lex_number_step, number_exponent, hd, h2, liftStep, Step.cont, numCtx]
    | some e =>
      simp [yajl_lex_number_step, hd, liftStep, Step.cont, numCtx]

theorem canExtend_dot (n : JsonNumber) (hn : n.wf) (hf : n.frac = none) (he : n.exp = none) :
    canExtend n 0x2e := by
  refine ⟨{ n with frac := some [0x30] }, ⟨hn.1, ?_, ?_⟩, ?_⟩
  · simp [fracPartOk, allDigits, isDigit]
  · simp only [he, expPartOk]
  · refine ⟨[0x30], ?_⟩
    simp [JsonNumber.bytes, hf, he, fracBytes, expBytes]

theorem canExtend_exp (n : JsonNumber) (hn : n.wf) (he : n.exp = none) (t : Nat)
    (ht : t = 0x65 ∨ t = 0x45) : canExtend n t := by
  refine ⟨{ n with exp := some { marker := t, sign := none, digits := [0x30] } },
    ⟨hn.1, hn.2.1, ?_⟩, ?_⟩
  · simp [expPartOk, allDigits, isDigit, ht]
  · refine ⟨[0x30], ?_⟩
    simp [JsonNumber.bytes, he, expBytes]

/-- Every byte of a number text is a sign, a digit, the point or an exponent marker. -/
theorem number_bytes_alphabet (m : JsonNumber) (hm : m.wf) (b : Nat) (hb : b ∈ m.bytes) :
    b = 0x2d ∨ b = 0x2b ∨ b = 0x2e ∨ b = 0x65 ∨ b = 0x45 ∨ isDigit b = true := by
  obtain ⟨minus, int, frac, exp⟩ := m
  obtain ⟨hi, hf, he⟩ := hm
  simp only at hi hf he
  simp only [JsonNumber.bytes, List.mem_append] at hb
  rcases hb with ((hb | hb) | hb) | hb
  · cases minus <;> simp at hb
    exact Or.inl hb
  · cases int with
    | nil => simp at hb
    | cons d ds =>
      simp only [intPartOk] at hi
      rcases List.mem_cons.1 hb with rfl | hb
      · rcases hi with ⟨rfl, _⟩ | ⟨h1, h2, _⟩
        · simp [isDigit]
        · right; right; right; right; right; exact (isDigit_iff _).2 ⟨by omega, h2⟩
      · rcases hi with ⟨_, rfl⟩ | ⟨_, _, h3⟩
        · simp at hb
        · right; right; right; right; right; exact h3 b hb
  · cases frac with
    | none => simp [fracBytes] at hb
    | some ds =>
      rcases List.mem_cons.1 hb with rfl | hb
      · simp
      · right; right; right; right; right; exact hf.2 b hb
  · cases exp with
    | none => simp [expBytes] at hb
    | some e =>
      obtain ⟨h1, h2, _, h4⟩ := he
      rcases List.mem_cons.1 hb with rfl | hb
      · rcases h1 with h1 | h1 <;> simp [h1]
      · rcases List.mem_append.1 hb with hb | hb
        · cases hs : e.sign with
          | none => simp [hs] at hb
          | some s =>
            simp only [hs, Option.toList, List.mem_singleton] at hb
            subst hb
            rcases h2 b hs with h | h <;> simp [h]
        · right; right; right; right; right; exact h4 b hb

/-- A byte outside the alphabet of numbers cannot extend a number text. -/
theorem not_canExtend (n : JsonNumber) (t : Nat)
    (ht : ¬ (t = 0x2d ∨ t = 0x2b ∨ t = 0x2e ∨ t = 0x65 ∨ t = 0x45 ∨ isDigit t = true)) :
    ¬ canExtend n t := by
  rintro ⟨m, hm, hp⟩
  exact ht (number_bytes_alphabet m hm t (hp.subset (by simp)))

theorem tok_cases (n : JsonNumber) : n.tok = .integer ∨ n.tok = .double := by
  unfold JsonNumber.tok
  cases n.frac <;> cases n.exp <;> simp

/-- C3, amended. For every number text `n` of the grammar followed by a byte `t` that is
not a decimal digit and cannot extend it, `yajl_lex_lex` from the start state returns
`integer` when `n` has neither fraction nor exponent and `double` otherwise, with payload
exactly the text of `n` in the caller's buffer and the final offset at `t`. -/
theorem number_token (lexer : yajl_lexer_t) (h : lexer.state = .start) (n : JsonNumber)
    (hn : n.wf) (t : Nat) (hd : isDigit t = false) (hx : ¬ canExtend n t)
    (rest : List Nat) :
    ∃ r, yajl_lex_lex lexer (n.bytes ++ t :: rest) 0 = some r ∧ r.tok = n.tok ∧
      r.outBuf = .text 0 ∧ r.outLen = n.bytes.length ∧
      r.payload (n.bytes ++ t :: rest) = n.bytes ∧ r.offset = n.bytes.length := by
  have hdot : n.frac = none → n.exp = none → t ≠ 0x2e :=
    fun hf he ht => hx (ht ▸ canExtend_dot n hn hf he)
  have hexp : n.exp = none → t ≠ 0x65 ∧ t ≠ 0x45 :=
    fun he => ⟨fun ht => hx (canExtend_exp n hn he t (Or.inl ht)),
      fun ht => hx (canExtend_exp n hn he t (Or.inr ht))⟩
  rw [lex_start0 _ _ h, run_number n hn, num_terminator n t hd hdot hexp]
  rcases tok_cases n with ht | ht <;>
  simp [lex_finish, lexed, skip_quotes, ht, numCtx, ctx0, LexOut.payload]

theorem number_token_witness :
    ∃ r, yajl_lex_lex (yajl_lex_alloc false true) [0x2d, 0x31, 0x32, 0x2e, 0x35, 0x5d] 0 = some r ∧
      r.tok = .double ∧ r.outBuf = .text 0 ∧ r.outLen = 5 ∧
      r.payload [0x2d, 0x31, 0x32, 0x2e, 0x35, 0x5d] = [0x2d, 0x31, 0x32, 0x2e, 0x35] ∧
      r.offset = 5 :=
  number_token (yajl_lex_alloc false true) rfl
    { minus := true, int := [0x31, 0x32], frac := some [0x35], exp := none }
    (by simp [JsonNumber.wf, intPartOk, fracPartOk, expPartOk, allDigits, isDigit])
    0x5d (by decide)
    (not_canExtend _ _ (by decide))
    []

/-- C3, as stated, fails: the text `0` is a number of the grammar, the digit `1` cannot
extend it (no number of the grammar begins with `01`), yet on the input `01` the lexer
returns `error` with code `leading_zeros`, not the token `integer`. -/
theorem number_token_counterexample :
    number_zero.wf ∧ ¬ canExtend number_zero 0x31 ∧
    ∃ r, yajl_lex_lex (yajl_lex_alloc false true) (number_zero.bytes ++ [0x31]) 0 = some r ∧
      r.tok = .error ∧ r.lexer.error = .leading_zeros ∧ r.tok ≠ number_zero.tok := by
  refine ⟨?_, ?_, ?_⟩
  · simp [number_zero, JsonNumber.wf, intPartOk, fracPartOk, expPartOk]
  · rintro ⟨⟨minus, int, frac, exp⟩, ⟨hi, hf, he⟩, hp⟩
    simp only at hi hf he
    simp only [number_zero, JsonNumber.bytes, Bool.false_eq_true, if_false, fracBytes,
      expBytes, List.append_nil, List.nil_append, List.singleton_append] at hp
    cases minus with
    | true => simp at hp
    | false =>
      cases int with
      | nil => simp [intPartOk] at hi
      | cons d ds =>
        simp only [intPartOk] at hi
        simp only [Bool.false_eq_true, if_false, List.nil_append, List.cons_append,
          List.cons_prefix_cons] at hp
        obtain ⟨hd, hp⟩ := hp
        rcases hi with ⟨_, rfl⟩ | ⟨h1, _, _⟩
        · cases frac with
          | some fs => simp [fracBytes] at hp
          | none =>
            cases exp with
            | none => simp [fracBytes, expBytes] at hp
            | some e =>
              simp only [fracBytes, expBytes, List.nil_append, List.cons_prefix_cons] at hp
              have := he.1
              omega
        · omega
  · simp [lex_start0, yajl_lex_alloc, number_zero, JsonNumber.bytes, fracBytes, expBytes,
      JsonNumber.tok, ctx0, run, Step.cont, lex_finish, yajl_lex_lex_step, lex_switch, isSpace,
      isDigit, liftStep, yajl_lex_number_step, number_integer, lexed, skip_quotes]

/-! ## The code at `lexed` -/

theorem lexed_eof (x : LexCtx) (jsonText : List Nat) (off : Nat) :
    lexed .eof x jsonText off = some
      { tok := .eof,
        lexer := { x.lexer with
          buf := x.lexer.buf ++ (jsonText.drop x.startOffset).take (off - x.startOffset) },
        offset := off, outBuf := .null, outLen := 0 } := by
  simp [lexed, skip_quotes]

theorem lexed_error (x : LexCtx) (jsonText : List Nat) (off : Nat) :
    ∃ r, lexed .error x jsonText off = some r ∧ r.tok = .error ∧
      r.lexer.error = x.lexer.error ∧ r.offset = off ∧ r.outBuf = .null ∧ r.outLen = 0 ∧
      r.lexer.state = .start := by
  by_cases he : x.entryState = .start <;> simp [lexed, skip_quotes, he]

theorem skip_quotes_props (r0 r : LexOut) (h : skip_quotes r0 = some r) :
    r.tok = r0.tok ∧ r.offset = r0.offset ∧ r.lexer = r0.lexer := by
  unfold skip_quotes at h
  split_ifs at h <;> simp only [Option.some.injEq, reduceCtorEq] at h <;> subst h <;> simp

theorem lexed_props (tok : yajl_tok) (x : LexCtx) (jsonText : List Nat) (off : Nat)
    (r : LexOut) (h : lexed tok x jsonText off = some r) :
    r.tok = tok ∧ r.offset = off ∧ r.lexer.error = x.lexer.error := by
  unfold lexed at h
  split_ifs at h <;>
  (obtain ⟨h1, h2, h3⟩ := skip_quotes_props _ _ h
   simp [h1, h2, h3])

theorem susp_state (pc : LexPC) (x : LexCtx) :
    (yajl_lex_lex_susp pc x).lexer.state = x.lexer.state ∧
    (yajl_lex_lex_susp pc x).lexer.buf = x.lexer.buf ∧
    (yajl_lex_lex_susp pc x).lexer.error = x.lexer.error ∧
    (yajl_lex_lex_susp pc x).startOffset = x.startOffset ∧
    (yajl_lex_lex_susp pc x).entryState = x.entryState := by
  rcases pc with _ | _ | p | p | p
  · simp [yajl_lex_lex_susp]
  · simp [yajl_lex_lex_susp]
  · rcases p with _ | _ | _ | _ | k <;>
      simp [yajl_lex_lex_susp, yajl_lex_string_susp, yajl_lex_utf8_char_susp]
  · simp [yajl_lex_lex_susp, yajl_lex_number_susp]
  · simp [yajl_lex_lex_susp, yajl_lex_comment_susp]

/-- An input on which the lexer returns `eof` in `state_start` (white space and whole
comments only) leaves the scan at the head of the main loop. -/
theorem run_of_skipped (lexer : yajl_lexer_t) (h : lexer.state = .start) (pre : List Nat)
    (r0 : LexOut) (h0 : yajl_lex_lex lexer pre 0 = some r0) (he : r0.tok = .eof)
    (hs : r0.lexer.state = .start) :
    ∃ xP, run yajl_lex_lex_step .top (ctx0 lexer 0) pre 0 = .suspended .top xP pre.length ∧
      Inv .top xP pre.length := by
  rw [lex_start0 _ _ h] at h0
  cases hr : run yajl_lex_lex_step .top (ctx0 lexer 0) pre 0 with
  | suspended pc1 x1 off1 =>
    rw [hr] at h0
    have hoff := run_suspended_offset _ _ _ _ _ _ _ _ hr
    have hinv := (run_inv_suspended _ _ _ _ _ _ _ (inv_ctx0 lexer 0 h) hr).1
    simp only [lex_finish, lexed_eof, Option.some.injEq] at h0
    subst h0
    simp only [(susp_state pc1 x1).1, hinv.state] at hs
    have hpc : pc1 = .top := by
      cases pc1 <;> simp [LexPC.state] at hs
      rfl
    subst hpc
    simp only [Nat.zero_add] at hoff
    subst hoff
    exact ⟨x1, rfl, hinv⟩
  | done tok x1 off1 =>
    rw [hr] at h0
    have h1 := (run_inv_done _ _ _ _ _ _ _ (inv_ctx0 lexer 0 h) hr).1
    have h2 := (lexed_props _ _ _ _ _ h0).1
    exact absurd (h2.symm.trans he) h1
  | fault => rw [hr] at h0; simp [lex_finish] at h0

/-! ## C5: leading zeros -/

/-- C5. When the first token (after white space and comments, that is, after any input
`pre` on which the lexer returns `eof` in the start state) starts with `0`, optionally
preceded by `-`, and a decimal digit follows at once, `yajl_lex_lex` returns `error` with
code `leading_zeros` and the final offset at that second digit. -/
theorem leading_zeros_rejected (lexer : yajl_lexer_t) (h : lexer.state = .start) (pre : List Nat)
    (r0 : LexOut) (h0 : yajl_lex_lex lexer pre 0 = some r0) (he : r0.tok = .eof)
    (hs : r0.lexer.state = .start) (minus : Bool) (d : Nat) (hd : isDigit d = true)
    (rest : List Nat) :
    ∃ r, yajl_lex_lex lexer (pre ++ ((if minus then [0x2d] else []) ++ 0x30 :: d :: rest)) 0
        = some r ∧
      r.tok = .error ∧ r.lexer.error = .leading_zeros ∧
      r.offset = pre.length + (if minus then 1 else 0) + 1 := by
  obtain ⟨xP, hrun, _⟩ := run_of_skipped lexer h pre r0 h0 he hs
  rw [lex_start0 _ _ h, run_append, hrun]
  simp only [Run.andThen]
  have key : run yajl_lex_lex_step .top xP
      ((if minus then [0x2d] else []) ++ 0x30 :: d :: rest) pre.length =
      .done .error (numCtx { xP with lexer := { xP.lexer with error := .leading_zeros } }
        .integer) (pre.length + (if minus then 1 else 0) + 1) := by
    cases minus with
    | true =>
      simp only [if_true, List.cons_append, List.nil_append]
      rw [top_number _ _ _ _ (Or.inl rfl)]
      simp [num_step, yajl_lex_number_step, number_integer, hd, liftStep, Step.cont, numCtx]
    | false =>
      simp only [Bool.false_eq_true, if_false, List.nil_append]
      rw [top_number _ _ _ _ (Or.inr (by decide))]
      simp [num_step, yajl_lex_number_step, number_integer, hd, liftStep, Step.cont, numCtx]
  rw [key]
  obtain ⟨r, h1, h2, h3, h4, _⟩ := lexed_error
    (numCtx { xP with lexer := { xP.lexer with error := .leading_zeros } } .integer)
    (pre ++ ((if minus then [0x2d] else []) ++ 0x30 :: d :: rest))
    (pre.length + (if minus then 1 else 0) + 1)
  exact ⟨r, h1, h2, h3, h4⟩

theorem leading_zeros_rejected_witness :
    ∃ r, yajl_lex_lex (yajl_lex_alloc false true) [0x30, 0x31] 0 = some r ∧
      r.tok = .error ∧ r.lexer.error = .leading_zeros ∧ r.offset = 1 :=
  leading_zeros_rejected (yajl_lex_alloc false true) rfl [] _ (by simp [lex_start0, yajl_lex_alloc, run, lex_finish, lexed_eof]; rfl) rfl rfl false 0x31
    (by decide) []

/-! ## C4: end of input inside a number -/

theorem liftStep_next {PC : Type} (f : PC → LexPC) (x : LexCtx) (s : Step PC yajl_lexer_t)
    (pc1 : LexPC) (x1 : LexCtx) (h : liftStep f x s = .next pc1 x1) :
    ∃ p l, s = .next p l ∧ pc1 = f p ∧ x1 = { x with lexer := l } := by
  cases s with
  | next p l => simp only [liftStep, Step.next.injEq] at h; exact ⟨p, l, rfl, h.1.symm, h.2.symm⟩
  | ret tok l u => simp [liftStep] at h
  | fault => simp [liftStep] at h

theorem number_step_next (p : NumPC) (l : yajl_lexer_t) (c : Nat) (p1 : NumPC)
    (l1 : yajl_lexer_t) (h : yajl_lex_number_step p l c = .next p1 l1) :
    l1 = l ∨ l1 = { l with resultTok := .double } := by
  cases p <;>
  simp only [yajl_lex_number_step, number_integer, number_fraction, number_exponent,
    number_exponent_digits] at h <;>
  split_ifs at h <;>
  first
  | (cases h; exact Or.inl rfl)
  | (cases h; exact Or.inr rfl)

/-- While `yajl_lex_number` scans, only `resultTok` changes. -/
theorem num_run_suspended (rest : List Nat) : ∀ (p : NumPC) (x : LexCtx) (off : Nat)
    (pc1 : LexPC) (x1 : LexCtx) (off1 : Nat),
    run yajl_lex_lex_step (.num p) x rest off = .suspended pc1 x1 off1 →
    (∃ p1, pc1 = .num p1) ∧ x1.startOffset = x.startOffset ∧ x1.entryState = x.entryState ∧
      x1.lexer.buf = x.lexer.buf ∧ x1.lexer.state = x.lexer.state := by
  induction rest with
  | nil =>
    intro p x off pc1 x1 off1 h
    simp only [run, Run.suspended.injEq] at h
    obtain ⟨rfl, rfl, rfl⟩ := h
    exact ⟨⟨p, rfl⟩, rfl, rfl, rfl, rfl⟩
  | cons c rest ih =>
    intro p x off pc1 x1 off1 h
    rw [num_step] at h
    cases hs : liftStep .num x (yajl_lex_number_step p x.lexer c) with
    | next pc2 x2 =>
      rw [hs] at h
      obtain ⟨p2, l2, h1, rfl, rfl⟩ := liftStep_next _ _ _ _ _ hs
      obtain ⟨h3, h4, h5, h6, h7⟩ := ih p2 _ (off + 1) pc1 x1 off1 h
      refine ⟨h3, h4, h5, ?_, ?_⟩
      · rw [h6]; rcases number_step_next _ _ _ _ _ h1 with rfl | rfl <;> rfl
      · rw [h7]; rcases number_step_next _ _ _ _ _ h1 with rfl | rfl <;> rfl
    | ret tok x2 u => rw [hs] at h; simp [Step.cont] at h
    | fault => rw [hs] at h; simp [Step.cont] at h

/-- A number text begins with `-` or a digit. -/
theorem number_bytes_head (n : JsonNumber) (hn : n.wf) :
    ∃ c tl, n.bytes = c :: tl ∧ (c = 0x2d ∨ isDigit c = true) := by
  obtain ⟨minus, int, frac, exp⟩ := n
  obtain ⟨hi, -, -⟩ := hn
  simp only at hi
  cases minus with
  | true =>
    exact ⟨0x2d, int ++ fracBytes frac ++ expBytes exp, by simp [JsonNumber.bytes], Or.inl rfl⟩
  | false =>
    cases int with
    | nil => simp [intPartOk] at hi
    | cons d ds =>
      refine ⟨d, ds ++ fracBytes frac ++ expBytes exp, by simp [JsonNumber.bytes], Or.inr ?_⟩
      simp only [intPartOk] at hi
      rcases hi with ⟨rfl, _⟩ | ⟨h1, h2, _⟩
      · decide
      · exact (isDigit_iff d).2 ⟨by omega, h2⟩

/-- C4. If the input ends while a number is still being scanned, that is, the input is a
non-empty beginning of a number text of the grammar (the whole text included),
`yajl_lex_lex` returns `eof`, leaves the lexer in the number state, and the persistent
buffer holds the bytes seen so far. -/
theorem number_eof (lexer : yajl_lexer_t) (h : lexer.state = .start) (n : JsonNumber)
    (hn : n.wf) (P : List Nat) (hP : P <+: n.bytes) (hne : P ≠ []) :
    ∃ r, yajl_lex_lex lexer P 0 = some r ∧ r.tok = .eof ∧ r.lexer.state = .number ∧
      r.lexer.buf = P ∧ r.offset = P.length := by
  obtain ⟨Q, hQ⟩ := hP
  obtain ⟨c, tl, hb, hc⟩ := number_bytes_head n hn
  -- the scan of the whole text is suspended, hence so is the scan of `P`
  have hwhole := run_number n hn (ctx0 lexer 0) [] 0
  simp only [List.append_nil, run] at hwhole
  rw [← hQ, run_append] at hwhole
  cases P with
  | nil => exact absurd rfl hne
  | cons c1 P1 =>
    have hc1 : c1 = c := by
      rw [hb] at hQ; simp only [List.cons_append, List.cons.injEq] at hQ; exact hQ.1
    subst hc1
    rw [top_number _ _ _ _ hc] at hwhole
    rw [lex_start0 _ _ h, top_number _ _ _ _ hc]
    cases hr : run yajl_lex_lex_step (.num .e1) (numCtx (ctx0 lexer 0) .integer) (c1 :: P1) 0 with
    | suspended pc1 x1 off1 =>
      have hoff := run_suspended_offset _ _ _ _ _ _ _ _ hr
      obtain ⟨⟨p1, rfl⟩, h1, h2, h3, h4⟩ := num_run_suspended _ _ _ _ _ _ _ hr
      simp only [Nat.zero_add] at hoff
      subst hoff
      simp only [lex_finish, lexed_eof]
      refine ⟨_, rfl, rfl, ?_, ?_, rfl⟩
      · simp only [yajl_lex_lex_susp, yajl_lex_number_susp, h4]; rfl
      · simp only [yajl_lex_lex_susp, yajl_lex_number_susp, h3, h1, numCtx, ctx0]
        simp
    | done tok x1 off1 => rw [hr] at hwhole; simp [Run.andThen] at hwhole
    | fault => rw [hr] at hwhole; simp [Run.andThen] at hwhole

theorem number_eof_witness :
    ∃ r, yajl_lex_lex (yajl_lex_alloc false true) [0x31, 0x2e, 0x35, 0x65] 0 = some r ∧
      r.tok = .eof ∧ r.lexer.state = .number ∧ r.lexer.buf = [0x31, 0x2e, 0x35, 0x65] ∧
      r.offset = 4 :=
  number_eof (yajl_lex_alloc false true) rfl
    { minus := false, int := [0x31], frac := some [0x35],
      exp := some { marker := 0x65, sign := none, digits := [0x30] } }
    (by simp [JsonNumber.wf, intPartOk, fracPartOk, expPartOk, allDigits, isDigit])
    [0x31, 0x2e, 0x35, 0x65] ⟨[0x30], by simp [JsonNumber.bytes, fracBytes, expBytes]⟩
    (by simp)

/-! ## C6: missing digits -/

theorem endPC_plain (n : JsonNumber) (hf : n.frac = none) (he : n.exp = none) :
    (n.endPC = .e3 ∨ n.endPC = .e4) ∧ n.endTok = .integer := by
  obtain ⟨minus, int, frac, exp⟩ := n
  simp only at hf he
  subst hf he
  simp only [JsonNumber.endPC, JsonNumber.endTok]
  split_ifs <;> simp

theorem endPC_noexp (n : JsonNumber) (he : n.exp = none) :
    (n.endPC = .e3 ∨ n.endPC = .e4 ∨ n.endPC = .e6) ∧ n.endTok = .integer := by
  obtain ⟨minus, int, frac, exp⟩ := n
  simp only at he
  subst he
  cases frac <;> simp only [JsonNumber.endPC, JsonNumber.endTok]
  · split_ifs <;> simp
  · simp

theorem done_error (x : LexCtx) (jsonText : List Nat) (off : Nat) (code : yajl_lex_error)
    (hx : x.lexer.error = code) :
    ∃ r, lex_finish jsonText (.done .error x off) = some r ∧ r.tok = .error ∧
      r.lexer.error = code ∧ r.offset = off := by
  obtain ⟨r, h1, h2, h3, h4, _⟩ := lexed_error x jsonText off
  exact ⟨r, h1, h2, h3.trans hx, h4⟩

/-- C6. `yajl_lex_number` reports a specific error for each missing digit: a `-`
followed by a non-digit gives `missing_integer_after_minus`; the `.` after an integer
part followed by a non-digit gives `missing_integer_after_decimal`; an `e` or `E` after a
number text without exponent, with an optional sign, followed by a non-digit (that is
not itself the sign) gives `missing_integer_after_exponent`.  The token is `error`, not a
number, and the offset is at the offending byte. -/
theorem number_missing_digit (lexer : yajl_lexer_t) (h : lexer.state = .start) (x : Nat)
    (hx : isDigit x = false) (rest : List Nat) :
    (∃ r, yajl_lex_lex lexer (0x2d :: x :: rest) 0 = some r ∧ r.tok = .error ∧
      r.lexer.error = .missing_integer_after_minus ∧ r.offset = 1) ∧
    (∀ n : JsonNumber, n.wf → n.frac = none → n.exp = none →
      ∃ r, yajl_lex_lex lexer (n.bytes ++ 0x2e :: x :: rest) 0 = some r ∧ r.tok = .error ∧
        r.lexer.error = .missing_integer_after_decimal ∧ r.offset = n.bytes.length + 1) ∧
    (∀ (n : JsonNumber) (m : Nat) (sign : Option Nat), n.wf → n.exp = none →
      (m = 0x65 ∨ m = 0x45) → (∀ s, sign = some s → s = 0x2b ∨ s = 0x2d) →
      (sign = none → x ≠ 0x2b ∧ x ≠ 0x2d) →
      ∃ r, yajl_lex_lex lexer (n.bytes ++ m :: (sign.toList ++ x :: rest)) 0 = some r ∧
        r.tok = .error ∧ r.lexer.error = .missing_integer_after_exponent ∧
        r.offset = n.bytes.length + 1 + sign.toList.length) := by
  have hx' : ¬ (0x31 ≤ x ∧ x ≤ 0x39) := by
    intro hh
    have := (isDigit_iff x).2 ⟨by omega, hh.2⟩
    rw [hx] at this; cases this
  have hx0 : x ≠ 0x30 := by
    intro hh; subst hh; revert hx; decide
  have hxr : x < 0x30 ∨ x > 0x39 := by
    by_contra hc
    have := (isDigit_iff x).2 ⟨by omega, by omega⟩
    rw [hx] at this; cases this
  refine ⟨?_, ?_, ?_⟩
  · rw [lex_start0 _ _ h, top_number _ _ _ _ (Or.inl rfl)]
    have : run yajl_lex_lex_step (.num .e1) (numCtx (ctx0 lexer 0) .integer)
        (0x2d :: x :: rest) 0 = .done .error
          { numCtx (ctx0 lexer 0) .integer with
            lexer := { (numCtx (ctx0 lexer 0) .integer).lexer with
              error := .missing_integer_after_minus } } 1 := by
      simp [num_step, yajl_lex_number_step, number_integer, hx', hx0, liftStep, Step.cont]
    rw [this]
    exact done_error _ _ _ _ rfl
  · intro n hn hf he
    obtain ⟨hpc, htok⟩ := endPC_plain n hf he
    rw [lex_start0 _ _ h, run_number n hn, htok]
    have : run yajl_lex_lex_step (.num n.endPC) (numCtx (ctx0 lexer 0) .integer)
        (0x2e :: x :: rest) (0 + n.bytes.length) = .done .error
          { numCtx (ctx0 lexer 0) .integer with
            lexer := { (numCtx (ctx0 lexer 0) .integer).lexer with
              error := .missing_integer_after_decimal } } (n.bytes.length + 1) := by
      rcases hpc with hpc | hpc <;> rw [hpc] <;>
      simp [num_step, yajl_lex_number_step, number_fraction, isDigit, hxr, liftStep, Step.cont]
    rw [this]
    exact done_error _ _ _ _ rfl
  · intro n m sign hn he hm hsg hxs
    obtain ⟨hpc, htok⟩ := endPC_noexp n he
    rw [lex_start0 _ _ h, run_number n hn, htok, num_exp_marker _ hpc _ hm]
    have hd : ∀ l : yajl_lexer_t, number_exponent_digits l x =
        .ret .error { l with error := .missing_integer_after_exponent } 1 := by
      intro l; simp [number_exponent_digits, hx]
    have : ∀ tok, run yajl_lex_lex_step (.num .e7) (numCtx (ctx0 lexer 0) tok)
        (sign.toList ++ x :: rest) (0 + n.bytes.length + 1) = .done .error
          { numCtx (ctx0 lexer 0) tok with
            lexer := { (numCtx (ctx0 lexer 0) tok).lexer with
              error := .missing_integer_after_exponent } }
          (n.bytes.length + 1 + sign.toList.length) := by
      intro tok
      cases sign with
      | none =>
        have := hxs rfl
        simp [num_step, yajl_lex_number_step, hd, this.1, this.2, liftStep, Step.cont]
      | some s =>
        have := hsg s rfl
        simp [num_step, yajl_lex_number_step, hd, this, liftStep, Step.cont]
    rw [this]
    exact done_error _ _ _ _ rfl

theorem number_missing_digit_witness :
    ∃ r, yajl_lex_lex (yajl_lex_alloc false true) [0x31, 0x45, 0x2b, 0x2c] 0 = some r ∧
      r.tok = .error ∧ r.lexer.error = .missing_integer_after_exponent ∧ r.offset = 3 :=
  (number_missing_digit (yajl_lex_alloc false true) rfl 0x2c (by decide) []).2.2
    { minus := false, int := [0x31], frac := none, exp := none } 0x45 (some 0x2b)
    (by simp [JsonNumber.wf, intPartOk, fracPartOk, expPartOk, allDigits]) rfl
    (Or.inr rfl) (by simp) (by simp)

/-! ## Strings: facts about the character table -/

set_option maxRecDepth 100000 in
theorem charLookupTable_length : charLookupTable.length = 256 := by rfl

theorem hasFlag_large (c bit : Nat) (hc : 256 ≤ c) : hasFlag c bit = false := by
  unfold hasFlag
  rw [List.getD_eq_default _ _ (by rw [charLookupTable_length]; exact hc)]
  simp

set_option maxRecDepth 100000 in
theorem table_plain_ascii : ∀ c < 128, 0x20 ≤ c → c ≠ 0x22 → c ≠ 0x5c →
    hasFlag c (scanMask true) = false ∧ hasFlag c (scanMask false) = false := by
  decide

set_option maxRecDepth 100000 in
theorem table_plain_high : ∀ c < 256, 0x80 ≤ c → hasFlag c (scanMask false) = false := by
  decide

set_option maxRecDepth 100000 in
theorem table_control : ∀ c < 0x20,
    hasFlag c (scanMask true) = true ∧ hasFlag c (scanMask false) = true ∧
    hasFlag c IJC = true := by
  decide

set_option maxRecDepth 100000 in
theorem table_high : ∀ c < 256, 0x80 ≤ c →
    hasFlag c (scanMask true) = true ∧ hasFlag c IJC = false := by
  decide

set_option maxRecDepth 100000 in
theorem table_escape : ∀ c < 256, hasFlag c VEC = true ↔ validEscape c := by
  unfold validEscape
  decide

set_option maxRecDepth 100000 in
theorem table_hex : ∀ c < 256, hasFlag c VHC = true ↔ isHex c := by
  unfold isHex
  decide

theorem hasFlag_plain (c : Nat) (v : Bool) (h : StrItem.ok v (.plain c)) :
    hasFlag c (scanMask v) = false := by
  obtain ⟨h1, h2, h3, h4⟩ := h
  by_cases hc : c < 256
  · cases v with
    | true => exact (table_plain_ascii c (by have := h4 rfl; omega) h1 h2 h3).1
    | false =>
      by_cases hc2 : c < 128
      · exact (table_plain_ascii c hc2 h1 h2 h3).2
      · exact table_plain_high c hc (by omega)
  · exact hasFlag_large c _ (by omega)

theorem hasFlag_escape (c : Nat) (h : validEscape c) : hasFlag c VEC = true := by
  have hc : c < 256 := by unfold validEscape at h; omega
  exact (table_escape c hc).2 h

theorem hasFlag_escape_iff (c : Nat) : hasFlag c VEC = true ↔ validEscape c := by
  by_cases hc : c < 256
  · exact table_escape c hc
  · rw [hasFlag_large c _ (by omega)]
    unfold validEscape
    constructor
    · intro h; cases h
    · intro h; omega

theorem hasFlag_hex_iff (c : Nat) : hasFlag c VHC = true ↔ isHex c := by
  by_cases hc : c < 256
  · exact table_hex c hc
  · rw [hasFlag_large c _ (by omega)]
    unfold isHex
    constructor
    · intro h; cases h
    · intro h; omega

theorem lead_range (b : Nat) (h : b >>> 5 = 0x6 ∨ b >>> 4 = 0x0e ∨ b >>> 3 = 0x1e) :
    0x80 ≤ b ∧ b < 256 := by
  simp only [Nat.shiftRight_eq_div_pow] at h
  omega

/-! ## Strings: scanning the body -/

theorem str_step (p : StrPC) (x : LexCtx) (c : Nat) (rest : List Nat) (off : Nat) :
    run yajl_lex_lex_step (.str p) x (c :: rest) off =
      (liftStep .str x (yajl_lex_string_step p x.lexer c)).cont
        (fun pc1 s1 => run yajl_lex_lex_step pc1 s1 rest (off + 1)) (off + 1) := rfl

/-- At the head of the main loop a quote is handed to `yajl_lex_string`. -/
theorem top_string (x : LexCtx) (rest : List Nat) (off : Nat) :
    run yajl_lex_lex_step .top x (0x22 :: rest) off =
      run yajl_lex_lex_step (.str .top) (strCtx x) rest (off + 1) := by
  rw [run_cons]
  simp [yajl_lex_lex_step, lex_switch, isSpace, Step.cont, strCtx]


theorem run_item (v : Bool) (i : StrItem) (hi : i.ok v) (x : LexCtx)
    (hv : x.lexer.validateUTF8 = v) (rest : List Nat) (off : Nat) :
    ∃ l1, ItemEffect i x.lexer l1 ∧
      run yajl_lex_lex_step (.str .top) x (i.bytes ++ rest) off =
        run yajl_lex_lex_step (.str .top) { x with lexer := l1 } rest
          (off + i.bytes.length) := by
  cases i with
  | plain c =>
    refine ⟨x.lexer, ⟨rfl, by simp [StrItem.isEscape]⟩, ?_⟩
    have := hasFlag_plain c v hi
    simp [StrItem.bytes, str_step, yajl_lex_string_step, hv, this, liftStep, Step.cont]
  | escape c =>
    have h1 := hasFlag_escape c hi
    have h2 : c ≠ 0x75 := by unfold StrItem.ok validEscape at hi; omega
    refine ⟨{ x.lexer with resultTok := .string_with_escapes },
      ⟨rfl, by simp [StrItem.isEscape]⟩, ?_⟩
    have h3 : hasFlag 0x5c (scanMask x.lexer.validateUTF8) = true := by
      cases x.lexer.validateUTF8 <;> decide
    simp [StrItem.bytes, str_step, yajl_lex_string_step, yajl_lex_string_char, h1, h2, h3,
      liftStep, Step.cont]
  | unicode h1 h2 h3 h4 =>
    obtain ⟨k1, k2, k3, k4⟩ := hi
    have f1 := (hasFlag_hex_iff h1).2 k1
    have f2 := (hasFlag_hex_iff h2).2 k2
    have f3 := (hasFlag_hex_iff h3).2 k3
    have f4 := (hasFlag_hex_iff h4).2 k4
    have h3 : hasFlag 0x5c (scanMask x.lexer.validateUTF8) = true := by
      cases x.lexer.validateUTF8 <;> decide
    refine ⟨{ x.lexer with resultTok := .string_with_escapes, subsubstate := 4 },
      ⟨rfl, by simp [StrItem.isEscape]⟩, ?_⟩
    simp [StrItem.bytes, str_step, yajl_lex_string_step, yajl_lex_string_char, f1, f2, f3,
      f4, h3, liftStep, Step.cont, uintSucc]
  | utf8_2 b0 b1 =>
    obtain ⟨hv1, h5, hc1⟩ := hi
    subst hv1
    obtain ⟨r1, r2⟩ := lead_range b0 (Or.inl h5)
    obtain ⟨t1, t2⟩ := table_high b0 r2 r1
    have n1 : ¬ b0 ≤ 0x7f := by omega
    have n2 : b0 ≠ 0x22 := by omega
    have n3 : b0 ≠ 0x5c := by omega
    unfold isCont at hc1
    refine ⟨{ x.lexer with substate := 4, subsubstate := 0 },
      ⟨rfl, by simp [StrItem.isEscape]⟩, ?_⟩
    simp [StrItem.bytes, str_step, yajl_lex_string_step, yajl_lex_string_char,
      yajl_lex_utf8_char_lead, yajl_lex_utf8_char_step, string_of_utf8, hv, t1, t2, n1, n2,
      n3, h5, hc1, liftStep, Step.cont]
  | utf8_3 b0 b1 b2 =>
    obtain ⟨hv1, h4, hc1, hc2⟩ := hi
    subst hv1
    obtain ⟨r1, r2⟩ := lead_range b0 (Or.inr (Or.inl h4))
    obtain ⟨t1, t2⟩ := table_high b0 r2 r1
    have n1 : ¬ b0 ≤ 0x7f := by omega
    have n2 : b0 ≠ 0x22 := by omega
    have n3 : b0 ≠ 0x5c := by omega
    have n5 : ¬ b0 >>> 5 = 0x6 := by
      simp only [Nat.shiftRight_eq_div_pow] at h4 ⊢; omega
    unfold isCont at hc1 hc2
    refine ⟨{ x.lexer with substate := 4, subsubstate := 0 },
      ⟨rfl, by simp [StrItem.isEscape]⟩, ?_⟩
    simp [StrItem.bytes, str_step, yajl_lex_string_step, yajl_lex_string_char,
      yajl_lex_utf8_char_lead, yajl_lex_utf8_char_step, string_of_utf8, hv, t1, t2, n1, n2,
      n3, n5, h4, hc1, hc2, liftStep, Step.cont]
  | utf8_4 b0 b1 b2 b3 =>
    obtain ⟨hv1, h3, hc1, hc2, hc3⟩ := hi
    subst hv1
    obtain ⟨r1, r2⟩ := lead_range b0 (Or.inr (Or.inr h3))
    obtain ⟨t1, t2⟩ := table_high b0 r2 r1
    have n1 : ¬ b0 ≤ 0x7f := by omega
    have n2 : b0 ≠ 0x22 := by omega
    have n3 : b0 ≠ 0x5c := by omega
    have n5 : ¬ b0 >>> 5 = 0x6 := by
      simp only [Nat.shiftRight_eq_div_pow] at h3 ⊢; omega
    have n4 : ¬ b0 >>> 4 = 0x0e := by
      simp only [Nat.shiftRight_eq_div_pow] at h3 ⊢; omega
    unfold isCont at hc1 hc2 hc3
    refine ⟨{ x.lexer with substate := 4, subsubstate := 0 },
      ⟨rfl, by simp [StrItem.isEscape]⟩, ?_⟩
    simp [StrItem.bytes, str_step, yajl_lex_string_step, yajl_lex_string_char,
      yajl_lex_utf8_char_lead, yajl_lex_utf8_char_step, string_of_utf8, hv, t1, t2, n1, n2,
      n3, n5, n4, h3, hc1, hc2, hc3, liftStep, Step.cont]

/-- Scanning a well-formed body leaves `yajl_lex_string` at the head of its loop with the
body consumed; `resultTok` tells whether a backslash occurred. -/
theorem run_body (v : Bool) (items : List StrItem) : ∀ (x : LexCtx), bodyOk v items →
    x.lexer.validateUTF8 = v → ∀ (rest : List Nat) (off : Nat),
    ∃ l1, l1.validateUTF8 = v ∧
      l1.resultTok = (if items.any StrItem.isEscape then .string_with_escapes
        else x.lexer.resultTok) ∧
      run yajl_lex_lex_step (.str .top) x (bodyBytes items ++ rest) off =
        run yajl_lex_lex_step (.str .top) { x with lexer := l1 } rest
          (off + (bodyBytes items).length) := by
  induction items with
  | nil =>
    intro x _ hv rest off
    exact ⟨x.lexer, hv, by simp, by simp [bodyBytes]⟩
  | cons i items ih =>
    intro x hok hv rest off
    have hi : i.ok v := hok i (List.mem_cons_self _ _)
    have hrest : bodyOk v items := fun j hj => hok j (List.mem_cons_of_mem _ hj)
    obtain ⟨l1, ⟨e1, e2⟩, hrun1⟩ := run_item v i hi x hv (bodyBytes items ++ rest) off
    obtain ⟨l2, f1, f2, hrun2⟩ := ih { x with lexer := l1 } hrest (e1.trans hv) rest
      (off + i.bytes.length)
    refine ⟨l2, f1, ?_, ?_⟩
    · rw [f2]
      simp only [e2, List.any_cons]
      by_cases h1 : i.isEscape = true <;> by_cases h2 : items.any StrItem.isEscape = true <;>
        simp [h1, h2]
    · simp only [bodyBytes, List.append_assoc, List.length_append]
      rw [hrun1, hrun2]
      congr 1; omega

/-- The call on a quote followed by a well-formed body: the scan is at the head of the
loop of `yajl_lex_string` behind the body. -/
theorem lex_string_body (lexer : yajl_lexer_t) (h : lexer.state = .start)
    (items : List StrItem) (hok : bodyOk lexer.validateUTF8 items) (tail : List Nat) :
    ∃ l1, l1.validateUTF8 = lexer.validateUTF8 ∧ l1.resultTok = bodyTok items ∧
      yajl_lex_lex lexer (0x22 :: (bodyBytes items ++ tail)) 0 =
        lex_finish (0x22 :: (bodyBytes items ++ tail))
          (run yajl_lex_lex_step (.str .top)
            { lexer := l1, startOffset := 0, entryState := .start } tail
            (1 + (bodyBytes items).length)) := by
  obtain ⟨l1, h1, h2, h3⟩ := run_body lexer.validateUTF8 items (strCtx (ctx0 lexer 0)) hok rfl
    tail (0 + 1)
  refine ⟨l1, h1, ?_, ?_⟩
  · rw [h2]; rfl
  · rw [lex_start0 _ _ h, top_string, h3]
    simp only [strCtx, ctx0, Nat.zero_add]

theorem hasFlag_quote (v : Bool) :
    hasFlag 0x22 (scanMask v) = true ∧ hasFlag 0x5c (scanMask v) = true := by
  cases v <;> decide

theorem bodyTok_cases (items : List StrItem) :
    bodyTok items = .string ∨ bodyTok items = .string_with_escapes := by
  unfold bodyTok; split_ifs <;> simp

/-- The body contains a backslash exactly when one of its items is an escape. -/
theorem backslash_mem_body (v : Bool) (items : List StrItem) (hok : bodyOk v items) :
    0x5c ∈ bodyBytes items ↔ items.any StrItem.isEscape = true := by
  induction items with
  | nil => simp [bodyBytes]
  | cons i items ih =>
    have hi : i.ok v := hok i (List.mem_cons_self _ _)
    have hrest : bodyOk v items := fun j hj => hok j (List.mem_cons_of_mem _ hj)
    have key : 0x5c ∈ i.bytes ↔ i.isEscape = true := by
      cases i with
      | plain c =>
        have := hi.2.2.1
        simp [StrItem.bytes, StrItem.isEscape, Ne.symm this]
      | escape c => simp [StrItem.bytes, StrItem.isEscape]
      | unicode h1 h2 h3 h4 => simp [StrItem.bytes, StrItem.isEscape]
      | utf8_2 b0 b1 =>
        obtain ⟨-, h5, hc1⟩ := hi
        have := lead_range b0 (Or.inl h5)
        unfold isCont at hc1
        simp only [Nat.shiftRight_eq_div_pow] at hc1
        simp only [StrItem.bytes, StrItem.isEscape, List.mem_cons, List.mem_singleton,
          List.not_mem_nil, or_false]
        constructor
        · intro hh; omega
        · intro hh; cases hh
      | utf8_3 b0 b1 b2 =>
        obtain ⟨-, h5, hc1, hc2⟩ := hi
        have := lead_range b0 (Or.inr (Or.inl h5))
        unfold isCont at hc1 hc2
        simp only [Nat.shiftRight_eq_div_pow] at hc1 hc2
        simp only [StrItem.bytes, StrItem.isEscape, List.mem_cons, List.mem_singleton,
          List.not_mem_nil, or_false]
        constructor
        · intro hh; omega
        · intro hh; cases hh
      | utf8_4 b0 b1 b2 b3 =>
        obtain ⟨-, h5, hc1, hc2, hc3⟩ := hi
        have := lead_range b0 (Or.inr (Or.inr h5))
        unfold isCont at hc1 hc2 hc3
        simp only [Nat.shiftRight_eq_div_pow] at hc1 hc2 hc3
        simp only [StrItem.bytes, StrItem.isEscape, List.mem_cons, List.mem_singleton,
          List.not_mem_nil, or_false]
        constructor
        · intro hh; omega
        · intro hh; cases hh
    simp only [bodyBytes, List.mem_append, key, ih hrest, List.any_cons, Bool.or_eq_true]

/-- A backslash followed by a byte that is neither a valid escape character nor `u`. -/
theorem run_bad_escape (x : LexCtx) (c : Nat) (hc : ¬ validEscape c) (hu : c ≠ 0x75)
    (rest : List Nat) (off : Nat) :
    run yajl_lex_lex_step (.str .top) x (0x5c :: c :: rest) off =
      .done .error { x with lexer := { x.lexer with
        resultTok := .string_with_escapes, error := .string_invalid_escaped_char } }
        (off + 1) := by
  have h1 : hasFlag c VEC = false := by
    cases hf : hasFlag c VEC
    · rfl
    · exact absurd ((hasFlag_escape_iff c).1 hf) hc
  have h3 := (hasFlag_quote x.lexer.validateUTF8).2
  simp [str_step, yajl_lex_string_step, yajl_lex_string_char, h1, hu, h3, liftStep, Step.cont]

/-- A `\u` followed by fewer than four hexadecimal digits and then another byte. -/
theorem run_bad_hex (x : LexCtx) (hs : List Nat) (hlen : hs.length < 4)
    (hhex : ∀ d ∈ hs, isHex d) (c : Nat) (hc : ¬ isHex c) (rest : List Nat) (off : Nat) :
    run yajl_lex_lex_step (.str .top) x (0x5c :: 0x75 :: (hs ++ c :: rest)) off =
      .done .error { x with lexer := { x.lexer with
        resultTok := .string_with_escapes, subsubstate := hs.length,
        error := .string_invalid_hex_char } } (off + 2 + hs.length) := by
  have h1 : hasFlag c VHC = false := by
    cases hf : hasFlag c VHC
    · rfl
    · exact absurd ((hasFlag_hex_iff c).1 hf) hc
  have h3 := (hasFlag_quote x.lexer.validateUTF8).2
  have hx : ∀ d ∈ hs, hasFlag d VHC = true := fun d hd => (hasFlag_hex_iff d).2 (hhex d hd)
  rcases hs with _ | ⟨a, _ | ⟨b, _ | ⟨d, _ | ⟨e, tl⟩⟩⟩⟩
  · simp [str_step, yajl_lex_string_step, yajl_lex_string_char, h1, h3, liftStep, Step.cont]
  · have ha := hx a (by simp)
    simp [str_step, yajl_lex_string_step, yajl_lex_string_char, h1, h3, ha, liftStep,
      Step.cont, uintSucc]
  · have ha := hx a (by simp)
    have hb := hx b (by simp)
    simp [str_step, yajl_lex_string_step, yajl_lex_string_char, h1, h3, ha, hb, liftStep,
      Step.cont, uintSucc]
  · have ha := hx a (by simp)
    have hb := hx b (by simp)
    have hd := hx d (by simp)
    simp [str_step, yajl_lex_string_step, yajl_lex_string_char, h1, h3, ha, hb, hd, liftStep,
      Step.cont, uintSucc]
  · simp only [List.length_cons] at hlen; omega

/-! ## C8: string tokens -/

/-- C8. For every well-formed string literal (opening quote, body of permitted bytes and
valid escapes, closing quote) `yajl_lex_lex` returns `string` when the body contains no
backslash and `string_with_escapes` when it contains one, the payload being the body
inside the quotes.  An escape is accepted exactly when it is valid: a backslash followed
by a byte that is neither one of `" \ / b f n r t` nor `u`, and a `\u` not followed by
four hexadecimal digits, give `error` instead of a string token. -/
theorem string_token (lexer : yajl_lexer_t) (h : lexer.state = .start)
    (items : List StrItem) (hok : bodyOk lexer.validateUTF8 items) (rest : List Nat) :
    (∃ r, yajl_lex_lex lexer (0x22 :: (bodyBytes items ++ 0x22 :: rest)) 0 = some r ∧
      r.tok = (if 0x5c ∈ bodyBytes items then .string_with_escapes else .string) ∧
      r.outBuf = .text 1 ∧ r.outLen = (bodyBytes items).length ∧
      r.payload (0x22 :: (bodyBytes items ++ 0x22 :: rest)) = bodyBytes items ∧
      r.offset = (bodyBytes items).length + 2) ∧
    (∀ c, ¬ validEscape c → c ≠ 0x75 →
      ∃ r, yajl_lex_lex lexer (0x22 :: (bodyBytes items ++ 0x5c :: c :: rest)) 0 = some r ∧
        r.tok = .error) ∧
    (∀ hs c, hs.length < 4 → (∀ d ∈ hs, isHex d) → ¬ isHex c →
      ∃ r, yajl_lex_lex lexer
          (0x22 :: (bodyBytes items ++ 0x5c :: 0x75 :: (hs ++ c :: rest))) 0 = some r ∧
        r.tok = .error) := by
  refine ⟨?_, ?_, ?_⟩
  · obtain ⟨l1, h1, h2, h3⟩ := lex_string_body lexer h items hok (0x22 :: rest)
    have hq := (hasFlag_quote l1.validateUTF8).1
    have htok : bodyTok items =
        (if 0x5c ∈ bodyBytes items then .string_with_escapes else .string) := by
      unfold bodyTok
      by_cases hb : items.any StrItem.isEscape = true
      · rw [if_pos hb, if_pos ((backslash_mem_body _ items hok).2 hb)]
      · rw [if_neg hb, if_neg (fun hm => hb ((backslash_mem_body _ items hok).1 hm))]
    rw [h3, ← htok]
    rcases bodyTok_cases items with ht | ht <;>
    · rw [ht] at h2
      simp [str_step, yajl_lex_string_step, yajl_lex_string_char, hq, h2, liftStep, Step.cont,
        lex_finish, lexed, skip_quotes, LexOut.payload, ht]
      omega
  · intro c hc hu
    obtain ⟨l1, h1, h2, h3⟩ := lex_string_body lexer h items hok (0x5c :: c :: rest)
    rw [h3, run_bad_escape _ c hc hu]
    obtain ⟨r, k1, k2, _⟩ := done_error _ _ _ _ rfl
    exact ⟨r, k1, k2⟩
  · intro hs c hlen hhex hc
    obtain ⟨l1, h1, h2, h3⟩ := lex_string_body lexer h items hok
      (0x5c :: 0x75 :: (hs ++ c :: rest))
    rw [h3, run_bad_hex _ hs hlen hhex c hc]
    obtain ⟨r, k1, k2, _⟩ := done_error _ _ _ _ rfl
    exact ⟨r, k1, k2⟩

theorem string_token_witness :
    ∃ r, yajl_lex_lex (yajl_lex_alloc false true)
        [0x22, 0x61, 0x5c, 0x6e, 0xc3, 0xa9, 0x22, 0x2c] 0 = some r ∧
      r.tok = .string_with_escapes ∧ r.outBuf = .text 1 ∧ r.outLen = 5 ∧
      r.payload [0x22, 0x61, 0x5c, 0x6e, 0xc3, 0xa9, 0x22, 0x2c] = [0x61, 0x5c, 0x6e, 0xc3, 0xa9] ∧
      r.offset = 7 := by
  have hw := (string_token (yajl_lex_alloc false true) rfl
    [.plain 0x61, .escape 0x6e, .utf8_2 0xc3 0xa9]
    (by
      intro i hi
      simp only [List.mem_cons, List.mem_singleton, List.not_mem_nil, or_false] at hi
      rcases hi with rfl | rfl | rfl
      · simp [StrItem.ok, yajl_lex_alloc]
      · simp [StrItem.ok, validEscape]
      · simp [StrItem.ok, isCont, yajl_lex_alloc, Nat.shiftRight_eq_div_pow])
    [0x2c]).1
  simpa [bodyBytes, StrItem.bytes] using hw

/-! ## C9: control bytes inside a string -/

/-- C9. For every string literal whose body, after well-formed items, contains a raw
control byte (0x00-0x1F), `yajl_lex_lex` returns `error` with code
`string_invalid_json_char` and the final offset at that control byte, whatever the
`validateUTF8` flag of the lexer. -/
theorem string_control_byte (lexer : yajl_lexer_t) (h : lexer.state = .start)
    (items : List StrItem) (hok : bodyOk lexer.validateUTF8 items) (c : Nat) (hc : c < 0x20)
    (rest : List Nat) :
    ∃ r, yajl_lex_lex lexer (0x22 :: (bodyBytes items ++ c :: rest)) 0 = some r ∧
      r.tok = .error ∧ r.lexer.error = .string_invalid_json_char ∧
      r.offset = 1 + (bodyBytes items).length := by
  obtain ⟨l1, h1, h2, h3⟩ := lex_string_body lexer h items hok (c :: rest)
  obtain ⟨t1, t2, t3⟩ := table_control c hc
  have hm : hasFlag c (scanMask l1.validateUTF8) = true := by
    cases l1.validateUTF8
    · exact t2
    · exact t1
  have n1 : c ≠ 0x22 := by omega
  have n2 : c ≠ 0x5c := by omega
  have hrun : run yajl_lex_lex_step (.str .top)
      { lexer := l1, startOffset := 0, entryState := .start } (c :: rest)
      (1 + (bodyBytes items).length) =
      .done .error (LexCtx.mk { l1 with error := .string_invalid_json_char } 0 .start)
        (1 + (bodyBytes items).length) := by
    simp [str_step, yajl_lex_string_step, yajl_lex_string_char, hm, t3, n1, n2, liftStep,
      Step.cont]
  rw [h3, hrun]
  exact done_error _ _ _ _ rfl

theorem string_control_byte_witness :
    ∃ r, yajl_lex_lex (yajl_lex_alloc false false) [0x22, 0x61, 0x0a, 0x22] 0 = some r ∧
      r.tok = .error ∧ r.lexer.error = .string_invalid_json_char ∧ r.offset = 2 := by
  have hw := string_control_byte (yajl_lex_alloc false false) rfl [.plain 0x61]
    (by
      intro i hi
      simp only [List.mem_singleton] at hi
      subst hi
      simp [StrItem.ok, yajl_lex_alloc])
    0x0a (by decide) [0x22]
  simpa [bodyBytes, StrItem.bytes] using hw

/-! ## C10: invalid escapes -/

/-- C10. Inside a string, after well-formed items, a backslash followed by a byte that
is neither a valid escape character nor `u` yields `error` with code
`string_invalid_escaped_char`, and a `\u` followed within its next four bytes by a
non-hexadecimal byte yields `error` with code `string_invalid_hex_char`; in both cases
the final offset is at the offending byte. -/
theorem string_invalid_escape (lexer : yajl_lexer_t) (h : lexer.state = .start)
    (items : List StrItem) (hok : bodyOk lexer.validateUTF8 items) (rest : List Nat) :
    (∀ c, ¬ validEscape c → c ≠ 0x75 →
      ∃ r, yajl_lex_lex lexer (0x22 :: (bodyBytes items ++ 0x5c :: c :: rest)) 0 = some r ∧
        r.tok = .error ∧ r.lexer.error = .string_invalid_escaped_char ∧
        r.offset = 1 + (bodyBytes items).length + 1) ∧
    (∀ hs c, hs.length < 4 → (∀ d ∈ hs, isHex d) → ¬ isHex c →
      ∃ r, yajl_lex_lex lexer
          (0x22 :: (bodyBytes items ++ 0x5c :: 0x75 :: (hs ++ c :: rest))) 0 = some r ∧
        r.tok = .error ∧ r.lexer.error = .string_invalid_hex_char ∧
        r.offset = 1 + (bodyBytes items).length + 2 + hs.length) := by
  refine ⟨?_, ?_⟩
  · intro c hc hu
    obtain ⟨l1, h1, h2, h3⟩ := lex_string_body lexer h items hok (0x5c :: c :: rest)
    rw [h3, run_bad_escape _ c hc hu]
    exact done_error _ _ _ _ rfl
  · intro hs c hlen hhex hc
    obtain ⟨l1, h1, h2, h3⟩ := lex_string_body lexer h items hok
      (0x5c :: 0x75 :: (hs ++ c :: rest))
    rw [h3, run_bad_hex _ hs hlen hhex c hc]
    exact done_error _ _ _ _ rfl

theorem string_invalid_escape_witness :
    ∃ r, yajl_lex_lex (yajl_lex_alloc false true)
        [0x22, 0x61, 0x5c, 0x75, 0x30, 0x41, 0x67, 0x22] 0 = some r ∧
      r.tok = .error ∧ r.lexer.error = .string_invalid_hex_char ∧ r.offset = 6 := by
  have hw := (string_invalid_escape (yajl_lex_alloc false true) rfl [.plain 0x61]
    (by
      intro i hi
      simp only [List.mem_singleton] at hi
      subst hi
      simp [StrItem.ok, yajl_lex_alloc])
    [0x22]).2 [0x30, 0x41] 0x67 (by decide)
    (by
      intro d hd
      simp only [List.mem_cons, List.mem_singleton, List.not_mem_nil, or_false] at hd
      rcases hd with rfl | rfl <;> simp [isHex])
    (by simp [isHex])
  simpa [bodyBytes, StrItem.bytes] using hw

/-! ## C2: the payload is a slice of the input -/

theorem not_isSpace_of (c : Nat) (h : c = 0x7b ∨ c = 0x7d ∨ c = 0x5b ∨ c = 0x5d ∨ c = 0x2c ∨
    c = 0x3a ∨ c = 0x74 ∨ c = 0x66 ∨ c = 0x6e ∨ c = 0x22 ∨ c = 0x2d ∨ isDigit c = true) :
    ¬ isSpace c ∧ c ≠ 0x2f := by
  have hd : isDigit c = true → 0x30 ≤ c ∧ c ≤ 0x39 := (isDigit_iff c).1
  unfold isSpace
  by_cases hc : isDigit c = true
  · have := hd hc; omega
  · simp only [hc, Bool.false_eq_true, or_false] at h
    omega

theorem step_frame (pc : LexPC) (x : LexCtx) (c off : Nat) :
    StepFrame pc x c (yajl_lex_lex_step pc x c off) := by
  cases pc with
  | top =>
    simp only [yajl_lex_lex_step]
    apply lex_switch_elim
    case h12 =>
      intro hc
      have hns := not_isSpace_of c (by tauto)
      cases hs : yajl_lex_number_step .e1
          { x.lexer with state := .number, substate := 0, resultTok := .integer } c with
      | next p l =>
        simp [liftStep, StepFrame, LexPC.state, hns]
      | ret tok l u =>
        simp only [yajl_lex_number_step, number_integer] at hs
        split_ifs at hs
        simp only [Step.ret.injEq] at hs
        simp [liftStep, StepFrame, LexPC.state, ← hs.1]
      | fault => simp [liftStep, StepFrame]
    case h7 => intro hc; simp [StepFrame, LexPC.state, hc]
    case h13 => intro _ _; simp [StepFrame, LexPC.state]
    case h14 => intro _ _; simp [StepFrame, LexPC.state]
    case h15 => intro h1 h2; simp [StepFrame, LexPC.state]
    all_goals
      intro hc
      have hns := not_isSpace_of c (by simp [hc])
      simp [StepFrame, LexPC.state, hns]
  | expect =>
    simp only [yajl_lex_lex_step, lex_expect]
    cases expect.get? x.lexer.substate with
    | none => trivial
    | some e =>
      simp only
      split_ifs
      · simp [StepFrame, LexPC.state]
      · cases expect.get? (uintSucc x.lexer.substate) with
        | none => trivial
        | some e1 =>
          simp only
          split_ifs <;> simp [StepFrame, LexPC.state]
  | str p =>
    simp only [yajl_lex_lex_step]
    cases yajl_lex_string_step p x.lexer c <;> simp [liftStep, StepFrame, LexPC.state]
  | num p =>
    simp only [yajl_lex_lex_step]
    cases yajl_lex_number_step p x.lexer c <;> simp [liftStep, StepFrame, LexPC.state]
  | com p =>
    simp only [yajl_lex_lex_step]
    cases p <;> simp only [yajl_lex_comment_step] <;> split_ifs <;>
      simp [lex_of_comment, StepFrame, LexPC.state]

/-- A scan that returns a token other than `error` passed the head of the main loop a
last time at the first byte of the token: up to there it only skipped white space and
whole comments, and from there on `startOffset` stayed. -/
theorem run_token_start (rest : List Nat) : ∀ (pc : LexPC) (x : LexCtx) (off : Nat)
    (tok : yajl_tok) (x1 : LexCtx) (off1 : Nat), Inv pc x off →
    run yajl_lex_lex_step pc x rest off = .done tok x1 off1 → tok ≠ .error →
    (pc.state ≠ .start ∧ pc.state ≠ .comment ∧ x1.startOffset = x.startOffset ∧ off ≤ off1) ∨
    (∃ n xs c, n < rest.length ∧
      run yajl_lex_lex_step pc x (rest.take n) off = .suspended .top xs (off + n) ∧
      x1.startOffset = off + n ∧ rest.get? n = some c ∧ ¬ isSpace c ∧ c ≠ 0x2f ∧
      off + n < off1) := by
  induction rest with
  | nil => intro pc x off tok x1 off1 _ h; simp [run] at h
  | cons c rest ih =>
    intro pc x off tok x1 off1 hinv h hne
    have hs := step_inv pc x c off hinv
    have hf := step_frame pc x c (off + 1)
    rw [run_cons] at h
    cases hstep : yajl_lex_lex_step pc x c (off + 1) with
    | next pc2 x2 =>
      rw [hstep] at h hs hf
      simp only [StepInv] at hs
      simp only [StepFrame] at hf
      simp only [Step.cont] at h
      rcases ih pc2 x2 (off + 1) tok x1 off1 hs.1 h hne with
        ⟨d1, d2, d3, d4⟩ | ⟨n, xs, c1, e1, e2, e3, e4, e5, e6, e7⟩
      · by_cases hpc : pc = .top
        · subst hpc
          rcases hf.1 rfl with ⟨k1, _⟩ | k | ⟨_, _, k3, k4, k5⟩
          · rw [k1] at d1; exact absurd rfl d1
          · exact absurd k d2
          · right
            refine ⟨0, x, c, by simp, by simp [run], ?_, by simp, k3, k4, by omega⟩
            rw [d3, k5]; simp [(hinv.top rfl).1]
        · by_cases hcom : pc.state = .comment
          · rcases hf.2.1 hcom with k | k
            · exact absurd k d2
            · rw [k] at d1; exact absurd rfl d1
          · have hst : pc.state ≠ .start := by
              intro hh; apply hpc; cases pc <;> simp [LexPC.state] at hh; rfl
            obtain ⟨k1, k2⟩ := hf.2.2 hst hcom
            left
            exact ⟨hst, hcom, by rw [d3, k2], by omega⟩
      · right
        refine ⟨n + 1, xs, c1, by simp; omega, ?_, by rw [e3]; omega, by simpa using e4, e5, e6,
          by omega⟩
        rw [List.take_succ_cons, run_cons, hstep]
        simp only [Step.cont]
        rw [e2]
        congr 1; omega
    | ret tok2 x2 u =>
      rw [hstep] at h hs hf
      simp only [StepInv] at hs
      simp only [StepFrame] at hf
      simp only [Step.cont, Run.done.injEq] at h
      obtain ⟨rfl, rfl, rfl⟩ := h
      obtain ⟨h1, h2, h3, h4, h5, h6, h7⟩ := hs
      by_cases hpc : pc = .top
      · subst hpc
        obtain ⟨k1, k2, k3⟩ := hf.2 rfl hne
        right
        refine ⟨0, x, c, by simp, by simp [run], ?_, by simp, k1, k2, by omega⟩
        rw [h4]; simp [(hinv.top rfl).1]
      · by_cases hcom : pc.state = .comment
        · exact absurd (hf.1 hcom) hne
        · have hst : pc.state ≠ .start := by
            intro hh; apply hpc; cases pc <;> simp [LexPC.state] at hh; rfl
          left
          exact ⟨hst, hcom, h4, by omega⟩
    | fault => rw [hstep] at h; simp [Step.cont] at h

/-- C2. For a lexer in the start state, whenever `yajl_lex_lex` returns a token other
than `error` and `eof`, there is an offset `s`, the first byte of the token: before `s`
the input holds only white space and whole comments (on the input cut at `s` the lexer
returns `eof` in the start state), the byte at `s` is neither white space nor `/`, and
the payload is the slice of the caller's buffer from `s` to the final offset; for
`string` and `string_with_escapes` the pointer is advanced by 1 and the length reduced
by 2. -/
theorem payload_slice (lexer : yajl_lexer_t) (h : lexer.state = .start)
    (jsonText : List Nat) (offset : Nat) (r : LexOut)
    (hr : yajl_lex_lex lexer jsonText offset = some r) (he : r.tok ≠ .error)
    (hf : r.tok ≠ .eof) :
    ∃ s c, offset ≤ s ∧ s < r.offset ∧ r.offset ≤ jsonText.length ∧
      (∃ r0, yajl_lex_lex lexer (jsonText.take s) offset = some r0 ∧ r0.tok = .eof ∧
        r0.lexer.state = .start) ∧
      jsonText.get? s = some c ∧ ¬ isSpace c ∧ c ≠ 0x2f ∧
      (if r.tok = .string ∨ r.tok = .string_with_escapes then
        r.outBuf = .text (s + 1) ∧ r.outLen + 2 = r.offset - s ∧
        r.payload jsonText = (jsonText.drop (s + 1)).take (r.offset - s - 2)
      else
        r.outBuf = .text s ∧ r.outLen = r.offset - s ∧
        r.payload jsonText = (jsonText.drop s).take (r.offset - s)) := by
  have ho : offset ≤ jsonText.length := by
    by_contra hc
    simp [yajl_lex_lex, lex_entry, h, hc] at hr
  rw [lex_start _ _ _ h ho] at hr
  have hinv0 := inv_ctx0 lexer offset h
  cases hrun : run yajl_lex_lex_step .top (ctx0 lexer offset) (jsonText.drop offset) offset with
  | suspended pc1 x1 off1 =>
    rw [hrun] at hr
    simp only [lex_finish, lexed_eof, Option.some.injEq] at hr
    subst hr
    exact absurd rfl hf
  | fault => rw [hrun] at hr; simp [lex_finish] at hr
  | done tok x1 off1 =>
    rw [hrun] at hr
    simp only [lex_finish] at hr
    obtain ⟨p1, p2, -⟩ := lexed_props _ _ _ _ _ hr
    rw [p1] at he hf
    obtain ⟨-, -, q3, q4, -, q6⟩ := run_inv_done _ _ _ _ _ _ _ hinv0 hrun
    have hes : x1.entryState = .start := q6 rfl
    rcases run_token_start _ _ _ _ _ _ _ hinv0 hrun he with ⟨d1, -⟩ | ⟨n, xs, c, e1, e2, e3, e4, e5, e6, e7⟩
    · exact absurd rfl d1
    · have hlen : (jsonText.drop offset).length = jsonText.length - offset := List.length_drop _ _
      have hinvs := (run_inv_suspended _ _ _ _ _ _ _ hinv0 e2).1
      refine ⟨offset + n, c, by omega, by omega, by omega, ?_, ?_, e5, e6, ?_⟩
      · have hdrop : (jsonText.take (offset + n)).drop offset = (jsonText.drop offset).take n := by
          rw [List.drop_take]; congr 1; omega
        have hle : offset ≤ (jsonText.take (offset + n)).length := by
          rw [List.length_take]; omega
        rw [lex_start _ _ _ h hle, hdrop, e2]
        simp only [lex_finish, lexed_eof, yajl_lex_lex_susp]
        exact ⟨_, rfl, rfl, hinvs.state⟩
      · rw [← e4, List.get?_eq_getElem?, List.get?_eq_getElem?, List.getElem?_drop]
      · unfold lexed at hr
        have hcond : ¬ (tok = .eof ∨ x1.entryState ≠ .start) := by
          intro hh; rcases hh with hh | hh
          · exact hf hh
          · exact hh hes
        rw [if_neg hcond, if_pos he] at hr
        unfold skip_quotes at hr
        simp only at hr
        rw [p1, p2]
        by_cases hstr : tok = .string ∨ tok = .string_with_escapes
        · rw [if_pos hstr] at hr
          rw [if_pos hstr]
          split_ifs at hr with h2
          simp only [Option.some.injEq] at hr
          subst hr
          refine ⟨?_, ?_, ?_⟩
          · simp only [e3]
          · simp only [e3] at h2 ⊢; omega
          · simp only [LexOut.payload, e3]
        · rw [if_neg hstr] at hr
          rw [if_neg hstr]
          simp only [Option.some.injEq] at hr
          subst hr
          refine ⟨?_, ?_, ?_⟩
          · simp only [e3]
          · simp only [e3]
          · simp only [LexOut.payload, e3]

theorem payload_slice_witness :
    ∃ s c, 0 ≤ s ∧ s < 5 ∧ 5 ≤ [0x20, 0x22, 0x61, 0x62, 0x22, 0x5d].length ∧
      (∃ r0, yajl_lex_lex (yajl_lex_alloc false true)
          ([0x20, 0x22, 0x61, 0x62, 0x22, 0x5d].take s) 0 = some r0 ∧ r0.tok = .eof ∧
        r0.lexer.state = .start) ∧
      [0x20, 0x22, 0x61, 0x62, 0x22, 0x5d].get? s = some c ∧ ¬ isSpace c ∧ c ≠ 0x2f ∧
      (if yajl_tok.string = .string ∨ yajl_tok.string = .string_with_escapes then
        OutPtr.text 2 = .text (s + 1) ∧ 2 + 2 = 5 - s ∧
        [0x61, 0x62] = ([0x20, 0x22, 0x61, 0x62, 0x22, 0x5d].drop (s + 1)).take (5 - s - 2)
      else
        OutPtr.text 2 = .text s ∧ 2 = 5 - s ∧
        [0x61, 0x62] = ([0x20, 0x22, 0x61, 0x62, 0x22, 0x5d].drop s).take (5 - s)) :=
  payload_slice (yajl_lex_alloc false true) rfl [0x20, 0x22, 0x61, 0x62, 0x22, 0x5d] 0
    { tok := .string,
      lexer := { yajl_lex_alloc false true with substate := 0, resultTok := .string },
      offset := 5, outBuf := .text 2, outLen := 2 }
    (by decide) (by decide) (by decide)

/-! ## C1: chunking independence -/

/-- The steps of `yajl_lex_number` depend on the lexer through `resultTok` only. -/
theorem number_step_sim (k s1 : Nat) (held : List Nat) (p : NumPC) (x1 x2 : LexCtx)
    (l1 l2 : yajl_lexer_t) (c : Nat)
    (hl : LexRel (.num p) l1 l2) (hx : CtxRel k s1 held x1 x2)
    (hb : x2.entryState ≠ .start → l2.buf = held) :
    StepSim k s1 held (liftStep .num x1 (yajl_lex_number_step p l1 c))
      (liftStep .num x2 (yajl_lex_number_step p l2 c)) := by
  obtain ⟨g1, g2, g3, g4, g5, g6⟩ := hl
  have ht : l1.resultTok = l2.resultTok := g4 (by simp [LexPC.state]) (by simp [LexPC.state])
  have hx' : ∀ (m1 m2 : yajl_lexer_t), m2.buf = l2.buf →
      CtxRel k s1 held { x1 with lexer := m1 } { x2 with lexer := m2 } := by
    intro m1 m2 hm
    obtain ⟨a, b | b⟩ := hx
    · exact ⟨a, Or.inl b⟩
    · exact ⟨a, Or.inr ⟨b.1, b.2.1, b.2.2.1, by simp only; rw [hm]; exact hb b.1⟩⟩
  have hne : l2.resultTok ≠ .eof ∧ l2.resultTok ≠ .error := by
    simp only [GoodTok] at g3
    rcases g3 with h | h <;> simp [h]
  have hsim : ∀ (q : NumPC) (m1 m2 : yajl_lexer_t), m2.buf = l2.buf →
      m1.allowComments = m2.allowComments → m1.validateUTF8 = m2.validateUTF8 →
      m1.resultTok = m2.resultTok → (m2.resultTok = .integer ∨ m2.resultTok = .double) →
      Sim k s1 held (.num q) { x1 with lexer := m1 } { x2 with lexer := m2 } := by
    intro q m1 m2 hm a1 a2 a3 a4
    exact ⟨⟨a1, a2, a4, fun _ _ => a3, by simp, by simp⟩, hx' m1 m2 hm, by simp⟩
  cases p <;>
  simp only [yajl_lex_number_step, number_integer, number_fraction, number_exponent,
    number_exponent_digits] <;>
  split_ifs <;>
  simp only [liftStep] <;>
  first
  | exact ⟨rfl, hsim _ _ _ rfl g1 g2 ht g3⟩
  | exact ⟨rfl, hsim _ _ _ rfl g1 g2 rfl (Or.inr rfl)⟩
  | exact ⟨rfl, rfl, Nat.le_refl _, by simp, fun _ => rfl, hx' _ _ rfl⟩
  | exact ⟨ht, rfl, Nat.le_refl _, by rw [ht]; exact hne.1, fun h => absurd (ht ▸ h) hne.2,
      hx' _ _ rfl⟩
  | exact ⟨rfl, rfl, Nat.le_refl _, by simp, (fun h => by cases h), hx' _ _ rfl⟩

set_option maxRecDepth 100000 in
theorem table_unflagged : ∀ c < 256,
    (hasFlag c (scanMask true) = false → c ≠ 0x22 ∧ c ≠ 0x5c ∧ hasFlag c IJC = false ∧
      c ≤ 0x7f) ∧
    (hasFlag c (scanMask false) = false → c ≠ 0x22 ∧ c ≠ 0x5c ∧ hasFlag c IJC = false) := by
  decide

/-- Building blocks of the simulation inside `yajl_lex_string`. -/
theorem str_sim_next (k s1 : Nat) (held : List Nat) (x1 x2 : LexCtx) (l2 : yajl_lexer_t)
    (hx : CtxRel k s1 held x1 x2) (hb : x2.entryState ≠ .start → l2.buf = held)
    (q : StrPC) (m1 m2 : yajl_lexer_t) (hm : m2.buf = l2.buf)
    (a1 : m1.allowComments = m2.allowComments) (a2 : m1.validateUTF8 = m2.validateUTF8)
    (a3 : m1.resultTok = m2.resultTok)
    (a4 : m2.resultTok = .string ∨ m2.resultTok = .string_with_escapes)
    (a5 : q = .e3 → m1.subsubstate = m2.subsubstate) :
    StepSim k s1 held (liftStep .str x1 (.next q m1)) (liftStep .str x2 (.next q m2)) := by
  refine ⟨rfl, ⟨a1, a2, a4, fun _ _ => a3, by simp, fun h => a5 (by simpa using h)⟩, ?_,
    by simp⟩
  obtain ⟨a, b | b⟩ := hx
  · exact ⟨a, Or.inl b⟩
  · exact ⟨a, Or.inr ⟨b.1, b.2.1, b.2.2.1, by simp only; rw [hm]; exact hb b.1⟩⟩

theorem str_sim_ret (k s1 : Nat) (held : List Nat) (x1 x2 : LexCtx) (l2 : yajl_lexer_t)
    (hx : CtxRel k s1 held x1 x2) (hb : x2.entryState ≠ .start → l2.buf = held)
    (tok : yajl_tok) (u : Nat) (hu : u ≤ 1) (m1 m2 : yajl_lexer_t) (hm : m2.buf = l2.buf)
    (ht : tok ≠ .eof) (he : tok = .error → m1.error = m2.error) :
    StepSim k s1 held (liftStep .str x1 (.ret tok m1 u)) (liftStep .str x2 (.ret tok m2 u)) := by
  refine ⟨rfl, rfl, hu, ht, he, ?_⟩
  obtain ⟨a, b | b⟩ := hx
  · exact ⟨a, Or.inl b⟩
  · exact ⟨a, Or.inr ⟨b.1, b.2.1, b.2.2.1, by simp only; rw [hm]; exact hb b.1⟩⟩

theorem utf8_sim (k s1 : Nat) (held : List Nat) (x1 x2 : LexCtx) (l2 : yajl_lexer_t)
    (hx : CtxRel k s1 held x1 x2) (hb : x2.entryState ≠ .start → l2.buf = held)
    (f : yajl_lexer_t → Step Utf8PC yajl_lexer_t)
    (hf : (∀ m, f m = .ret .string m 0) ∨ (∃ q, ∀ m, f m = .next q m) ∨
      (∀ m, f m = utf8_invalid m))
    (m1 m2 : yajl_lexer_t) (hm : m2.buf = l2.buf)
    (a1 : m1.allowComments = m2.allowComments) (a2 : m1.validateUTF8 = m2.validateUTF8)
    (a3 : m1.resultTok = m2.resultTok)
    (a4 : m2.resultTok = .string ∨ m2.resultTok = .string_with_escapes) :
    StepSim k s1 held (liftStep .str x1 (string_of_utf8 (f m1)))
      (liftStep .str x2 (string_of_utf8 (f m2))) := by
  rcases hf with hf | ⟨q, hf⟩ | hf
  · rw [hf, hf]
    simp only [string_of_utf8, if_true]
    exact str_sim_next k s1 held x1 x2 l2 hx hb .top m1 m2 hm a1 a2 a3 a4 (by simp)
  · rw [hf, hf]
    simp only [string_of_utf8]
    exact str_sim_next k s1 held x1 x2 l2 hx hb (.utf8 q) m1 m2 hm a1 a2 a3 a4 (by simp)
  · rw [hf, hf]
    simp only [utf8_invalid, string_of_utf8, reduceCtorEq, if_false]
    exact str_sim_ret k s1 held x1 x2 l2 hx hb .error 0 (by omega) _ _ hm (by simp)
      (fun _ => rfl)

theorem utf8_lead_shape (c : Nat) :
    (∀ m, yajl_lex_utf8_char_lead m c = .ret .string m 0) ∨
    (∃ q, ∀ m, yajl_lex_utf8_char_lead m c = .next q m) ∨
    (∀ m, yajl_lex_utf8_char_lead m c = utf8_invalid m) := by
  unfold yajl_lex_utf8_char_lead
  split_ifs
  · exact Or.inl (fun _ => rfl)
  · exact Or.inr (Or.inl ⟨_, fun _ => rfl⟩)
  · exact Or.inr (Or.inl ⟨_, fun _ => rfl⟩)
  · exact Or.inr (Or.inl ⟨_, fun _ => rfl⟩)
  · exact Or.inr (Or.inr (fun _ => rfl))

theorem utf8_step_shape (q : Utf8PC) (c : Nat) :
    (∀ m, yajl_lex_utf8_char_step q m c = .ret .string m 0) ∨
    (∃ q1, ∀ m, yajl_lex_utf8_char_step q m c = .next q1 m) ∨
    (∀ m, yajl_lex_utf8_char_step q m c = utf8_invalid m) := by
  cases q <;> simp only [yajl_lex_utf8_char_step] <;> split_ifs <;>
  first
  | exact Or.inl (fun _ => rfl)
  | exact Or.inr (Or.inl ⟨_, fun _ => rfl⟩)
  | exact Or.inr (Or.inr (fun _ => rfl))

theorem string_char_sim (k s1 : Nat) (held : List Nat) (x1 x2 : LexCtx)
    (l1 l2 : yajl_lexer_t) (c : Nat)
    (a1 : l1.allowComments = l2.allowComments) (a2 : l1.validateUTF8 = l2.validateUTF8)
    (a3 : l1.resultTok = l2.resultTok)
    (a4 : l2.resultTok = .string ∨ l2.resultTok = .string_with_escapes)
    (hx : CtxRel k s1 held x1 x2) (hb : x2.entryState ≠ .start → l2.buf = held) :
    StepSim k s1 held (liftStep .str x1 (yajl_lex_string_char l1 c))
      (liftStep .str x2 (yajl_lex_string_char l2 c)) := by
  have hne : l2.resultTok ≠ .eof ∧ l2.resultTok ≠ .error := by
    rcases a4 with h | h <;> simp [h]
  unfold yajl_lex_string_char
  rw [a2, a3]
  split_ifs
  · exact str_sim_ret k s1 held x1 x2 l2 hx hb _ 0 (by omega) l1 l2 rfl hne.1
      (fun h => absurd h hne.2)
  · exact str_sim_next k s1 held x1 x2 l2 hx hb .e2 _ _ rfl a1 rfl rfl (Or.inr rfl) (by simp)
  · exact str_sim_ret k s1 held x1 x2 l2 hx hb .error 1 (by omega) _ _ rfl (by simp)
      (fun _ => rfl)
  · exact utf8_sim k s1 held x1 x2 l2 hx hb (fun m => yajl_lex_utf8_char_lead m c)
      (utf8_lead_shape c) _ _ rfl a1 rfl rfl a4
  · exact str_sim_next k s1 held x1 x2 l2 hx hb .top l1 l2 rfl a1 a2 a3 a4 (by simp)

/-- A byte that the fast scan skips is accepted by the code at `entry_1` as well. -/
theorem string_char_unflagged (l : yajl_lexer_t) (c : Nat) (hc : c < 256)
    (hflag : hasFlag c (scanMask l.validateUTF8) = false) :
    yajl_lex_string_char l c = .next .top l ∨
    yajl_lex_string_char l c = .next .top { l with substate := 4, subsubstate := 0 } := by
  obtain ⟨t1, t2⟩ := table_unflagged c hc
  unfold yajl_lex_string_char
  cases hv : l.validateUTF8 with
  | true =>
    rw [hv] at hflag
    obtain ⟨n1, n2, n3, n4⟩ := t1 hflag
    right
    simp [n1, n2, n3, hv, yajl_lex_utf8_char_lead, n4, string_of_utf8]
  | false =>
    rw [hv] at hflag
    obtain ⟨n1, n2, n3⟩ := t2 hflag
    left
    simp [n1, n2, n3, hv]

theorem string_step_sim (k s1 : Nat) (held : List Nat) (p1 p2 : StrPC)
    (hp : p1 = p2 ∨ (p1 = .top ∧ p2 = .e1)) (x1 x2 : LexCtx) (l1 l2 : yajl_lexer_t) (c : Nat)
    (hc : p1 ≠ p2 → c < 256)
    (hl : LexRel (.str p2) l1 l2) (hx : CtxRel k s1 held x1 x2)
    (hb : x2.entryState ≠ .start → l2.buf = held) :
    StepSim k s1 held (liftStep .str x1 (yajl_lex_string_step p1 l1 c))
      (liftStep .str x2 (yajl_lex_string_step p2 l2 c)) := by
  obtain ⟨a1, a2, a4, g4, -, g6⟩ := hl
  have a3 : l1.resultTok = l2.resultTok := g4 (by simp [LexPC.state]) (by simp [LexPC.state])
  simp only [GoodTok] at a4
  have hchar := string_char_sim k s1 held x1 x2 l1 l2 c a1 a2 a3 a4 hx hb
  rcases hp with rfl | ⟨rfl, rfl⟩
  · rcases p1 with _ | _ | _ | _ | q
    · simp only [yajl_lex_string_step]
      rw [a2]
      split_ifs
      · exact hchar
      · exact str_sim_next k s1 held x1 x2 l2 hx hb .top l1 l2 rfl a1 a2 a3 a4 (by simp)
    · exact hchar
    · simp only [yajl_lex_string_step]
      split_ifs
      · exact str_sim_next k s1 held x1 x2 l2 hx hb .e3 _ _ rfl a1 a2 a3 a4 (fun _ => rfl)
      · exact str_sim_ret k s1 held x1 x2 l2 hx hb .error 1 (by omega) _ _ rfl (by simp)
          (fun _ => rfl)
      · exact str_sim_next k s1 held x1 x2 l2 hx hb .top l1 l2 rfl a1 a2 a3 a4 (by simp)
    · have hss : l1.subsubstate = l2.subsubstate := g6 rfl
      simp only [yajl_lex_string_step]
      rw [hss]
      split_ifs
      · exact str_sim_ret k s1 held x1 x2 l2 hx hb .error 1 (by omega) _ _ rfl (by simp)
          (fun _ => rfl)
      · exact str_sim_next k s1 held x1 x2 l2 hx hb .e3 _ _ rfl a1 a2 a3 a4 (fun _ => rfl)
      · exact str_sim_next k s1 held x1 x2 l2 hx hb .top _ _ rfl a1 a2 a3 a4 (by simp)
    · simp only [yajl_lex_string_step]
      exact utf8_sim k s1 held x1 x2 l2 hx hb (fun m => yajl_lex_utf8_char_step q m c)
        (utf8_step_shape q c) l1 l2 rfl a1 a2 a3 a4
  · have hc' := hc (by simp)
    simp only [yajl_lex_string_step]
    by_cases hflag : hasFlag c (scanMask l1.validateUTF8) = true
    · rw [if_pos hflag]; exact hchar
    · rw [if_neg hflag]
      have hflag2 : hasFlag c (scanMask l2.validateUTF8) = false := by
        rw [← a2]; simpa using hflag
      rcases string_char_unflagged l2 c hc' hflag2 with h | h <;> rw [h]
      · exact str_sim_next k s1 held x1 x2 l2 hx hb .top l1 l2 rfl a1 a2 a3 a4 (by simp)
      · exact str_sim_next k s1 held x1 x2 l2 hx hb .top l1 _ rfl a1 a2 a3 a4 (by simp)

theorem ctxRel_lexer (k s1 : Nat) (held : List Nat) (x1 x2 : LexCtx) (m1 m2 : yajl_lexer_t)
    (hx : CtxRel k s1 held x1 x2) (hm : m2.buf = x2.lexer.buf) :
    CtxRel k s1 held { x1 with lexer := m1 } { x2 with lexer := m2 } := by
  obtain ⟨a, b | b⟩ := hx
  · exact ⟨a, Or.inl b⟩
  · exact ⟨a, Or.inr ⟨b.1, b.2.1, b.2.2.1, by simp only; rw [hm]; exact b.2.2.2⟩⟩

theorem comment_step_sim (k s1 : Nat) (held : List Nat) (p : ComPC) (x1 x2 : LexCtx)
    (c o : Nat) (hs : Sim k s1 held (.com p) x1 x2) :
    StepSim k s1 held (lex_of_comment x1 (k + o) (yajl_lex_comment_step p x1.lexer c))
      (lex_of_comment x2 o (yajl_lex_comment_step p x2.lexer c)) := by
  obtain ⟨⟨a1, a2, -, -, -, -⟩, hx, -⟩ := hs
  have hnext : ∀ q, StepSim k s1 held (.next (.com q) { x1 with lexer := x1.lexer })
      (.next (.com q) { x2 with lexer := x2.lexer }) := by
    intro q
    exact ⟨rfl, ⟨a1, a2, trivial, fun _ h => absurd rfl h, by simp, by simp⟩,
      ctxRel_lexer k s1 held x1 x2 _ _ hx rfl, by simp⟩
  have hdone : StepSim k s1 held
      (.next .top { lexer := { x1.lexer with buf := [], state := .start },
                    startOffset := k + o - 0, entryState := .start })
      (.next .top { lexer := { x2.lexer with buf := [], state := .start },
                    startOffset := o - 0, entryState := .start }) := by
    refine ⟨rfl, ⟨a1, a2, trivial, fun h => absurd rfl h, by simp, by simp⟩,
      ⟨rfl, Or.inl ⟨rfl, by simp⟩⟩, fun h => absurd rfl h⟩
  cases p <;> simp only [yajl_lex_comment_step] <;> split_ifs <;>
  simp only [lex_of_comment, if_true, reduceCtorEq, if_false] <;>
  first
  | exact hnext _
  | exact hdone
  | exact ⟨rfl, rfl, by omega, by simp, fun _ => rfl, ctxRel_lexer k s1 held x1 x2 _ _ hx rfl⟩

theorem expect_step_sim (k s1 : Nat) (held : List Nat) (x1 x2 : LexCtx) (c : Nat)
    (hs : Sim k s1 held .expect x1 x2) :
    StepSim k s1 held (lex_expect x1 c) (lex_expect x2 c) := by
  obtain ⟨⟨a1, a2, a4, g4, g5, -⟩, hx, -⟩ := hs
  have a3 : x1.lexer.resultTok = x2.lexer.resultTok :=
    g4 (by simp [LexPC.state]) (by simp [LexPC.state])
  have hsub : x1.lexer.substate = x2.lexer.substate := g5 rfl
  simp only [GoodTok] at a4
  have hne : x2.lexer.resultTok ≠ .eof ∧ x2.lexer.resultTok ≠ .error := by
    rcases a4 with h | h <;> simp [h]
  unfold lex_expect
  rw [hsub, a3]
  cases expect.get? x2.lexer.substate with
  | none => trivial
  | some e =>
    simp only
    split_ifs
    · exact ⟨rfl, rfl, by omega, by simp, fun _ => rfl, ctxRel_lexer k s1 held x1 x2 _ _ hx rfl⟩
    · cases expect.get? (uintSucc x2.lexer.substate) with
      | none => trivial
      | some e1 =>
        simp only
        split_ifs
        · exact ⟨rfl, ⟨a1, a2, a4, fun _ _ => a3, fun _ => rfl, by simp⟩,
            ctxRel_lexer k s1 held x1 x2 _ _ hx rfl, by simp⟩
        · exact ⟨rfl, rfl, by omega, hne.1, fun h => absurd h hne.2,
            ctxRel_lexer k s1 held x1 x2 _ _ hx rfl⟩

theorem switch_sim (k s1 : Nat) (held : List Nat) (x1 x2 : LexCtx) (c : Nat)
    (hs : Sim k s1 held .top x1 x2) :
    StepSim k s1 held (lex_switch x1 c) (lex_switch x2 c) := by
  obtain ⟨⟨a1, a2, -, -, -, -⟩, hx, htop⟩ := hs
  have hes : x2.entryState = .start := by
    by_contra h; exact htop h rfl
  have hsync : x1.entryState = .start ∧ x1.startOffset = k + x2.startOffset := by
    obtain ⟨a, b | b⟩ := hx
    · exact ⟨a, b.2⟩
    · exact absurd hes b.1
  have hret : ∀ (tok : yajl_tok), tok ≠ .eof → tok ≠ .error →
      StepSim k s1 held (.ret tok x1 0) (.ret tok x2 0) :=
    fun tok h1 h2 => ⟨rfl, rfl, by omega, h1, fun h => absurd h h2, hx⟩
  have hlex : ∀ (pc : LexPC) (m1 m2 : yajl_lexer_t), m2.buf = x2.lexer.buf →
      LexRel pc m1 m2 → pc ≠ .top →
      StepSim k s1 held (.next pc { x1 with lexer := m1 }) (.next pc { x2 with lexer := m2 }) :=
    fun pc m1 m2 hm hl hpc => ⟨rfl, hl, ctxRel_lexer k s1 held x1 x2 _ _ hx hm, fun _ => hpc⟩
  rw [lex_switch, lex_switch]
  by_cases c1 : c = 0x7b
  · rw [if_pos c1, if_pos c1]; exact hret _ (by simp) (by simp)
  rw [if_neg c1, if_neg c1]
  by_cases c2 : c = 0x7d
  · rw [if_pos c2, if_pos c2]; exact hret _ (by simp) (by simp)
  rw [if_neg c2, if_neg c2]
  by_cases c3 : c = 0x5b
  · rw [if_pos c3, if_pos c3]; exact hret _ (by simp) (by simp)
  rw [if_neg c3, if_neg c3]
  by_cases c4 : c = 0x5d
  · rw [if_pos c4, if_pos c4]; exact hret _ (by simp) (by simp)
  rw [if_neg c4, if_neg c4]
  by_cases c5 : c = 0x2c
  · rw [if_pos c5, if_pos c5]; exact hret _ (by simp) (by simp)
  rw [if_neg c5, if_neg c5]
  by_cases c6 : c = 0x3a
  · rw [if_pos c6, if_pos c6]; exact hret _ (by simp) (by simp)
  rw [if_neg c6, if_neg c6]
  by_cases c7 : isSpace c
  · rw [if_pos c7, if_pos c7]
    refine ⟨rfl, ⟨a1, a2, trivial, fun h => absurd rfl h, by simp, by simp⟩,
      ⟨hsync.1, Or.inl ⟨hes, ?_⟩⟩, fun h => absurd hes h⟩
    simp only [hsync.2]; omega
  rw [if_neg c7, if_neg c7]
  by_cases c8 : c = 0x74
  · rw [if_pos c8, if_pos c8]
    exact hlex _ _ _ rfl ⟨a1, a2, Or.inl rfl, fun _ _ => rfl, fun _ => rfl, by simp⟩ (by simp)
  rw [if_neg c8, if_neg c8]
  by_cases c9 : c = 0x66
  · rw [if_pos c9, if_pos c9]
    exact hlex _ _ _ rfl ⟨a1, a2, Or.inl rfl, fun _ _ => rfl, fun _ => rfl, by simp⟩ (by simp)
  rw [if_neg c9, if_neg c9]
  by_cases c10 : c = 0x6e
  · rw [if_pos c10, if_pos c10]
    exact hlex _ _ _ rfl ⟨a1, a2, Or.inr rfl, fun _ _ => rfl, fun _ => rfl, by simp⟩ (by simp)
  rw [if_neg c10, if_neg c10]
  by_cases c11 : c = 0x22
  · rw [if_pos c11, if_pos c11]
    exact hlex _ _ _ rfl ⟨a1, a2, Or.inl rfl, fun _ _ => rfl, by simp, by simp⟩ (by simp)
  rw [if_neg c11, if_neg c11]
  by_cases c12 : c = 0x2d ∨ isDigit c
  · rw [if_pos c12, if_pos c12]
    exact number_step_sim k s1 held .e1 x1 x2 _ _ c
      ⟨a1, a2, Or.inl rfl, fun _ _ => rfl, by simp, by simp⟩ hx (fun h => absurd hes h)
  rw [if_neg c12, if_neg c12]
  by_cases c13 : c = 0x2f
  · rw [if_pos c13, if_pos c13, a1]
    cases x2.lexer.allowComments with
    | false =>
      simp only [Bool.not_false, if_true]
      exact ⟨rfl, rfl, by omega, by simp, fun _ => rfl, ctxRel_lexer k s1 held x1 x2 _ _ hx rfl⟩
    | true =>
      simp only [Bool.not_true, Bool.false_eq_true, if_false]
      exact hlex _ _ _ rfl ⟨a1, a2, trivial, fun _ h => absurd rfl h, by simp, by simp⟩
        (by simp)
  · rw [if_neg c13, if_neg c13]
    exact ⟨rfl, rfl, by omega, by simp, fun _ => rfl, ctxRel_lexer k s1 held x1 x2 _ _ hx rfl⟩

/-- Two configurations that behave alike take steps that behave alike. -/
theorem step_sim (k s1 : Nat) (held : List Nat) (pc1 pc2 : LexPC)
    (hp : pc1 = pc2 ∨ (pc1 = .str .top ∧ pc2 = .str .e1)) (x1 x2 : LexCtx) (c o : Nat)
    (hc : pc1 ≠ pc2 → c < 256) (hs : Sim k s1 held pc2 x1 x2) :
    StepSim k s1 held (yajl_lex_lex_step pc1 x1 c (k + o)) (yajl_lex_lex_step pc2 x2 c o) := by
  have hbuf : x2.entryState ≠ .start → x2.lexer.buf = held := by
    intro h
    obtain ⟨-, b | b⟩ := hs.2.1
    · exact absurd b.1 h
    · exact b.2.2.2
  rcases hp with rfl | ⟨rfl, rfl⟩
  · cases pc1 with
    | top => exact switch_sim k s1 held x1 x2 c hs
    | expect => exact expect_step_sim k s1 held x1 x2 c hs
    | str p =>
      exact string_step_sim k s1 held p p (Or.inl rfl) x1 x2 _ _ c (fun h => absurd rfl h)
        hs.1 hs.2.1 hbuf
    | num p => exact number_step_sim k s1 held p x1 x2 _ _ c hs.1 hs.2.1 hbuf
    | com p => exact comment_step_sim k s1 held p x1 x2 c o hs
  · exact string_step_sim k s1 held .top .e1 (Or.inr ⟨rfl, rfl⟩) x1 x2 _ _ c
      (fun _ => hc (by simp)) hs.1 hs.2.1 hbuf

/-- Two configurations that behave alike scan the same bytes alike. -/
theorem run_sim (k s1 : Nat) (held : List Nat) (rest : List Nat) :
    ∀ (pc1 pc2 : LexPC) (x1 x2 : LexCtx) (o : Nat),
    (pc1 = pc2 ∨ (pc1 = .str .top ∧ pc2 = .str .e1)) →
    (pc1 ≠ pc2 → ∀ b ∈ rest, b < 256) → Sim k s1 held pc2 x1 x2 →
    RunSim k s1 held (run yajl_lex_lex_step pc1 x1 rest (k + o))
      (run yajl_lex_lex_step pc2 x2 rest o) := by
  induction rest with
  | nil =>
    intro pc1 pc2 x1 x2 o hp _ hs
    exact ⟨hp, hs, rfl⟩
  | cons c rest ih =>
    intro pc1 pc2 x1 x2 o hp hc hs
    have hstep := step_sim k s1 held pc1 pc2 hp x1 x2 c (o + 1)
      (fun h => hc h c (List.mem_cons_self _ _)) hs
    rw [run_cons, run_cons, Nat.add_assoc]
    cases h1 : yajl_lex_lex_step pc1 x1 c (k + (o + 1)) with
    | next q1 y1 =>
      cases h2 : yajl_lex_lex_step pc2 x2 c (o + 1) with
      | next q2 y2 =>
        rw [h1, h2] at hstep
        obtain ⟨rfl, hs2⟩ := hstep
        simp only [Step.cont]
        exact ih q1 q1 y1 y2 (o + 1) (Or.inl rfl) (fun h => absurd rfl h) hs2
      | ret t2 y2 u2 => rw [h1, h2] at hstep; exact hstep.elim
      | fault => rw [h1, h2] at hstep; exact hstep.elim
    | ret t1 y1 u1 =>
      cases h2 : yajl_lex_lex_step pc2 x2 c (o + 1) with
      | next q2 y2 => rw [h1, h2] at hstep; exact hstep.elim
      | ret t2 y2 u2 =>
        rw [h1, h2] at hstep
        obtain ⟨rfl, rfl, hu, r1, r2, r3⟩ := hstep
        simp only [Step.cont]
        exact ⟨rfl, by omega, r1, r2, r3⟩
      | fault => rw [h1, h2] at hstep; exact hstep.elim
    | fault =>
      cases h2 : yajl_lex_lex_step pc2 x2 c (o + 1) with
      | next q2 y2 => rw [h1, h2] at hstep; exact hstep.elim
      | ret t2 y2 u2 => rw [h1, h2] at hstep; exact hstep.elim
      | fault => trivial

/-! ### Chunking independence -/

theorem run_done_le {PC σ : Type} (step : PC → σ → Nat → Nat → Step PC σ)
    (rest : List Nat) : ∀ (pc : PC) (s : σ) (off : Nat) (tok : yajl_tok) (s1 : σ) (off1 : Nat),
    run step pc s rest off = .done tok s1 off1 → off1 ≤ off + rest.length := by
  induction rest with
  | nil => intro pc s off tok s1 off1 h; simp [run] at h
  | cons c rest ih =>
    intro pc s off tok s1 off1 h
    rw [run_cons] at h
    cases hs : step pc s c (off + 1) with
    | next pc2 s2 =>
      rw [hs] at h
      have := ih _ _ _ _ _ _ h
      simp only [List.length_cons]; omega
    | ret tok2 s2 u =>
      rw [hs] at h
      simp only [Step.cont, Run.done.injEq] at h
      simp only [List.length_cons]; omega
    | fault => rw [hs] at h; simp [Step.cont] at h

theorem susp_fields (pc : LexPC) (x : LexCtx) :
    (yajl_lex_lex_susp pc x).lexer.allowComments = x.lexer.allowComments ∧
    (yajl_lex_lex_susp pc x).lexer.validateUTF8 = x.lexer.validateUTF8 ∧
    (yajl_lex_lex_susp pc x).lexer.resultTok = x.lexer.resultTok ∧
    (pc = .expect → (yajl_lex_lex_susp pc x).lexer.substate = x.lexer.substate) ∧
    (pc = .str .e3 → (yajl_lex_lex_susp pc x).lexer.subsubstate = x.lexer.subsubstate) := by
  rcases pc with _ | _ | p | p | p
  · simp [yajl_lex_lex_susp]
  · simp [yajl_lex_lex_susp]
  · rcases p with _ | _ | _ | _ | k <;>
      simp [yajl_lex_lex_susp, yajl_lex_string_susp, yajl_lex_utf8_char_susp]
  · simp [yajl_lex_lex_susp, yajl_lex_number_susp]
  · simp [yajl_lex_lex_susp, yajl_lex_comment_susp]

/-- Re-entry after a suspension goes back to the control point where `CHECK_EOF` fired
(for the head of the string loop: to `entry_1` behind it). -/
theorem entry_of_susp (pc : LexPC) (x : LexCtx) (buf : List Nat) (B : List Nat)
    (hst : x.lexer.state = pc.state) (hutf : ∀ q, pc = .str (.utf8 q) → x.lexer.substate = 4)
    (pcB : LexPC) (xB : LexCtx)
    (he : lex_entry { (yajl_lex_lex_susp pc x).lexer with buf := buf } B 0 = some (pcB, xB)) :
    (pc = pcB ∨ (pc = .str .top ∧ pcB = .str .e1)) ∧ xB.startOffset = 0 ∧
    xB.entryState = pc.state ∧
    xB.lexer = { (yajl_lex_lex_susp pc x).lexer with
      buf := if pc = .top then [] else buf } := by
  rcases pc with _ | _ | p | p | p
  · simp only [LexPC.state] at hst
    simp only [lex_entry, yajl_lex_lex_susp, hst, Nat.zero_le, if_true, Option.some.injEq,
      Prod.mk.injEq] at he
    obtain ⟨rfl, rfl⟩ := he
    simp [LexPC.state, yajl_lex_lex_susp, hst]
  · simp only [LexPC.state] at hst
    simp only [lex_entry, yajl_lex_lex_susp, hst, Option.some.injEq, Prod.mk.injEq] at he
    obtain ⟨rfl, rfl⟩ := he
    simp [LexPC.state, yajl_lex_lex_susp, hst]
  · simp only [LexPC.state] at hst
    rcases p with _ | _ | _ | _ | q
    case utf8 =>
      have h4 := hutf q rfl
      cases q <;>
      simp only [lex_entry, hst, yajl_lex_lex_susp, yajl_lex_string_susp,
        yajl_lex_utf8_char_susp, Utf8PC.label, string_entry, utf8_entry, h4, entry_guard,
        Option.map] at he <;>
      split_ifs at he <;>
      simp only [Option.some.injEq, Prod.mk.injEq, reduceCtorEq] at he <;>
      (obtain ⟨rfl, rfl⟩ := he
       simp [LexPC.state, yajl_lex_lex_susp, yajl_lex_string_susp, yajl_lex_utf8_char_susp,
         Utf8PC.label, hst, h4])
    all_goals
      simp only [lex_entry, hst, yajl_lex_lex_susp, yajl_lex_string_susp,
        string_entry, entry_guard] at he <;>
      split_ifs at he <;>
      simp only [Option.some.injEq, Prod.mk.injEq, reduceCtorEq] at he <;>
      (obtain ⟨rfl, rfl⟩ := he
       simp [LexPC.state, yajl_lex_lex_susp, yajl_lex_string_susp, hst])
  · simp only [LexPC.state] at hst
    cases p <;>
    simp only [lex_entry, hst, yajl_lex_lex_susp, yajl_lex_number_susp,
      NumPC.label, number_entry, entry_guard] at he <;>
    split_ifs at he <;>
    simp only [Option.some.injEq, Prod.mk.injEq, reduceCtorEq] at he <;>
    (obtain ⟨rfl, rfl⟩ := he
     simp [LexPC.state, yajl_lex_lex_susp, yajl_lex_number_susp, NumPC.label, hst])
  · simp only [LexPC.state] at hst
    cases p <;>
    simp only [lex_entry, hst, yajl_lex_lex_susp, yajl_lex_comment_susp,
      ComPC.label, comment_entry, entry_guard] at he <;>
    split_ifs at he <;>
    simp only [Option.some.injEq, Prod.mk.injEq, reduceCtorEq] at he <;>
    (obtain ⟨rfl, rfl⟩ := he
     simp [LexPC.state, yajl_lex_lex_susp, yajl_lex_comment_susp, ComPC.label, hst])

/-- At `lexed` a scan of the whole text and a scan of its second chunk that ended alike
hand back the same token, error code and payload bytes. -/
theorem lexed_sim (A B : List Nat) (s1 : Nat) (hs1 : s1 ≤ A.length) (tok : yajl_tok)
    (htok : tok ≠ .eof) (y1 y2 : LexCtx) (o2 : Nat) (ho : o2 ≤ B.length)
    (hctx : CtxRel A.length s1 (A.drop s1) y1 y2)
    (herr : tok = .error → y1.lexer.error = y2.lexer.error) (rB : LexOut)
    (hB : lexed tok y2 B o2 = some rB) :
    ∃ rS, lexed tok y1 (A ++ B) (A.length + o2) = some rS ∧ rS.tok = rB.tok ∧
      (rS.tok = .error → rS.lexer.error = rB.lexer.error) ∧
      rS.payload (A ++ B) = rB.payload B ∧ rS.offset = A.length + rB.offset := by
  obtain ⟨hes1, hform⟩ := hctx
  by_cases hte : tok = .error
  · subst hte
    obtain ⟨rS, k1, k2, k3, k4, k5, k6, -⟩ := lexed_error y1 (A ++ B) (A.length + o2)
    obtain ⟨r2, j1, j2, j3, j4, j5, j6, -⟩ := lexed_error y2 B o2
    rw [j1] at hB
    simp only [Option.some.injEq] at hB
    subst hB
    refine ⟨rS, k1, by rw [k2, j2], fun _ => by rw [k3, j3]; exact herr rfl, ?_, by rw [k4, j4]⟩
    simp [LexOut.payload, k5, j5]
  · have hc1 : ¬ (tok = .eof ∨ y1.entryState ≠ .start) := by
      intro h; rcases h with h | h
      · exact htok h
      · exact h hes1
    unfold lexed
    unfold lexed at hB
    rw [if_neg hc1, if_pos hte]
    rcases hform with ⟨f1, f2⟩ | ⟨f1, f2, f3, f4⟩
    · have hc2 : ¬ (tok = .eof ∨ y2.entryState ≠ .start) := by
        intro h; rcases h with h | h
        · exact htok h
        · exact h f1
      rw [if_neg hc2, if_pos hte] at hB
      have hlen : A.length + o2 - y1.startOffset = o2 - y2.startOffset := by omega
      unfold skip_quotes at hB ⊢
      simp only [hlen] at hB ⊢
      by_cases hstr : tok = .string ∨ tok = .string_with_escapes
      · rw [if_pos hstr] at hB ⊢
        by_cases h2 : 2 ≤ o2 - y2.startOffset
        · rw [if_pos h2] at hB ⊢
          simp only [Option.some.injEq] at hB
          subst hB
          refine ⟨_, rfl, rfl, fun h => absurd h hte, ?_, rfl⟩
          simp only [LexOut.payload, f2]
          rw [Nat.add_assoc, List.drop_append]
        · rw [if_neg h2] at hB; cases hB
      · rw [if_neg hstr] at hB ⊢
        simp only [Option.some.injEq] at hB
        subst hB
        refine ⟨_, rfl, rfl, fun h => absurd h hte, ?_, rfl⟩
        simp only [LexOut.payload, f2]
        rw [List.drop_append]
    · have hc2 : tok = .eof ∨ y2.entryState ≠ .start := Or.inr f1
      rw [if_pos hc2, if_pos htok, if_pos hte] at hB
      have hbuf : y2.lexer.buf ++ (B.drop y2.startOffset).take (o2 - y2.startOffset) =
          ((A ++ B).drop s1).take (A.length + o2 - s1) := by
        rw [f2, f4, List.drop_append_of_le_length hs1]
        have : A.length + o2 - s1 = (A.drop s1).length + o2 := by
          rw [List.length_drop]; omega
        rw [this, List.take_append]
        simp
      have hlen : (((A ++ B).drop s1).take (A.length + o2 - s1)).length =
          A.length + o2 - s1 := by
        rw [List.length_take, List.length_drop, List.length_append]; omega
      rw [hbuf] at hB
      unfold skip_quotes at hB ⊢
      simp only [hlen, f3] at hB ⊢
      by_cases hstr : tok = .string ∨ tok = .string_with_escapes
      · rw [if_pos hstr] at hB ⊢
        by_cases h2 : 2 ≤ A.length + o2 - s1
        · rw [if_pos h2] at hB ⊢
          simp only [Option.some.injEq] at hB
          subst hB
          refine ⟨_, rfl, rfl, fun h => absurd h hte, ?_, rfl⟩
          simp only [LexOut.payload]
          rw [List.drop_take, List.take_take, List.drop_drop]
          have hm : (A.length + o2 - s1 - 2) ⊓ (A.length + o2 - s1 - (0 + 1)) =
              A.length + o2 - s1 - 2 := by
            rw [Nat.min_def]; split_ifs <;> omega
          rw [hm]
        · rw [if_neg h2] at hB; cases hB
      · rw [if_neg hstr] at hB ⊢
        simp only [Option.some.injEq] at hB
        subst hB
        refine ⟨_, rfl, rfl, fun h => absurd h hte, ?_, rfl⟩
        simp only [LexOut.payload, List.drop_zero]
        rw [List.take_take]
        simp

/-- C1. Chunking independence of the lexer.  Let `S = A ++ B` be a byte string (bytes
below 256), and let a lexer in the start state return `eof` on `A` (offset 0) and then a
result other than `eof` on `B` (offset 0).  Then `yajl_lex_lex` on `S` (offset 0, a
freshly allocated lexer with the same flags) returns the same token, the same error code
when the token is `error`, the same payload bytes, and a final offset equal to the length
of `A` plus the final offset in `B`. -/
theorem chunking_independence (lexer : yajl_lexer_t) (h : lexer.state = .start)
    (A B : List Nat) (hbytes : ∀ b ∈ B, b < 256) (rA rB : LexOut)
    (hA : yajl_lex_lex lexer A 0 = some rA) (hAe : rA.tok = .eof)
    (hB : yajl_lex_lex rA.lexer B 0 = some rB) (hBe : rB.tok ≠ .eof) :
    ∃ rS, yajl_lex_lex (yajl_lex_alloc lexer.allowComments lexer.validateUTF8) (A ++ B) 0
        = some rS ∧
      rS.tok = rB.tok ∧ (rS.tok = .error → rS.lexer.error = rB.lexer.error) ∧
      rS.payload (A ++ B) = rB.payload B ∧ rS.offset = A.length + rB.offset := by
  -- the call on `A` is suspended at some control point
  rw [lex_start0 _ _ h] at hA
  have hinvA0 := inv_ctx0 lexer 0 h
  cases hrA : run yajl_lex_lex_step .top (ctx0 lexer 0) A 0 with
  | done tok x1 off1 =>
    rw [hrA] at hA
    have h1 := (run_inv_done _ _ _ _ _ _ _ hinvA0 hrA).1
    have h2 := (lexed_props _ _ _ _ _ hA).1
    exact absurd (h2.symm.trans hAe) h1
  | fault => rw [hrA] at hA; simp [lex_finish] at hA
  | suspended pcA xA offA =>
    rw [hrA] at hA
    have hoffA := run_suspended_offset _ _ _ _ _ _ _ _ hrA
    simp only [Nat.zero_add] at hoffA
    subst hoffA
    obtain ⟨hinvA, hesA⟩ := run_inv_suspended _ _ _ _ _ _ _ hinvA0 hrA
    have hesA' : xA.entryState = .start := hesA rfl
    have hbufA : xA.lexer.buf = [] := hinvA.buf hesA'
    simp only [lex_finish, lexed_eof, Option.some.injEq] at hA
    -- the fresh lexer scans `A` alike
    have hF : (yajl_lex_alloc lexer.allowComments lexer.validateUTF8).state = .start := rfl
    have hsim0 : Sim 0 0 [] .top
        (ctx0 (yajl_lex_alloc lexer.allowComments lexer.validateUTF8) 0) (ctx0 lexer 0) :=
      ⟨⟨rfl, rfl, trivial, fun h => absurd rfl h, by simp, by simp⟩,
        ⟨rfl, Or.inl ⟨rfl, rfl⟩⟩, fun h => absurd rfl h⟩
    have hrs := run_sim 0 0 [] A .top .top _ _ 0 (Or.inl rfl) (fun h => absurd rfl h) hsim0
    simp only [Nat.zero_add] at hrs
    rw [hrA] at hrs
    cases hrS : run yajl_lex_lex_step .top
        (ctx0 (yajl_lex_alloc lexer.allowComments lexer.validateUTF8) 0) A 0 with
    | done tok x1 off1 => rw [hrS] at hrs; exact hrs.elim
    | fault => rw [hrS] at hrs; exact hrs.elim
    | suspended pcS xS offS =>
      rw [hrS] at hrs
      obtain ⟨hpcSA, ⟨hlrel, ⟨hesS, hformS⟩, -⟩, hoffS⟩ := hrs
      simp only [Nat.zero_add] at hoffS
      subst hoffS
      have hsoS : xS.startOffset = xA.startOffset := by
        rcases hformS with ⟨-, f⟩ | ⟨f, -⟩
        · simpa using f
        · exact absurd hesA' f
      -- the call on `B` re-enters where the call on `A` stopped
      have hsusp := susp_state pcA xA
      have hsf := susp_fields pcA xA
      have hrAlex : rA.lexer = { (yajl_lex_lex_susp pcA xA).lexer with
          buf := A.drop xA.startOffset } := by
        rw [← hA]
        simp only [hsusp.2.1, hbufA, hsusp.2.2.2.1, List.nil_append]
        congr 1
        rw [List.take_of_length_le]
        rw [List.length_drop]
      rw [hrAlex] at hB
      unfold yajl_lex_lex at hB
      cases hent : lex_entry { (yajl_lex_lex_susp pcA xA).lexer with
          buf := A.drop xA.startOffset } B 0 with
      | none => rw [hent] at hB; cases hB
      | some pe =>
        obtain ⟨pcB, xB⟩ := pe
        rw [hent] at hB
        simp only [List.drop_zero] at hB
        obtain ⟨hpcAB, hsoB, hesB, hlexB⟩ := entry_of_susp pcA xA _ B hinvA.state hinvA.utf8
          pcB xB hent
        have hpc : pcS = pcB ∨ (pcS = .str .top ∧ pcB = .str .e1) := by
          rcases hpcSA with rfl | ⟨rfl, rfl⟩
          · exact hpcAB
          · rcases hpcAB with rfl | ⟨hh, -⟩
            · exact Or.inr ⟨rfl, rfl⟩
            · cases hh
        have hclass : pcB.state = pcA.state ∧ (pcB = .expect ↔ pcA = .expect) ∧
            (pcB = .str .e3 ↔ pcA = .str .e3) ∧ (pcB = .top ↔ pcA = .top) ∧
            (∀ t, GoodTok pcA t → GoodTok pcB t) := by
          rcases hpcAB with rfl | ⟨rfl, rfl⟩
          · exact ⟨rfl, Iff.rfl, Iff.rfl, Iff.rfl, fun _ hh => hh⟩
          · exact ⟨rfl, by simp, by simp, by simp, fun _ hh => hh⟩
        obtain ⟨hc1, hc2, hc3, hc4, hc5⟩ := hclass
        have hsimB : Sim A.length xS.startOffset (A.drop xS.startOffset) pcB xS xB := by
          refine ⟨⟨?_, ?_, ?_, ?_, ?_, ?_⟩, ⟨hesS, ?_⟩, ?_⟩
          · rw [hlexB]; simp only [hsf.1]; exact hlrel.comments
          · rw [hlexB]; simp only [hsf.2.1]; exact hlrel.utf8
          · rw [hlexB]; simp only [hsf.2.2.1]; exact hc5 _ hinvA.tok
          · intro g1 g2
            rw [hlexB]; simp only [hsf.2.2.1]
            exact hlrel.tok (hc1 ▸ g1) (hc1 ▸ g2)
          · intro g
            have g' := hc2.1 g
            rw [hlexB]; simp only [hsf.2.2.2.1 g']
            exact hlrel.sub g'
          · intro g
            have g' := hc3.1 g
            rw [hlexB]; simp only [hsf.2.2.2.2 g']
            exact hlrel.subsub g'
          · by_cases htop : pcA = .top
            · left
              refine ⟨by rw [hesB, htop]; rfl, ?_⟩
              rw [hsoB, hsoS, (hinvA.top htop).1, Nat.add_zero]
            · right
              refine ⟨?_, hsoB, rfl, ?_⟩
              · rw [hesB]
                intro hh; apply htop
                cases pcA <;> simp [LexPC.state] at hh
                rfl
              · rw [hlexB, if_neg htop, hsoS]
          · intro hh
            rw [hesB] at hh
            intro htopB
            rw [hc4.1 htopB] at hh
            exact hh rfl
        have hrsB := run_sim A.length xS.startOffset (A.drop xS.startOffset) B pcS pcB xS xB 0
          hpc (fun _ => hbytes) hsimB
        simp only [Nat.add_zero] at hrsB
        -- the call on `B` returns a token, and so does the scan of the whole text
        cases hrB : run yajl_lex_lex_step pcB xB B 0 with
        | suspended pc2 x2 o2 =>
          rw [hrB] at hB
          simp only [lex_finish, lexed_eof, Option.some.injEq] at hB
          subst hB
          exact absurd rfl hBe
        | fault => rw [hrB] at hB; simp [lex_finish] at hB
        | done tok y2 o2 =>
          rw [hrB] at hB hrsB
          simp only [lex_finish] at hB
          have ho2 := run_done_le _ _ _ _ _ _ _ _ hrB
          simp only [Nat.zero_add] at ho2
          cases hrSB : run yajl_lex_lex_step pcS xS B A.length with
          | suspended pc1 x1 o1 => rw [hrSB] at hrsB; exact hrsB.elim
          | fault => rw [hrSB] at hrsB; exact hrsB.elim
          | done tok1 y1 o1 =>
            rw [hrSB] at hrsB
            obtain ⟨rfl, rfl, r1, r2, r3⟩ := hrsB
            rw [lex_start0 _ _ hF, run_append, hrS]
            simp only [Run.andThen, hrSB, lex_finish]
            exact lexed_sim A B xS.startOffset (by rw [hsoS]; exact hinvA.start_le) tok1 r1
              y1 y2 o2 ho2 r3 r2 rB hB

theorem chunking_independence_witness :
    ∃ rS, yajl_lex_lex (yajl_lex_alloc false true) ([0x22, 0x61] ++ [0x62, 0x22, 0x5d]) 0
        = some rS ∧
      rS.tok = .string ∧ (rS.tok = .error → rS.lexer.error = .e_ok) ∧
      rS.payload ([0x22, 0x61] ++ [0x62, 0x22, 0x5d]) = [0x61, 0x62] ∧ rS.offset = 2 + 2 :=
  chunking_independence (yajl_lex_alloc false true) rfl [0x22, 0x61] [0x62, 0x22, 0x5d]
    (by decide)
    { tok := .eof,
      lexer := { yajl_lex_alloc false true with
        buf := [0x22, 0x61], state := .string, substate := 1, resultTok := .string },
      offset := 2, outBuf := .null, outLen := 0 }
    { tok := .string,
      lexer := { yajl_lex_alloc false true with
        buf := [0x22, 0x61, 0x62, 0x22], substate := 4, resultTok := .string },
      offset := 2, outBuf := .buf 1, outLen := 2 }
    (by decide) rfl (by decide) (by decide)

theorem isContinuation_iff (b : Nat) : isContinuation b ↔ b >>> 6 = 0x2 := by
  simp [isContinuation, topBits, Nat.shiftRight_eq_div_pow]

theorem utf8_expected_cases (lead : Nat) :
    (lead ≤ 0x7f ∧ utf8_expected lead = some 0) ∨
    (¬ lead ≤ 0x7f ∧ lead >>> 5 = 0x6 ∧ utf8_expected lead = some 1) ∨
    (¬ lead ≤ 0x7f ∧ ¬ lead >>> 5 = 0x6 ∧ lead >>> 4 = 0x0e ∧ utf8_expected lead = some 2) ∨
    (¬ lead ≤ 0x7f ∧ ¬ lead >>> 5 = 0x6 ∧ ¬ lead >>> 4 = 0x0e ∧ lead >>> 3 = 0x1e ∧
      utf8_expected lead = some 3) ∨
    (¬ lead ≤ 0x7f ∧ ¬ lead >>> 5 = 0x6 ∧ ¬ lead >>> 4 = 0x0e ∧ ¬ lead >>> 3 = 0x1e ∧
      utf8_expected lead = none) := by
  simp only [utf8_expected, topBits, Nat.shiftRight_eq_div_pow]
  norm_num
  split_ifs <;> simp_all

theorem contsVerdict_true (n : Nat) : ∀ rest : List Nat,
    contsVerdict n rest = some true ↔
      n ≤ rest.length ∧ ∀ b ∈ rest.take n, isContinuation b := by
  induction n with
  | zero => intro rest; simp [contsVerdict]
  | succ n ih =>
    intro rest
    cases rest with
    | nil => simp [contsVerdict]
    | cons b rest =>
      by_cases hb : isContinuation b
      · simp [contsVerdict, hb, ih]
      · simp [contsVerdict, hb]

theorem contsVerdict_false (n : Nat) : ∀ rest : List Nat,
    contsVerdict n rest = some false ↔
      ∃ i b, i < n ∧ (∀ a ∈ rest.take i, isContinuation a) ∧ rest.get? i = some b ∧
        ¬ isContinuation b := by
  induction n with
  | zero => intro rest; simp [contsVerdict]
  | succ n ih =>
    intro rest
    cases rest with
    | nil => simp [contsVerdict]
    | cons b rest =>
      by_cases hb : isContinuation b
      · simp only [contsVerdict, hb, if_true, ih]
        constructor
        · rintro ⟨i, c, h1, h2, h3, h4⟩
          refine ⟨i + 1, c, by omega, ?_, by simpa using h3, h4⟩
          intro a ha
          simp only [List.take_succ_cons, List.mem_cons] at ha
          rcases ha with rfl | ha
          · exact hb
          · exact h2 a ha
        · rintro ⟨i, c, h1, h2, h3, h4⟩
          cases i with
          | zero =>
            simp only [List.get?_cons_zero, Option.some.injEq] at h3
            exact absurd (h3 ▸ hb) h4
          | succ i =>
            refine ⟨i, c, by omega, ?_, by simpa using h3, h4⟩
            intro a ha
            exact h2 a (by simp [List.take_succ_cons, ha])
      · simp only [contsVerdict, hb, if_false, true_iff]
        exact ⟨0, b, by omega, by simp, by simp, hb⟩

theorem utf8_run (rest : List Nat) : ∀ (pc : Utf8PC) (lexer : yajl_lexer_t) (off : Nat),
    (contsVerdict pc.remaining rest = some true →
      run utf8_step pc lexer rest off = .done .string lexer (off + pc.remaining)) ∧
    (contsVerdict pc.remaining rest = some false →
      ∃ o, off < o ∧ run utf8_step pc lexer rest off =
        .done .error { lexer with error := .string_invalid_utf8 } o) ∧
    (contsVerdict pc.remaining rest = none →
      ∃ pc1, run utf8_step pc lexer rest off = .suspended pc1 lexer (off + rest.length)) := by
  induction rest with
  | nil =>
    intro pc lexer off
    cases pc <;> simp [contsVerdict, Utf8PC.remaining, run]
  | cons b rest ih =>
    intro pc lexer off
    by_cases hb : isContinuation b
    · have hb2 := (isContinuation_iff b).1 hb
      cases pc with
      | e1 =>
        simp [contsVerdict, Utf8PC.remaining, run, utf8_step, yajl_lex_utf8_char_step, hb,
          hb2, Step.cont]
      | e3 =>
        simp [contsVerdict, Utf8PC.remaining, run, utf8_step, yajl_lex_utf8_char_step, hb,
          hb2, Step.cont]
      | e6 =>
        simp [contsVerdict, Utf8PC.remaining, run, utf8_step, yajl_lex_utf8_char_step, hb,
          hb2, Step.cont]
      | e2 =>
        have h := ih .e3 lexer (off + 1)
        simp only [contsVerdict, Utf8PC.remaining, run, utf8_step, yajl_lex_utf8_char_step,
          hb, hb2, Step.cont, if_true, List.length_cons] at h ⊢
        refine ⟨fun g => by rw [h.1 g], fun g => ?_, fun g => ?_⟩
        · obtain ⟨o, h1, h2⟩ := h.2.1 g
          exact ⟨o, by omega, h2⟩
        · obtain ⟨pc1, h1⟩ := h.2.2 g
          exact ⟨pc1, by rw [h1]; congr 1; omega⟩
      | e4 =>
        have h := ih .e5 lexer (off + 1)
        simp only [contsVerdict, Utf8PC.remaining, run, utf8_step, yajl_lex_utf8_char_step,
          hb, hb2, Step.cont, if_true, List.length_cons] at h ⊢
        refine ⟨fun g => by rw [h.1 g], fun g => ?_, fun g => ?_⟩
        · obtain ⟨o, h1, h2⟩ := h.2.1 g
          exact ⟨o, by omega, h2⟩
        · obtain ⟨pc1, h1⟩ := h.2.2 g
          exact ⟨pc1, by rw [h1]; congr 1; omega⟩
      | e5 =>
        have h := ih .e6 lexer (off + 1)
        simp only [contsVerdict, Utf8PC.remaining, run, utf8_step, yajl_lex_utf8_char_step,
          hb, hb2, Step.cont, if_true, List.length_cons] at h ⊢
        refine ⟨fun g => by rw [h.1 g], fun g => ?_, fun g => ?_⟩
        · obtain ⟨o, h1, h2⟩ := h.2.1 g
          exact ⟨o, by omega, h2⟩
        · obtain ⟨pc1, h1⟩ := h.2.2 g
          exact ⟨pc1, by rw [h1]; congr 1; omega⟩
    · have hb2 : ¬ b >>> 6 = 0x2 := fun g => hb ((isContinuation_iff b).2 g)
      cases pc <;>
        simp [contsVerdict, Utf8PC.remaining, run, utf8_step, yajl_lex_utf8_char_step, hb,
          hb2, Step.cont, utf8_invalid]

theorem utf8_char_result (lexer : yajl_lexer_t) (h0 : lexer.subsubstate = 0)
    (jsonText : List Nat) (offset : Nat) (curChar : Nat) :
    (utf8_expected curChar = none →
      yajl_lex_utf8_char lexer jsonText offset curChar =
        some (.error, { lexer with error := .string_invalid_utf8 }, offset)) ∧
    (∀ n, utf8_expected curChar = some n →
      (contsVerdict n (jsonText.drop offset) = some true →
        yajl_lex_utf8_char lexer jsonText offset curChar =
          some (.string, lexer, offset + n)) ∧
      (contsVerdict n (jsonText.drop offset) = some false →
        ∃ o, offset < o ∧ yajl_lex_utf8_char lexer jsonText offset curChar =
          some (.error, { lexer with error := .string_invalid_utf8 }, o)) ∧
      (contsVerdict n (jsonText.drop offset) = none →
        ∃ l, yajl_lex_utf8_char lexer jsonText offset curChar =
          some (.eof, l, offset + (jsonText.drop offset).length))) := by
  have hent : utf8_char_entry lexer = some none := by simp [utf8_char_entry, h0]
  simp only [yajl_lex_utf8_char, hent, yajl_lex_utf8_char_lead]
  rcases utf8_expected_cases curChar with ⟨c1, he⟩ | ⟨c1, c2, he⟩ | ⟨c1, c2, c3, he⟩ |
    ⟨c1, c2, c3, c4, he⟩ | ⟨c1, c2, c3, c4, he⟩
  · rw [if_pos c1, he]
    refine ⟨(fun g => by cases g), ?_⟩
    intro n hn
    cases hn
    simp [Step.cont, utf8_finish, contsVerdict]
  · rw [if_neg c1, if_pos c2, he]
    refine ⟨(fun g => by cases g), ?_⟩
    intro n hn
    cases hn
    have h := utf8_run (jsonText.drop offset) .e1 lexer offset
    simp only [Utf8PC.remaining, Step.cont] at h ⊢
    refine ⟨fun g => by rw [h.1 g]; rfl, fun g => ?_, fun g => ?_⟩
    · obtain ⟨o, h1, h2⟩ := h.2.1 g
      exact ⟨o, h1, by rw [h2]; rfl⟩
    · obtain ⟨pc1, h1⟩ := h.2.2 g
      exact ⟨_, by rw [h1]; rfl⟩
  · rw [if_neg c1, if_neg c2, if_pos c3, he]
    refine ⟨(fun g => by cases g), ?_⟩
    intro n hn
    cases hn
    have h := utf8_run (jsonText.drop offset) .e2 lexer offset
    simp only [Utf8PC.remaining, Step.cont] at h ⊢
    refine ⟨fun g => by rw [h.1 g]; rfl, fun g => ?_, fun g => ?_⟩
    · obtain ⟨o, h1, h2⟩ := h.2.1 g
      exact ⟨o, h1, by rw [h2]; rfl⟩
    · obtain ⟨pc1, h1⟩ := h.2.2 g
      exact ⟨_, by rw [h1]; rfl⟩
  · rw [if_neg c1, if_neg c2, if_neg c3, if_pos c4, he]
    refine ⟨(fun g => by cases g), ?_⟩
    intro n hn
    cases hn
    have h := utf8_run (jsonText.drop offset) .e4 lexer offset
    simp only [Utf8PC.remaining, Step.cont] at h ⊢
    refine ⟨fun g => by rw [h.1 g]; rfl, fun g => ?_, fun g => ?_⟩
    · obtain ⟨o, h1, h2⟩ := h.2.1 g
      exact ⟨o, h1, by rw [h2]; rfl⟩
    · obtain ⟨pc1, h1⟩ := h.2.2 g
      exact ⟨_, by rw [h1]; rfl⟩
  · rw [if_neg c1, if_neg c2, if_neg c3, if_neg c4, he]
    refine ⟨fun _ => rfl, ?_⟩
    intro n hn
    cases hn

theorem utf8_accepted_iff (lead : Nat) (rest : List Nat) :
    Utf8Accepted lead rest ↔
      ∃ n, utf8_expected lead = some n ∧ contsVerdict n rest = some true := by
  simp only [Utf8Accepted, contsVerdict_true]

theorem utf8_rejected_iff (lead : Nat) (rest : List Nat) :
    Utf8Rejected lead rest ↔ utf8_expected lead = none ∨
      ∃ n, utf8_expected lead = some n ∧ contsVerdict n rest = some false := by
  simp only [Utf8Rejected, contsVerdict_false]
  constructor
  · rintro (h | ⟨n, i, b, h1, h2, h3, h4, h5⟩)
    · exact Or.inl h
    · exact Or.inr ⟨n, h1, i, b, h2, h3, h4, h5⟩
  · rintro (h | ⟨n, h1, i, b, h2, h3, h4, h5⟩)
    · exact Or.inl h
    · exact Or.inr ⟨n, i, b, h1, h2, h3, h4, h5⟩

theorem utf8_expected_none (lead : Nat) :
    utf8_expected lead = none ↔ (0x80 ≤ lead ∧ lead ≤ 0xBF) ∨ 0xF8 ≤ lead := by
  simp only [utf8_expected, topBits]
  norm_num
  split_ifs <;> simp <;> omega

/-- C11. `yajl_lex_utf8_char`, called for a lead byte with `subsubstate == 0` (as
`yajl_lex_string` does when `validateUTF8` is on), returns `string` iff the lead is at
most `0x7F` (no continuation byte), or has top bits `110` (1), `1110` (2) or `11110`
(3) and each of the expected continuation bytes is there with top two bits `10`; the
offset is then behind the last of them and the lexer is unchanged.  It returns `error`
iff the lead is not such a byte (it is in `0x80`-`0xBF` or at least `0xF8`) or an
expected continuation byte is bad, and the error code is then `string_invalid_utf8`. -/
theorem utf8_char_accepts (lexer : yajl_lexer_t) (h0 : lexer.subsubstate = 0)
    (jsonText : List Nat) (offset : Nat) (curChar : Nat) :
    ((∃ l o, yajl_lex_utf8_char lexer jsonText offset curChar = some (.string, l, o)) ↔
      Utf8Accepted curChar (jsonText.drop offset)) ∧
    (∀ n, utf8_expected curChar = some n → Utf8Accepted curChar (jsonText.drop offset) →
      yajl_lex_utf8_char lexer jsonText offset curChar =
        some (.string, lexer, offset + n)) ∧
    ((∃ l o, yajl_lex_utf8_char lexer jsonText offset curChar = some (.error, l, o)) ↔
      Utf8Rejected curChar (jsonText.drop offset)) ∧
    (∀ l o, yajl_lex_utf8_char lexer jsonText offset curChar = some (.error, l, o) →
      l.error = .string_invalid_utf8) ∧
    (utf8_expected curChar = none ↔
      (0x80 ≤ curChar ∧ curChar ≤ 0xBF) ∨ 0xF8 ≤ curChar) := by
  obtain ⟨hnone, hsome⟩ := utf8_char_result lexer h0 jsonText offset curChar
  rw [utf8_accepted_iff, utf8_rejected_iff]
  refine ⟨?_, ?_, ?_, ?_, utf8_expected_none curChar⟩
  · constructor
    · rintro ⟨l, o, h⟩
      cases he : utf8_expected curChar with
      | none => rw [hnone he] at h; cases h
      | some n =>
        refine ⟨n, rfl, ?_⟩
        obtain ⟨h1, h2, h3⟩ := hsome n he
        cases hv : contsVerdict n (jsonText.drop offset) with
        | none => obtain ⟨l1, g⟩ := h3 hv; rw [g] at h; cases h
        | some v =>
          cases v with
          | true => rfl
          | false => obtain ⟨o1, -, g⟩ := h2 hv; rw [g] at h; cases h
    · rintro ⟨n, he, hv⟩
      exact ⟨_, _, (hsome n he).1 hv⟩
  · rintro n he ⟨m, hm, hv⟩
    rw [he] at hm
    cases hm
    exact (hsome n he).1 hv
  · constructor
    · rintro ⟨l, o, h⟩
      cases he : utf8_expected curChar with
      | none => exact Or.inl rfl
      | some n =>
        refine Or.inr ⟨n, rfl, ?_⟩
        obtain ⟨h1, h2, h3⟩ := hsome n he
        cases hv : contsVerdict n (jsonText.drop offset) with
        | none => obtain ⟨l1, g⟩ := h3 hv; rw [g] at h; cases h
        | some v =>
          cases v with
          | false => rfl
          | true => rw [h1 hv] at h; cases h
    · rintro (he | ⟨n, he, hv⟩)
      · exact ⟨_, _, hnone he⟩
      · obtain ⟨o, -, g⟩ := (hsome n he).2.1 hv
        exact ⟨_, _, g⟩
  · intro l o h
    cases he : utf8_expected curChar with
    | none => rw [hnone he] at h; cases h; rfl
    | some n =>
      obtain ⟨h1, h2, h3⟩ := hsome n he
      cases hv : contsVerdict n (jsonText.drop offset) with
      | none => obtain ⟨l1, g⟩ := h3 hv; rw [g] at h; cases h
      | some v =>
        cases v with
        | false => obtain ⟨o1, -, g⟩ := h2 hv; rw [g] at h; cases h; rfl
        | true => rw [h1 hv] at h; cases h

theorem utf8_char_accepts_witness :
    yajl_lex_utf8_char (yajl_lex_alloc false true) [0x22, 0xe2, 0x82, 0xac, 0x22] 2 0xe2 =
      some (.string, yajl_lex_alloc false true, 2 + 2) :=
  (utf8_char_accepts (yajl_lex_alloc false true) rfl [0x22, 0xe2, 0x82, 0xac, 0x22] 2
    0xe2).2.1 2 (by decide)
    ⟨2, by decide, by decide, by decide⟩

/-! ## C13: the offset after a UTF-8 error -/

/-- C13, evaluated. For the text `"` `E2 82 41` `"` the lead byte `E2` is at index 1
and announces two continuation bytes; the second one, `41` at index 3, is bad.
`yajl_lex_utf8_char`, called behind the lead (offset 2), returns `error` with the offset
4, behind the bad byte, and so does `yajl_lex_lex`: no `unreadChar` runs on this path,
so the offset is not at the first byte of the invalid sequence (index 1). -/
theorem utf8_error_offset :
    yajl_lex_utf8_char { yajl_lex_alloc false true with substate := 4 }
        [0x22, 0xe2, 0x82, 0x41, 0x22] 2 0xe2 =
      some (.error, { yajl_lex_alloc false true with
        substate := 4, error := .string_invalid_utf8 }, 4) ∧
    ∃ r, yajl_lex_lex (yajl_lex_alloc false true) [0x22, 0xe2, 0x82, 0x41, 0x22] 0 = some r ∧
      r.tok = .error ∧ r.lexer.error = .string_invalid_utf8 ∧ r.offset = 4 ∧ r.offset ≠ 1 := by
  exact ⟨by decide,
    { tok := .error,
      lexer := { yajl_lex_alloc false true with
        substate := 4, error := .string_invalid_utf8, resultTok := .string },
      offset := 4, outBuf := .null, outLen := 0 },
    by decide, rfl, rfl, rfl, by decide⟩

/-! ## The text of a token: what a step keeps -/

theorem bodyBytes_append (items : List StrItem) (i : StrItem) :
    bodyBytes (items ++ [i]) = bodyBytes items ++ i.bytes := by
  induction items with
  | nil => simp [bodyBytes]
  | cons j items ih => simp [bodyBytes, ih]

theorem bodyOk_append (v : Bool) (items : List StrItem) (i : StrItem)
    (h : bodyOk v items) (hi : i.ok v) : bodyOk v (items ++ [i]) := by
  intro j hj
  rcases List.mem_append.1 hj with hj | hj
  · exact h j hj
  · simp only [List.mem_singleton] at hj
    exact hj ▸ hi

/-- A finished item brings the scan back to the head of the loop. -/
theorem strPrefix_item (l l1 : yajl_lexer_t) (hv : l1.validateUTF8 = l.validateUTF8)
    (items : List StrItem) (part : List Nat) (c : Nat) (i : StrItem)
    (hok : bodyOk l.validateUTF8 items) (hi : i.ok l.validateUTF8)
    (hb : i.bytes = part ++ [c]) :
    StrPrefix l1 .top (0x22 :: (bodyBytes items ++ part) ++ [c]) := by
  refine ⟨items ++ [i], [], ?_, rfl, ?_⟩
  · rw [hv]; exact bodyOk_append _ _ _ hok hi
  · simp [bodyBytes_append, hb]

/-- An unfinished item grows by a byte. -/
theorem strPrefix_part (l l1 : yajl_lexer_t) (hv : l1.validateUTF8 = l.validateUTF8)
    (items : List StrItem) (part : List Nat) (c : Nat) (p1 : StrPC)
    (hok : bodyOk l.validateUTF8 items) (hp : StrPartial l1 p1 (part ++ [c])) :
    StrPrefix l1 p1 (0x22 :: (bodyBytes items ++ part) ++ [c]) := by
  refine ⟨items, part ++ [c], ?_, hp, ?_⟩
  · rw [hv]; exact hok
  · simp

set_option maxRecDepth 100000 in
theorem table_not_ijc : ∀ c < 256, hasFlag c IJC = false →
    0x20 ≤ c ∧ c ≠ 0x22 ∧ c ≠ 0x5c := by
  decide

/-- The call at `entry_utf8_char` for a lead byte. -/
theorem utf8_lead_tok (l : yajl_lexer_t) (hv : l.validateUTF8 = true) (c : Nat)
    (hc : c < 256) (hijc : hasFlag c IJC = false) (items : List StrItem)
    (hok : bodyOk l.validateUTF8 items) :
    StrStepTok l (0x22 :: (bodyBytes items ++ [])) c
      (string_of_utf8
        (yajl_lex_utf8_char_lead { l with substate := 4, subsubstate := 0 } c)) := by
  obtain ⟨t1, t2, t3⟩ := table_not_ijc c hc hijc
  rw [yajl_lex_utf8_char_lead]
  split_ifs with c1 c2 c3 c4
  · simp only [string_of_utf8, if_true, StrStepTok]
    exact ⟨by trivial, by trivial,
      strPrefix_item l _ rfl items [] c (.plain c) hok ⟨t1, t2, t3, fun _ => c1⟩ rfl⟩
  · simp only [string_of_utf8, StrStepTok]
    exact ⟨by trivial, by trivial, strPrefix_part l _ rfl items [] c (.utf8 .e1) hok
      (show StrPartial _ (.utf8 .e1) _ from ⟨hv, c, rfl, c2⟩)⟩
  · simp only [string_of_utf8, StrStepTok]
    exact ⟨by trivial, by trivial, strPrefix_part l _ rfl items [] c (.utf8 .e2) hok
      (show StrPartial _ (.utf8 .e2) _ from ⟨hv, c, rfl, c3⟩)⟩
  · simp only [string_of_utf8, StrStepTok]
    exact ⟨by trivial, by trivial, strPrefix_part l _ rfl items [] c (.utf8 .e4) hok
      (show StrPartial _ (.utf8 .e4) _ from ⟨hv, c, rfl, c4⟩)⟩
  · simp [utf8_invalid, string_of_utf8, StrStepTok, ErrUnread]

/-- The body of the loop of `yajl_lex_string` at the head of an item. -/
theorem string_char_tok (l : yajl_lexer_t) (c : Nat) (hc : c < 256)
    (ht : l.resultTok = .string ∨ l.resultTok = .string_with_escapes)
    (items : List StrItem) (hok : bodyOk l.validateUTF8 items) :
    StrStepTok l (0x22 :: (bodyBytes items ++ [])) c (yajl_lex_string_char l c) := by
  rw [yajl_lex_string_char]
  split_ifs with c1 c2 c3 c4
  · subst c1
    simp only [StrStepTok]
    refine ⟨fun _ => ⟨by trivial, items, hok, by simp⟩, fun h => ?_⟩
    rcases ht with ht | ht <;> rw [ht] at h <;> cases h
  · subst c2
    simp only [StrStepTok]
    exact ⟨by trivial, by trivial, strPrefix_part l _ rfl items [] _ .e2 hok
      (show StrPartial _ .e2 _ from rfl)⟩
  · simp [StrStepTok, ErrUnread]
  · exact utf8_lead_tok l c4 c hc (by simpa using c3) items hok
  · obtain ⟨t1, t2, t3⟩ := table_not_ijc c hc (by simpa using c3)
    simp only [StrStepTok]
    refine ⟨by trivial, by trivial,
      strPrefix_item l l rfl items [] c (.plain c) hok ⟨t1, t2, t3, ?_⟩ rfl⟩
    intro hv
    rw [hv] at c4
    exact absurd rfl c4

/-- A continuation byte inside `yajl_lex_utf8_char`: the sequence goes on, is finished
(item `i`), or is invalid. -/
theorem utf8_cont_tok (l : yajl_lexer_t) (c : Nat) (items : List StrItem) (part : List Nat)
    (hok : bodyOk l.validateUTF8 items) (s : Step Utf8PC yajl_lexer_t)
    (hs : (isCont c ∧ ((∃ k, s = .next k l ∧ StrPartial l (.utf8 k) (part ++ [c])) ∨
        (s = .ret .string l 0 ∧ ∃ i : StrItem, i.ok l.validateUTF8 ∧ i.bytes = part ++ [c]))) ∨
      s = utf8_invalid l) :
    StrStepTok l (0x22 :: (bodyBytes items ++ part)) c (string_of_utf8 s) := by
  rcases hs with ⟨-, ⟨k, rfl, hp⟩ | ⟨rfl, i, hi, hb⟩⟩ | rfl
  · simp only [string_of_utf8, StrStepTok]
    exact ⟨by trivial, by trivial, strPrefix_part l l rfl items part c (.utf8 k) hok hp⟩
  · simp only [string_of_utf8, if_true, StrStepTok]
    exact ⟨by trivial, by trivial, strPrefix_item l l rfl items part c i hok hi hb⟩
  · simp [utf8_invalid, string_of_utf8, StrStepTok, ErrUnread]

theorem string_step_tok (p : StrPC) (l : yajl_lexer_t) (c : Nat) (bytes : List Nat)
    (hc : c < 256) (ht : l.resultTok = .string ∨ l.resultTok = .string_with_escapes)
    (h : StrPrefix l p bytes) :
    StrStepTok l bytes c (yajl_lex_string_step p l c) := by
  obtain ⟨items, part, hok, hp, rfl⟩ := h
  rcases p with _ | _ | _ | _ | k
  · -- the head of the loop: the fast scan
    simp only [StrPartial] at hp
    subst hp
    rw [yajl_lex_string_step]
    split_ifs with c1
    · exact string_char_tok l c hc ht items hok
    · have c1' : hasFlag c (scanMask l.validateUTF8) = false := by simpa using c1
      obtain ⟨u1, u2⟩ := table_unflagged c hc
      simp only [StrStepTok]
      refine ⟨by trivial, by trivial, strPrefix_item l l rfl items [] c (.plain c) hok ?_ rfl⟩
      cases hv : l.validateUTF8 with
      | true =>
        rw [hv] at c1'
        obtain ⟨n1, n2, n3, n4⟩ := u1 c1'
        exact ⟨(table_not_ijc c hc n3).1, n1, n2, fun _ => n4⟩
      | false =>
        rw [hv] at c1'
        obtain ⟨n1, n2, n3⟩ := u2 c1'
        exact ⟨(table_not_ijc c hc n3).1, n1, n2, fun g => by cases g⟩
  · simp only [StrPartial] at hp
    subst hp
    exact string_char_tok l c hc ht items hok
  · -- behind a backslash
    simp only [StrPartial] at hp
    subst hp
    rw [yajl_lex_string_step]
    split_ifs with c1 c2
    · subst c1
      simp only [StrStepTok]
      exact ⟨by trivial, by trivial,
        strPrefix_part l { l with subsubstate := 0 } rfl items [0x5c] 0x75 .e3 hok
          (show StrPartial { l with subsubstate := 0 } .e3 ([0x5c] ++ [0x75]) from
            ⟨[], rfl, rfl, Nat.zero_lt_succ 3, by simp⟩)⟩
    · simp [StrStepTok, ErrUnread]
    · have hve : validEscape c := (hasFlag_escape_iff c).1 (by simpa using c2)
      simp only [StrStepTok]
      exact ⟨by trivial, by trivial,
        strPrefix_item l l rfl items [0x5c] c (.escape c) hok hve rfl⟩
  · -- inside a `\u` escape
    obtain ⟨hs, rfl, hlen, hlt, hhex⟩ := hp
    rw [yajl_lex_string_step]
    have hsucc : uintSucc l.subsubstate = l.subsubstate + 1 := by
      unfold uintSucc; omega
    split_ifs with c1 c2
    · simp [StrStepTok, ErrUnread]
    · have hx : isHex c := (hasFlag_hex_iff c).1 (by simpa using c1)
      simp only [StrStepTok]
      refine ⟨by trivial, by trivial,
        strPrefix_part l { l with subsubstate := uintSucc l.subsubstate } rfl items
          (0x5c :: 0x75 :: hs) c .e3 hok
          (show StrPartial { l with subsubstate := uintSucc l.subsubstate } .e3
              ((0x5c :: 0x75 :: hs) ++ [c]) from ⟨hs ++ [c], by simp, ?_, c2, ?_⟩)⟩
      · simp [hlen, hsucc]
      · intro h hh
        rcases List.mem_append.1 hh with hh | hh
        · exact hhex h hh
        · simp only [List.mem_singleton] at hh
          exact hh ▸ hx
    · have hx : isHex c := (hasFlag_hex_iff c).1 (by simpa using c1)
      have h3 : hs.length = 3 := by rw [hsucc] at c2; omega
      obtain ⟨h1, h2, h3', rfl⟩ : ∃ a b d, hs = [a, b, d] := by
        rcases hs with _ | ⟨a, _ | ⟨b, _ | ⟨d, _ | ⟨e, t⟩⟩⟩⟩ <;> simp at h3
        exact ⟨a, b, d, rfl⟩
      simp only [StrStepTok]
      refine ⟨by trivial, by trivial, strPrefix_item l _ rfl items _ c (.unicode h1 h2 h3' c)
        hok ⟨hhex _ (by simp), hhex _ (by simp), hhex _ (by simp), hx⟩ rfl⟩
  · -- inside a multi-byte sequence
    rw [yajl_lex_string_step]
    apply utf8_cont_tok l c items part hok
    by_cases hcc : c >>> 6 = 0x2
    · left
      refine ⟨hcc, ?_⟩
      cases k with
      | e1 =>
        obtain ⟨hv, b0, rfl, g⟩ := hp
        right
        simp only [yajl_lex_utf8_char_step, if_pos hcc, true_and]
        exact ⟨.utf8_2 b0 c, ⟨hv, g, hcc⟩, rfl⟩
      | e2 =>
        obtain ⟨hv, b0, rfl, g⟩ := hp
        left
        simp only [yajl_lex_utf8_char_step, if_pos hcc]
        exact ⟨.e3, rfl, hv, b0, c, rfl, g, hcc⟩
      | e3 =>
        obtain ⟨hv, b0, b1, rfl, g, g1⟩ := hp
        right
        simp only [yajl_lex_utf8_char_step, if_pos hcc, true_and]
        exact ⟨.utf8_3 b0 b1 c, ⟨hv, g, g1, hcc⟩, rfl⟩
      | e4 =>
        obtain ⟨hv, b0, rfl, g⟩ := hp
        left
        simp only [yajl_lex_utf8_char_step, if_pos hcc]
        exact ⟨.e5, rfl, hv, b0, c, rfl, g, hcc⟩
      | e5 =>
        obtain ⟨hv, b0, b1, rfl, g, g1⟩ := hp
        left
        simp only [yajl_lex_utf8_char_step, if_pos hcc]
        exact ⟨.e6, rfl, hv, b0, b1, c, rfl, g, g1, hcc⟩
      | e6 =>
        obtain ⟨hv, b0, b1, b2, rfl, g, g1, g2⟩ := hp
        right
        simp only [yajl_lex_utf8_char_step, if_pos hcc, true_and]
        exact ⟨.utf8_4 b0 b1 b2 c, ⟨hv, g, g1, g2, hcc⟩, rfl⟩
    · right
      cases k <;> simp only [yajl_lex_utf8_char_step, if_neg hcc]

theorem number_step_tok (p : NumPC) (x0 x : LexCtx) (l : yajl_lexer_t) (c : Nat)
    (bytes : List Nat) (ht : l.resultTok = .integer ∨ l.resultTok = .double)
    (hb : l.buf = x0.lexer.buf) (hso : x.startOffset = x0.startOffset)
    (hv : l.validateUTF8 = x0.lexer.validateUTF8) :
    StepTok x0 bytes c (liftStep .num x (yajl_lex_number_step p l c)) := by
  cases p <;>
  simp only [yajl_lex_number_step, number_integer, number_fraction, number_exponent,
    number_exponent_digits] <;>
  split_ifs <;>
  simp only [liftStep, StepTok, TokPrefix] <;>
  (rcases ht with ht | ht <;> simp [ht, hb, hso, hv, ErrUnread])

theorem comment_step_tok (p : ComPC) (x : LexCtx) (c : Nat) (bytes : List Nat) (off : Nat) :
    StepTok x bytes c (lex_of_comment x off (yajl_lex_comment_step p x.lexer c)) := by
  cases p <;>
  simp only [yajl_lex_comment_step] <;>
  split_ifs <;>
  simp [lex_of_comment, StepTok, TokPrefix, ErrUnread]

theorem expect_step_tok (x : LexCtx) (c : Nat) (bytes : List Nat)
    (ht : x.lexer.resultTok = .bool ∨ x.lexer.resultTok = .null) :
    StepTok x bytes c (lex_expect x c) := by
  rw [lex_expect]
  cases expect.get? x.lexer.substate with
  | none => simp [StepTok]
  | some e =>
    simp only
    split_ifs
    · simp [StepTok, ErrUnread]
    · cases expect.get? (uintSucc x.lexer.substate) with
      | none => simp [StepTok]
      | some e1 =>
        simp only
        split_ifs
        · simp [StepTok, TokPrefix]
        · rcases ht with ht | ht <;> simp [StepTok, ht]

theorem string_lift_tok (x : LexCtx) (bytes : List Nat) (c : Nat)
    (s : Step StrPC yajl_lexer_t) (h : StrStepTok x.lexer bytes c s) :
    StepTok x bytes c (liftStep .str x s) := by
  cases s with
  | next p1 l1 =>
    obtain ⟨h1, h2, h3⟩ := h
    exact ⟨h1, Or.inr ⟨h2, rfl, h3⟩⟩
  | ret tok l1 u => exact h
  | fault => trivial

theorem step_tok (pc : LexPC) (x : LexCtx) (c off : Nat) (bytes : List Nat) (hc : c < 256)
    (hi : Inv pc x off) (ht : TokPrefix pc x.lexer bytes) (htop : pc = .top → bytes = []) :
    StepTok x bytes c (yajl_lex_lex_step pc x c (off + 1)) := by
  cases pc with
  | top =>
    have hb := htop rfl
    subst hb
    simp only [yajl_lex_lex_step]
    apply lex_switch_elim
    case h12 =>
      intro _
      exact number_step_tok .e1 x x _ c [] (Or.inl rfl) rfl rfl rfl
    case h11 =>
      intro h
      subst h
      refine ⟨rfl, Or.inr ⟨rfl, rfl, [], [], ?_, rfl, by simp [bodyBytes]⟩⟩
      intro i hi
      cases hi
    all_goals intros
    all_goals simp [StepTok, TokPrefix, ErrUnread]
  | expect => exact expect_step_tok x c bytes hi.tok
  | str p =>
    exact string_lift_tok x bytes c _ (string_step_tok p x.lexer c bytes hc hi.tok ht)
  | num p => exact number_step_tok p x x x.lexer c bytes hi.tok rfl rfl rfl
  | com p => exact comment_step_tok p x c bytes (off + 1)

/-! ## The text of a token: what a scan keeps -/

theorem tokText_succ (x x1 : LexCtx) (jsonText : List Nat) (off c : Nat) (rest : List Nat)
    (hd : jsonText.drop off = c :: rest) (hso : x.startOffset ≤ off)
    (hb : x1.lexer.buf = x.lexer.buf) (hs : x1.startOffset = x.startOffset) :
    tokText x1 jsonText (off + 1) = tokText x jsonText off ++ [c] := by
  have hget : jsonText[off]? = some c := by
    have := congrArg (fun l => l[0]?) hd
    simpa using this
  unfold tokText
  rw [hb, hs, List.append_assoc]
  congr 1
  have e : off + 1 - x.startOffset = (off - x.startOffset) + 1 := by omega
  rw [e, List.take_succ, List.getElem?_drop]
  have e2 : x.startOffset + (off - x.startOffset) = off := by omega
  rw [e2, hget]
  rfl

theorem tokText_top (x : LexCtx) (jsonText : List Nat) (off : Nat) (hi : Inv .top x off) :
    tokText x jsonText off = [] := by
  obtain ⟨h1, h2⟩ := hi.top rfl
  unfold tokText
  rw [hi.buf h2, h1]
  simp

theorem run_tok (jsonText : List Nat) (rest : List Nat) : ∀ (pc : LexPC) (x : LexCtx)
    (off : Nat), jsonText.drop off = rest → Inv pc x off →
    TokPrefix pc x.lexer (tokText x jsonText off) → (∀ b ∈ rest, b < 256) →
    RunTok jsonText x.lexer.validateUTF8 (run yajl_lex_lex_step pc x rest off) := by
  induction rest with
  | nil => intro pc x off _ _ ht _; exact ⟨rfl, ht⟩
  | cons c rest ih =>
    intro pc x off hd hi ht hbytes
    have hc : c < 256 := hbytes c (by simp)
    have hs := step_inv pc x c off hi
    have hk := step_tok pc x c off _ hc hi ht
      (fun h => by subst h; exact tokText_top x jsonText off hi)
    have hd1 : jsonText.drop (off + 1) = rest := by
      have := congrArg (List.drop 1) hd
      simpa [List.drop_drop, Nat.add_comm] using this
    rw [run_cons]
    cases hstep : yajl_lex_lex_step pc x c (off + 1) with
    | next pc1 x1 =>
      rw [hstep] at hs hk
      obtain ⟨hv, hk⟩ := hk
      simp only [Step.cont]
      rw [← hv]
      apply ih pc1 x1 (off + 1) hd1 hs.1 _ (fun b hb => hbytes b (by simp [hb]))
      rcases hk with rfl | ⟨k1, k2, k3⟩
      · trivial
      · rw [tokText_succ x x1 jsonText off c rest hd hi.start_le k1 k2]
        exact k3
    | ret tok x1 u =>
      rw [hstep] at hs hk
      obtain ⟨-, -, -, s4, -, s6, -⟩ := hs
      simp only [Step.cont, RunTok]
      intro htok
      obtain ⟨rfl, k⟩ := hk.1 htok
      rw [Nat.sub_zero, tokText_succ x x1 jsonText off c rest hd hi.start_le s6 s4]
      exact k
    | fault => trivial

/-! ## Lexers that calls of `yajl_lex_lex` leave behind: proofs -/

/-- Re-entry after a suspension, at any offset of the new chunk. -/
theorem entry_of_susp_at (pc : LexPC) (x : LexCtx) (buf : List Nat) (B : List Nat)
    (off : Nat)
    (hst : x.lexer.state = pc.state) (hutf : ∀ q, pc = .str (.utf8 q) → x.lexer.substate = 4)
    (pcB : LexPC) (xB : LexCtx)
    (he : lex_entry { (yajl_lex_lex_susp pc x).lexer with buf := buf } B off =
      some (pcB, xB)) :
    (pc = pcB ∨ (pc = .str .top ∧ pcB = .str .e1)) ∧ xB.startOffset = off ∧
    xB.entryState = pc.state ∧
    xB.lexer = { (yajl_lex_lex_susp pc x).lexer with
      buf := if pc = .top then [] else buf } := by
  rcases pc with _ | _ | p | p | p
  · simp only [LexPC.state] at hst
    simp only [lex_entry, yajl_lex_lex_susp, hst] at he
    split_ifs at he
    simp only [Option.some.injEq, Prod.mk.injEq] at he
    obtain ⟨rfl, rfl⟩ := he
    simp [LexPC.state, yajl_lex_lex_susp, hst]
  · simp only [LexPC.state] at hst
    simp only [lex_entry, yajl_lex_lex_susp, hst, Option.some.injEq, Prod.mk.injEq] at he
    obtain ⟨rfl, rfl⟩ := he
    simp [LexPC.state, yajl_lex_lex_susp, hst]
  · simp only [LexPC.state] at hst
    rcases p with _ | _ | _ | _ | q
    case utf8 =>
      have h4 := hutf q rfl
      cases q <;>
      simp only [lex_entry, hst, yajl_lex_lex_susp, yajl_lex_string_susp,
        yajl_lex_utf8_char_susp, Utf8PC.label, string_entry, utf8_entry, h4, entry_guard,
        Option.map] at he <;>
      split_ifs at he <;>
      simp only [Option.some.injEq, Prod.mk.injEq, reduceCtorEq] at he <;>
      (obtain ⟨rfl, rfl⟩ := he
       simp [LexPC.state, yajl_lex_lex_susp, yajl_lex_string_susp, yajl_lex_utf8_char_susp,
         Utf8PC.label, hst, h4])
    all_goals
      simp only [lex_entry, hst, yajl_lex_lex_susp, yajl_lex_string_susp,
        string_entry, entry_guard] at he <;>
      split_ifs at he <;>
      simp only [Option.some.injEq, Prod.mk.injEq, reduceCtorEq] at he <;>
      (obtain ⟨rfl, rfl⟩ := he
       simp [LexPC.state, yajl_lex_lex_susp, yajl_lex_string_susp, hst])
  · simp only [LexPC.state] at hst
    cases p <;>
    simp only [lex_entry, hst, yajl_lex_lex_susp, yajl_lex_number_susp,
      NumPC.label, number_entry, entry_guard] at he <;>
    split_ifs at he <;>
    simp only [Option.some.injEq, Prod.mk.injEq, reduceCtorEq] at he <;>
    (obtain ⟨rfl, rfl⟩ := he
     simp [LexPC.state, yajl_lex_lex_susp, yajl_lex_number_susp, NumPC.label, hst])
  · simp only [LexPC.state] at hst
    cases p <;>
    simp only [lex_entry, hst, yajl_lex_lex_susp, yajl_lex_comment_susp,
      ComPC.label, comment_entry, entry_guard] at he <;>
    split_ifs at he <;>
    simp only [Option.some.injEq, Prod.mk.injEq, reduceCtorEq] at he <;>
    (obtain ⟨rfl, rfl⟩ := he
     simp [LexPC.state, yajl_lex_lex_susp, yajl_lex_comment_susp, ComPC.label, hst])

theorem tokPrefix_congr (pc pc1 : LexPC) (l l1 : yajl_lexer_t) (bytes : List Nat)
    (hv : l1.validateUTF8 = l.validateUTF8)
    (hs : pc = .str .e3 → l1.subsubstate = l.subsubstate)
    (hpc : pc = pc1 ∨ (pc = .str .top ∧ pc1 = .str .e1))
    (h : TokPrefix pc l bytes) : TokPrefix pc1 l1 bytes := by
  rcases hpc with rfl | ⟨rfl, rfl⟩
  · rcases pc with _ | _ | p | p | p
    · trivial
    · exact h
    · obtain ⟨items, part, h1, h2, h3⟩ := h
      refine ⟨items, part, by rw [hv]; exact h1, ?_, h3⟩
      rcases p with _ | _ | _ | _ | k
      · exact h2
      · exact h2
      · exact h2
      · obtain ⟨hx, g1, g2, g3, g4⟩ := h2
        have e := hs rfl
        exact ⟨hx, g1, by rw [e]; exact g2, by rw [e]; exact g3, g4⟩
      · cases k <;> (simp only [StrPartial] at h2 ⊢; rw [hv]; exact h2)
    · exact h
    · exact h
  · obtain ⟨items, part, h1, h2, h3⟩ := h
    exact ⟨items, part, by rw [hv]; exact h1, h2, h3⟩

/-- Entering `yajl_lex_lex` with a lexer an earlier call left behind: the scan goes on at
the control point of the suspension, with the bytes held in the buffer. -/
theorem entry_held (l : yajl_lexer_t) (hl : Held l) (jsonText : List Nat) (off : Nat)
    (pcB : LexPC) (xB : LexCtx) (he : lex_entry l jsonText off = some (pcB, xB)) :
    Inv pcB xB off ∧ TokPrefix pcB xB.lexer (tokText xB jsonText off) ∧
    xB.lexer.validateUTF8 = l.validateUTF8 ∧ xB.entryState = l.state ∧
    xB.startOffset = off ∧ (l.state ≠ .start → xB.lexer.buf = l.buf) := by
  obtain ⟨pc, x, hst, hutf, hgood, hpre, rfl⟩ := hl
  obtain ⟨hpc, hso, hes, hlex⟩ :=
    entry_of_susp_at pc x (yajl_lex_lex_susp pc x).lexer.buf jsonText off hst hutf pcB xB he
  obtain ⟨s1, s2, s3, s4, s5⟩ := susp_state pc x
  obtain ⟨f1, f2, f3, f4, f5⟩ := susp_fields pc x
  have hstB : pcB.state = pc.state := by
    rcases hpc with rfl | ⟨rfl, rfl⟩ <;> rfl
  have htopB : pcB = .top → pc = .top := by
    rcases hpc with rfl | ⟨rfl, rfl⟩
    · exact id
    · intro h; cases h
  have hbufB : pc ≠ .top → xB.lexer.buf = x.lexer.buf := by
    intro h; rw [hlex]; simp only [if_neg h]; exact s2
  have htext : tokText xB jsonText off = xB.lexer.buf := by
    unfold tokText; rw [hso]; simp
  refine ⟨⟨?_, by omega, ?_, ?_, ?_, ?_⟩, ?_, ?_, ?_, hso, ?_⟩
  · rw [hlex, hstB]; exact s1.trans hst
  · intro h
    rw [hes] at h
    have : pc = .top := by
      cases pc <;> simp [LexPC.state] at h
      rfl
    rw [hlex, if_pos this]
  · intro h
    have := htopB h
    subst this
    exact ⟨hso, hes⟩
  · rw [hlex]
    show GoodTok pcB (yajl_lex_lex_susp pc x).lexer.resultTok
    rw [f3]
    rcases hpc with rfl | ⟨rfl, rfl⟩
    · exact hgood
    · exact hgood
  · intro k hk
    have : pc = .str (.utf8 k) := by
      rcases hpc with rfl | ⟨rfl, rfl⟩
      · exact hk
      · cases hk
    subst this
    rw [hlex]
    show (yajl_lex_lex_susp (.str (.utf8 k)) x).lexer.substate = 4
    simp only [yajl_lex_lex_susp, yajl_lex_string_susp, yajl_lex_utf8_char_susp]
    exact hutf k rfl
  · rw [htext]
    by_cases htop : pc = .top
    · have : pcB = .top := by
        rcases hpc with rfl | ⟨rfl, rfl⟩
        · exact htop
        · cases htop
      subst this
      trivial
    · rw [hbufB htop]
      refine tokPrefix_congr pc pcB x.lexer xB.lexer _ ?_ ?_ hpc hpre
      · rw [hlex]; exact f2
      · intro h; rw [hlex]; exact f5 h
  · rw [hlex]
  · rw [hes, s1, hst]
  · intro h
    have htop : pc ≠ .top := by
      intro g; subst g
      exact h (s1.trans hst)
    rw [hlex]; simp only [if_neg htop]

theorem tokPrefix_ne_nil (pc : LexPC) (l : yajl_lexer_t) (bytes : List Nat)
    (hpc : pc ≠ .top) (h : TokPrefix pc l bytes) : bytes ≠ [] := by
  rcases pc with _ | _ | p | p | p
  · exact absurd rfl hpc
  · exact h
  · obtain ⟨items, part, -, -, rfl⟩ := h
    simp
  · exact h
  · exact h

theorem state_start_iff (pc : LexPC) : pc.state = .start ↔ pc = .top := by
  cases pc <;> simp [LexPC.state]

/-- The payload of a string token is the literal without its quotes. -/
theorem lexed_string (tok : yajl_tok) (ht : tok = .string ∨ tok = .string_with_escapes)
    (x : LexCtx) (jsonText : List Nat) (off : Nat) (hoff : off ≤ jsonText.length)
    (hbuf : x.entryState = .start → x.lexer.buf = []) (r : LexOut)
    (h : lexed tok x jsonText off = some r) (b : List Nat)
    (hb : tokText x jsonText off = 0x22 :: (b ++ [0x22])) :
    r.payload jsonText = b := by
  have hne : tok ≠ .eof ∧ tok ≠ .error := by
    rcases ht with rfl | rfl <;> exact ⟨by decide, by decide⟩
  have hlen : (tokText x jsonText off).length = b.length + 2 := by rw [hb]; simp
  by_cases he : x.entryState = .start
  · have hb0 := hbuf he
    unfold tokText at hb hlen
    rw [hb0, List.nil_append] at hb hlen
    have hn : off - x.startOffset = b.length + 2 := by
      rw [List.length_take, List.length_drop] at hlen
      omega
    simp only [lexed, hne.1, he, false_or, not_true_eq_false, if_false, ne_eq, hne.2,
      not_false_eq_true, if_true, skip_quotes, ht, hn, Nat.le_add_left] at h
    simp only [Option.some.injEq] at h
    subst h
    simp only [LexOut.payload]
    rw [hn] at hb
    have e : jsonText.drop (x.startOffset + 1) = (jsonText.drop x.startOffset).drop 1 := by
      rw [List.drop_drop, Nat.add_comm]
    have e2 : ((jsonText.drop x.startOffset).drop 1).take (b.length + 2 - 2) =
        (((jsonText.drop x.startOffset).take (b.length + 2)).drop 1).take (b.length + 2 - 2) := by
      rw [List.drop_take, List.take_take]
      congr 1
      omega
    rw [e, e2, hb]
    simp
  · simp only [lexed, hne.1, he, false_or, not_false_eq_true, if_true, ne_eq, hne.2,
      skip_quotes, ht] at h
    change (if 2 ≤ (tokText x jsonText off).length then _ else _) = _ at h
    rw [if_pos (by omega)] at h
    simp only [Option.some.injEq] at h
    subst h
    simp only [LexOut.payload]
    change ((tokText x jsonText off).drop 1).take ((tokText x jsonText off).length - 2) = b
    rw [hb]
    simp

/-- What `lexed` leaves in the lexer when a token or an error is returned. -/
theorem lexed_done (tok : yajl_tok) (hne : tok ≠ .eof) (x : LexCtx) (jsonText : List Nat)
    (off : Nat) (r : LexOut) (h : lexed tok x jsonText off = some r) :
    r.tok = tok ∧ r.lexer.state = .start ∧
    r.lexer.buf = (if x.entryState = .start then x.lexer.buf else tokText x jsonText off) := by
  unfold lexed at h
  split_ifs at h <;>
  (obtain ⟨h1, h2, h3⟩ := skip_quotes_props _ _ h
   simp_all [tokText])

theorem susp_with_buf (pc : LexPC) (x : LexCtx) (T : List Nat) :
    (yajl_lex_lex_susp pc { x with lexer := { x.lexer with buf := T } }).lexer =
      { (yajl_lex_lex_susp pc x).lexer with buf := T } := by
  rcases pc with _ | _ | p | p | p
  · rfl
  · rfl
  · rcases p with _ | _ | _ | _ | k <;> rfl
  · rfl
  · rfl

/-- A call of `yajl_lex_lex` splits into the entry and the scan. -/
theorem call_split (l : yajl_lexer_t) (jsonText : List Nat) (off : Nat) (r : LexOut)
    (h : yajl_lex_lex l jsonText off = some r) :
    ∃ pc x, lex_entry l jsonText off = some (pc, x) ∧
      lex_finish jsonText (run yajl_lex_lex_step pc x (jsonText.drop off) off) = some r := by
  unfold yajl_lex_lex at h
  cases he : lex_entry l jsonText off with
  | none => rw [he] at h; cases h
  | some e =>
    obtain ⟨pc, x⟩ := e
    rw [he] at h
    exact ⟨pc, x, rfl, h⟩

/-- What a call of `yajl_lex_lex` on a lexer left by earlier calls gives. -/
theorem held_call (l : yajl_lexer_t) (hl : Held l) (jsonText : List Nat)
    (hbytes : ∀ b ∈ jsonText, b < 256) (off : Nat) (r : LexOut)
    (h : yajl_lex_lex l jsonText off = some r) :
    Held r.lexer ∧
    (r.tok = .string ∨ r.tok = .string_with_escapes →
      ∃ items, bodyOk l.validateUTF8 items ∧ r.payload jsonText = bodyBytes items) ∧
    (r.lexer.state ≠ .start ↔ r.tok = .eof ∧ r.lexer.buf ≠ []) ∧
    (l.state = .start → r.lexer.state = .start → r.lexer.buf = []) := by
  obtain ⟨pc, x, he, hf⟩ := call_split l jsonText off r h
  obtain ⟨hinv, hpre, hv, hes, hso, -⟩ := entry_held l hl jsonText off pc x he
  have hrt := run_tok jsonText _ pc x off rfl hinv hpre
    (fun b hb => hbytes b (List.mem_of_mem_drop hb))
  cases hr : run yajl_lex_lex_step pc x (jsonText.drop off) off with
  | fault => rw [hr] at hf; cases hf
  | suspended pc1 x1 o1 =>
    rw [hr] at hf hrt
    obtain ⟨hinv1, hes1⟩ := run_inv_suspended _ _ _ _ _ _ _ hinv hr
    obtain ⟨-, hpre1⟩ := hrt
    obtain ⟨s1, s2, s3, s4, s5⟩ := susp_state pc1 x1
    have hT : tokText (yajl_lex_lex_susp pc1 x1) jsonText o1 = tokText x1 jsonText o1 := by
      unfold tokText; rw [s2, s4]
    simp only [lex_finish, lexed_eof, Option.some.injEq] at hf
    have hrl : r.lexer =
        { (yajl_lex_lex_susp pc1 x1).lexer with buf := tokText x1 jsonText o1 } := by
      rw [← hf, ← hT]; rfl
    have hrk : r.tok = .eof := by rw [← hf]
    have hrs : r.lexer.state = pc1.state := by rw [hrl]; exact s1.trans hinv1.state
    have hrb : r.lexer.buf = tokText x1 jsonText o1 := by rw [hrl]
    refine ⟨?_, ?_, ?_, ?_⟩
    · rw [hrl]
      exact ⟨pc1, { x1 with lexer := { x1.lexer with buf := tokText x1 jsonText o1 } },
        hinv1.state, hinv1.utf8, hinv1.tok,
        tokPrefix_congr pc1 pc1 x1.lexer _ _ rfl (fun _ => rfl) (Or.inl rfl) hpre1,
        (susp_with_buf pc1 x1 _).symm⟩
    · intro g
      rw [hrk] at g
      rcases g with g | g <;> cases g
    · rw [hrs, hrb]
      constructor
      · intro g
        exact ⟨hrk,
          tokPrefix_ne_nil pc1 _ _ (fun g1 => g ((state_start_iff pc1).2 g1)) hpre1⟩
      · intro g g1
        have := (state_start_iff pc1).1 g1
        subst this
        exact g.2 (tokText_top x1 jsonText o1 hinv1)
    · intro _ g
      rw [hrs] at g
      have := (state_start_iff pc1).1 g
      subst this
      rw [hrb]
      exact tokText_top x1 jsonText o1 hinv1
  | done tok x1 o1 =>
    rw [hr] at hf hrt
    obtain ⟨d1, d2, d3, d4, d5, d6⟩ := run_inv_done _ _ _ _ _ _ _ hinv hr
    simp only [lex_finish] at hf
    obtain ⟨k1, k2, k3⟩ := lexed_done tok d1 x1 jsonText o1 r hf
    have hne : (jsonText.drop off) ≠ [] := by
      intro g; rw [g] at hr; simp [run] at hr
    have hoff : o1 ≤ jsonText.length := by
      rw [List.length_drop] at d4
      have : off < jsonText.length := by
        by_contra g
        exact hne (List.drop_eq_nil_of_le (by omega))
      omega
    refine ⟨⟨.top, ⟨r.lexer, 0, .start⟩, k2, (fun k g => by cases g), trivial, trivial, rfl⟩,
      ?_, ?_, ?_⟩
    · intro g
      rw [k1] at g
      obtain ⟨items, i1, i2⟩ := hrt g
      rw [hv] at i1
      exact ⟨items, i1, lexed_string tok g x1 jsonText o1 hoff d5 r hf _ i2⟩
    · rw [k1]
      constructor
      · intro g; exact absurd k2 g
      · intro g; exact absurd g.1 d1
    · intro g _
      have e1 := d6 (hes.trans g)
      rw [k3, if_pos e1]
      exact d5 e1

theorem reachable_held (l : yajl_lexer_t) (h : Reachable l) : Held l := by
  induction h with
  | fresh a v =>
    exact ⟨.top, ⟨yajl_lex_alloc a v, 0, .start⟩, rfl, (fun k g => by cases g), trivial,
      trivial, rfl⟩
  | lex lexer jsonText offset r _ hb hcall ih =>
    exact (held_call lexer ih jsonText hb offset r hcall).1
  | reset lexer _ _ =>
    exact ⟨.top, ⟨yajl_lex_reset lexer, 0, .start⟩, rfl, (fun k g => by cases g), trivial,
      trivial, rfl⟩

/-! ## C12: the payload of a string token -/

theorem shift_topBits (b : Nat) :
    (b >>> 5 = 0x6 ↔ topBits 3 0b110 b) ∧ (b >>> 4 = 0x0e ↔ topBits 4 0b1110 b) ∧
    (b >>> 3 = 0x1e ↔ topBits 5 0b11110 b) ∧ (isCont b ↔ isContinuation b) := by
  simp only [topBits, isCont, isContinuation, Nat.shiftRight_eq_div_pow]
  norm_num

theorem structural_ascii (c : Nat) (rest : List Nat) (h : c ≤ 0x7f) :
    structuralUtf8 (c :: rest) = structuralUtf8 rest := by
  simp only [structuralUtf8, structuralFrom, if_pos h]

theorem structural_cont (n b : Nat) (rest : List Nat) (h : isCont b) :
    structuralFrom (n + 1) (b :: rest) = structuralFrom n rest := by
  simp only [structuralFrom, if_pos ((shift_topBits b).2.2.2.1 h)]

theorem structural_lead (b : Nat) (rest : List Nat) :
    (b >>> 5 = 0x6 → structuralUtf8 (b :: rest) = structuralFrom 1 rest) ∧
    (b >>> 4 = 0x0e → structuralUtf8 (b :: rest) = structuralFrom 2 rest) ∧
    (b >>> 3 = 0x1e → structuralUtf8 (b :: rest) = structuralFrom 3 rest) := by
  simp only [structuralUtf8, structuralFrom, topBits, Nat.shiftRight_eq_div_pow]
  norm_num
  refine ⟨fun h => ?_, fun h => ?_, fun h => ?_⟩
  · rw [if_neg (by omega), if_pos h]
  · rw [if_neg (by omega), if_neg (by omega), if_pos h]
  · rw [if_neg (by omega), if_neg (by omega), if_neg (by omega)]
    simp [h]

/-- The bytes of well-formed items have the structure of UTF-8 when it is validated. -/
theorem structural_body (items : List StrItem) (h : bodyOk true items) :
    structuralUtf8 (bodyBytes items) = true := by
  induction items with
  | nil => rfl
  | cons i items ih =>
    have hi : i.ok true := h i (by simp)
    have ih1 := ih (fun j hj => h j (by simp [hj]))
    cases i with
    | plain c =>
      obtain ⟨-, -, -, h4⟩ := hi
      simp only [bodyBytes, StrItem.bytes, List.singleton_append]
      rw [structural_ascii c _ (h4 rfl)]
      exact ih1
    | escape c =>
      have hc : c ≤ 0x7f := by unfold StrItem.ok validEscape at hi; omega
      simp only [bodyBytes, StrItem.bytes, List.cons_append, List.nil_append]
      rw [structural_ascii _ _ (by decide), structural_ascii c _ hc]
      exact ih1
    | unicode h1 h2 h3 h4 =>
      obtain ⟨g1, g2, g3, g4⟩ := hi
      unfold isHex at g1 g2 g3 g4
      simp only [bodyBytes, StrItem.bytes, List.cons_append, List.nil_append]
      rw [structural_ascii _ _ (by decide), structural_ascii _ _ (by decide),
        structural_ascii h1 _ (by omega), structural_ascii h2 _ (by omega),
        structural_ascii h3 _ (by omega), structural_ascii h4 _ (by omega)]
      exact ih1
    | utf8_2 b0 b1 =>
      obtain ⟨-, g0, g1⟩ := hi
      simp only [bodyBytes, StrItem.bytes, List.cons_append, List.nil_append]
      rw [(structural_lead b0 _).1 g0, structural_cont 0 b1 _ g1]
      exact ih1
    | utf8_3 b0 b1 b2 =>
      obtain ⟨-, g0, g1, g2⟩ := hi
      simp only [bodyBytes, StrItem.bytes, List.cons_append, List.nil_append]
      rw [(structural_lead b0 _).2.1 g0, structural_cont 1 b1 _ g1, structural_cont 0 b2 _ g2]
      exact ih1
    | utf8_4 b0 b1 b2 b3 =>
      obtain ⟨-, g0, g1, g2, g3⟩ := hi
      simp only [bodyBytes, StrItem.bytes, List.cons_append, List.nil_append]
      rw [(structural_lead b0 _).2.2 g0, structural_cont 2 b1 _ g1, structural_cont 1 b2 _ g2,
        structural_cont 0 b3 _ g3]
      exact ih1

/-- C12, amended. With `validateUTF8` on, for every lexer reachable from a fresh one and
every input of bytes on which `yajl_lex_lex` returns a `string` or
`string_with_escapes` token, the payload has the structure of UTF-8: it is a sequence
of bytes up to `0x7F` and of lead bytes with top bits `110`, `1110`, `11110` followed by
one, two, three continuation bytes with top bits `10`.  (Overlong encodings, encoded
surrogates and code points above U+10FFFF are not excluded.) -/
theorem utf8_soundness (lexer : yajl_lexer_t) (hl : Reachable lexer)
    (hv : lexer.validateUTF8 = true) (jsonText : List Nat)
    (hbytes : ∀ b ∈ jsonText, b < 256) (offset : Nat) (r : LexOut)
    (h : yajl_lex_lex lexer jsonText offset = some r)
    (ht : r.tok = .string ∨ r.tok = .string_with_escapes) :
    structuralUtf8 (r.payload jsonText) = true := by
  obtain ⟨items, h1, h2⟩ :=
    (held_call lexer (reachable_held lexer hl) jsonText hbytes offset r h).2.1 ht
  rw [h2]
  rw [hv] at h1
  exact structural_body items h1

theorem utf8_soundness_witness :
    structuralUtf8 (LexOut.payload
      { tok := .string,
        lexer := { yajl_lex_alloc false true with substate := 4, resultTok := .string },
        offset := 5, outBuf := .text 1, outLen := 3 }
      [0x22, 0xe2, 0x82, 0xac, 0x22]) = true :=
  utf8_soundness (yajl_lex_alloc false true) (Reachable.fresh false true) rfl
    [0x22, 0xe2, 0x82, 0xac, 0x22] (by decide) 0 _ (by decide) (Or.inl rfl)

/-- C12, as stated, fails: with `validateUTF8` on, the input `"` `C0 80` `"` gives a
`string` token whose payload `C0 80` is an overlong encoding, and the input `"` `ED A0
80` `"` gives a `string` token whose payload is an encoded surrogate; neither is
well-formed UTF-8. -/
theorem utf8_soundness_counterexample :
    (∃ r, yajl_lex_lex (yajl_lex_alloc false true) [0x22, 0xc0, 0x80, 0x22] 0 = some r ∧
      r.tok = .string ∧ r.payload [0x22, 0xc0, 0x80, 0x22] = [0xc0, 0x80] ∧
      wellFormedUtf8 (r.payload [0x22, 0xc0, 0x80, 0x22]) = false) ∧
    (∃ r, yajl_lex_lex (yajl_lex_alloc false true) [0x22, 0xed, 0xa0, 0x80, 0x22] 0 = some r ∧
      r.tok = .string ∧ wellFormedUtf8 (r.payload [0x22, 0xed, 0xa0, 0x80, 0x22]) = false) :=
  ⟨⟨{ tok := .string,
      lexer := { yajl_lex_alloc false true with substate := 4, resultTok := .string },
      offset := 4, outBuf := .text 1, outLen := 2 }, by decide, rfl, by decide, by decide⟩,
   ⟨{ tok := .string,
      lexer := { yajl_lex_alloc false true with substate := 4, resultTok := .string },
      offset := 5, outBuf := .text 1, outLen := 3 }, by decide, rfl, by decide⟩⟩

/-! ## Input that is skipped at the head of the main loop -/

/-- At `lexed` a scan entered in the start state hands back a result when the same scan
`k` bytes further on in a longer text does. -/
theorem lexed_shift_rev (A B : List Nat) (tok : yajl_tok) (htok : tok ≠ .eof)
    (y1 y2 : LexCtx) (o2 : Nat) (h1 : y1.entryState = .start) (h2 : y2.entryState = .start)
    (hso : y1.startOffset = A.length + y2.startOffset) (rS : LexOut)
    (hS : lexed tok y1 (A ++ B) (A.length + o2) = some rS) :
    ∃ rB, lexed tok y2 B o2 = some rB := by
  have hc1 : ¬ (tok = .eof ∨ y1.entryState ≠ .start) := by
    intro h; rcases h with h | h
    · exact htok h
    · exact h h1
  have hc2 : ¬ (tok = .eof ∨ y2.entryState ≠ .start) := by
    intro h; rcases h with h | h
    · exact htok h
    · exact h h2
  have hlen : A.length + o2 - y1.startOffset = o2 - y2.startOffset := by omega
  unfold lexed at hS ⊢
  rw [if_neg hc1] at hS
  rw [if_neg hc2]
  by_cases hte : tok = .error
  · subst hte
    simp [skip_quotes]
  · rw [if_pos hte] at hS ⊢
    unfold skip_quotes at hS ⊢
    simp only [hlen] at hS ⊢
    by_cases hstr : tok = .string ∨ tok = .string_with_escapes
    · rw [if_pos hstr] at hS ⊢
      by_cases h2 : 2 ≤ o2 - y2.startOffset
      · rw [if_pos h2]; exact ⟨_, rfl⟩
      · rw [if_neg h2] at hS; cases hS
    · rw [if_neg hstr]; exact ⟨_, rfl⟩

/-- Input `P` that a lexer in the start state skips (the scan of `P` is back at the head
of the main loop with nothing pending) is transparent: the call on `P ++ S` and the call
on `S` give the same token, error code and payload, the offset shifted by the length of
`P`. -/
theorem skip_transparent (lexer : yajl_lexer_t) (h : lexer.state = .start)
    (P S : List Nat) (xP : LexCtx)
    (hrun : run yajl_lex_lex_step .top (ctx0 lexer 0) P 0 = .suspended .top xP P.length)
    (hes : xP.entryState = .start) (hso : xP.startOffset = P.length)
    (hc : xP.lexer.allowComments = lexer.allowComments)
    (hv : xP.lexer.validateUTF8 = lexer.validateUTF8) :
    (∀ r, yajl_lex_lex lexer S 0 = some r →
      ∃ r1, yajl_lex_lex lexer (P ++ S) 0 = some r1 ∧ r1.tok = r.tok ∧
        (r1.tok = .error → r1.lexer.error = r.lexer.error) ∧
        r1.payload (P ++ S) = r.payload S ∧ r1.offset = P.length + r.offset) ∧
    (∀ r1, yajl_lex_lex lexer (P ++ S) 0 = some r1 →
      ∃ r, yajl_lex_lex lexer S 0 = some r ∧ r1.tok = r.tok ∧
        (r1.tok = .error → r1.lexer.error = r.lexer.error) ∧
        r1.payload (P ++ S) = r.payload S ∧ r1.offset = P.length + r.offset) := by
  have hsim : Sim P.length 0 (P.drop 0) .top xP (ctx0 lexer 0) :=
    ⟨⟨hc, hv, trivial, fun g => absurd rfl g, (fun g => by cases g), (fun g => by cases g)⟩,
      ⟨hes, Or.inl ⟨rfl, by rw [hso]; rfl⟩⟩, fun g => absurd rfl g⟩
  have hrs := run_sim P.length 0 (P.drop 0) S .top .top xP (ctx0 lexer 0) 0 (Or.inl rfl)
    (fun g => absurd rfl g) hsim
  have hinv0 := inv_ctx0 lexer 0 h
  rw [lex_start0 _ _ h, lex_start0 _ _ h, run_append, hrun]
  simp only [Run.andThen, Nat.add_zero] at hrs ⊢
  cases hr2 : run yajl_lex_lex_step .top (ctx0 lexer 0) S 0 with
  | fault =>
    rw [hr2] at hrs
    cases hr1 : run yajl_lex_lex_step .top xP S P.length with
    | fault => simp [lex_finish]
    | suspended pc1 x1 o1 => rw [hr1] at hrs; exact hrs.elim
    | done t1 y1 o1 => rw [hr1] at hrs; exact hrs.elim
  | suspended pc2 x2 o2 =>
    rw [hr2] at hrs
    cases hr1 : run yajl_lex_lex_step .top xP S P.length with
    | fault => rw [hr1] at hrs; exact hrs.elim
    | done t1 y1 o1 => rw [hr1] at hrs; exact hrs.elim
    | suspended pc1 x1 o1 =>
      rw [hr1] at hrs
      obtain ⟨-, -, ho⟩ := hrs
      simp only [lex_finish, lexed_eof, Option.some.injEq]
      constructor
      · rintro r rfl
        exact ⟨_, rfl, rfl, (fun g => by cases g), rfl, ho⟩
      · rintro r1 rfl
        exact ⟨_, rfl, rfl, (fun g => by cases g), rfl, ho⟩
  | done t2 y2 o2 =>
    rw [hr2] at hrs
    cases hr1 : run yajl_lex_lex_step .top xP S P.length with
    | fault => rw [hr1] at hrs; exact hrs.elim
    | suspended pc1 x1 o1 => rw [hr1] at hrs; exact hrs.elim
    | done t1 y1 o1 =>
      rw [hr1] at hrs
      obtain ⟨rfl, rfl, r1, r2, r3⟩ := hrs
      have ho2 := run_done_le _ _ _ _ _ _ _ _ hr2
      simp only [Nat.zero_add] at ho2
      have hy2 := (run_inv_done _ _ _ _ _ _ _ hinv0 hr2).2.2.2.2.2 rfl
      simp only [lex_finish]
      have fwd : ∀ r, lexed t1 y2 S o2 = some r →
          ∃ r1, lexed t1 y1 (P ++ S) (P.length + o2) = some r1 ∧ r1.tok = r.tok ∧
            (r1.tok = .error → r1.lexer.error = r.lexer.error) ∧
            r1.payload (P ++ S) = r.payload S ∧ r1.offset = P.length + r.offset :=
        fun r hr => lexed_sim P S 0 (Nat.zero_le _) t1 r1 y1 y2 o2 ho2 r3 r2 r hr
      refine ⟨fwd, ?_⟩
      intro rS hS
      have hso1 : y1.startOffset = P.length + y2.startOffset := by
        rcases r3.2 with ⟨-, f⟩ | ⟨f, -⟩
        · exact f
        · exact absurd hy2 f
      obtain ⟨rB, hB⟩ := lexed_shift_rev P S t1 r1 y1 y2 o2 r3.1 hy2 hso1 rS hS
      obtain ⟨rS1, g1, g2⟩ := fwd rB hB
      rw [g1] at hS
      cases hS
      exact ⟨rB, hB, g2⟩

/-! ## C15: white space -/

theorem lex_switch_space (x : LexCtx) (c : Nat) (h : isSpace c) :
    lex_switch x c = .next .top { x with startOffset := x.startOffset + 1 } := by
  rcases h with rfl | rfl | rfl | rfl | rfl | rfl <;> rfl

/-- White space at the head of the main loop only moves `startOffset`. -/
theorem run_spaces (W : List Nat) : (∀ c ∈ W, isSpace c) → ∀ (x : LexCtx) (off : Nat),
    run yajl_lex_lex_step .top x W off =
      .suspended .top { x with startOffset := x.startOffset + W.length } (off + W.length) := by
  induction W with
  | nil => intro _ x off; rfl
  | cons c W ih =>
    intro hW x off
    rw [run_cons]
    simp only [yajl_lex_lex_step, lex_switch_space x c (hW c (by simp)), Step.cont]
    rw [ih (fun d hd => hW d (by simp [hd]))]
    simp only [List.length_cons]
    congr 1
    · congr 1; omega
    · omega

/-- A byte the main loop skips is one of the six white-space bytes. -/
theorem skipped_byte (lexer : yajl_lexer_t) (h : lexer.state = .start) (c : Nat) :
    (∃ r, yajl_lex_lex lexer [c] 0 = some r ∧ r.tok = .eof ∧ r.lexer.state = .start) ↔
      isSpace c := by
  rw [lex_start0 _ _ h]
  constructor
  · rintro ⟨r, hr, h1, h2⟩
    by_contra hns
    have hinv := inv_ctx0 lexer 0 h
    have hf := step_frame .top (ctx0 lexer 0) c (0 + 1)
    have hs := step_inv .top (ctx0 lexer 0) c 0 hinv
    rw [run_cons] at hr
    cases hstep : yajl_lex_lex_step .top (ctx0 lexer 0) c (0 + 1) with
    | fault => rw [hstep] at hr; cases hr
    | ret tok x1 u =>
      rw [hstep] at hr hs
      simp only [Step.cont, lex_finish] at hr
      have := (lexed_props _ _ _ _ _ hr).1
      exact hs.1 (this.symm.trans h1)
    | next pc1 x1 =>
      rw [hstep] at hr hf hs
      simp only [Step.cont, run, lex_finish, lexed_eof, Option.some.injEq] at hr
      subst hr
      have hst : x1.lexer.state = .start := by
        rw [← (susp_state pc1 x1).1]; exact h2
      rw [hs.1.state] at hst
      rcases hf.1 rfl with ⟨-, g⟩ | g | ⟨g, -⟩
      · exact hns g
      · rw [hst] at g; cases g
      · exact g hst
  · intro hc
    rw [run_spaces [c] (fun d hd => by simp at hd; exact hd ▸ hc)]
    simp only [lex_finish, lexed_eof]
    exact ⟨_, rfl, rfl, h⟩

/-- C15. Leading white space is transparent: for every sequence `W` of the bytes tab,
newline, vertical tab, form feed, carriage return and space and every input `S`,
`yajl_lex_lex` on `W ++ S` from the start state returns a result iff it does on `S`, and
then the same token (and error code) and the same payload bytes, with the final offset
shifted by the length of `W`; and a single byte is skipped (the call on it returns `eof`
and stays in the start state) iff it is one of these six. -/
theorem whitespace_transparent (lexer : yajl_lexer_t) (h : lexer.state = .start)
    (W S : List Nat) (hW : ∀ c ∈ W, isSpace c) :
    (∀ r, yajl_lex_lex lexer S 0 = some r →
      ∃ r1, yajl_lex_lex lexer (W ++ S) 0 = some r1 ∧ r1.tok = r.tok ∧
        (r1.tok = .error → r1.lexer.error = r.lexer.error) ∧
        r1.payload (W ++ S) = r.payload S ∧ r1.offset = W.length + r.offset) ∧
    (∀ r1, yajl_lex_lex lexer (W ++ S) 0 = some r1 →
      ∃ r, yajl_lex_lex lexer S 0 = some r ∧ r1.tok = r.tok ∧
        (r1.tok = .error → r1.lexer.error = r.lexer.error) ∧
        r1.payload (W ++ S) = r.payload S ∧ r1.offset = W.length + r.offset) ∧
    (∀ c, (∃ r, yajl_lex_lex lexer [c] 0 = some r ∧ r.tok = .eof ∧
      r.lexer.state = .start) ↔ isSpace c) := by
  have hrun := run_spaces W hW (ctx0 lexer 0) 0
  simp only [Nat.zero_add] at hrun
  obtain ⟨h1, h2⟩ := skip_transparent lexer h W S _ hrun rfl (by simp [ctx0]) rfl rfl
  exact ⟨h1, h2, skipped_byte lexer h⟩

theorem whitespace_transparent_witness :
    ∃ r1, yajl_lex_lex (yajl_lex_alloc false true) ([0x20, 0x0a] ++ [0x31, 0x2c]) 0 = some r1 ∧
      r1.tok = .integer ∧ (r1.tok = .error → r1.lexer.error = .e_ok) ∧
      r1.payload ([0x20, 0x0a] ++ [0x31, 0x2c]) = [0x31] ∧ r1.offset = 2 + 1 :=
  (whitespace_transparent (yajl_lex_alloc false true) rfl [0x20, 0x0a] [0x31, 0x2c]
    (by decide)).1
    { tok := .integer,
      lexer := { yajl_lex_alloc false true with resultTok := .integer },
      offset := 1, outBuf := .text 0, outLen := 1 }
    (by decide)

/-! ## C16: comments -/

theorem com_step (p : ComPC) (x : LexCtx) (c : Nat) (rest : List Nat) (off : Nat) :
    run yajl_lex_lex_step (.com p) x (c :: rest) off =
      (lex_of_comment x (off + 1) (yajl_lex_comment_step p x.lexer c)).cont
        (fun pc1 s1 => run yajl_lex_lex_step pc1 s1 rest (off + 1)) (off + 1) := rfl

/-- The body of a `//` comment and its newline. -/
theorem run_line_comment (body : List Nat) (S : List Nat) : (∀ c ∈ body, c ≠ 0x0a) →
    ∀ (x : LexCtx) (off : Nat),
    run yajl_lex_lex_step (.com .e2) x (body ++ [0x0a] ++ S) off =
      run yajl_lex_lex_step .top (afterComment x (off + body.length + 1)) S
        (off + body.length + 1) := by
  induction body with
  | nil =>
    intro _ x off
    simp only [List.nil_append, List.singleton_append, com_step, yajl_lex_comment_step]
    simp [lex_of_comment, Step.cont, afterComment]
  | cons c body ih =>
    intro hb x off
    have hc : c ≠ 0x0a := hb c (by simp)
    simp only [List.cons_append, com_step, yajl_lex_comment_step, if_pos hc, lex_of_comment,
      Step.cont]
    have := ih (fun d hd => hb d (by simp [hd])) x (off + 1)
    simp only [List.append_assoc] at this ⊢
    rw [this]
    simp only [List.length_cons]
    congr 2 <;> omega

/-- The body of a `/*` comment and its `*/`: at `entry_3`, or at `entry_4` behind a star
that is not followed by a slash. -/
theorem run_block_comment (body : List Nat) (S : List Nat) :
    ¬ [0x2a, 0x2f] <:+: body → ∀ (p : ComPC) (x : LexCtx) (off : Nat),
    (p = .e3 ∨ (p = .e4 ∧ body.head? ≠ some 0x2f)) →
    run yajl_lex_lex_step (.com p) x (body ++ [0x2a, 0x2f] ++ S) off =
      run yajl_lex_lex_step .top (afterComment x (off + body.length + 2)) S
        (off + body.length + 2) := by
  induction body with
  | nil =>
    intro _ p x off hp
    rcases hp with rfl | ⟨rfl, -⟩ <;>
      simp [com_step, yajl_lex_comment_step, lex_of_comment, Step.cont, afterComment]
  | cons c body ih =>
    intro hb p x off hp
    have hb1 : ¬ [0x2a, 0x2f] <:+: body := fun g => hb (g.trans (List.suffix_cons c body).isInfix)
    have hstar : c = 0x2a → body.head? ≠ some 0x2f := by
      rintro rfl g
      apply hb
      cases body with
      | nil => cases g
      | cons d body =>
        simp only [List.head?_cons, Option.some.injEq] at g
        subst g
        exact (List.prefix_iff_eq_append.2 (by simp)).isInfix
    have key : ∀ q, (q = .e3 ∨ (q = .e4 ∧ body.head? ≠ some 0x2f)) →
        run yajl_lex_lex_step (.com q) x (body ++ [0x2a, 0x2f] ++ S) (off + 1) =
          run yajl_lex_lex_step .top (afterComment x (off + (c :: body).length + 2)) S
            (off + (c :: body).length + 2) := by
      intro q hq
      rw [ih hb1 q x (off + 1) hq]
      simp only [List.length_cons]
      congr 2 <;> omega
    by_cases hc : c = 0x2a
    · have := key .e4 (Or.inr ⟨rfl, hstar hc⟩)
      rcases hp with rfl | ⟨rfl, -⟩ <;>
        simp only [List.cons_append, com_step, yajl_lex_comment_step, hc, if_true,
          lex_of_comment, Step.cont] <;>
        (try simp only [show ¬ (0x2a : Nat) = 0x2f by decide, if_false, if_true,
          lex_of_comment, Step.cont]) <;>
        exact this
    · have := key .e3 (Or.inl rfl)
      rcases hp with rfl | ⟨rfl, hp⟩
      · simp only [List.cons_append, com_step, yajl_lex_comment_step, if_neg hc,
          lex_of_comment, Step.cont]
        exact this
      · have hc2 : c ≠ 0x2f := by
          intro g; exact hp (by simp [g])
        simp only [List.cons_append, com_step, yajl_lex_comment_step, if_neg hc, if_neg hc2,
          lex_of_comment, Step.cont]
        exact this

/-- The lexer inside `yajl_lex_comment` entered from the main loop. -/
theorem top_comment (x : LexCtx) (hac : x.lexer.allowComments = true) (rest : List Nat)
    (off : Nat) :
    run yajl_lex_lex_step .top x (0x2f :: rest) off =
      run yajl_lex_lex_step (.com .e1)
        { x with lexer := { x.lexer with state := .comment, substate := 0 } } rest
        (off + 1) := by
  rw [run_cons]
  simp [yajl_lex_lex_step, lex_switch, isSpace, isDigit, hac, Step.cont]

/-- A complete comment brings the scan back to the head of the main loop. -/
theorem run_comment (C S : List Nat) (hC : IsComment C) (x : LexCtx)
    (hac : x.lexer.allowComments = true) (off : Nat) :
    run yajl_lex_lex_step .top x (C ++ S) off =
      run yajl_lex_lex_step .top
        (afterComment { x with lexer := { x.lexer with state := .comment, substate := 0 } }
          (off + C.length)) S (off + C.length) := by
  rcases hC with ⟨body, hb, rfl⟩ | ⟨body, hb, rfl⟩
  · have e : off + ([0x2f, 0x2f] ++ body ++ [0x0a]).length = off + 1 + 1 + body.length + 1 := by
      simp only [List.length_cons, List.length_append, List.length_nil]; omega
    rw [e]
    simp only [List.cons_append, List.nil_append, List.append_assoc]
    rw [top_comment x hac, com_step]
    simp only [yajl_lex_comment_step, if_true, lex_of_comment, Step.cont]
    have := run_line_comment body S hb
      { x with lexer := { x.lexer with state := .comment, substate := 0 } } (off + 1 + 1)
    simp only [List.append_assoc, List.singleton_append] at this
    exact this
  · have e : off + ([0x2f, 0x2a] ++ body ++ [0x2a, 0x2f]).length =
        off + 1 + 1 + body.length + 2 := by
      simp only [List.length_cons, List.length_append, List.length_nil]; omega
    rw [e]
    simp only [List.cons_append, List.nil_append, List.append_assoc]
    rw [top_comment x hac, com_step]
    simp only [yajl_lex_comment_step, show ¬ (0x2a : Nat) = 0x2f by decide, if_false, if_true,
      lex_of_comment, Step.cont]
    have := run_block_comment body S hb .e3
      { x with lexer := { x.lexer with state := .comment, substate := 0 } } (off + 1 + 1)
      (Or.inl rfl)
    simp only [List.append_assoc, List.cons_append, List.nil_append] at this
    exact this

/-- With comments off a slash behind white space is an error, with the offset at the
slash. -/
theorem unallowed_comment_error (lexer : yajl_lexer_t) (h : lexer.state = .start)
    (hac : lexer.allowComments = false) (W rest : List Nat) (hW : ∀ c ∈ W, isSpace c) :
    ∃ r, yajl_lex_lex lexer (W ++ 0x2f :: rest) 0 = some r ∧ r.tok = .error ∧
      r.lexer.error = .unallowed_comment ∧ r.offset = W.length := by
  rw [lex_start0 _ _ h, run_append, run_spaces W hW]
  simp only [Run.andThen, run_cons, yajl_lex_lex_step]
  have : lex_switch { ctx0 lexer 0 with startOffset := (ctx0 lexer 0).startOffset + W.length }
      0x2f = .ret .error
        { lexer := { (ctx0 lexer 0).lexer with error := .unallowed_comment },
          startOffset := (ctx0 lexer 0).startOffset + W.length, entryState := .start } 1 := by
    simp [lex_switch, isSpace, isDigit, ctx0, hac]
  rw [this]
  simp only [Step.cont, lex_finish]
  obtain ⟨r, h1, h2, h3, h4, -⟩ := lexed_error
    { lexer := { (ctx0 lexer 0).lexer with error := .unallowed_comment },
      startOffset := (ctx0 lexer 0).startOffset + W.length, entryState := .start }
    (W ++ 0x2f :: rest) (0 + W.length + 1 - 1)
  exact ⟨r, h1, h2, h3, by rw [h4]; omega⟩

/-- A call in the start state never returns the comment token. -/
theorem never_comment (lexer : yajl_lexer_t) (h : lexer.state = .start) (jsonText : List Nat)
    (r : LexOut) (hr : yajl_lex_lex lexer jsonText 0 = some r) : r.tok ≠ .comment := by
  rw [lex_start0 _ _ h] at hr
  cases hrun : run yajl_lex_lex_step .top (ctx0 lexer 0) jsonText 0 with
  | fault => rw [hrun] at hr; cases hr
  | suspended pc1 x1 o1 =>
    rw [hrun] at hr
    simp only [lex_finish, lexed_eof, Option.some.injEq] at hr
    subst hr
    intro g; cases g
  | done tok x1 o1 =>
    rw [hrun] at hr
    have := (run_inv_done _ _ _ _ _ _ _ (inv_ctx0 lexer 0 h) hrun).2.1
    rw [(lexed_props _ _ _ _ _ hr).1]
    exact this

/-- C16. Comments are transparent only when allowed.  With `allowComments` on, for every
complete comment `C` (`//` up to and including the next newline, or `/*` up to and
including the next `*/`) and every input `S`, `yajl_lex_lex` on `C ++ S` from the start
state returns a result iff it does on `S`, and then the same token (and error code) and
payload, the offset shifted by the length of `C`, and never the comment token.  With
`allowComments` off, an input whose first byte behind white space is `/` gives `error`
with code `unallowed_comment` and the offset at that `/`. -/
theorem comments_transparent (lexer : yajl_lexer_t) (h : lexer.state = .start) :
    (lexer.allowComments = true → ∀ C S : List Nat, IsComment C →
      (∀ r, yajl_lex_lex lexer S 0 = some r →
        ∃ r1, yajl_lex_lex lexer (C ++ S) 0 = some r1 ∧ r1.tok = r.tok ∧
          (r1.tok = .error → r1.lexer.error = r.lexer.error) ∧
          r1.payload (C ++ S) = r.payload S ∧ r1.offset = C.length + r.offset) ∧
      (∀ r1, yajl_lex_lex lexer (C ++ S) 0 = some r1 →
        ∃ r, yajl_lex_lex lexer S 0 = some r ∧ r1.tok = r.tok ∧
          (r1.tok = .error → r1.lexer.error = r.lexer.error) ∧
          r1.payload (C ++ S) = r.payload S ∧ r1.offset = C.length + r.offset) ∧
      (∀ r1, yajl_lex_lex lexer (C ++ S) 0 = some r1 → r1.tok ≠ .comment)) ∧
    (lexer.allowComments = false → ∀ W rest : List Nat, (∀ c ∈ W, isSpace c) →
      ∃ r, yajl_lex_lex lexer (W ++ 0x2f :: rest) 0 = some r ∧ r.tok = .error ∧
        r.lexer.error = .unallowed_comment ∧ r.offset = W.length) := by
  constructor
  · intro hac C S hC
    have hrun := run_comment C [] hC (ctx0 lexer 0) hac 0
    simp only [List.append_nil, Nat.zero_add, run] at hrun
    obtain ⟨h1, h2⟩ := skip_transparent lexer h C S _ hrun rfl rfl rfl rfl
    exact ⟨h1, h2, fun r1 hr1 => never_comment lexer h _ r1 hr1⟩
  · intro hac W rest hW
    exact unallowed_comment_error lexer h hac W rest hW

theorem comments_transparent_witness :
    ∃ r1, yajl_lex_lex (yajl_lex_alloc true true)
        ([0x2f, 0x2a, 0x78, 0x2a, 0x2f] ++ [0x20, 0x34, 0x32, 0x20]) 0 = some r1 ∧
      r1.tok = .integer ∧ (r1.tok = .error → r1.lexer.error = .e_ok) ∧
      r1.payload ([0x2f, 0x2a, 0x78, 0x2a, 0x2f] ++ [0x20, 0x34, 0x32, 0x20]) = [0x34, 0x32] ∧
      r1.offset = 5 + 3 :=
  ((comments_transparent (yajl_lex_alloc true true) rfl).1 rfl
    [0x2f, 0x2a, 0x78, 0x2a, 0x2f] [0x20, 0x34, 0x32, 0x20]
    (Or.inr ⟨[0x78], by decide, rfl⟩)).1
    { tok := .integer,
      lexer := { yajl_lex_alloc true true with resultTok := .integer },
      offset := 3, outBuf := .text 1, outLen := 2 }
    (by decide)

/-! ## C17: yajl_lex_peek -/

/-- The state fields are put back and the caller's offset is untouched, whatever the
call of `yajl_lex_lex` did. -/
theorem peek_state (lexer : yajl_lexer_t) (jsonText : List Nat) (offset : Nat)
    (p : PeekOut) (h : yajl_lex_peek lexer jsonText offset = some p) :
    p.lexer.state = lexer.state ∧ p.lexer.substate = lexer.substate ∧
    p.lexer.subsubstate = lexer.subsubstate ∧ p.offset = offset := by
  unfold yajl_lex_peek at h
  cases hr : yajl_lex_lex lexer jsonText offset with
  | none => rw [hr] at h; cases h
  | some r =>
    rw [hr] at h
    simp only [Option.some.injEq] at h
    subst h
    exact ⟨rfl, rfl, rfl, rfl⟩

/-- C17, evaluated. A fresh lexer is fed the string literal `"ab"` in the two chunks
`"a` and `b"`; the second call returns the token from the buffer and leaves the lexer in
the start state with the four bytes of the literal in the buffer.  `yajl_lex_peek` on
the next chunk `1 ` returns `integer` and puts the state fields back, but the buffer is
now empty: `yajl_lex_lex` cleared it on entry and truncating cannot bring the bytes
back.  The same happens to a comment in progress that ends in the peeked chunk. -/
theorem peek_changes_buffer :
    (∃ rA rB p, yajl_lex_lex (yajl_lex_alloc false true) [0x22, 0x61] 0 = some rA ∧
      yajl_lex_lex rA.lexer [0x62, 0x22] 0 = some rB ∧ rB.tok = .string ∧
      rB.lexer.state = .start ∧ rB.lexer.buf = [0x22, 0x61, 0x62, 0x22] ∧
      yajl_lex_peek rB.lexer [0x31, 0x20] 0 = some p ∧ p.tok = .integer ∧
      p.lexer.state = rB.lexer.state ∧ p.lexer.buf = [] ∧ p.lexer.buf ≠ rB.lexer.buf) ∧
    (∃ rA p, yajl_lex_lex (yajl_lex_alloc true true) [0x2f, 0x2a, 0x78] 0 = some rA ∧
      rA.tok = .eof ∧ rA.lexer.state = .comment ∧ rA.lexer.buf = [0x2f, 0x2a, 0x78] ∧
      yajl_lex_peek rA.lexer [0x2a, 0x2f, 0x31, 0x20] 0 = some p ∧ p.tok = .integer ∧
      p.lexer.state = rA.lexer.state ∧ p.lexer.buf = [] ∧ p.lexer.buf ≠ rA.lexer.buf) :=
  ⟨⟨{ tok := .eof,
      lexer := { yajl_lex_alloc false true with
        buf := [0x22, 0x61], state := .string, substate := 1, resultTok := .string },
      offset := 2, outBuf := .null, outLen := 0 },
    { tok := .string,
      lexer := { yajl_lex_alloc false true with
        buf := [0x22, 0x61, 0x62, 0x22], substate := 4, resultTok := .string },
      offset := 2, outBuf := .buf 1, outLen := 2 },
    { tok := .integer,
      lexer := { yajl_lex_alloc false true with substate := 4, resultTok := .integer },
      offset := 0 },
    by decide, by decide, rfl, rfl, rfl, by decide, rfl, rfl, rfl, by decide⟩,
   ⟨{ tok := .eof,
      lexer := { yajl_lex_alloc true true with
        buf := [0x2f, 0x2a, 0x78], state := .comment, substate := 3 },
      offset := 3, outBuf := .null, outLen := 0 },
    { tok := .integer,
      lexer := { yajl_lex_alloc true true with
        state := .comment, substate := 3, resultTok := .integer },
      offset := 0 },
    by decide, rfl, rfl, rfl, by decide, rfl, rfl, rfl, by decide⟩⟩

/-! ## C18: the state after a call -/

/-- C18, amended. After every call of `yajl_lex_lex` on a lexer reachable from a fresh
one, the major state is other than start iff a token is in progress (the call returned
`eof` inside a token, whose bytes so far are in the buffer); in the start state the
buffer is empty unless the call completed, or found an error in, a token begun in an
earlier call, whose bytes then stay in the buffer until the next call clears it. -/
theorem state_invariant (lexer : yajl_lexer_t) (hl : Reachable lexer) (jsonText : List Nat)
    (hbytes : ∀ b ∈ jsonText, b < 256) (offset : Nat) (r : LexOut)
    (h : yajl_lex_lex lexer jsonText offset = some r) :
    (r.lexer.state ≠ .start ↔ TokenInProgress r) ∧
    (r.lexer.state = .start → r.lexer.buf ≠ [] → r.tok ≠ .eof ∧ lexer.state ≠ .start) := by
  obtain ⟨-, -, h3, h4⟩ := held_call lexer (reachable_held lexer hl) jsonText hbytes offset r h
  refine ⟨h3, fun hs hb => ⟨?_, ?_⟩⟩
  · intro he
    exact h3.2 ⟨he, hb⟩ hs
  · intro hl0
    exact hb (h4 hl0 hs)

theorem state_invariant_witness :
    (yajl_lex_state.string ≠ .start ↔ TokenInProgress
      { tok := .eof,
        lexer := { yajl_lex_alloc false true with
          buf := [0x22, 0x61], state := .string, substate := 1, resultTok := .string },
        offset := 2, outBuf := .null, outLen := 0 }) ∧
    (yajl_lex_state.string = .start → [0x22, 0x61] ≠ [] →
      yajl_tok.eof ≠ .eof ∧ yajl_lex_state.start ≠ .start) :=
  state_invariant (yajl_lex_alloc false true) (Reachable.fresh false true) [0x22, 0x61]
    (by decide) 0
    { tok := .eof,
      lexer := { yajl_lex_alloc false true with
        buf := [0x22, 0x61], state := .string, substate := 1, resultTok := .string },
      offset := 2, outBuf := .null, outLen := 0 }
    (by decide)

/-- C18, as stated, fails: a fresh lexer is fed the string literal `"ab"` in the chunks
`"a` and `b"`.  The second call returns the `string` token from the buffer; the lexer,
reachable from a fresh one, is in the start state and no token is in progress, but the
buffer is not empty: it holds the four bytes of the literal. -/
theorem state_invariant_counterexample :
    ∃ rA rB, yajl_lex_lex (yajl_lex_alloc false true) [0x22, 0x61] 0 = some rA ∧
      yajl_lex_lex rA.lexer [0x62, 0x22] 0 = some rB ∧ Reachable rB.lexer ∧
      rB.tok = .string ∧ ¬ TokenInProgress rB ∧
      rB.lexer.state = .start ∧ rB.lexer.buf = [0x22, 0x61, 0x62, 0x22] ∧
      ¬ (rB.lexer.state = .start ↔ rB.lexer.buf = [] ∧ ¬ TokenInProgress rB) := by
  have hA : yajl_lex_lex (yajl_lex_alloc false true) [0x22, 0x61] 0 = some
      { tok := .eof,
        lexer := { yajl_lex_alloc false true with
          buf := [0x22, 0x61], state := .string, substate := 1, resultTok := .string },
        offset := 2, outBuf := .null, outLen := 0 } := by decide
  have hB : yajl_lex_lex { yajl_lex_alloc false true with
        buf := [0x22, 0x61], state := .string, substate := 1, resultTok := .string }
      [0x62, 0x22] 0 = some
      { tok := .string,
        lexer := { yajl_lex_alloc false true with
          buf := [0x22, 0x61, 0x62, 0x22], substate := 4, resultTok := .string },
        offset := 2, outBuf := .buf 1, outLen := 2 } := by decide
  refine ⟨_, _, hA, hB, ?_, rfl, by decide, rfl, rfl, by decide⟩
  exact Reachable.lex _ _ _ _
    (Reachable.lex _ _ _ _ (Reachable.fresh false true) (by decide) hA) (by decide) hB

/-! ## C14: the offset after an error -/

/-- C14, evaluated. On the one-byte input `a` the lexer returns `error` with code
`invalid_char` and the offset 1, behind the offending byte (index 0), which is not the
index of any byte of the input; with comments allowed, `/x` gives `invalid_char` with
the offset 2, behind the offending `x` (index 1).  The error field is set in both
cases.  On the sibling path for a slash with comments off the byte is unread and the
offset is at the slash. -/
theorem error_offset_past_byte :
    (∃ r, yajl_lex_lex (yajl_lex_alloc false true) [0x61] 0 = some r ∧ r.tok = .error ∧
      r.lexer.error = .invalid_char ∧ r.offset = 1 ∧ ¬ r.offset < [0x61].length) ∧
    (∃ r, yajl_lex_lex (yajl_lex_alloc true true) [0x2f, 0x78] 0 = some r ∧ r.tok = .error ∧
      r.lexer.error = .invalid_char ∧ r.offset = 2 ∧ ¬ r.offset < [0x2f, 0x78].length) ∧
    (∃ r, yajl_lex_lex (yajl_lex_alloc false true) [0x20, 0x2f, 0x78] 0 = some r ∧
      r.tok = .error ∧ r.lexer.error = .unallowed_comment ∧ r.offset = 1) :=
  ⟨⟨{ tok := .error, lexer := { yajl_lex_alloc false true with error := .invalid_char },
      offset := 1, outBuf := .null, outLen := 0 }, by decide, rfl, rfl, rfl, by decide⟩,
   ⟨{ tok := .error,
      lexer := { yajl_lex_alloc true true with error := .invalid_char },
      offset := 2, outBuf := .null, outLen := 0 }, by decide, rfl, rfl, rfl, by decide⟩,
   ⟨{ tok := .error,
      lexer := { yajl_lex_alloc false true with error := .unallowed_comment },
      offset := 1, outBuf := .null, outLen := 0 }, by decide, rfl, rfl, rfl⟩⟩

/-! # The reverse parser: theorems -/

theorem callback_stack (env : ParseEnv) (hand : yajl_handle_t) (l : RevLocals) (len : Int)
    (e : yajl_event) : (callback env hand l len e).1.stateStack = hand.stateStack := rfl

theorem callback_if_stack (env : ParseEnv) (hand : yajl_handle_t) (l : RevLocals) (len : Int)
    (f : yajl_callbacks → Bool) (e : yajl_event) :
    (callback_if env hand l len f e).1.stateStack = hand.stateStack := by
  unfold callback_if
  split_ifs <;> rfl

/-- The block "got a value" on a stack whose top is a value state. -/
theorem got_a_value_eq (s : yajl_state) (rest : List yajl_state) (hs : isValueState s) :
    got_a_value (s :: rest) = some (scalarNext s :: rest) := by
  rcases hs with rfl | rfl | rfl | rfl | rfl | rfl <;> rfl

theorem value_done_eq (hand : yajl_handle_t) (l : RevLocals) (s : yajl_state)
    (rest : List yajl_state) (hst : hand.stateStack = s :: rest) (hs : isValueState s) :
    value_done hand l .start =
      some (.again { hand with stateStack := scalarNext s :: rest } l) := by
  simp [value_done, hst, got_a_value_eq s rest hs]

/-- In a value state with `cont` set a round is the case of the value states. -/
theorem rev_round_value (env : ParseEnv) (len : Int) (hand : yajl_handle_t) (l : RevLocals)
    (next : Option LexResult) (s : yajl_state) (rest : List yajl_state)
    (hst : hand.stateStack = s :: rest) (hcont : l.cont = true) (hs : isValueState s) :
    rev_round env len hand l next = value_state env len hand l next := by
  rcases hs with rfl | rfl | rfl | rfl | rfl | rfl <;>
    simp [rev_round, hcont, hst, yajl_bs_current]

/-- A value callback followed by the block "got a value". -/
theorem value_done_callback (hand h : yajl_handle_t) (l1 : RevLocals) (s : yajl_state)
    (rest : List yajl_state) (hst : hand.stateStack = s :: rest) (hs : isValueState s)
    (hh : h.stateStack = hand.stateStack) :
    ∃ h1 l2, value_done h l1 .start = some (.again h1 l2) ∧
      h1.stateStack = scalarNext s :: rest :=
  ⟨_, _, value_done_eq h l1 s rest (hh.trans hst) hs, rfl⟩

/-- C19, amended. In `yajl_rev_do_parse`, upon consuming a complete scalar value token
(string, bool, null, integer, double; a number whose conversion overflows excepted) the
top of the state stack transitions by its current value: `start` or `got_value` becomes
`parse_complete`, `map_need_val` (or `map_start`) becomes `map_sep`, and
`array_need_val` (or `array_start`) becomes `array_got_val`; the rest of the stack is
unchanged and the loop goes round. -/
theorem scalar_transition (env : ParseEnv) (len : Int) (hand : yajl_handle_t)
    (l : RevLocals) (t : LexResult) (s : yajl_state) (rest : List yajl_state)
    (hst : hand.stateStack = s :: rest) (hcont : l.cont = true) (hs : isValueState s)
    (ht : isScalarTok t.tok) (hov : numericOverflow env hand t = false) :
    ∃ h1 l1, rev_round env len hand l (some t) = some (.again h1 l1) ∧
      h1.stateStack = scalarNext s :: rest ∧
      scalarNext .start = .parse_complete ∧ scalarNext .got_value = .parse_complete ∧
      scalarNext .map_need_val = .map_sep ∧ scalarNext .map_start = .map_sep ∧
      scalarNext .array_need_val = .array_got_val ∧
      scalarNext .array_start = .array_got_val := by
  rw [rev_round_value env len hand l _ s rest hst hcont hs]
  have key : ∃ h1 l1, value_state env len hand l (some t) = some (.again h1 l1) ∧
      h1.stateStack = scalarNext s :: rest := by
    unfold value_state
    simp only [lexNext, Option.getD_some]
    rcases ht with ht | ht | ht | ht | ht | ht
    · simp only [ht]
      exact value_done_callback hand _ _ s rest hst hs (callback_if_stack _ _ _ _ _ _)
    · simp only [ht]
      split_ifs
      · exact value_done_callback hand _ _ s rest hst hs rfl
      · exact value_done_callback hand _ _ s rest hst hs rfl
    · simp only [ht]
      exact value_done_callback hand _ _ s rest hst hs (callback_if_stack _ _ _ _ _ _)
    · simp only [ht]
      exact value_done_callback hand _ _ s rest hst hs (callback_if_stack _ _ _ _ _ _)
    · simp only [ht]
      by_cases hn : registered hand (·.yajl_number) = true
      · rw [if_pos hn]
        exact value_done_callback hand _ _ s rest hst hs rfl
      · rw [if_neg hn]
        by_cases hi : registered hand (·.yajl_integer) = true
        · rw [if_pos hi]
          have hno : ¬ (((env.yajl_parse_integer t.buf).1 = LLONG_MIN ∨
              (env.yajl_parse_integer t.buf).1 = LLONG_MAX) ∧
              (env.yajl_parse_integer t.buf).2 = true) := by
            intro g
            simp [numericOverflow, hn, ht, hi, g] at hov
          simp only [if_neg hno]
          exact value_done_callback hand _ _ s rest hst hs rfl
        · rw [if_neg hi]
          exact value_done_callback hand _ _ s rest hst hs rfl
    · simp only [ht]
      by_cases hn : registered hand (·.yajl_number) = true
      · rw [if_pos hn]
        exact value_done_callback hand _ _ s rest hst hs rfl
      · rw [if_neg hn]
        by_cases hd : registered hand (·.yajl_double) = true
        · rw [if_pos hd]
          have hno : ¬ env.strtod_overflow t.buf = true := by
            intro g
            simp [numericOverflow, hn, ht, hd, g] at hov
          simp only [if_neg hno]
          exact value_done_callback hand _ _ s rest hst hs rfl
        · rw [if_neg hd]
          exact value_done_callback hand _ _ s rest hst hs rfl
  obtain ⟨h1, l1, k1, k2⟩ := key
  exact ⟨h1, l1, k1, k2, rfl, rfl, rfl, rfl, rfl, rfl⟩

theorem scalar_transition_witness :
    ∃ h1 l1, rev_round plainEnv (-2) (plainHandle [.map_need_val, .parse_complete])
        { offset := 0, bufLen := 0, cont := true }
        (some { tok := .integer, offset := -1, buf := [0x31] }) = some (.again h1 l1) ∧
      h1.stateStack = scalarNext .map_need_val :: [.parse_complete] ∧
      scalarNext .start = .parse_complete ∧ scalarNext .got_value = .parse_complete ∧
      scalarNext .map_need_val = .map_sep ∧ scalarNext .map_start = .map_sep ∧
      scalarNext .array_need_val = .array_got_val ∧
      scalarNext .array_start = .array_got_val :=
  scalar_transition plainEnv (-2) (plainHandle [.map_need_val, .parse_complete])
    { offset := 0, bufLen := 0, cont := true } { tok := .integer, offset := -1, buf := [0x31] }
    .map_need_val [.parse_complete] rfl rfl (by decide) (by decide) rfl

/-- C19, as stated, fails: with `map_need_val` on top of the stack a `null` token makes
the top `map_sep`, not `map_got_val` (in the reverse parser the colon and the key are
still to come). -/
theorem scalar_transition_counterexample :
    ∃ h1 l1, rev_round plainEnv (-4) (plainHandle [.map_need_val, .parse_complete])
        { offset := 0, bufLen := 0, cont := true }
        (some { tok := .null, offset := -4, buf := [0x6e, 0x75, 0x6c, 0x6c] }) =
          some (.again h1 l1) ∧
      h1.stateStack = [.map_sep, .parse_complete] ∧
      h1.stateStack ≠ [.map_got_val, .parse_complete] :=
  ⟨_, _, rfl, rfl, by decide⟩

/-! ## C20: keys and commas in a map -/

/-- C20, amended. In the reverse parser `yajl_rev_do_parse`, when the top of the stack
is `map_need_key` a string token makes the top `map_got_val`; when the top is
`map_got_val` a comma token makes the top `map_need_val` and calls no callback, and a
string token there is a parse error. -/
theorem map_key_transition (env : ParseEnv) (len : Int) (hand : yajl_handle_t)
    (l : RevLocals) (t : LexResult) (rest : List yajl_state) (hcont : l.cont = true) :
    (hand.stateStack = .map_need_key :: rest →
      t.tok = .string ∨ t.tok = .string_with_escapes →
      ∃ h1 l1, rev_round env len hand l (some t) = some (.again h1 l1) ∧
        h1.stateStack = .map_got_val :: rest) ∧
    (hand.stateStack = .map_got_val :: rest → t.tok = .comma →
      ∃ h1 l1, rev_round env len hand l (some t) = some (.again h1 l1) ∧
        h1.stateStack = .map_need_val :: rest ∧ h1.ctx = hand.ctx) ∧
    (hand.stateStack = .map_got_val :: rest →
      t.tok = .string ∨ t.tok = .string_with_escapes →
      ∃ h1 l1, rev_round env len hand l (some t) = some (.again h1 l1) ∧
        h1.stateStack = .parse_error :: rest ∧
        h1.parseError = some "before key and value, inside map, I expect ',' or '\x7b'") := by
  refine ⟨fun hst ht => ?_, fun hst ht => ?_, fun hst ht => ?_⟩
  · simp only [rev_round, hcont, hst, yajl_bs_current, List.head?_cons, map_need_key_state,
      lexNext, Option.getD_some, Bool.not_true, Bool.false_eq_true, if_false]
    rcases ht with ht | ht
    · simp only [ht, set_again, callback_if_stack, hst, yajl_bs_set, Option.map_some']
      exact ⟨_, _, rfl, rfl⟩
    · simp only [ht]
      split_ifs
      · simp only [set_again, callback_stack, hst, yajl_bs_set, Option.map_some']
        exact ⟨_, _, rfl, rfl⟩
      · simp only [set_again, hst, yajl_bs_set, Option.map_some']
        exact ⟨_, _, rfl, rfl⟩
  · simp only [rev_round, hcont, hst, yajl_bs_current, List.head?_cons, map_got_val_state,
      lexNext, Option.getD_some, Bool.not_true, Bool.false_eq_true, if_false, ht, set_again,
      yajl_bs_set, Option.map_some']
    exact ⟨_, _, rfl, rfl, rfl⟩
  · simp only [rev_round, hcont, hst, yajl_bs_current, List.head?_cons, map_got_val_state,
      lexNext, Option.getD_some, Bool.not_true, Bool.false_eq_true, if_false]
    rcases ht with ht | ht <;>
    · simp only [ht, parse_error_again, hst, yajl_bs_set, Option.map_some']
      exact ⟨_, _, rfl, rfl, rfl⟩

theorem map_key_transition_witness :
    ∃ h1 l1, rev_round plainEnv (-3) (plainHandle [.map_need_key, .parse_complete])
        { offset := 0, bufLen := 0, cont := true }
        (some { tok := .string, offset := -3, buf := [0x61] }) = some (.again h1 l1) ∧
      h1.stateStack = .map_got_val :: [.parse_complete] :=
  (map_key_transition plainEnv (-3) (plainHandle [.map_need_key, .parse_complete])
    { offset := 0, bufLen := 0, cont := true } { tok := .string, offset := -3, buf := [0x61] }
    [.parse_complete] rfl).1 rfl (Or.inl rfl)

/-- C20, as stated, fails: with `map_got_val` on top of the stack a string token makes
the top `parse_error`, not `map_need_val`, and a comma token makes the top
`map_need_val`, not `map_need_key`. -/
theorem map_key_transition_counterexample :
    (∃ h1 l1, rev_round plainEnv (-3) (plainHandle [.map_got_val, .parse_complete])
        { offset := 0, bufLen := 0, cont := true }
        (some { tok := .string, offset := -3, buf := [0x61] }) = some (.again h1 l1) ∧
      h1.stateStack = [.parse_error, .parse_complete] ∧
      h1.stateStack ≠ [.map_need_val, .parse_complete]) ∧
    (∃ h1 l1, rev_round plainEnv (-1) (plainHandle [.map_got_val, .parse_complete])
        { offset := 0, bufLen := 0, cont := true }
        (some { tok := .comma, offset := -1, buf := [0x2c] }) = some (.again h1 l1) ∧
      h1.stateStack = [.map_need_val, .parse_complete] ∧
      h1.stateStack ≠ [.map_need_key, .parse_complete]) :=
  ⟨⟨_, _, rfl, rfl, by decide⟩, ⟨_, _, rfl, rfl, by decide⟩⟩

/-! ## `yajl_parse_integer` on in-range input -/

theorem decimalValue_cons (c : Nat) (ds : List Nat) :
    decimalValue (c :: ds) = (c - 0x30) * 10 ^ ds.length + decimalValue ds := by
  simp only [decimalValue, List.reverse_cons, List.map_append, List.map_cons, List.map_nil,
    Nat.ofDigits_append, Nat.ofDigits_singleton, List.length_map, List.length_reverse]
  ring

theorem wrap64_id (x : Int) (h1 : -9223372036854775808 ≤ x) (h2 : x ≤ 9223372036854775807) :
    wrap64 x = x := by
  unfold wrap64; omega

theorem max_value_to_multiply : MAX_VALUE_TO_MULTIPLY = 922337203685477587 := by
  decide

/-- The loop on digits whose value, with the accumulator in front, fits a `long long`. -/
theorem parse_integer_loop_digits (sign : Int) : ∀ (ds : List Nat) (ret : Int), 0 ≤ ret →
    (∀ c ∈ ds, 0x30 ≤ c ∧ c ≤ 0x39) → (sign = 1 ∨ sign = -1) →
    ret * 10 ^ ds.length + (decimalValue ds : Int) ≤ LLONG_MAX →
    parse_integer_loop sign ds ret =
      some (sign * (ret * 10 ^ ds.length + (decimalValue ds : Int)), false) := by
  intro ds
  induction ds with
  | nil =>
    intro ret h0 _ hs hr
    have hm : LLONG_MAX = 9223372036854775807 := rfl
    simp only [decimalValue, List.reverse_nil, List.map_nil, Nat.ofDigits_nil, Nat.cast_zero,
      add_zero, List.length_nil, pow_zero, mul_one] at hr ⊢
    rw [parse_integer_loop, wrap64_id]
    · rcases hs with rfl | rfl <;> omega
    · rcases hs with rfl | rfl <;> omega
  | cons c ds ih =>
    intro ret h0 hd hs hr
    have hc := hd c (List.mem_cons_self _ _)
    have hp : (1 : Int) ≤ 10 ^ ds.length := one_le_pow₀ (by norm_num)
    have hv : (0 : Int) ≤ (decimalValue ds : Int) := Int.natCast_nonneg _
    have hcd : (((c - 0x30 : Nat) : Int)) = (c : Int) - 0x30 := by omega
    rw [decimalValue_cons] at hr
    push_cast at hr
    rw [hcd] at hr
    have hcn : (0 : Int) ≤ (c : Int) - 0x30 := by omega
    have e : ret * 10 ^ (c :: ds).length + (c - 0x30) * 10 ^ ds.length =
        (ret * 10 + ((c : Int) - 0x30)) * 10 ^ ds.length := by
      simp only [List.length_cons]; ring
    have hr2 : (ret * 10 + ((c : Int) - 0x30)) * 10 ^ ds.length + (decimalValue ds : Int) ≤
        LLONG_MAX := by
      rw [← e]; linarith
    have hacc : ret * 10 + ((c : Int) - 0x30) ≤ LLONG_MAX := by
      have h1 : ret * 10 + ((c : Int) - 0x30) ≤
          (ret * 10 + ((c : Int) - 0x30)) * 10 ^ ds.length :=
        le_mul_of_one_le_right (by linarith) hp
      linarith
    have hm : LLONG_MAX = 9223372036854775807 := rfl
    have w1 : wrap64 (ret * 10) = ret * 10 := wrap64_id _ (by omega) (by omega)
    have w2 : wrap64 (LLONG_MAX - ret * 10) = LLONG_MAX - ret * 10 :=
      wrap64_id _ (by omega) (by omega)
    have w3 : wrap64 (ret * 10 + ((c : Int) - 0x30)) = ret * 10 + ((c : Int) - 0x30) :=
      wrap64_id _ (by omega) (by omega)
    rw [parse_integer_loop, w1, w2, w3, if_neg (by rw [max_value_to_multiply]; omega),
      if_neg (by omega), if_neg (by omega),
      ih _ (by linarith) (fun d hdm => hd d (List.mem_cons_of_mem _ hdm)) hs hr2,
      decimalValue_cons]
    push_cast
    rw [hcd, ← e]
    congr 2
    ring

/-- C30: `yajl_parse_integer` on an optional `-` followed by one or more decimal digits
whose magnitude is at most `LLONG_MAX` returns the signed integer that the text
denotes, and does not set `errno` to `ERANGE`. -/
theorem parse_integer_in_range (neg : Bool) (ds : List Nat) (hne : ds ≠ [])
    (hd : ∀ c ∈ ds, 0x30 ≤ c ∧ c ≤ 0x39) (hr : (decimalValue ds : Int) ≤ LLONG_MAX) :
    yajl_parse_integer ((if neg then [0x2d] else []) ++ ds) =
      some ((if neg then -1 else 1) * (decimalValue ds : Int), false) := by
  obtain ⟨c, rest, rfl⟩ := List.exists_cons_of_ne_nil hne
  have hc := hd c (List.mem_cons_self _ _)
  have h := parse_integer_loop_digits (if neg then -1 else 1) (c :: rest) 0 (le_refl 0) hd
    (by cases neg <;> simp) (by simpa using hr)
  simp only [zero_mul, zero_add] at h
  cases neg
  · have h1 : ¬ c = 0x2d := by omega
    have h2 : ¬ c = 0x2b := by omega
    simpa [yajl_parse_integer, h1, h2] using h
  · have h2 : ¬ c = 0x2b := by omega
    simpa [yajl_parse_integer, h2] using h

theorem parse_integer_in_range_witness :
    yajl_parse_integer ((if true then [0x2d] else []) ++ [0x34, 0x32]) =
      some ((if true then -1 else 1) * (decimalValue [0x34, 0x32] : Int), false) :=
  parse_integer_in_range true [0x34, 0x32] (by decide) (by decide) (by decide)

/-! ## Rounds and calls -/

theorem rev_loop_cons_ret (env : ParseEnv) (len : Int) (t : LexResult)
    (rest : List LexResult) (hand h1 : yajl_handle_t) (l : RevLocals) (s : yajl_status)
    (h : rev_round env len hand l (some t) = some (.ret s h1)) :
    rev_loop env len (t :: rest) hand l = some (s, h1) := by
  rw [rev_loop, h]

theorem rev_loop_ret (env : ParseEnv) (len : Int) (lexed : List LexResult)
    (hand : yajl_handle_t) (l : RevLocals) (s : yajl_status) (h1 : yajl_handle_t)
    (h : ∀ next, rev_round env len hand l next = some (.ret s h1)) :
    rev_loop env len lexed hand l = some (s, h1) := by
  cases lexed with
  | nil => rw [rev_loop, h]
  | cons t rest => rw [rev_loop, h]

theorem rev_loop_again (env : ParseEnv) (len : Int) (t : LexResult) (rest : List LexResult)
    (hand h1 : yajl_handle_t) (l l1 : RevLocals)
    (h : rev_round env len hand l (some t) = some (.again h1 l1)) :
    rev_loop env len (t :: rest) hand l = rev_loop env len rest h1 l1 := by
  rw [rev_loop, h]

/-- The rounds on the first tokens of the chunk, then the loop on the others. -/
theorem rev_loop_append (env : ParseEnv) (len : Int) (rest : List LexResult) :
    ∀ (ts : List LexResult) (hand h1 : yajl_handle_t) (l l1 : RevLocals),
      rev_steps env len ts hand l = some (h1, l1) →
      rev_loop env len (ts ++ rest) hand l = rev_loop env len rest h1 l1 := by
  intro ts
  induction ts with
  | nil => intro hand h1 l l1 h; simp only [rev_steps, Option.some.injEq, Prod.mk.injEq] at h
           obtain ⟨rfl, rfl⟩ := h; rfl
  | cons t ts ih =>
    intro hand h1 l l1 h
    rw [rev_steps] at h
    cases hr : rev_round env len hand l (some t) with
    | none => rw [hr] at h; cases h
    | some r =>
      cases r with
      | ret s h2 => rw [hr] at h; cases h
      | again h2 l2 =>
        rw [hr] at h
        rw [List.cons_append, rev_loop_again env len t _ hand h2 l l2 hr]
        exact ih h2 h1 l2 l1 h

theorem rev_steps_append (env : ParseEnv) (len : Int) (ts2 : List LexResult) :
    ∀ (ts1 : List LexResult) (hand h1 : yajl_handle_t) (l l1 : RevLocals),
      rev_steps env len ts1 hand l = some (h1, l1) →
      rev_steps env len (ts1 ++ ts2) hand l = rev_steps env len ts2 h1 l1 := by
  intro ts1
  induction ts1 with
  | nil => intro hand h1 l l1 h; simp only [rev_steps, Option.some.injEq, Prod.mk.injEq] at h
           obtain ⟨rfl, rfl⟩ := h; rfl
  | cons t ts ih =>
    intro hand h1 l l1 h
    rw [rev_steps] at h
    cases hr : rev_round env len hand l (some t) with
    | none => rw [hr] at h; cases h
    | some r =>
      cases r with
      | ret s h2 => rw [hr] at h; cases h
      | again h2 l2 =>
        rw [hr] at h
        rw [List.cons_append, rev_steps, hr]
        exact ih h2 h1 l2 l1 h

/-- A round in an error state returns `yajl_status_error`, whatever the lexer would
return. -/
theorem rev_round_error_state (env : ParseEnv) (len : Int) (hand : yajl_handle_t)
    (l : RevLocals) (next : Option LexResult) (s : yajl_state) (rest : List yajl_state)
    (hst : hand.stateStack = s :: rest) (hcont : l.cont = true)
    (hs : s = .parse_error ∨ s = .lexical_error) :
    rev_round env len hand l next =
      some (.ret .error { hand with bytesConsumed := toSizeT (l.offset - len) }) := by
  rcases hs with rfl | rfl <;>
    simp [rev_round, hcont, hst, yajl_bs_current, consumed_ret]

/-- C22: errors are sticky.  If the top of the state stack is `parse_error` or
`lexical_error` when `yajl_rev_do_parse` is called, then for every chunk (every length
and every list of results that the lexer would give) the first round returns, whatever
the lexer would return: the call returns `yajl_status_error`, the handle is as before
but for `bytesConsumed`; so no callback is called (`ctx`) and the state stack is
unchanged. -/
theorem errors_sticky (env : ParseEnv) (hand : yajl_handle_t) (len : Int)
    (lexed : List LexResult) (s : yajl_state) (rest : List yajl_state)
    (hst : hand.stateStack = s :: rest) (hs : s = .parse_error ∨ s = .lexical_error) :
    (∀ next, rev_round env len hand entryLocals next =
      some (.ret .error { hand with bytesConsumed := toSizeT (0 - len) })) ∧
    ∃ h, yajl_rev_do_parse env hand len lexed = some (.error, h) ∧
      h = { hand with bytesConsumed := toSizeT (0 - len) } ∧
      h.ctx = hand.ctx ∧ h.stateStack = hand.stateStack ∧ h.parseError = hand.parseError := by
  have key : ∀ next, rev_round env len hand entryLocals next =
      some (.ret .error { hand with bytesConsumed := toSizeT (0 - len) }) :=
    fun next => rev_round_error_state env len hand entryLocals next s rest hst rfl hs
  exact ⟨key, _, rev_loop_ret env len lexed hand _ _ _ key, rfl, rfl, rfl, rfl⟩

theorem errors_sticky_witness :
    (∀ next, rev_round plainEnv (-3) (plainHandle [.parse_error, .map_sep, .parse_complete])
      entryLocals next =
      some (.ret .error { plainHandle [.parse_error, .map_sep, .parse_complete] with
        bytesConsumed := toSizeT (0 - (-3)) })) ∧
    ∃ h, yajl_rev_do_parse plainEnv (plainHandle [.parse_error, .map_sep, .parse_complete])
        (-3) [{ tok := .integer, offset := -3, buf := [0x31, 0x32, 0x33] }] = some (.error, h) ∧
      h = { plainHandle [.parse_error, .map_sep, .parse_complete] with
        bytesConsumed := toSizeT (0 - (-3)) } ∧
      h.ctx = (plainHandle [.parse_error, .map_sep, .parse_complete]).ctx ∧
      h.stateStack = (plainHandle [.parse_error, .map_sep, .parse_complete]).stateStack ∧
      h.parseError = (plainHandle [.parse_error, .map_sep, .parse_complete]).parseError :=
  errors_sticky plainEnv (plainHandle [.parse_error, .map_sep, .parse_complete]) (-3)
    [{ tok := .integer, offset := -3, buf := [0x31, 0x32, 0x33] }] .parse_error
    [.map_sep, .parse_complete] rfl (Or.inl rfl)

/-! ## Error and end-of-chunk tokens -/

/-- A round that reads an error token sets `lexical_error` and goes round. -/
theorem rev_round_error_tok (env : ParseEnv) (len : Int) (hand : yajl_handle_t)
    (l : RevLocals) (t : LexResult) (s : yajl_state) (st : List yajl_state)
    (hst : hand.stateStack = s :: st) (hcont : l.cont = true) (hs : isReadingState s)
    (ht : t.tok = .error) :
    rev_round env len hand l (some t) =
      some (.again { hand with stateStack := .lexical_error :: st } (lexLocals l t)) := by
  rcases hs with (rfl | rfl | rfl | rfl | rfl | rfl) | rfl | rfl | rfl | rfl <;>
    simp [rev_round, hcont, hst, yajl_bs_current, value_state, map_need_key_state,
      map_sep_state, map_got_val_state, array_got_val_state, lexNext, ht, set_again,
      yajl_bs_set]

/-- A round that reads `eof` returns `yajl_status_ok`. -/
theorem rev_round_eof_tok (env : ParseEnv) (len : Int) (hand : yajl_handle_t)
    (l : RevLocals) (next : Option LexResult) (s : yajl_state) (st : List yajl_state)
    (hst : hand.stateStack = s :: st) (hcont : l.cont = true) (hs : isReadingState s)
    (ht : (lexNext len next).tok = .eof) :
    rev_round env len hand l next =
      some (.ret .ok { hand with
        bytesConsumed := toSizeT ((lexNext len next).offset - len) }) := by
  rcases hs with (rfl | rfl | rfl | rfl | rfl | rfl) | rfl | rfl | rfl | rfl <;>
    simp [rev_round, hcont, hst, yajl_bs_current, value_state, map_need_key_state,
      map_sep_state, map_got_val_state, array_got_val_state, ht, consumed_ret, lexLocals]

/-- C27: in every token-reading state other than `parse_complete` (the value states,
`map_need_key`, `map_sep`, `map_got_val`, `array_got_val`), at any point of a call at
which the loop goes on (`cont` is set): if the lexer returns an error token, the top of
the stack is set to `lexical_error` and the call returns `yajl_status_error`, with no
callback called (`ctx` is as before) and no further token read (the tokens `rest` do
not matter); if the lexer returns `eof` (as a token, or because the chunk is used up)
the call returns `yajl_status_ok` and the state stack is as before. -/
theorem lexer_error_and_eof (env : ParseEnv) (len : Int) (hand : yajl_handle_t)
    (l : RevLocals) (t : LexResult) (rest : List LexResult) (s : yajl_state)
    (st : List yajl_state) (hst : hand.stateStack = s :: st) (hcont : l.cont = true)
    (hs : isReadingState s) :
    (t.tok = .error →
      rev_loop env len (t :: rest) hand l =
        some (.error, { hand with stateStack := .lexical_error :: st,
                                  bytesConsumed := toSizeT (t.offset - len) })) ∧
    (t.tok = .eof →
      rev_loop env len (t :: rest) hand l =
        some (.ok, { hand with bytesConsumed := toSizeT (t.offset - len) })) ∧
    rev_loop env len [] hand l =
      some (.ok, { hand with bytesConsumed := toSizeT (len - len) }) := by
  refine ⟨fun ht => ?_, fun ht => ?_, ?_⟩
  · rw [rev_loop_again env len t rest hand _ l _
      (rev_round_error_tok env len hand l t s st hst hcont hs ht)]
    exact rev_loop_ret env len rest _ _ _ _
      (fun next => rev_round_error_state env len _ _ next .lexical_error st rfl hcont
        (Or.inr rfl))
  · exact rev_loop_cons_ret env len t rest hand _ l _
      (rev_round_eof_tok env len hand l (some t) s st hst hcont hs ht)
  · rw [rev_loop, rev_round_eof_tok env len hand l none s st hst hcont hs rfl]
    rfl

theorem lexer_error_and_eof_witness :
    rev_loop plainEnv (-5) ({ tok := .error, offset := -2, buf := [] } :: [])
        (plainHandle [.map_sep, .parse_complete]) entryLocals =
      some (.error, { plainHandle [.map_sep, .parse_complete] with
        stateStack := .lexical_error :: [.parse_complete],
        bytesConsumed := toSizeT (-2 - -5) }) :=
  (lexer_error_and_eof plainEnv (-5) (plainHandle [.map_sep, .parse_complete]) entryLocals
    { tok := .error, offset := -2, buf := [] } [] .map_sep [.parse_complete] rfl rfl
    (by decide)).1 rfl

/-! ## Trailing content -/

/-- C25: trailing content.  Let the top of the stack be `parse_complete` and
`allow_multiple_values` not be set.  Without `allow_trailing_garbage`, on a non-empty
chunk, one more token is read: if it is anything but `eof`, the top is set to
`parse_error` with the text "trailing garbage" and the call returns
`yajl_status_error`; if the lexer finds only the end of the chunk, the call returns
`yajl_status_ok`.  With `allow_trailing_garbage` the call returns `yajl_status_ok`
whatever the lexer would return: no token is read. -/
theorem trailing_content (env : ParseEnv) (hand : yajl_handle_t) (len : Int)
    (st : List yajl_state) (hst : hand.stateStack = .parse_complete :: st)
    (hamv : hand.flags.allow_multiple_values = false) :
    (hand.flags.allow_trailing_garbage = false → len ≠ 0 →
      (∀ t rest, t.tok ≠ .eof →
        yajl_rev_do_parse env hand len (t :: rest) =
          some (.error, { hand with stateStack := .parse_error :: st,
                                    parseError := some "trailing garbage",
                                    bytesConsumed := toSizeT (t.offset - len) })) ∧
      (∀ t rest, t.tok = .eof → t.offset = len →
        yajl_rev_do_parse env hand len (t :: rest) =
          some (.ok, { hand with bytesConsumed := toSizeT (len - len) })) ∧
      yajl_rev_do_parse env hand len [] =
        some (.ok, { hand with bytesConsumed := toSizeT (len - len) })) ∧
    (hand.flags.allow_trailing_garbage = true →
      (∀ next, rev_round env len hand entryLocals next =
        some (.ret .ok { hand with bytesConsumed := toSizeT (0 - len) })) ∧
      ∀ lexed, yajl_rev_do_parse env hand len lexed =
        some (.ok, { hand with bytesConsumed := toSizeT (0 - len) })) := by
  have hround : ∀ l next, l.cont = true →
      rev_round env len hand l next = parse_complete_state len hand l next := by
    intro l next hc
    simp [rev_round, hc, hst, yajl_bs_current, hamv]
  refine ⟨fun hatg hlen => ⟨fun t rest ht => ?_, fun t rest ht ho => ?_, ?_⟩,
    fun hatg => ?_⟩
  · have h1 : rev_round env len hand entryLocals (some t) =
        some (.again { hand with stateStack := .parse_error :: st,
                                 parseError := some "trailing garbage" }
          (lexLocals entryLocals t)) := by
      rw [hround _ _ rfl]
      simp [parse_complete_state, hatg, entryLocals, Ne.symm hlen, lexNext, ht,
        parse_error_again, hst, yajl_bs_set]
    unfold yajl_rev_do_parse
    rw [show ({ offset := 0, bufLen := 0, cont := true } : RevLocals) = entryLocals from rfl,
      rev_loop_again env len t rest hand _ _ _ h1]
    exact rev_loop_ret env len rest _ _ _ _
      (fun next => rev_round_error_state env len _ _ next .parse_error st rfl rfl
        (Or.inl rfl))
  · have h1 : rev_round env len hand entryLocals (some t) =
        some (.again hand (lexLocals entryLocals t)) := by
      rw [hround _ _ rfl]
      simp [parse_complete_state, hatg, entryLocals, Ne.symm hlen, lexNext, ht]
    have h2 : ∀ next, rev_round env len hand (lexLocals entryLocals t) next =
        some (.ret .ok { hand with bytesConsumed := toSizeT (len - len) }) := by
      intro next
      rw [hround _ _ rfl]
      simp [parse_complete_state, lexLocals, ho, consumed_ret]
    unfold yajl_rev_do_parse
    rw [show ({ offset := 0, bufLen := 0, cont := true } : RevLocals) = entryLocals from rfl,
      rev_loop_again env len t rest hand _ _ _ h1]
    exact rev_loop_ret env len rest _ _ _ _ h2
  · have h1 : rev_round env len hand entryLocals none =
        some (.again hand (lexLocals entryLocals (lexNext len none))) := by
      rw [hround _ _ rfl]
      simp [parse_complete_state, hatg, entryLocals, Ne.symm hlen, lexNext]
    have h2 : rev_round env len hand (lexLocals entryLocals (lexNext len none)) none =
        some (.ret .ok { hand with bytesConsumed := toSizeT (len - len) }) := by
      rw [hround _ _ rfl]
      simp [parse_complete_state, lexLocals, lexNext, consumed_ret]
    unfold yajl_rev_do_parse
    rw [show ({ offset := 0, bufLen := 0, cont := true } : RevLocals) = entryLocals from rfl,
      rev_loop, h1]
    simp only [h2]
  · have key : ∀ next, rev_round env len hand entryLocals next =
        some (.ret .ok { hand with bytesConsumed := toSizeT (0 - len) }) := by
      intro next
      rw [hround _ _ rfl]
      simp [parse_complete_state, hatg, consumed_ret, entryLocals]
    exact ⟨key, fun lexed => rev_loop_ret env len lexed hand _ _ _ key⟩

theorem trailing_content_witness :
    yajl_rev_do_parse plainEnv (plainHandle [.parse_complete]) (-2)
        ({ tok := .comma, offset := -1, buf := [0x2c] } :: []) =
      some (.error, { plainHandle [.parse_complete] with
        stateStack := .parse_error :: [],
        parseError := some "trailing garbage",
        bytesConsumed := toSizeT (-1 - -2) }) :=
  ((trailing_content plainEnv (plainHandle [.parse_complete]) (-2) [] rfl rfl).1 rfl
    (by decide)).1 { tok := .comma, offset := -1, buf := [0x2c] } [] (by decide)

/-! ## Numbers -/

/-- A callback, then the block "got a value", on a stack whose top is a value state. -/
theorem value_done_callback_eq (env : ParseEnv) (hand : yajl_handle_t) (l : RevLocals)
    (len : Int) (e : yajl_event) (s : yajl_state) (st : List yajl_state)
    (hst : hand.stateStack = s :: st) (hs : isValueState s) :
    value_done (callback env hand l len e).1 (callback env hand l len e).2 .start =
      some (.again { (callback env hand l len e).1 with stateStack := scalarNext s :: st }
        (callback env hand l len e).2) :=
  value_done_eq _ _ s st hst hs

/-- The round of a value state on an integer token whose conversion overflows. -/
theorem rev_round_integer_overflow (env : ParseEnv) (len : Int) (hand : yajl_handle_t)
    (l : RevLocals) (t : LexResult) (s : yajl_state) (st : List yajl_state)
    (hst : hand.stateStack = s :: st) (hcont : l.cont = true) (hs : isValueState s)
    (ht : t.tok = .integer) (hn : registered hand (·.yajl_number) = false)
    (hi : registered hand (·.yajl_integer) = true)
    (hov : ((env.yajl_parse_integer t.buf).1 = LLONG_MIN ∨
      (env.yajl_parse_integer t.buf).1 = LLONG_MAX) ∧ (env.yajl_parse_integer t.buf).2 = true) :
    rev_round env len hand l (some t) =
      some (.again { hand with stateStack := .parse_error :: st,
                               parseError := some "integer overflow" } (lexLocals l t)) := by
  rw [rev_round_value env len hand l _ s st hst hcont hs]
  unfold value_state
  simp only [lexNext, Option.getD_some, ht, hn, hi, Bool.false_eq_true, if_false, if_true]
  rw [if_pos hov]
  simp [parse_error_again, hst, yajl_bs_set]

/-- C29: when no number callback but an integer callback is registered and
`yajl_parse_integer` signals overflow for an integer token read in a value state (it
returns `LLONG_MIN` or `LLONG_MAX` and `errno` is `ERANGE`), the top of the stack is
set to `parse_error` with the text "integer overflow", no callback is called (`ctx` is
as before), and the call returns `yajl_status_error` without reading the tokens that
follow. -/
theorem integer_overflow (env : ParseEnv) (len : Int) (hand : yajl_handle_t)
    (l : RevLocals) (t : LexResult) (rest : List LexResult) (s : yajl_state)
    (st : List yajl_state) (hst : hand.stateStack = s :: st) (hcont : l.cont = true)
    (hs : isValueState s) (ht : t.tok = .integer)
    (hn : registered hand (·.yajl_number) = false)
    (hi : registered hand (·.yajl_integer) = true)
    (hov : ((env.yajl_parse_integer t.buf).1 = LLONG_MIN ∨
      (env.yajl_parse_integer t.buf).1 = LLONG_MAX) ∧ (env.yajl_parse_integer t.buf).2 = true) :
    rev_loop env len (t :: rest) hand l =
      some (.error, { hand with stateStack := .parse_error :: st,
                                parseError := some "integer overflow",
                                bytesConsumed := toSizeT (t.offset - len) }) := by
  rw [rev_loop_again env len t rest hand _ l _
    (rev_round_integer_overflow env len hand l t s st hst hcont hs ht hn hi hov)]
  exact rev_loop_ret env len rest _ _ _ _
    (fun next => rev_round_error_state env len _ _ next .parse_error st rfl hcont
      (Or.inl rfl))

set_option maxRecDepth 100000 in
theorem integer_overflow_witness :
    rev_loop sourceEnv (-19)
        ({ tok := .integer, offset := -19,
           buf := [0x39, 0x32, 0x32, 0x33, 0x33, 0x37, 0x32, 0x30, 0x33, 0x36, 0x38, 0x35,
                   0x34, 0x37, 0x37, 0x35, 0x38, 0x30, 0x38] } :: [])
        (handleWith typedCallbacks [.start]) entryLocals =
      some (.error, { handleWith typedCallbacks [.start] with
        stateStack := .parse_error :: [],
        parseError := some "integer overflow",
        bytesConsumed := toSizeT (-19 - -19) }) :=
  integer_overflow sourceEnv (-19) (handleWith typedCallbacks [.start]) entryLocals
    { tok := .integer, offset := -19,
      buf := [0x39, 0x32, 0x32, 0x33, 0x33, 0x37, 0x32, 0x30, 0x33, 0x36, 0x38, 0x35,
              0x34, 0x37, 0x37, 0x35, 0x38, 0x30, 0x38] } [] .start [] rfl rfl
    (by decide) rfl rfl rfl (by decide)

/-- C28: numeric dispatch.  An integer or double token read in a value state: when a
number callback is registered, the number callback is called with the raw text of the
token and no other callback is, the top of the stack moves on as for every value and no
error text is set (no overflow is reported); when none is registered and the conversion
does not report overflow, an integer token calls the integer callback, if there is one,
with the value that `yajl_parse_integer` returns, a double token calls the double
callback, if there is one, and no other callback is called. -/
theorem numeric_dispatch (env : ParseEnv) (len : Int) (hand : yajl_handle_t)
    (l : RevLocals) (t : LexResult) (s : yajl_state) (st : List yajl_state)
    (hst : hand.stateStack = s :: st) (hcont : l.cont = true) (hs : isValueState s)
    (ht : t.tok = .integer ∨ t.tok = .double) :
    (registered hand (·.yajl_number) = true →
      ∃ h1 l1, rev_round env len hand l (some t) = some (.again h1 l1) ∧
        h1.ctx = hand.ctx ++ [.number t.buf] ∧ h1.stateStack = scalarNext s :: st ∧
        h1.parseError = hand.parseError) ∧
    (registered hand (·.yajl_number) = false → numericOverflow env hand t = false →
      ∃ h1 l1, rev_round env len hand l (some t) = some (.again h1 l1) ∧
        h1.stateStack = scalarNext s :: st ∧ h1.parseError = hand.parseError ∧
        (t.tok = .integer → registered hand (·.yajl_integer) = true →
          h1.ctx = hand.ctx ++ [.integer (env.yajl_parse_integer t.buf).1]) ∧
        (t.tok = .integer → registered hand (·.yajl_integer) = false → h1.ctx = hand.ctx) ∧
        (t.tok = .double → registered hand (·.yajl_double) = true →
          h1.ctx = hand.ctx ++ [.double t.buf]) ∧
        (t.tok = .double → registered hand (·.yajl_double) = false → h1.ctx = hand.ctx)) := by
  rw [rev_round_value env len hand l _ s st hst hcont hs]
  refine ⟨fun hn => ?_, fun hn hov => ?_⟩
  · unfold value_state
    rcases ht with ht | ht <;>
    · simp only [lexNext, Option.getD_some, ht, hn, if_true]
      rw [value_done_callback_eq env hand _ len _ s st hst hs]
      exact ⟨_, _, rfl, rfl, rfl, rfl⟩
  · unfold value_state
    simp only [numericOverflow, hn, Bool.not_false, Bool.true_and, Bool.or_eq_false_iff,
      Bool.and_eq_false_imp, decide_eq_true_eq, Bool.and_eq_true, decide_eq_false_iff_not]
      at hov
    rcases ht with ht | ht
    · simp only [lexNext, Option.getD_some, ht, hn, Bool.false_eq_true, if_false]
      by_cases hi : registered hand (·.yajl_integer) = true
      · rw [if_pos hi, if_neg (hov.1 ⟨ht, hi⟩),
          value_done_callback_eq env hand _ len _ s st hst hs]
        refine ⟨_, _, rfl, rfl, rfl, ?_, ?_, ?_, ?_⟩ <;> intros <;> first | rfl | simp_all
      · rw [if_neg hi, value_done_eq _ _ s st hst hs]
        refine ⟨_, _, rfl, rfl, rfl, ?_, ?_, ?_, ?_⟩ <;> intros <;> first | rfl | simp_all
    · simp only [lexNext, Option.getD_some, ht, hn, Bool.false_eq_true, if_false]
      by_cases hi : registered hand (·.yajl_double) = true
      · have hno : ¬ env.strtod_overflow t.buf = true := by
          rw [hov.2 ⟨ht, hi⟩]; decide
        rw [if_pos hi, if_neg hno,
          value_done_callback_eq env { hand with decodeBuf := t.buf } _ len _ s st hst hs]
        refine ⟨_, _, rfl, rfl, rfl, ?_, ?_, ?_, ?_⟩ <;> intros <;> first | rfl | simp_all
      · rw [if_neg hi, value_done_eq _ _ s st hst hs]
        refine ⟨_, _, rfl, rfl, rfl, ?_, ?_, ?_, ?_⟩ <;> intros <;> first | rfl | simp_all

theorem numeric_dispatch_witness :
    ∃ h1 l1, rev_round sourceEnv (-2) (handleWith allCallbacks [.map_need_val, .parse_complete])
        entryLocals (some { tok := .integer, offset := -2, buf := [0x34, 0x32] }) =
        some (.again h1 l1) ∧
      h1.ctx = (handleWith allCallbacks [.map_need_val, .parse_complete]).ctx ++
        [.number [0x34, 0x32]] ∧
      h1.stateStack = scalarNext .map_need_val :: [.parse_complete] ∧
      h1.parseError = (handleWith allCallbacks [.map_need_val, .parse_complete]).parseError :=
  (numeric_dispatch sourceEnv (-2) (handleWith allCallbacks [.map_need_val, .parse_complete])
    entryLocals { tok := .integer, offset := -2, buf := [0x34, 0x32] } .map_need_val
    [.parse_complete] rfl rfl (by decide) (Or.inl rfl)).1 rfl

/-! ## The admitted transitions: what a round does -/

theorem callback_if_facts (env : ParseEnv) (hand : yajl_handle_t) (l : RevLocals) (len : Int)
    (f : yajl_callbacks → Bool) (e : yajl_event) (hcont : l.cont = true) :
    (callback_if env hand l len f e).1.stateStack = hand.stateStack ∧
    (callback_if env hand l len f e).1.ctx = hand.ctx ++ emit hand f e ∧
    (callback_if env hand l len f e).1.callbacks = hand.callbacks ∧
    (callback_if env hand l len f e).1.flags = hand.flags ∧
    (callback_if env hand l len f e).1.parseError = hand.parseError ∧
    (callback_if env hand l len f e).2.cont = contAfter env hand.ctx (emit hand f e) ∧
    (callback_if env hand l len f e).2.offset = l.offset := by
  unfold callback_if emit contAfter
  by_cases h : registered hand f = true
  · simp [h, callback, mark]
  · simp [h, hcont]

/-- A callback that is called if registered, then the block "got a value" and the push
of `stateToPush`. -/
theorem value_done_callback_if (env : ParseEnv) (hand : yajl_handle_t) (l : RevLocals)
    (len : Int) (f : yajl_callbacks → Bool) (e : yajl_event) (t : LexResult)
    (p : yajl_state) (s : yajl_state) (st : List yajl_state)
    (hst : hand.stateStack = s :: st) (hs : isValueState s) (hcont : l.cont = true)
    (ho : l.offset = t.offset) :
    ∃ h1 l1, value_done (callback_if env hand l len f e).1 (callback_if env hand l len f e).2 p =
        some (.again h1 l1) ∧
      RoundTo env hand t (if p ≠ .start then p :: scalarNext s :: st else scalarNext s :: st)
        (emit hand f e) h1 l1 := by
  obtain ⟨f1, f2, f3, f4, f5, f6, f7⟩ := callback_if_facts env hand l len f e hcont
  unfold value_done
  rw [f1, hst, got_a_value_eq s st hs]
  refine ⟨_, _, rfl, ?_, f2, f3, f4, f5, f6, f7.trans ho⟩
  simp only [yajl_bs_push]

theorem value_done_plain (env : ParseEnv) (hand h : yajl_handle_t) (l2 : RevLocals)
    (t : LexResult) (evs : List yajl_event) (s : yajl_state) (st : List yajl_state)
    (hs : isValueState s) (f1 : h.stateStack = s :: st) (f2 : h.ctx = hand.ctx ++ evs)
    (f3 : h.callbacks = hand.callbacks) (f4 : h.flags = hand.flags)
    (f5 : h.parseError = hand.parseError) (f6 : l2.cont = contAfter env hand.ctx evs)
    (f7 : l2.offset = t.offset) :
    ∃ h1 l1, value_done h l2 .start = some (.again h1 l1) ∧
      RoundTo env hand t (scalarNext s :: st) evs h1 l1 := by
  unfold value_done
  rw [f1, got_a_value_eq s st hs]
  exact ⟨_, _, rfl, rfl, f2, f3, f4, f5, f6, f7⟩

theorem contAfter_nil (env : ParseEnv) (ctx : List yajl_event) : contAfter env ctx [] = true := by
  simp [contAfter]

theorem contAfter_single (env : ParseEnv) (ctx : List yajl_event) (e : yajl_event) :
    contAfter env ctx [e] = env.client (ctx ++ [e]) := by
  simp [contAfter]

/-- A scalar value token in a value state. -/
theorem value_state_scalar (env : ParseEnv) (len : Int) (hand : yajl_handle_t)
    (l : RevLocals) (t : LexResult) (s : yajl_state) (st : List yajl_state)
    (hst : hand.stateStack = s :: st) (hcont : l.cont = true) (hs : isValueState s)
    (ht : isScalarTok t.tok) (hov : numericOverflow env hand t = false) :
    ∃ h1 l1, value_state env len hand l (some t) = some (.again h1 l1) ∧
      RoundTo env hand t (scalarNext s :: st) (scalarEvents env hand t) h1 l1 := by
  have hl : (lexLocals l t).cont = true := hcont
  have hlo : (lexLocals l t).offset = t.offset := rfl
  unfold value_state
  simp only [lexNext, Option.getD_some]
  simp only [numericOverflow, Bool.or_eq_false_iff, Bool.and_eq_false_imp,
    decide_eq_true_eq, Bool.and_eq_true, decide_eq_false_iff_not, Bool.not_eq_true']
    at hov
  rcases ht with ht | ht | ht | ht | ht | ht
  · simp only [ht, scalarEvents]
    simpa using value_done_callback_if env hand _ len _ _ t .start s st hst hs hl hlo
  · simp only [ht, scalarEvents]
    by_cases hr : registered hand (·.yajl_string) = true
    · rw [if_pos hr]
      refine value_done_plain env hand _ _ t _ s st hs hst ?_ rfl rfl rfl ?_ rfl
      · simp [callback, emit, hr]
      · simp [callback, emit, hr, contAfter_single]
    · rw [if_neg hr]
      refine value_done_plain env hand _ _ t _ s st hs hst ?_ rfl rfl rfl ?_ rfl
      · simp [emit, hr]
      · simp [emit, hr, contAfter_nil, hl]
  · simp only [ht, scalarEvents]
    simpa using value_done_callback_if env hand _ len _ _ t .start s st hst hs hl hlo
  · simp only [ht, scalarEvents]
    simpa using value_done_callback_if env hand _ len _ _ t .start s st hst hs hl hlo
  · simp only [ht, scalarEvents]
    by_cases hn : registered hand (·.yajl_number) = true
    · rw [if_pos hn, if_pos hn]
      refine value_done_plain env hand _ _ t _ s st hs hst ?_ rfl rfl rfl ?_ rfl
      · simp [callback]
      · simp [callback, contAfter_single]
    · rw [if_neg hn, if_neg hn]
      by_cases hi : registered hand (·.yajl_integer) = true
      · have hno := (hov (by simpa using hn)).1 ⟨ht, hi⟩
        rw [if_pos hi, if_neg hno]
        refine value_done_plain env hand _ _ t _ s st hs hst ?_ rfl rfl rfl ?_ rfl
        · simp [callback, emit, hi]
        · simp [callback, emit, hi, contAfter_single]
      · rw [if_neg hi]
        refine value_done_plain env hand _ _ t _ s st hs hst ?_ rfl rfl rfl ?_ rfl
        · simp [emit, hi]
        · simp [emit, hi, contAfter_nil, hl]
  · simp only [ht, scalarEvents]
    by_cases hn : registered hand (·.yajl_number) = true
    · rw [if_pos hn, if_pos hn]
      refine value_done_plain env hand _ _ t _ s st hs hst ?_ rfl rfl rfl ?_ rfl
      · simp [callback]
      · simp [callback, contAfter_single]
    · rw [if_neg hn, if_neg hn]
      by_cases hi : registered hand (·.yajl_double) = true
      · have hno : ¬ env.strtod_overflow t.buf = true := by
          have := (hov (by simpa using hn)).2 ⟨ht, hi⟩
          rw [this]; decide
        rw [if_pos hi, if_neg hno]
        refine value_done_plain env hand _ _ t _ s st hs hst ?_ rfl rfl rfl ?_ rfl
        · simp [callback, emit, hi]
        · simp [callback, emit, hi, contAfter_single]
      · rw [if_neg hi]
        refine value_done_plain env hand _ _ t _ s st hs hst ?_ rfl rfl rfl ?_ rfl
        · simp [emit, hi]
        · simp [emit, hi, contAfter_nil, hl]

/-- A callback that is called if registered, then `yajl_bs_pop`. -/
theorem pop_callback_if (env : ParseEnv) (hand : yajl_handle_t) (l : RevLocals)
    (len : Int) (f : yajl_callbacks → Bool) (e : yajl_event) (t : LexResult)
    (s : yajl_state) (st : List yajl_state)
    (hst : hand.stateStack = s :: st) (hcont : l.cont = true) (ho : l.offset = t.offset) :
    ∃ h1 l1, pop_again (callback_if env hand l len f e).1 (callback_if env hand l len f e).2 =
        some (.again h1 l1) ∧
      RoundTo env hand t st (emit hand f e) h1 l1 := by
  obtain ⟨f1, f2, f3, f4, f5, f6, f7⟩ := callback_if_facts env hand l len f e hcont
  unfold pop_again
  rw [f1, hst]
  exact ⟨_, _, rfl, rfl, f2, f3, f4, f5, f6, f7.trans ho⟩

/-- A callback that is called if registered, then `yajl_bs_set`. -/
theorem set_callback_if (env : ParseEnv) (hand : yajl_handle_t) (l : RevLocals)
    (len : Int) (f : yajl_callbacks → Bool) (e : yajl_event) (t : LexResult)
    (s v : yajl_state) (st : List yajl_state)
    (hst : hand.stateStack = s :: st) (hcont : l.cont = true) (ho : l.offset = t.offset) :
    ∃ h1 l1, set_again (callback_if env hand l len f e).1 (callback_if env hand l len f e).2 v =
        some (.again h1 l1) ∧
      RoundTo env hand t (v :: st) (emit hand f e) h1 l1 := by
  obtain ⟨f1, f2, f3, f4, f5, f6, f7⟩ := callback_if_facts env hand l len f e hcont
  unfold set_again
  rw [f1, hst]
  exact ⟨_, _, rfl, rfl, f2, f3, f4, f5, f6, f7.trans ho⟩

/-- A round on a token that the state admits goes round again, with the stack and the
callbacks of the transition. -/
theorem round_admitted (env : ParseEnv) (len : Int) (hand : yajl_handle_t) (l : RevLocals)
    (t : LexResult) (s : yajl_state) (st seg : List yajl_state) (evs : List yajl_event)
    (hst : hand.stateStack = s :: st) (hcont : l.cont = true)
    (ha : Admits env hand s t seg evs) :
    ∃ h1 l1, rev_round env len hand l (some t) = some (.again h1 l1) ∧
      RoundTo env hand t (seg ++ st) evs h1 l1 := by
  have hl : (lexLocals l t).cont = true := hcont
  have hlo : (lexLocals l t).offset = t.offset := rfl
  cases ha with
  | scalar _ _ hs ht hov =>
    rw [rev_round_value env len hand l _ s st hst hcont hs]
    exact value_state_scalar env len hand l t s st hst hcont hs ht hov
  | end_array _ _ hs ht =>
    rw [rev_round_value env len hand l _ s st hst hcont hs]
    unfold value_state
    simp only [lexNext, Option.getD_some, ht]
    simpa using value_done_callback_if env hand _ len _ _ t .array_start s st hst hs hl hlo
  | end_map _ _ hs ht =>
    rw [rev_round_value env len hand l _ s st hst hcont hs]
    unfold value_state
    simp only [lexNext, Option.getD_some, ht]
    simpa using value_done_callback_if env hand _ len _ _ t .map_start s st hst hs hl hlo
  | start_array _ _ hs ht =>
    rcases hs with rfl | rfl
    · rw [rev_round_value env len hand l _ _ st hst hcont (by decide)]
      unfold value_state
      simp only [lexNext, Option.getD_some, ht, hst, yajl_bs_current, List.head?_cons, if_true]
      simpa using pop_callback_if env hand _ len _ _ t _ st hst hl hlo
    · simp only [rev_round, hcont, hst, yajl_bs_current, List.head?_cons, array_got_val_state,
        lexNext, Option.getD_some, ht, Bool.not_true, Bool.false_eq_true, if_false]
      simpa using pop_callback_if env hand _ len _ _ t _ st hst hl hlo
  | start_map _ _ hs ht =>
    rcases hs with rfl | rfl
    · rw [rev_round_value env len hand l _ _ st hst hcont (by decide)]
      unfold value_state
      simp only [lexNext, Option.getD_some, ht, hst, yajl_bs_current, List.head?_cons, if_true]
      simpa using pop_callback_if env hand _ len _ _ t _ st hst hl hlo
    · simp only [rev_round, hcont, hst, yajl_bs_current, List.head?_cons, map_got_val_state,
        lexNext, Option.getD_some, ht, Bool.not_true, Bool.false_eq_true, if_false]
      simpa using pop_callback_if env hand _ len _ _ t _ st hst hl hlo
  | array_comma _ ht =>
    simp only [rev_round, hcont, hst, yajl_bs_current, List.head?_cons, array_got_val_state,
      lexNext, Option.getD_some, ht, Bool.not_true, Bool.false_eq_true, if_false, set_again,
      yajl_bs_set, Option.map_some']
    exact ⟨_, _, rfl, rfl, by simp, rfl, rfl, rfl, by simp [contAfter_nil, hl], rfl⟩
  | map_comma _ ht =>
    simp only [rev_round, hcont, hst, yajl_bs_current, List.head?_cons, map_got_val_state,
      lexNext, Option.getD_some, ht, Bool.not_true, Bool.false_eq_true, if_false, set_again,
      yajl_bs_set, Option.map_some']
    exact ⟨_, _, rfl, rfl, by simp, rfl, rfl, rfl, by simp [contAfter_nil, hl], rfl⟩
  | colon _ ht =>
    simp only [rev_round, hcont, hst, yajl_bs_current, List.head?_cons, map_sep_state,
      lexNext, Option.getD_some, ht, Bool.not_true, Bool.false_eq_true, if_false, set_again,
      yajl_bs_set, Option.map_some']
    exact ⟨_, _, rfl, rfl, by simp, rfl, rfl, rfl, by simp [contAfter_nil, hl], rfl⟩
  | key _ ht =>
    simp only [rev_round, hcont, hst, yajl_bs_current, List.head?_cons, map_need_key_state,
      lexNext, Option.getD_some, Bool.not_true, Bool.false_eq_true, if_false]
    rcases ht with ht | ht
    · simp only [ht, keyEvents]
      simpa using set_callback_if env hand _ len _ _ t _ .map_got_val st hst hl hlo
    · simp only [ht, keyEvents]
      by_cases hr : registered hand (·.yajl_map_key) = true
      · rw [if_pos hr]
        simp only [set_again, callback, mark, hst, yajl_bs_set, Option.map_some']
        exact ⟨_, _, rfl, rfl, by simp [emit, hr], rfl, rfl, rfl,
          by simp [emit, hr, contAfter_single], rfl⟩
      · rw [if_neg hr]
        simp only [set_again, hst, yajl_bs_set, Option.map_some']
        exact ⟨_, _, rfl, rfl, by simp [emit, hr], rfl, rfl, rfl,
          by simp [emit, hr, contAfter_nil, hl], rfl⟩

/-! ## The tokens that a state does not admit -/

theorem parse_error_again_facts (hand hd : yajl_handle_t) (l : RevLocals) (t : LexResult)
    (msg : String) (s : yajl_state) (st : List yajl_state) (hst : hd.stateStack = s :: st)
    (hc : hd.ctx = hand.ctx) (hcb : hd.callbacks = hand.callbacks)
    (hf : hd.flags = hand.flags) (hcont : l.cont = true) (ho : l.offset = t.offset) :
    ∃ h1 l1, parse_error_again hd l msg = some (.again h1 l1) ∧
      h1.stateStack = .parse_error :: st ∧ h1.ctx = hand.ctx ∧
      h1.callbacks = hand.callbacks ∧ h1.flags = hand.flags ∧ h1.parseError = some msg ∧
      l1.cont = true ∧ l1.offset = t.offset := by
  unfold parse_error_again
  rw [hst]
  exact ⟨_, _, rfl, rfl, hc, hcb, hf, rfl, hcont, ho⟩

/-- In a value state a token that is not admitted sets `parse_error`. -/
theorem value_state_rejected (env : ParseEnv) (len : Int) (hand : yajl_handle_t)
    (l : RevLocals) (t : LexResult) (s : yajl_state) (st : List yajl_state)
    (hst : hand.stateStack = s :: st) (hcont : l.cont = true) (hs : isValueState s)
    (hne : t.tok ≠ .eof) (hner : t.tok ≠ .error)
    (hna : ∀ seg evs, ¬ Admits env hand s t seg evs) :
    ∃ h1 l1 msg, value_state env len hand l (some t) = some (.again h1 l1) ∧
      h1.stateStack = .parse_error :: st ∧ h1.ctx = hand.ctx ∧
      h1.callbacks = hand.callbacks ∧ h1.flags = hand.flags ∧ h1.parseError = some msg ∧
      l1.cont = true ∧ l1.offset = t.offset := by
  have hl : (lexLocals l t).cont = true := hcont
  have hlo : (lexLocals l t).offset = t.offset := rfl
  have pe : ∀ (hd : yajl_handle_t) (msg : String), hd.stateStack = s :: st →
      hd.ctx = hand.ctx → hd.callbacks = hand.callbacks → hd.flags = hand.flags →
      ∃ h1 l1 msg1, parse_error_again hd (lexLocals l t) msg = some (.again h1 l1) ∧
        h1.stateStack = .parse_error :: st ∧ h1.ctx = hand.ctx ∧
        h1.callbacks = hand.callbacks ∧ h1.flags = hand.flags ∧ h1.parseError = some msg1 ∧
        l1.cont = true ∧ l1.offset = t.offset := by
    intro hd msg h1 h2 h3 h4
    obtain ⟨a, b, c⟩ := parse_error_again_facts hand hd _ t msg s st h1 h2 h3 h4 hl hlo
    exact ⟨a, b, msg, c⟩
  have sc : isScalarTok t.tok → numericOverflow env hand t = true := by
    intro ht
    by_contra hov
    exact hna _ _ (Admits.scalar s t hs ht (by simpa using hov))
  unfold value_state
  simp only [lexNext, Option.getD_some]
  cases htok : t.tok <;> simp only []
  case eof => exact absurd htok hne
  case error => exact absurd htok hner
  case bool =>
    have := sc (by rw [htok]; decide)
    simp [numericOverflow, htok] at this
  case null =>
    have := sc (by rw [htok]; decide)
    simp [numericOverflow, htok] at this
  case string =>
    have := sc (by rw [htok]; decide)
    simp [numericOverflow, htok] at this
  case string_with_escapes =>
    have := sc (by rw [htok]; decide)
    simp [numericOverflow, htok] at this
  case integer =>
    have := sc (by rw [htok]; decide)
    simp only [numericOverflow, htok, Bool.and_eq_true, Bool.not_eq_true', decide_eq_true_eq,
      Bool.or_eq_true, reduceCtorEq, decide_False, Bool.false_and, or_false,
      decide_True, Bool.true_and] at this
    obtain ⟨hn, hi, hov⟩ := this
    rw [if_neg (by rw [hn]; decide), if_pos hi, if_pos hov]
    exact pe _ _ hst rfl rfl rfl
  case double =>
    have := sc (by rw [htok]; decide)
    simp only [numericOverflow, htok, Bool.and_eq_true, Bool.not_eq_true', decide_eq_true_eq,
      Bool.or_eq_true, reduceCtorEq, decide_False, Bool.false_and, false_or,
      decide_True, Bool.true_and] at this
    obtain ⟨hn, hi, hov⟩ := this
    rw [if_neg (by rw [hn]; decide), if_pos hi, if_pos hov]
    exact pe _ _ hst rfl rfl rfl
  case right_brace => exact absurd (Admits.end_array s t hs htok) (hna _ _)
  case right_bracket => exact absurd (Admits.end_map s t hs htok) (hna _ _)
  case left_brace =>
    by_cases h : yajl_bs_current hand.stateStack = some .array_start
    · exfalso
      rw [hst] at h
      simp only [yajl_bs_current, List.head?_cons, Option.some.injEq] at h
      exact hna _ _ (Admits.start_array s t (Or.inl h) htok)
    · rw [if_neg h]
      exact pe _ _ hst rfl rfl rfl
  case left_bracket =>
    by_cases h : yajl_bs_current hand.stateStack = some .map_start
    · exfalso
      rw [hst] at h
      simp only [yajl_bs_current, List.head?_cons, Option.some.injEq] at h
      exact hna _ _ (Admits.start_map s t (Or.inl h) htok)
    · rw [if_neg h]
      exact pe _ _ hst rfl rfl rfl
  case colon => exact pe _ _ hst rfl rfl rfl
  case comma => exact pe _ _ hst rfl rfl rfl
  case comment => exact pe _ _ hst rfl rfl rfl

/-- In a reading state a token that is neither `eof`, nor an error, nor admitted sets
`parse_error`: the round goes round again, no callback is called. -/
theorem round_rejected (env : ParseEnv) (len : Int) (hand : yajl_handle_t)
    (l : RevLocals) (t : LexResult) (s : yajl_state) (st : List yajl_state)
    (hst : hand.stateStack = s :: st) (hcont : l.cont = true) (hs : isReadingState s)
    (hne : t.tok ≠ .eof) (hner : t.tok ≠ .error)
    (hna : ∀ seg evs, ¬ Admits env hand s t seg evs) :
    ∃ h1 l1 msg, rev_round env len hand l (some t) = some (.again h1 l1) ∧
      h1.stateStack = .parse_error :: st ∧ h1.ctx = hand.ctx ∧
      h1.callbacks = hand.callbacks ∧ h1.flags = hand.flags ∧ h1.parseError = some msg ∧
      l1.cont = true ∧ l1.offset = t.offset := by
  have hl : (lexLocals l t).cont = true := hcont
  have hlo : (lexLocals l t).offset = t.offset := rfl
  have pe : ∀ (msg : String),
      ∃ h1 l1 msg1, parse_error_again hand (lexLocals l t) msg = some (.again h1 l1) ∧
        h1.stateStack = .parse_error :: st ∧ h1.ctx = hand.ctx ∧
        h1.callbacks = hand.callbacks ∧ h1.flags = hand.flags ∧ h1.parseError = some msg1 ∧
        l1.cont = true ∧ l1.offset = t.offset := by
    intro msg
    obtain ⟨a, b, c⟩ := parse_error_again_facts hand hand _ t msg s st hst rfl rfl rfl hl hlo
    exact ⟨a, b, msg, c⟩
  rcases hs with hs | rfl | rfl | rfl | rfl
  · rw [rev_round_value env len hand l _ s st hst hcont hs]
    exact value_state_rejected env len hand l t s st hst hcont hs hne hner hna
  · simp only [rev_round, hcont, hst, yajl_bs_current, List.head?_cons, map_need_key_state,
      lexNext, Option.getD_some, Bool.not_true, Bool.false_eq_true, if_false]
    cases htok : t.tok <;> simp only []
    case eof => exact absurd htok hne
    case error => exact absurd htok hner
    case string => exact absurd (Admits.key t (Or.inl htok)) (hna _ _)
    case string_with_escapes => exact absurd (Admits.key t (Or.inr htok)) (hna _ _)
    all_goals exact pe _
  · simp only [rev_round, hcont, hst, yajl_bs_current, List.head?_cons, map_sep_state,
      lexNext, Option.getD_some, Bool.not_true, Bool.false_eq_true, if_false]
    cases htok : t.tok <;> simp only []
    case eof => exact absurd htok hne
    case error => exact absurd htok hner
    case colon => exact absurd (Admits.colon t htok) (hna _ _)
    all_goals exact pe _
  · simp only [rev_round, hcont, hst, yajl_bs_current, List.head?_cons, map_got_val_state,
      lexNext, Option.getD_some, Bool.not_true, Bool.false_eq_true, if_false]
    cases htok : t.tok <;> simp only []
    case eof => exact absurd htok hne
    case error => exact absurd htok hner
    case comma => exact absurd (Admits.map_comma t htok) (hna _ _)
    case left_bracket => exact absurd (Admits.start_map _ t (Or.inr rfl) htok) (hna _ _)
    all_goals exact pe _
  · simp only [rev_round, hcont, hst, yajl_bs_current, List.head?_cons, array_got_val_state,
      lexNext, Option.getD_some, Bool.not_true, Bool.false_eq_true, if_false]
    cases htok : t.tok <;> simp only []
    case eof => exact absurd htok hne
    case error => exact absurd htok hner
    case comma => exact absurd (Admits.array_comma t htok) (hna _ _)
    case left_brace => exact absurd (Admits.start_array _ t (Or.inr rfl) htok) (hna _ _)
    all_goals exact pe _

/-- The state of an admitted transition is a reading state, and its token is neither
`eof` nor an error. -/
theorem admits_reading (env : ParseEnv) (hand : yajl_handle_t) (s : yajl_state)
    (t : LexResult) (seg : List yajl_state) (evs : List yajl_event)
    (ha : Admits env hand s t seg evs) :
    isReadingState s ∧ t.tok ≠ .eof ∧ t.tok ≠ .error := by
  cases ha with
  | scalar _ _ hs ht _ =>
    refine ⟨Or.inl hs, ?_, ?_⟩ <;> intro h <;> rw [h] at ht <;> revert ht <;> decide
  | end_array _ _ hs ht => exact ⟨Or.inl hs, by rw [ht]; decide, by rw [ht]; decide⟩
  | end_map _ _ hs ht => exact ⟨Or.inl hs, by rw [ht]; decide, by rw [ht]; decide⟩
  | start_array _ _ hs ht =>
    refine ⟨?_, by rw [ht]; decide, by rw [ht]; decide⟩
    rcases hs with rfl | rfl <;> decide
  | start_map _ _ hs ht =>
    refine ⟨?_, by rw [ht]; decide, by rw [ht]; decide⟩
    rcases hs with rfl | rfl <;> decide
  | array_comma _ ht => exact ⟨by decide, by rw [ht]; decide, by rw [ht]; decide⟩
  | map_comma _ ht => exact ⟨by decide, by rw [ht]; decide, by rw [ht]; decide⟩
  | colon _ ht => exact ⟨by decide, by rw [ht]; decide, by rw [ht]; decide⟩
  | key _ ht =>
    refine ⟨by decide, ?_, ?_⟩ <;> intro h <;> rw [h] at ht <;> revert ht <;> decide

/-! ## The rounds that go round again -/

theorem grounded_cons (a b : yajl_state) (st : List yajl_state) :
    Grounded (a :: b :: st) ↔ Grounded (b :: st) := by
  simp [Grounded, List.getLast?_cons_cons]

theorem grounded_single (a : yajl_state) : Grounded [a] ↔ topLevel a := by
  simp [Grounded]

theorem grounded_ne_nil (st : List yajl_state) (h : Grounded st) : st ≠ [] := by
  rintro rfl
  simp [Grounded] at h

/-- Replacing the top of a grounded stack by a segment: the stack stays grounded when
the segment ends in a top-level state if the top was the bottom, and the top was not
the bottom if the segment is empty. -/
theorem grounded_seg (s : yajl_state) (st seg : List yajl_state) (hg : Grounded (s :: st))
    (h1 : st = [] → Grounded seg) : Grounded (seg ++ st) := by
  cases st with
  | nil => simpa using h1 rfl
  | cons b st =>
    have hb : Grounded (b :: st) := (grounded_cons s b st).1 hg
    obtain ⟨x, hx, hxt⟩ := hb
    refine ⟨x, ?_, hxt⟩
    rw [List.getLast?_append_of_ne_nil _ (List.cons_ne_nil _ _)]
    exact hx

/-- An admitted transition keeps the stack grounded. -/
theorem admits_grounded (env : ParseEnv) (hand : yajl_handle_t) (s : yajl_state)
    (t : LexResult) (seg st : List yajl_state) (evs : List yajl_event)
    (ha : Admits env hand s t seg evs) (hg : Grounded (s :: st)) : Grounded (seg ++ st) := by
  apply grounded_seg s st seg hg
  rintro rfl
  rw [grounded_single] at hg
  cases ha with
  | scalar _ _ hs _ _ =>
    rw [grounded_single]
    rcases hs with rfl | rfl | rfl | rfl | rfl | rfl <;> revert hg <;> decide
  | end_array _ _ hs _ =>
    rw [grounded_cons, grounded_single]
    rcases hs with rfl | rfl | rfl | rfl | rfl | rfl <;> revert hg <;> decide
  | end_map _ _ hs _ =>
    rw [grounded_cons, grounded_single]
    rcases hs with rfl | rfl | rfl | rfl | rfl | rfl <;> revert hg <;> decide
  | start_array _ _ hs _ => rcases hs with rfl | rfl <;> exact absurd hg (by decide)
  | start_map _ _ hs _ => rcases hs with rfl | rfl <;> exact absurd hg (by decide)
  | array_comma _ _ => exact absurd hg (by decide)
  | map_comma _ _ => exact absurd hg (by decide)
  | colon _ _ => exact absurd hg (by decide)
  | key _ _ => exact absurd hg (by decide)

theorem emit_length (hand : yajl_handle_t) (f : yajl_callbacks → Bool) (e : yajl_event) :
    (emit hand f e).length ≤ 1 := by
  unfold emit
  split_ifs <;> simp

/-- An admitted transition calls at most one callback. -/
theorem admits_events (env : ParseEnv) (hand : yajl_handle_t) (s : yajl_state)
    (t : LexResult) (seg : List yajl_state) (evs : List yajl_event)
    (ha : Admits env hand s t seg evs) : evs.length ≤ 1 := by
  cases ha with
  | scalar _ _ _ ht _ =>
    unfold scalarEvents
    rcases ht with ht | ht | ht | ht | ht | ht <;> simp only [ht] <;>
      first
      | exact emit_length _ _ _
      | (split_ifs
         · simp
         · exact emit_length _ _ _)
  | end_array _ _ _ _ => exact emit_length _ _ _
  | end_map _ _ _ _ => exact emit_length _ _ _
  | start_array _ _ _ _ => exact emit_length _ _ _
  | start_map _ _ _ _ => exact emit_length _ _ _
  | array_comma _ _ => simp
  | map_comma _ _ => simp
  | colon _ _ => simp
  | key _ _ => exact emit_length _ _ _

/-- What a round in a reading state that goes round again has done: it has read a token
other than `eof`, which was an error token, or was admitted, or was rejected. -/
theorem reading_again (env : ParseEnv) (len : Int) (hand h1 : yajl_handle_t)
    (l l1 : RevLocals) (next : Option LexResult) (s : yajl_state) (st : List yajl_state)
    (hst : hand.stateStack = s :: st) (hcont : l.cont = true) (hs : isReadingState s)
    (h : rev_round env len hand l next = some (.again h1 l1)) :
    ∃ t, next = some t ∧ t.tok ≠ .eof ∧
      ((t.tok = .error ∧ h1 = { hand with stateStack := .lexical_error :: st } ∧
          l1 = lexLocals l t) ∨
       (∃ seg evs, Admits env hand s t seg evs ∧ RoundTo env hand t (seg ++ st) evs h1 l1) ∨
       (t.tok ≠ .error ∧ (∀ seg evs, ¬ Admits env hand s t seg evs) ∧
          h1.stateStack = .parse_error :: st ∧ h1.ctx = hand.ctx ∧
          h1.callbacks = hand.callbacks ∧ h1.flags = hand.flags ∧
          (∃ msg, h1.parseError = some msg) ∧ l1.cont = true ∧ l1.offset = t.offset)) := by
  cases next with
  | none =>
    rw [rev_round_eof_tok env len hand l none s st hst hcont hs rfl] at h
    cases h
  | some t =>
    refine ⟨t, rfl, ?_⟩
    by_cases he : t.tok = .eof
    · rw [rev_round_eof_tok env len hand l (some t) s st hst hcont hs he] at h
      cases h
    refine ⟨he, ?_⟩
    by_cases her : t.tok = .error
    · rw [rev_round_error_tok env len hand l t s st hst hcont hs her] at h
      simp only [Option.some.injEq, Round.again.injEq] at h
      exact Or.inl ⟨her, h.1.symm, h.2.symm⟩
    by_cases ha : ∃ seg evs, Admits env hand s t seg evs
    · obtain ⟨seg, evs, ha⟩ := ha
      obtain ⟨a, b, hab, hr⟩ := round_admitted env len hand l t s st seg evs hst hcont ha
      rw [hab] at h
      simp only [Option.some.injEq, Round.again.injEq] at h
      obtain ⟨rfl, rfl⟩ := h
      exact Or.inr (Or.inl ⟨seg, evs, ha, hr⟩)
    · have hna : ∀ seg evs, ¬ Admits env hand s t seg evs :=
        fun seg evs hh => ha ⟨seg, evs, hh⟩
      obtain ⟨a, b, msg, hab, f1, f2, f3, f4, f5, f6, f7⟩ :=
        round_rejected env len hand l t s st hst hcont hs he her hna
      rw [hab] at h
      simp only [Option.some.injEq, Round.again.injEq] at h
      obtain ⟨rfl, rfl⟩ := h
      exact Or.inr (Or.inr ⟨her, hna, f1, f2, f3, f4, ⟨msg, f5⟩, f6, f7⟩)

/-- The states: a reading state, `parse_complete`, or an error state. -/
theorem state_cases (s : yajl_state) :
    isReadingState s ∨ s = .parse_complete ∨ s = .parse_error ∨ s = .lexical_error := by
  cases s <;> decide

/-- In a reading state a token other than `eof` makes the loop go round again. -/
theorem reading_goes_again (env : ParseEnv) (len : Int) (hand : yajl_handle_t)
    (l : RevLocals) (t : LexResult) (s : yajl_state) (st : List yajl_state)
    (hst : hand.stateStack = s :: st) (hcont : l.cont = true) (hs : isReadingState s)
    (he : t.tok ≠ .eof) :
    ∃ h1 l1, rev_round env len hand l (some t) = some (.again h1 l1) := by
  by_cases her : t.tok = .error
  · exact ⟨_, _, rev_round_error_tok env len hand l t s st hst hcont hs her⟩
  by_cases ha : ∃ seg evs, Admits env hand s t seg evs
  · obtain ⟨seg, evs, ha⟩ := ha
    obtain ⟨a, b, hab, _⟩ := round_admitted env len hand l t s st seg evs hst hcont ha
    exact ⟨a, b, hab⟩
  · obtain ⟨a, b, _, hab, _⟩ := round_rejected env len hand l t s st hst hcont hs he her
      (fun seg evs hh => ha ⟨seg, evs, hh⟩)
    exact ⟨a, b, hab⟩

/-- With `allow_multiple_values` a round in the state `parse_complete` is the round of
the state `got_value`. -/
theorem rev_round_multiple (env : ParseEnv) (len : Int) (hand : yajl_handle_t)
    (l : RevLocals) (next : Option LexResult) (st : List yajl_state)
    (hst : hand.stateStack = .parse_complete :: st) (hcont : l.cont = true)
    (hamv : hand.flags.allow_multiple_values = true) :
    rev_round env len hand l next =
      rev_round env len { hand with stateStack := .got_value :: st } l next := by
  rw [rev_round_value env len { hand with stateStack := .got_value :: st } l next .got_value
    st rfl hcont (by decide)]
  simp [rev_round, hcont, hst, yajl_bs_current, hamv, yajl_bs_set]

/-- Without `allow_multiple_values` a round in the state `parse_complete` is the case
`yajl_state_parse_complete`. -/
theorem rev_round_complete (env : ParseEnv) (len : Int) (hand : yajl_handle_t)
    (l : RevLocals) (next : Option LexResult) (st : List yajl_state)
    (hst : hand.stateStack = .parse_complete :: st) (hcont : l.cont = true)
    (hamv : hand.flags.allow_multiple_values = false) :
    rev_round env len hand l next = parse_complete_state len hand l next := by
  simp [rev_round, hcont, hst, yajl_bs_current, hamv]

/-- The three ways of the case `yajl_state_parse_complete`. -/
theorem parse_complete_cases (len : Int) (hand : yajl_handle_t) (l : RevLocals)
    (next : Option LexResult) (st : List yajl_state)
    (hst : hand.stateStack = .parse_complete :: st) :
    (parse_complete_state len hand l next =
        some (.again { hand with stateStack := .parse_error :: st,
                                 parseError := some "trailing garbage" }
          (lexLocals l (lexNext len next))) ∧
      hand.flags.allow_trailing_garbage = false ∧ l.offset ≠ len ∧
      (lexNext len next).tok ≠ .eof) ∨
    (parse_complete_state len hand l next =
        some (.again hand (lexLocals l (lexNext len next))) ∧
      hand.flags.allow_trailing_garbage = false ∧ l.offset ≠ len ∧
      (lexNext len next).tok = .eof) ∨
    (parse_complete_state len hand l next =
        some (.ret .ok { hand with bytesConsumed := toSizeT (l.offset - len) }) ∧
      (hand.flags.allow_trailing_garbage = true ∨ l.offset = len)) := by
  by_cases h1 : hand.flags.allow_trailing_garbage = true
  · exact Or.inr (Or.inr ⟨by simp [parse_complete_state, h1, consumed_ret], Or.inl h1⟩)
  by_cases h2 : l.offset = len
  · exact Or.inr (Or.inr ⟨by simp [parse_complete_state, h2, consumed_ret], Or.inr h2⟩)
  by_cases h3 : (lexNext len next).tok = .eof
  · exact Or.inr (Or.inl ⟨by simp [parse_complete_state, h1, h2, h3], by simpa using h1, h2,
      h3⟩)
  · exact Or.inl ⟨by simp [parse_complete_state, h1, h2, h3, parse_error_again, hst,
      yajl_bs_set], by simpa using h1, h2, h3⟩

/-- What a round that goes round again leaves, whatever the state: a grounded stack, the
callback table and the flags as before, at most one more callback called, and `cont`
as that callback returned. -/
theorem round_again_facts (env : ParseEnv) (len : Int) (hand h1 : yajl_handle_t)
    (l l1 : RevLocals) (next : Option LexResult) (hg : Grounded hand.stateStack)
    (hcont : l.cont = true) (h : rev_round env len hand l next = some (.again h1 l1)) :
    Grounded h1.stateStack ∧ h1.callbacks = hand.callbacks ∧ h1.flags = hand.flags ∧
    ∃ evs, evs.length ≤ 1 ∧ h1.ctx = hand.ctx ++ evs ∧
      l1.cont = contAfter env hand.ctx evs := by
  have reading : ∀ (hd : yajl_handle_t) (s : yajl_state) (st : List yajl_state),
      hd.stateStack = s :: st → Grounded (s :: st) → isReadingState s →
      hd.callbacks = hand.callbacks → hd.flags = hand.flags → hd.ctx = hand.ctx →
      rev_round env len hd l next = some (.again h1 l1) →
      Grounded h1.stateStack ∧ h1.callbacks = hand.callbacks ∧ h1.flags = hand.flags ∧
      ∃ evs, evs.length ≤ 1 ∧ h1.ctx = hand.ctx ++ evs ∧
        l1.cont = contAfter env hand.ctx evs := by
    intro hd s st hst hgs hs hcb hfl hctx hr
    obtain ⟨t, _, _, hc⟩ := reading_again env len hd h1 l l1 next s st hst hcont hs hr
    rcases hc with ⟨_, rfl, rfl⟩ | ⟨seg, evs, ha, f1, f2, f3, f4, _, f6, _⟩ |
      ⟨_, _, f1, f2, f3, f4, _, f6, _⟩
    · refine ⟨grounded_seg s st [.lexical_error] hgs (fun _ => ?_), hcb, hfl, [], by simp,
        by simpa using hctx, by simpa [contAfter_nil] using hcont⟩
      rw [grounded_single]; decide
    · rw [f1]
      exact ⟨admits_grounded env hd s t seg st evs ha hgs, f3.trans hcb, f4.trans hfl, evs,
        admits_events env hd s t seg evs ha, by rw [f2, hctx], by rw [f6, hctx]⟩
    · rw [f1]
      refine ⟨grounded_seg s st [.parse_error] hgs (fun _ => ?_), f3.trans hcb, f4.trans hfl,
        [], by simp, by simpa using f2.trans hctx, by simpa [contAfter_nil] using f6⟩
      rw [grounded_single]; decide
  obtain ⟨s, st, hst⟩ := List.exists_cons_of_ne_nil (grounded_ne_nil _ hg)
  rw [hst] at hg
  rcases state_cases s with hs | rfl | rfl | rfl
  · exact reading hand s st hst hg hs rfl rfl rfl h
  · by_cases hamv : hand.flags.allow_multiple_values = true
    · rw [rev_round_multiple env len hand l next st hst hcont hamv] at h
      refine reading { hand with stateStack := .got_value :: st } .got_value st rfl
        (grounded_seg _ st [.got_value] hg (fun _ => ?_)) (by decide) rfl rfl rfl h
      rw [grounded_single]; decide
    · rw [rev_round_complete env len hand l next st hst hcont (by simpa using hamv)] at h
      rcases parse_complete_cases len hand l next st hst with ⟨e, _⟩ | ⟨e, _⟩ | ⟨e, _⟩
      · rw [e] at h
        simp only [Option.some.injEq, Round.again.injEq] at h
        obtain ⟨rfl, rfl⟩ := h
        refine ⟨grounded_seg _ st [.parse_error] hg (fun _ => ?_), rfl, rfl, [], by simp,
          by simp, by simpa [contAfter_nil] using hcont⟩
        rw [grounded_single]; decide
      · rw [e] at h
        simp only [Option.some.injEq, Round.again.injEq] at h
        obtain ⟨rfl, rfl⟩ := h
        rw [hst]
        exact ⟨hg, rfl, rfl, [], by simp, by simp, by simpa [contAfter_nil] using hcont⟩
      · rw [e] at h
        cases h
  · rw [rev_round_error_state env len hand l next _ st hst hcont (Or.inl rfl)] at h
    cases h
  · rw [rev_round_error_state env len hand l next _ st hst hcont (Or.inr rfl)] at h
    cases h

/-- A round in which `cont` is 0: the call returns `yajl_status_client_canceled`
whatever the lexer would return; without `resume_after_cancel` the top of the stack is
set to `parse_error`. -/
theorem rev_round_cancelled (env : ParseEnv) (len : Int) (hand : yajl_handle_t)
    (l : RevLocals) (next : Option LexResult) (s : yajl_state) (st : List yajl_state)
    (hst : hand.stateStack = s :: st) (hcont : l.cont = false) :
    rev_round env len hand l next =
      some (.ret .client_canceled
        (if hand.flags.resume_after_cancel = true then
          { hand with
            endOffset := (toSizeT (l.offset - len) + l.bufLen) % 18446744073709551616 }
         else
          { hand with
            stateStack := .parse_error :: st,
            parseError := some "client cancelled parse via callback return value",
            endOffset := (toSizeT (l.offset - len) + l.bufLen) % 18446744073709551616 })) := by
  unfold rev_round
  rw [if_pos (by simp [hcont])]
  unfold cancelled
  by_cases hr : hand.flags.resume_after_cancel = true
  · simp [hr]
  · simp [hr, hst, yajl_bs_set]

/-- A round that returns calls no callback. -/
theorem round_ret_ctx (env : ParseEnv) (len : Int) (hand h1 : yajl_handle_t)
    (l : RevLocals) (next : Option LexResult) (status : yajl_status)
    (h : rev_round env len hand l next = some (.ret status h1)) : h1.ctx = hand.ctx := by
  cases hs : hand.stateStack with
  | nil =>
    by_cases hcont : l.cont = true
    · simp [rev_round, hcont, hs, yajl_bs_current] at h
    · simp only [rev_round, hcont, Bool.not_false, if_true, cancelled, hs, yajl_bs_set,
        Bool.not_eq_true', Option.map_none', Bool.false_eq_true] at h
      split_ifs at h
      simp only [Option.some.injEq, Round.ret.injEq] at h
      rw [← h.2]
  | cons s st =>
    by_cases hcont : l.cont = true
    · have reading : ∀ (hd : yajl_handle_t) (s : yajl_state), hd.stateStack = s :: st →
          isReadingState s → hd.ctx = hand.ctx →
          rev_round env len hd l next = some (.ret status h1) → h1.ctx = hand.ctx := by
        intro hd s hst hrs hctx hr
        by_cases he : (lexNext len next).tok = .eof
        · rw [rev_round_eof_tok env len hd l next s st hst hcont hrs he] at hr
          simp only [Option.some.injEq, Round.ret.injEq] at hr
          rw [← hr.2]; exact hctx
        · cases next with
          | none => exact absurd rfl he
          | some t =>
            obtain ⟨a, b, hab⟩ := reading_goes_again env len hd l t s st hst hcont hrs he
            rw [hab] at hr
            cases hr
      rcases state_cases s with hrs | rfl | rfl | rfl
      · exact reading hand s hs hrs rfl h
      · by_cases hamv : hand.flags.allow_multiple_values = true
        · rw [rev_round_multiple env len hand l next st hs hcont hamv] at h
          exact reading { hand with stateStack := .got_value :: st } .got_value rfl
            (by decide) rfl h
        · rw [rev_round_complete env len hand l next st hs hcont (by simpa using hamv)] at h
          rcases parse_complete_cases len hand l next st hs with ⟨e, _⟩ | ⟨e, _⟩ | ⟨e, _⟩
          · rw [e] at h; cases h
          · rw [e] at h; cases h
          · rw [e] at h
            simp only [Option.some.injEq, Round.ret.injEq] at h
            rw [← h.2]
      · rw [rev_round_error_state env len hand l next _ st hs hcont (Or.inl rfl)] at h
        simp only [Option.some.injEq, Round.ret.injEq] at h
        rw [← h.2]
      · rw [rev_round_error_state env len hand l next _ st hs hcont (Or.inr rfl)] at h
        simp only [Option.some.injEq, Round.ret.injEq] at h
        rw [← h.2]
    · rw [rev_round_cancelled env len hand l next s st hs (by simpa using hcont)] at h
      simp only [Option.some.injEq, Round.ret.injEq] at h
      rw [← h.2]
      split_ifs <;> rfl

/-! ## Cancellation -/

/-- C23: cancellation.  Let a round of `yajl_rev_do_parse` on a handle with a grounded
stack call a callback (the calls `ctx` grow by `e`) that returns 0.  Then the round
goes to `around_again` with the state stack that the token leaves, and there the call
returns `yajl_status_client_canceled` whatever the lexer would return: no further token
is read and no further callback is called.  Without `resume_after_cancel` the top of
the stack is set to `parse_error` with the text "client cancelled parse via callback
return value"; with it the stack is the one reached after the cancelling token, so that
the next call goes on from there. -/
theorem cancellation (env : ParseEnv) (len : Int) (hand h1 : yajl_handle_t)
    (l l1 : RevLocals) (next : Option LexResult) (e : yajl_event)
    (hg : Grounded hand.stateStack) (hcont : l.cont = true)
    (hround : rev_round env len hand l next = some (.again h1 l1))
    (hev : h1.ctx = hand.ctx ++ [e]) (hret : env.client (hand.ctx ++ [e]) = false) :
    ∃ h2, (∀ next2, rev_round env len h1 l1 next2 = some (.ret .client_canceled h2)) ∧
      (∀ rest, rev_loop env len rest h1 l1 = some (.client_canceled, h2)) ∧
      (∀ t rest, next = some t →
        rev_loop env len (t :: rest) hand l = some (.client_canceled, h2)) ∧
      h2.ctx = h1.ctx ∧
      (hand.flags.resume_after_cancel = false →
        h2.stateStack = .parse_error :: h1.stateStack.tail ∧
        h2.parseError = some "client cancelled parse via callback return value") ∧
      (hand.flags.resume_after_cancel = true →
        h2.stateStack = h1.stateStack ∧ h2.parseError = h1.parseError) := by
  obtain ⟨hg1, _, hfl, evs, _, hctx, hc⟩ :=
    round_again_facts env len hand h1 l l1 next hg hcont hround
  have hevs : evs = [e] := List.append_cancel_left (hctx.symm.trans hev)
  rw [hevs, contAfter_single, hret] at hc
  obtain ⟨s, st, hst⟩ := List.exists_cons_of_ne_nil (grounded_ne_nil _ hg1)
  have key := fun next2 => rev_round_cancelled env len h1 l1 next2 s st hst hc
  refine ⟨_, key, fun rest => rev_loop_ret env len rest h1 l1 _ _ key, ?_, ?_, ?_, ?_⟩
  · rintro t rest rfl
    rw [rev_loop_again env len t rest hand h1 l l1 hround]
    exact rev_loop_ret env len rest h1 l1 _ _ key
  · split_ifs <;> rfl
  · intro hr
    rw [← hfl] at hr
    rw [if_neg (by rw [hr]; decide), hst]
    exact ⟨rfl, rfl⟩
  · intro hr
    rw [← hfl] at hr
    rw [if_pos hr]
    exact ⟨rfl, rfl⟩

theorem cancellation_witness :
    ∃ h2, (∀ next2, rev_round cancelEnv (-4)
          { handleWith allCallbacks [.parse_complete] with ctx := [.null], endOffset := 4 }
          { offset := -4, bufLen := 4, cont := false } next2 =
        some (.ret .client_canceled h2)) ∧
      (∀ rest, rev_loop cancelEnv (-4) rest
          { handleWith allCallbacks [.parse_complete] with ctx := [.null], endOffset := 4 }
          { offset := -4, bufLen := 4, cont := false } = some (.client_canceled, h2)) ∧
      (∀ t rest, some ({ tok := .null, offset := -4, buf := [0x6e, 0x75, 0x6c, 0x6c] } :
          LexResult) = some t →
        rev_loop cancelEnv (-4) (t :: rest) (handleWith allCallbacks [.start]) entryLocals =
          some (.client_canceled, h2)) ∧
      h2.ctx = [.null] ∧
      ((handleWith allCallbacks [.start]).flags.resume_after_cancel = false →
        h2.stateStack = .parse_error :: [] ∧
        h2.parseError = some "client cancelled parse via callback return value") ∧
      ((handleWith allCallbacks [.start]).flags.resume_after_cancel = true →
        h2.stateStack = [.parse_complete] ∧ h2.parseError = none) :=
  cancellation cancelEnv (-4) (handleWith allCallbacks [.start])
    { handleWith allCallbacks [.parse_complete] with ctx := [.null], endOffset := 4 }
    entryLocals { offset := -4, bufLen := 4, cont := false }
    (some { tok := .null, offset := -4, buf := [0x6e, 0x75, 0x6c, 0x6c] }) .null
    ⟨.start, rfl, by decide⟩ rfl (by decide) rfl rfl

/-! ## The finish -/

/-- C24: the finish protocol.  When the parse of the last chunk in `yajl_rev_do_finish`
has returned `yajl_status_ok`, leaving `s` on top of the state stack:
`yajl_rev_do_finish` returns `yajl_status_ok` if and only if `s` is `parse_complete` or
`got_value`, or is no error state while `allow_partial_values` is set; it returns
`yajl_status_error` if `s` is `parse_error` or `lexical_error`; and for every other
state without `allow_partial_values` it sets the top to `parse_error` with the text
"premature EOF" and returns `yajl_status_error`. -/
theorem finish_protocol (env : ParseEnv) (hand h : yajl_handle_t) (lexed : List LexResult)
    (s : yajl_state) (st : List yajl_state)
    (hparse : yajl_rev_do_parse env hand (-1) lexed = some (.ok, h))
    (hst : h.stateStack = s :: st) :
    ((∃ h2, yajl_rev_do_finish env hand lexed = some (.ok, h2)) ↔
      (s = .parse_complete ∨ s = .got_value ∨
        (s ≠ .parse_error ∧ s ≠ .lexical_error ∧ h.flags.allow_partial_values = true))) ∧
    (s = .parse_complete ∨ s = .got_value ∨
        (s ≠ .parse_error ∧ s ≠ .lexical_error ∧ h.flags.allow_partial_values = true) →
      yajl_rev_do_finish env hand lexed = some (.ok, h)) ∧
    (s = .parse_error ∨ s = .lexical_error →
      yajl_rev_do_finish env hand lexed = some (.error, h)) ∧
    (s ≠ .parse_complete → s ≠ .got_value → s ≠ .parse_error → s ≠ .lexical_error →
      h.flags.allow_partial_values = false →
      yajl_rev_do_finish env hand lexed =
        some (.error, { h with stateStack := .parse_error :: st,
                               parseError := some "premature EOF" })) := by
  have hf : yajl_rev_do_finish env hand lexed = finish_switch h := by
    simp [yajl_rev_do_finish, hparse]
  rw [hf]
  unfold finish_switch
  rw [hst]
  by_cases hp : h.flags.allow_partial_values = true <;>
    cases s <;> simp [yajl_bs_current, yajl_bs_set, hp]

theorem finish_protocol_witness :
    yajl_rev_do_finish plainEnv (plainHandle [.start]) [] =
      some (.error, { plainHandle [.start] with
        stateStack := .parse_error :: [], parseError := some "premature EOF" }) :=
  (finish_protocol plainEnv (plainHandle [.start]) (plainHandle [.start]) [] .start []
    (by decide) rfl).2.2.2 (by decide) (by decide) (by decide) (by decide) rfl

/-! ## The callbacks depend on the callback table only -/

theorem registered_congr (h1 h2 : yajl_handle_t) (f : yajl_callbacks → Bool)
    (h : h1.callbacks = h2.callbacks) : registered h1 f = registered h2 f := by
  unfold registered; rw [h]

theorem emit_congr (h1 h2 : yajl_handle_t) (f : yajl_callbacks → Bool) (e : yajl_event)
    (h : h1.callbacks = h2.callbacks) : emit h1 f e = emit h2 f e := by
  unfold emit; rw [registered_congr h1 h2 f h]

theorem scalarEvents_congr (env : ParseEnv) (h1 h2 : yajl_handle_t) (t : LexResult)
    (h : h1.callbacks = h2.callbacks) : scalarEvents env h1 t = scalarEvents env h2 t := by
  unfold scalarEvents
  simp only [emit_congr h1 h2 _ _ h, registered_congr h1 h2 _ h]

theorem keyEvents_congr (env : ParseEnv) (h1 h2 : yajl_handle_t) (t : LexResult)
    (h : h1.callbacks = h2.callbacks) : keyEvents env h1 t = keyEvents env h2 t := by
  unfold keyEvents; rw [emit_congr h1 h2 _ _ h]

theorem numericOverflow_congr (env : ParseEnv) (h1 h2 : yajl_handle_t) (t : LexResult)
    (h : h1.callbacks = h2.callbacks) :
    numericOverflow env h1 t = numericOverflow env h2 t := by
  unfold numericOverflow
  simp only [registered_congr h1 h2 _ h]

theorem admits_congr (env : ParseEnv) (h1 h2 : yajl_handle_t) (s : yajl_state)
    (t : LexResult) (seg : List yajl_state) (evs : List yajl_event)
    (h : h1.callbacks = h2.callbacks) (ha : Admits env h1 s t seg evs) :
    Admits env h2 s t seg evs := by
  cases ha with
  | scalar _ _ hs ht hov =>
    rw [scalarEvents_congr env h1 h2 t h]
    exact Admits.scalar s t hs ht (by rw [← numericOverflow_congr env h1 h2 t h]; exact hov)
  | end_array _ _ hs ht => rw [emit_congr h1 h2 _ _ h]; exact Admits.end_array s t hs ht
  | end_map _ _ hs ht => rw [emit_congr h1 h2 _ _ h]; exact Admits.end_map s t hs ht
  | start_array _ _ hs ht => rw [emit_congr h1 h2 _ _ h]; exact Admits.start_array s t hs ht
  | start_map _ _ hs ht => rw [emit_congr h1 h2 _ _ h]; exact Admits.start_map s t hs ht
  | array_comma _ ht => exact Admits.array_comma t ht
  | map_comma _ ht => exact Admits.map_comma t ht
  | colon _ ht => exact Admits.colon t ht
  | key _ ht => rw [keyEvents_congr env h1 h2 t h]; exact Admits.key t ht

/-! ## The automaton of the admitted transitions and the loop -/

theorem contAfter_true (env : ParseEnv) (hcl : ∀ c, env.client c = true)
    (ctx evs : List yajl_event) : contAfter env ctx evs = true := by
  simp [contAfter, hcl]

theorem rev_steps_again (env : ParseEnv) (len : Int) (t : LexResult) (ts : List LexResult)
    (hand h1 : yajl_handle_t) (l l1 : RevLocals)
    (h : rev_round env len hand l (some t) = some (.again h1 l1)) :
    rev_steps env len (t :: ts) hand l = rev_steps env len ts h1 l1 := by
  rw [rev_steps, h]

/-- The loop reads a sequence of the automaton, when no callback returns 0: the state is
popped, or replaced by `parse_complete`, and the callbacks are called. -/
theorem lang_run (env : ParseEnv) (len : Int) (hand0 : yajl_handle_t)
    (hcl : ∀ c, env.client c = true) (s : yajl_state) (ts : List LexResult)
    (evs : List yajl_event) (x : List yajl_state) (hl : Lang env hand0 s ts evs x) :
    ∀ (hand : yajl_handle_t) (l : RevLocals) (st : List yajl_state),
      hand.callbacks = hand0.callbacks → hand.stateStack = s :: st → l.cont = true →
      ∃ h1 l1, rev_steps env len ts hand l = some (h1, l1) ∧ h1.stateStack = x ++ st ∧
        h1.ctx = hand.ctx ++ evs ∧ h1.callbacks = hand.callbacks ∧ h1.flags = hand.flags ∧
        h1.parseError = hand.parseError ∧ l1.cont = true := by
  induction hl with
  | done =>
    intro hand l st _ hst hc
    exact ⟨hand, l, rfl, hst, by simp, rfl, rfl, rfl, hc⟩
  | pop s t evs ha =>
    intro hand l st hcb hst hc
    obtain ⟨h1, l1, hr, f1, f2, f3, f4, f5, f6, _⟩ := round_admitted env len hand l t s st []
      evs hst hc (admits_congr env hand0 hand s t [] evs hcb.symm ha)
    refine ⟨h1, l1, ?_, f1, f2, f3, f4, f5, ?_⟩
    · rw [rev_steps_again env len t [] hand h1 l l1 hr]; rfl
    · rw [f6]; exact contAfter_true env hcl _ _
  | step s s1 t evs ts evs1 x ha _ ih =>
    intro hand l st hcb hst hc
    obtain ⟨h1, l1, hr, f1, f2, f3, f4, f5, f6, _⟩ := round_admitted env len hand l t s st
      [s1] evs hst hc (admits_congr env hand0 hand s t [s1] evs hcb.symm ha)
    obtain ⟨h2, l2, hr2, g1, g2, g3, g4, g5, g6⟩ := ih h1 l1 st (f3.trans hcb) f1
      (by rw [f6]; exact contAfter_true env hcl _ _)
    refine ⟨h2, l2, ?_, g1, ?_, g3.trans f3, g4.trans f4, g5.trans f5, g6⟩
    · rw [rev_steps_again env len t ts hand h1 l l1 hr]; exact hr2
    · rw [g2, f2, List.append_assoc]
  | push s p s1 t evs ts1 evs1 ts2 evs2 x ha _ _ ih1 ih2 =>
    intro hand l st hcb hst hc
    obtain ⟨h1, l1, hr, f1, f2, f3, f4, f5, f6, _⟩ := round_admitted env len hand l t s st
      [p, s1] evs hst hc (admits_congr env hand0 hand s t [p, s1] evs hcb.symm ha)
    obtain ⟨h2, l2, hr2, g1, g2, g3, g4, g5, g6⟩ := ih1 h1 l1 (s1 :: st) (f3.trans hcb) f1
      (by rw [f6]; exact contAfter_true env hcl _ _)
    obtain ⟨h3, l3, hr3, k1, k2, k3, k4, k5, k6⟩ := ih2 h2 l2 st ((g3.trans f3).trans hcb) g1
      g6
    refine ⟨h3, l3, ?_, k1, ?_, (k3.trans g3).trans f3, (k4.trans g4).trans f4,
      (k5.trans g5).trans f5, k6⟩
    · rw [rev_steps_again env len t _ hand h1 l l1 hr,
        rev_steps_append env len ts2 ts1 h1 h2 l1 l2 hr2]
      exact hr3
    · rw [k2, g2, f2]; simp only [List.append_assoc]

/-! ## The reverse grammar and the automaton -/

/-- Every phrase of the reverse grammar is read by the automaton. -/
theorem rev_lang (env : ParseEnv) (hand : yajl_handle_t) (k : RevKind)
    (ts : List LexResult) (evs : List yajl_event) (h : Rev env hand k ts evs) :
    RevLang env hand k ts evs := by
  induction h with
  | scalar t ht hov =>
    intro s ts1 evs1 x hs hl
    exact Lang.step s _ t _ ts1 evs1 x (Admits.scalar s t hs ht hov) hl
  | array c ts evs hc _ ih =>
    intro s ts1 evs1 x hs hl
    have := Lang.push s _ _ c _ ts evs ts1 evs1 x (Admits.end_array s c hs hc) ih hl
    simpa only [List.cons_append, List.append_assoc] using this
  | map c ts evs hc _ ih =>
    intro s ts1 evs1 x hs hl
    have := Lang.push s _ _ c _ ts evs ts1 evs1 x (Admits.end_map s c hs hc) ih hl
    simpa only [List.cons_append, List.append_assoc] using this
  | no_items o ho => exact Lang.pop _ o _ (Admits.start_array _ o (Or.inl rfl) ho)
  | items tv ts ev evs _ _ ihv ihm => exact ihv .array_start ts evs [] (by decide) ihm
  | first_item o ho => exact Lang.pop _ o _ (Admits.start_array _ o (Or.inr rfl) ho)
  | more_items sep tv ts ev evs hsep _ _ ihv ihm =>
    exact Lang.step _ _ sep [] _ _ [] (Admits.array_comma sep hsep)
      (ihv .array_need_val ts evs [] (by decide) ihm)
  | no_entries o ho => exact Lang.pop _ o _ (Admits.start_map _ o (Or.inl rfl) ho)
  | entries te ts ee evs _ _ ihe ihm => exact ihe .map_start ts evs [] (Or.inl rfl) ihm
  | first_entry o ho => exact Lang.pop _ o _ (Admits.start_map _ o (Or.inr rfl) ho)
  | more_entries sep te ts ee evs hsep _ _ ihe ihm =>
    exact Lang.step _ _ sep [] _ _ [] (Admits.map_comma sep hsep)
      (ihe .map_need_val ts evs [] (Or.inr rfl) ihm)
  | entry tv ev colon key _ hcolon hkey ihv =>
    intro s ts1 evs1 x hs hl
    have h1 : Lang env hand .map_sep (colon :: key :: ts1)
        (keyEvents env hand key ++ evs1) x :=
      Lang.step _ _ colon [] _ _ x (Admits.colon colon hcolon)
        (Lang.step _ _ key _ ts1 evs1 x (Admits.key key hkey) hl)
    have hs' : isValueState s ∧ scalarNext s = .map_sep := by
      rcases hs with rfl | rfl <;> decide
    have := ihv s _ _ x hs'.1 (by rw [hs'.2]; exact h1)
    simpa only [List.append_assoc, List.cons_append, List.nil_append] using this

/-- A value of the reverse grammar in front of what a value state expects after it. -/
theorem means_value (env : ParseEnv) (hand : yajl_handle_t) (s : yajl_state)
    (tv ts : List LexResult) (ev evs : List yajl_event) (x : List yajl_state)
    (hs : isValueState s) (hv : Rev env hand .value tv ev)
    (hm : Means env hand (scalarNext s) ts evs x) :
    Means env hand s (tv ++ ts) (ev ++ evs) x := by
  rcases hs with rfl | rfl | rfl | rfl | rfl | rfl
  · obtain ⟨rfl, rfl, rfl⟩ := hm
    exact ⟨rfl, by simpa using hv⟩
  · obtain ⟨rfl, rfl, rfl⟩ := hm
    exact ⟨rfl, by simpa using hv⟩
  · obtain ⟨rfl, colon, key, ts1, evs1, rfl, rfl, hc, hk, hm⟩ := hm
    refine ⟨rfl, tv ++ [colon, key], ev ++ keyEvents env hand key, ts1, evs1, by simp, by simp,
      Rev.entry tv ev colon key hv hc hk, hm⟩
  · obtain ⟨rfl, colon, key, ts1, evs1, rfl, rfl, hc, hk, hm⟩ := hm
    refine ⟨rfl, ?_⟩
    have := Rev.entries _ ts1 _ evs1 (Rev.entry tv ev colon key hv hc hk) hm
    simpa only [List.append_assoc, List.cons_append, List.nil_append] using this
  · obtain ⟨rfl, hm⟩ := hm
    exact ⟨rfl, tv, ev, ts, evs, rfl, rfl, hv, hm⟩
  · obtain ⟨rfl, hm⟩ := hm
    exact ⟨rfl, Rev.items tv ts ev evs hv hm⟩

/-- Every sequence of the automaton is a phrase of the reverse grammar. -/
theorem lang_means (env : ParseEnv) (hand : yajl_handle_t) (s : yajl_state)
    (ts : List LexResult) (evs : List yajl_event) (x : List yajl_state)
    (h : Lang env hand s ts evs x) : Means env hand s ts evs x := by
  induction h with
  | done => exact ⟨rfl, rfl, rfl⟩
  | pop s t evs ha =>
    cases ha with
    | start_array _ _ hs ht =>
      rcases hs with rfl | rfl
      · exact ⟨rfl, Rev.no_items t ht⟩
      · exact ⟨rfl, Rev.first_item t ht⟩
    | start_map _ _ hs ht =>
      rcases hs with rfl | rfl
      · exact ⟨rfl, Rev.no_entries t ht⟩
      · exact ⟨rfl, Rev.first_entry t ht⟩
  | step s s1 t evs ts evs1 x ha _ ih =>
    cases ha with
    | scalar _ _ hs ht hov =>
      exact means_value env hand s [t] ts _ evs1 x hs (Rev.scalar t ht hov) ih
    | array_comma _ ht =>
      obtain ⟨rfl, tv, ev, ts1, evs2, rfl, rfl, hv, hm⟩ := ih
      exact ⟨rfl, Rev.more_items t tv ts1 ev evs2 ht hv hm⟩
    | map_comma _ ht =>
      obtain ⟨rfl, te, ee, ts1, evs2, rfl, rfl, he, hm⟩ := ih
      exact ⟨rfl, Rev.more_entries t te ts1 ee evs2 ht he hm⟩
    | colon _ ht =>
      obtain ⟨rfl, key, ts1, evs2, rfl, rfl, hk, hm⟩ := ih
      exact ⟨rfl, t, key, ts1, evs2, rfl, rfl, ht, hk, hm⟩
    | key _ ht =>
      obtain ⟨rfl, hm⟩ := ih
      exact ⟨rfl, t, ts, evs1, rfl, rfl, ht, hm⟩
  | push s p s1 t evs ts1 evs1 ts2 evs2 x ha _ _ ih1 ih2 =>
    cases ha with
    | end_array _ _ hs ht =>
      obtain ⟨_, hi⟩ := ih1
      have := means_value env hand s (t :: ts1) ts2 _ evs2 x hs (Rev.array t ts1 evs1 ht hi) ih2
      simpa only [List.append_assoc, List.cons_append] using this
    | end_map _ _ hs ht =>
      obtain ⟨_, hi⟩ := ih1
      have := means_value env hand s (t :: ts1) ts2 _ evs2 x hs (Rev.map t ts1 evs1 ht hi) ih2
      simpa only [List.append_assoc, List.cons_append] using this

/-- A value of the reverse grammar is a sequence that the automaton reads from `start`
to `parse_complete`, and conversely. -/
theorem rev_value_iff_lang (env : ParseEnv) (hand : yajl_handle_t) (ts : List LexResult)
    (evs : List yajl_event) :
    Rev env hand .value ts evs ↔ Lang env hand .start ts evs [.parse_complete] := by
  constructor
  · intro h
    have := rev_lang env hand .value ts evs h .start [] [] [.parse_complete] (by decide)
      Lang.done
    simpa using this
  · intro h
    exact (lang_means env hand .start ts evs _ h).2

/-! ## What the loop accepts -/

theorem proper_grounded : ∀ (st : List yajl_state), Proper st → Grounded st
  | [], h => h.elim
  | [b], h => (grounded_single b).2 h
  | s :: b :: st, h => (grounded_cons s b st).2 (proper_grounded (b :: st) h.2)

/-- In a proper stack `start`, `got_value` and `parse_complete` are at the bottom. -/
theorem proper_bottom (s : yajl_state) (st : List yajl_state) (h : Proper (s :: st))
    (hs : s = .start ∨ s = .got_value ∨ s = .parse_complete) : st = [] := by
  cases st with
  | nil => rfl
  | cons b st =>
    obtain ⟨⟨h1, h2, h3⟩, _⟩ := h
    rcases hs with rfl | rfl | rfl
    · exact absurd rfl h1
    · exact absurd rfl h2
    · exact absurd rfl h3

theorem proper_single (b : yajl_state) : Proper [b] ↔ topLevel b := Iff.rfl

theorem proper_cons (s b : yajl_state) (st : List yajl_state)
    (hs : s ≠ .start ∧ s ≠ .got_value ∧ s ≠ .parse_complete) (h : Proper (b :: st)) :
    Proper (s :: b :: st) := ⟨hs, h⟩

/-- Setting the top of a proper stack to an error state leaves it proper. -/
theorem proper_error (s e : yajl_state) (st : List yajl_state) (h : Proper (s :: st))
    (he : e = .parse_error ∨ e = .lexical_error) : Proper (e :: st) := by
  cases st with
  | nil => rcases he with rfl | rfl <;> exact (proper_single _).2 (by decide)
  | cons b st => exact ⟨by rcases he with rfl | rfl <;> decide, h.2⟩

/-- An admitted transition keeps the stack proper. -/
theorem admits_proper (env : ParseEnv) (hand : yajl_handle_t) (s : yajl_state)
    (t : LexResult) (seg st : List yajl_state) (evs : List yajl_event)
    (ha : Admits env hand s t seg evs) (hp : Proper (s :: st)) : Proper (seg ++ st) := by
  cases st with
  | nil =>
    have hs : topLevel s := hp
    cases ha with
    | scalar _ _ hv _ _ =>
      rcases hv with rfl | rfl | rfl | rfl | rfl | rfl <;>
        first | exact (proper_single _).2 (by decide) | exact absurd hs (by decide)
    | end_array _ _ hv _ =>
      rcases hv with rfl | rfl | rfl | rfl | rfl | rfl <;>
        first
        | exact ⟨by decide, (proper_single _).2 (by decide)⟩
        | exact absurd hs (by decide)
    | end_map _ _ hv _ =>
      rcases hv with rfl | rfl | rfl | rfl | rfl | rfl <;>
        first
        | exact ⟨by decide, (proper_single _).2 (by decide)⟩
        | exact absurd hs (by decide)
    | start_array _ _ hv _ => rcases hv with rfl | rfl <;> exact absurd hs (by decide)
    | start_map _ _ hv _ => rcases hv with rfl | rfl <;> exact absurd hs (by decide)
    | array_comma _ _ => exact absurd hs (by decide)
    | map_comma _ _ => exact absurd hs (by decide)
    | colon _ _ => exact absurd hs (by decide)
    | key _ _ => exact absurd hs (by decide)
  | cons b st =>
    obtain ⟨⟨h1, h2, h3⟩, hb⟩ := hp
    cases ha with
    | scalar _ _ hv _ _ =>
      refine ⟨?_, hb⟩
      rcases hv with rfl | rfl | rfl | rfl | rfl | rfl <;>
        first | exact absurd rfl h1 | exact absurd rfl h2 | decide
    | end_array _ _ hv _ =>
      refine ⟨by decide, ?_, hb⟩
      rcases hv with rfl | rfl | rfl | rfl | rfl | rfl <;>
        first | exact absurd rfl h1 | exact absurd rfl h2 | decide
    | end_map _ _ hv _ =>
      refine ⟨by decide, ?_, hb⟩
      rcases hv with rfl | rfl | rfl | rfl | rfl | rfl <;>
        first | exact absurd rfl h1 | exact absurd rfl h2 | decide
    | start_array _ _ _ _ => exact hb
    | start_map _ _ _ _ => exact hb
    | array_comma _ _ => exact ⟨by decide, hb⟩
    | map_comma _ _ => exact ⟨by decide, hb⟩
    | colon _ _ => exact ⟨by decide, hb⟩
    | key _ _ => exact ⟨by decide, hb⟩

/-- The segment of an admitted transition has at most two states. -/
theorem admits_seg (env : ParseEnv) (hand : yajl_handle_t) (s : yajl_state)
    (t : LexResult) (seg : List yajl_state) (evs : List yajl_event)
    (ha : Admits env hand s t seg evs) :
    seg = [] ∨ (∃ s1, seg = [s1]) ∨ ∃ p s1, seg = [p, s1] := by
  cases ha <;> simp

/-- An admitted transition in front of a sequence that takes the new stack to
`[parse_complete]`. -/
theorem stackLang_seg (env : ParseEnv) (hand : yajl_handle_t) (s : yajl_state)
    (t : LexResult) (seg st : List yajl_state) (evs : List yajl_event)
    (ts : List LexResult) (evs1 : List yajl_event) (ha : Admits env hand s t seg evs)
    (h : StackLang env hand (seg ++ st) ts evs1) :
    StackLang env hand (s :: st) (t :: ts) (evs ++ evs1) := by
  rcases admits_seg env hand s t seg evs ha with rfl | ⟨s1, rfl⟩ | ⟨p, s1, rfl⟩
  · cases st with
    | nil => exact h.elim
    | cons b st => exact ⟨[t], evs, ts, evs1, rfl, rfl, Lang.pop s t evs ha, h⟩
  · cases st with
    | nil => exact Lang.step s s1 t evs ts evs1 _ ha h
    | cons b st =>
      obtain ⟨ts1, e1, ts2, e2, rfl, rfl, hl, hs⟩ := h
      exact ⟨t :: ts1, evs ++ e1, ts2, e2, rfl, by simp, Lang.step s s1 t evs ts1 e1 _ ha hl,
        hs⟩
  · cases st with
    | nil =>
      obtain ⟨ts1, e1, ts2, e2, rfl, rfl, hl, hs⟩ := h
      exact Lang.push s p s1 t evs ts1 e1 ts2 e2 _ ha hl hs
    | cons b st =>
      obtain ⟨ts1, e1, ts2, e2, rfl, rfl, hl, ts3, e3, ts4, e4, rfl, rfl, hl2, hs⟩ := h
      exact ⟨t :: (ts1 ++ ts3), evs ++ (e1 ++ e3), ts4, e4, by simp, by simp,
        Lang.push s p s1 t evs ts1 e1 ts3 e3 _ ha hl hl2, hs⟩

theorem stackLang_congr (env : ParseEnv) (h1 h2 : yajl_handle_t)
    (h : h1.callbacks = h2.callbacks) (s : yajl_state) (ts : List LexResult)
    (evs : List yajl_event) (x : List yajl_state) (hl : Lang env h1 s ts evs x) :
    Lang env h2 s ts evs x := by
  induction hl with
  | done => exact Lang.done
  | pop s t evs ha => exact Lang.pop s t evs (admits_congr env h1 h2 _ _ _ _ h ha)
  | step s s1 t evs ts evs1 x ha _ ih =>
    exact Lang.step s s1 t evs ts evs1 x (admits_congr env h1 h2 _ _ _ _ h ha) ih
  | push s p s1 t evs ts1 evs1 ts2 evs2 x ha _ _ ih1 ih2 =>
    exact Lang.push s p s1 t evs ts1 evs1 ts2 evs2 x (admits_congr env h1 h2 _ _ _ _ h ha)
      ih1 ih2

/-- From an error state the loop returns `yajl_status_error`. -/
theorem rev_loop_error_state (env : ParseEnv) (len : Int) (ts : List LexResult)
    (hand : yajl_handle_t) (l : RevLocals) (s : yajl_state) (st : List yajl_state)
    (hst : hand.stateStack = s :: st) (hcont : l.cont = true)
    (hs : s = .parse_error ∨ s = .lexical_error) :
    rev_loop env len ts hand l =
      some (.error, { hand with bytesConsumed := toSizeT (l.offset - len) }) :=
  rev_loop_ret env len ts hand l _ _
    (fun next => rev_round_error_state env len hand l next s st hst hcont hs)

/-- With `cont` 0 the loop returns `yajl_status_client_canceled`. -/
theorem rev_loop_cancelled (env : ParseEnv) (len : Int) (ts : List LexResult)
    (hand : yajl_handle_t) (l : RevLocals) (s : yajl_state) (st : List yajl_state)
    (hst : hand.stateStack = s :: st) (hcont : l.cont = false) :
    ∃ h, rev_loop env len ts hand l = some (.client_canceled, h) :=
  ⟨_, rev_loop_ret env len ts hand l _ _
    (fun next => rev_round_cancelled env len hand l next s st hst hcont)⟩

/-- The loop at the end of the chunk in the state `parse_complete`, without
`allow_multiple_values`: the call returns `yajl_status_ok`. -/
theorem rev_loop_nil_complete (env : ParseEnv) (len : Int) (hand : yajl_handle_t)
    (l : RevLocals) (st : List yajl_state) (hst : hand.stateStack = .parse_complete :: st)
    (hcont : l.cont = true) (hamv : hand.flags.allow_multiple_values = false) :
    ∃ b, rev_loop env len [] hand l = some (.ok, { hand with bytesConsumed := b }) := by
  rw [rev_loop, rev_round_complete env len hand l none st hst hcont hamv]
  rcases parse_complete_cases len hand l none st hst with ⟨_, _, _, h⟩ | ⟨e, _⟩ | ⟨e, _⟩
  · exact absurd rfl h
  · rw [e]
    simp only
    rw [rev_round_complete env len hand (lexLocals l (lexNext len none)) none st hst hcont
      hamv]
    rcases parse_complete_cases len hand (lexLocals l (lexNext len none)) none st hst with
      ⟨_, _, _, h⟩ | ⟨_, _, h, _⟩ | ⟨e2, _⟩
    · exact absurd rfl h
    · exact absurd rfl h
    · rw [e2]; exact ⟨_, rfl⟩
  · rw [e]; exact ⟨_, rfl⟩

theorem lastOffset_cons (t : LexResult) (tv : List LexResult) (o : Int) :
    lastOffset (t :: tv) o = lastOffset tv t.offset := by
  cases tv with
  | nil => rfl
  | cons a tv =>
    rw [lastOffset, lastOffset, List.getLast?_cons_cons]
    cases h : (a :: tv).getLast? with
    | none => simp at h
    | some x => rfl

/-- What the loop accepts.  If the loop, started with a proper stack and without
`allow_multiple_values`, returns `yajl_status_ok` with `parse_complete` on top of the
stack, then the tokens it has read are a sequence that takes the stack it started with to
`[parse_complete]`, the callbacks called are those of that sequence, and tokens are left
unread only if trailing garbage is allowed or the last token read ended at the end of
the chunk. -/
theorem accepted_stackLang (env : ParseEnv) (len : Int) (hand0 : yajl_handle_t) :
    ∀ (ts : List LexResult) (hand h : yajl_handle_t) (l : RevLocals),
      l.cont = true → Proper hand.stateStack → hand.callbacks = hand0.callbacks →
      hand.flags.allow_multiple_values = false → (∀ t ∈ ts, t.tok ≠ .eof) →
      rev_loop env len ts hand l = some (.ok, h) →
      yajl_bs_current h.stateStack = some .parse_complete →
      ∃ tv rest evs, ts = tv ++ rest ∧ StackLang env hand0 hand.stateStack tv evs ∧
        h.ctx = hand.ctx ++ evs ∧ h.stateStack = [.parse_complete] ∧
        h.parseError = hand.parseError ∧
        (rest ≠ [] →
          hand.flags.allow_trailing_garbage = true ∨ lastOffset tv l.offset = len) := by
  intro ts
  induction ts with
  | nil =>
    intro hand h l hcont hp hcb hamv _ hacc htop
    obtain ⟨s, st, hst⟩ := List.exists_cons_of_ne_nil (grounded_ne_nil _ (proper_grounded _ hp))
    rcases state_cases s with hs | rfl | rfl | rfl
    · rw [rev_loop, rev_round_eof_tok env len hand l none s st hst hcont hs rfl] at hacc
      simp only [Option.some.injEq, Prod.mk.injEq, true_and] at hacc
      rw [← hacc] at htop
      simp only [hst, yajl_bs_current, List.head?_cons, Option.some.injEq] at htop
      rw [htop] at hs
      exact absurd hs (by decide)
    · rw [hst] at hp
      have hnil := proper_bottom _ st hp (Or.inr (Or.inr rfl))
      subst hnil
      obtain ⟨b, hb⟩ := rev_loop_nil_complete env len hand l [] hst hcont hamv
      rw [hb] at hacc
      simp only [Option.some.injEq, Prod.mk.injEq, true_and] at hacc
      subst hacc
      refine ⟨[], [], [], rfl, ?_, by simp, hst, rfl, fun h => absurd rfl h⟩
      rw [hst]
      exact Lang.done
    · rw [rev_loop_error_state env len [] hand l _ st hst hcont (Or.inl rfl)] at hacc
      simp at hacc
    · rw [rev_loop_error_state env len [] hand l _ st hst hcont (Or.inr rfl)] at hacc
      simp at hacc
  | cons t ts ih =>
    intro hand h l hcont hp hcb hamv htoks hacc htop
    obtain ⟨s, st, hst⟩ := List.exists_cons_of_ne_nil (grounded_ne_nil _ (proper_grounded _ hp))
    have het : t.tok ≠ .eof := htoks t (List.mem_cons_self _ _)
    rcases state_cases s with hs | rfl | rfl | rfl
    · obtain ⟨h1, l1, hr⟩ := reading_goes_again env len hand l t s st hst hcont hs het
      rw [rev_loop_again env len t ts hand h1 l l1 hr] at hacc
      obtain ⟨t', ht', _, hc⟩ := reading_again env len hand h1 l l1 (some t) s st hst hcont hs hr
      simp only [Option.some.injEq] at ht'
      subst ht'
      rcases hc with ⟨_, rfl, rfl⟩ | ⟨seg, evs, ha, f1, f2, f3, f4, f5, f6, f7⟩ |
        ⟨_, _, f1, _, _, _, _, f6, _⟩
      · rw [rev_loop_error_state env len ts { hand with stateStack := .lexical_error :: st }
          (lexLocals l t) .lexical_error st rfl hcont (Or.inr rfl)] at hacc
        simp at hacc
      · have hp1 : Proper h1.stateStack := by
          rw [f1]; exact admits_proper env hand s t seg st evs ha (hst ▸ hp)
        by_cases hc1 : l1.cont = true
        · obtain ⟨tv, rest, evs1, e1, e2, e3, e4, e5, e6⟩ :=
            ih h1 h l1 hc1 hp1 (f3.trans hcb) (by rw [f4]; exact hamv)
              (fun x hx => htoks x (List.mem_cons_of_mem _ hx)) hacc htop
          refine ⟨t :: tv, rest, evs ++ evs1, by rw [e1]; rfl, ?_, ?_, e4, e5.trans f5, ?_⟩
          · rw [hst]
            rw [f1] at e2
            exact stackLang_seg env hand0 s t seg st evs tv evs1
              (admits_congr env hand hand0 s t seg evs hcb ha) e2
          · rw [e3, f2, List.append_assoc]
          · intro hrest
            rw [lastOffset_cons, ← f7, ← f4]
            exact e6 hrest
        · obtain ⟨s1, st1, hst1⟩ :=
            List.exists_cons_of_ne_nil (grounded_ne_nil _ (proper_grounded _ hp1))
          obtain ⟨hx, hxe⟩ := rev_loop_cancelled env len ts h1 l1 s1 st1 hst1
            (by simpa using hc1)
          rw [hxe] at hacc
          simp at hacc
      · rw [rev_loop_error_state env len ts h1 l1 .parse_error st f1 f6 (Or.inl rfl)] at hacc
        simp at hacc
    · rw [hst] at hp
      have hnil := proper_bottom _ st hp (Or.inr (Or.inr rfl))
      subst hnil
      have hrc := rev_round_complete env len hand l (some t) [] hst hcont hamv
      rcases parse_complete_cases len hand l (some t) [] hst with ⟨e, _⟩ | ⟨_, _, _, e⟩ |
        ⟨e, hd⟩
      · rw [rev_loop_again env len t ts hand _ l _ (hrc.trans e),
          rev_loop_error_state env len ts
            { hand with stateStack := .parse_error :: [],
                        parseError := some "trailing garbage" }
            (lexLocals l (lexNext len (some t))) .parse_error [] rfl hcont (Or.inl rfl)]
          at hacc
        simp at hacc
      · exact absurd e het
      · rw [rev_loop_cons_ret env len t ts hand _ l _ (hrc.trans e)] at hacc
        simp only [Option.some.injEq, Prod.mk.injEq, true_and] at hacc
        subst hacc
        refine ⟨[], t :: ts, [], rfl, ?_, by simp, hst, rfl, fun _ => hd⟩
        rw [hst]
        exact Lang.done
    · rw [rev_loop_error_state env len _ hand l _ st hst hcont (Or.inl rfl)] at hacc
      simp at hacc
    · rw [rev_loop_error_state env len _ hand l _ st hst hcont (Or.inr rfl)] at hacc
      simp at hacc

/-! ## Values, entries and the order of the callbacks -/

/-- A value of the reverse grammar has a token. -/
theorem rev_value_ne_nil (env : ParseEnv) (hand : yajl_handle_t) (ts : List LexResult)
    (evs : List yajl_event) (h : Rev env hand .value ts evs) : ts ≠ [] := by
  cases h <;> simp

/-- A map of the reverse grammar: the callback of its end, then what follows the `}`. -/
theorem rev_map_inv (env : ParseEnv) (hand : yajl_handle_t) (c : LexResult)
    (ts : List LexResult) (evs : List yajl_event) (hc : c.tok = .right_bracket)
    (h : Rev env hand .value (c :: ts) evs) :
    ∃ evs1, evs = emit hand (·.yajl_end_map) .end_map ++ evs1 ∧
      Rev env hand .entries ts evs1 := by
  cases h with
  | scalar _ ht _ => rw [hc] at ht; exact absurd ht (by decide)
  | array _ _ _ ht _ => rw [hc] at ht; cases ht
  | map _ _ evs1 _ he => exact ⟨evs1, rfl, he⟩

/-- An entry of the reverse grammar: the tokens of its value, the colon, the key; the
callbacks of the value, then that of the key. -/
theorem rev_entry_inv (env : ParseEnv) (hand : yajl_handle_t) (te : List LexResult)
    (ee : List yajl_event) (h : Rev env hand .entry te ee) :
    ∃ tv ev colon key, te = tv ++ [colon, key] ∧ ee = ev ++ keyEvents env hand key ∧
      Rev env hand .value tv ev ∧ colon.tok = .colon ∧ isKeyTok key.tok := by
  cases h with
  | entry tv ev colon key hv hc hk => exact ⟨tv, ev, colon, key, rfl, rfl, hv, hc, hk⟩

/-- What follows the `}` of a map ends with the callback of the start of the map. -/
theorem rev_entries_end (env : ParseEnv) (hand : yajl_handle_t) (k : RevKind)
    (ts : List LexResult) (evs : List yajl_event) (h : Rev env hand k ts evs)
    (hk : k = .entries ∨ k = .moreEntries) :
    ∃ evs1, evs = evs1 ++ emit hand (·.yajl_start_map) .start_map := by
  induction h with
  | no_entries o _ => exact ⟨[], rfl⟩
  | first_entry o _ => exact ⟨[], rfl⟩
  | entries te ts ee evs _ _ _ ih =>
    obtain ⟨e1, he⟩ := ih (Or.inr rfl)
    exact ⟨ee ++ e1, by rw [he, List.append_assoc]⟩
  | more_entries sep te ts ee evs _ _ _ _ ih =>
    obtain ⟨e1, he⟩ := ih (Or.inr rfl)
    exact ⟨ee ++ e1, by rw [he, List.append_assoc]⟩
  | _ => rcases hk with h | h <;> cases h

/-- The loop accepts every value of the reverse grammar, when no callback returns 0: the
call returns `yajl_status_ok`, the stack is `[parse_complete]`, and the callbacks called
are those of the value, in order. -/
theorem rev_value_accepted (env : ParseEnv) (hand : yajl_handle_t) (len : Int)
    (ts : List LexResult) (evs : List yajl_event) (hcl : ∀ c, env.client c = true)
    (hst : hand.stateStack = [.start]) (hamv : hand.flags.allow_multiple_values = false)
    (h : Rev env hand .value ts evs) :
    ∃ h1, yajl_rev_do_parse env hand len ts = some (.ok, h1) ∧
      h1.stateStack = [.parse_complete] ∧ h1.ctx = hand.ctx ++ evs ∧
      h1.parseError = hand.parseError := by
  have hl := (rev_value_iff_lang env hand ts evs).1 h
  obtain ⟨h1, l1, hr, f1, f2, _, f4, f5, f6⟩ :=
    lang_run env len hand hcl .start ts evs _ hl hand entryLocals [] rfl hst rfl
  obtain ⟨b, hb⟩ := rev_loop_nil_complete env len h1 l1 [] f1 f6 (by rw [f4]; exact hamv)
  refine ⟨{ h1 with bytesConsumed := b }, ?_, f1, f2, f5⟩
  have := rev_loop_append env len [] ts hand h1 entryLocals l1 hr
  rw [List.append_nil] at this
  unfold yajl_rev_do_parse
  exact this.trans hb

/-- C21: the order of the callbacks of a map.  If `yajl_rev_do_parse`, called on a
fresh handle without `allow_multiple_values`, returns `yajl_status_ok` with
`parse_complete` on top of the stack, then the tokens `tv` that it has read are a value
of the reverse grammar and the callbacks called are those of that value, in the order of
the grammar: for every map the callback of its end, then for every entry, from the last
to the first, the callbacks of the value of the entry and after them the callback of
its key, then the callback of the start of the map.  Tokens are left unread only if
trailing garbage is allowed or the last token read ended at the end of the chunk. -/
theorem value_before_key (env : ParseEnv) (hand h : yajl_handle_t) (len : Int)
    (ts : List LexResult) (hst : hand.stateStack = [.start])
    (hamv : hand.flags.allow_multiple_values = false) (htoks : ∀ t ∈ ts, t.tok ≠ .eof)
    (hacc : yajl_rev_do_parse env hand len ts = some (.ok, h))
    (htop : yajl_bs_current h.stateStack = some .parse_complete) :
    ∃ tv rest evs, ts = tv ++ rest ∧ Rev env hand .value tv evs ∧
      h.ctx = hand.ctx ++ evs ∧
      (rest ≠ [] → hand.flags.allow_trailing_garbage = true ∨ lastOffset tv 0 = len) := by
  obtain ⟨tv, rest, evs, e1, e2, e3, _, _, e6⟩ :=
    accepted_stackLang env len hand ts hand h entryLocals rfl
      (by rw [hst]; exact (proper_single _).2 (by decide)) rfl hamv htoks hacc htop
  rw [hst] at e2
  exact ⟨tv, rest, evs, e1, (rev_value_iff_lang env hand tv evs).2 e2, e3, e6⟩

theorem value_before_key_witness :
    ∃ tv rest evs, sampleMapTokens = tv ++ rest ∧
      Rev plainEnv (handleWith allCallbacks [.start]) .value tv evs ∧
      ({ handleWith allCallbacks [.parse_complete] with
          ctx := [.end_map, .number [0x31], .map_key [0x61], .start_map],
          endOffset := 1 } : yajl_handle_t).ctx =
        (handleWith allCallbacks [.start]).ctx ++ evs ∧
      (rest ≠ [] → (handleWith allCallbacks [.start]).flags.allow_trailing_garbage = true ∨
        lastOffset tv 0 = -7) :=
  value_before_key plainEnv (handleWith allCallbacks [.start])
    { handleWith allCallbacks [.parse_complete] with
      ctx := [.end_map, .number [0x31], .map_key [0x61], .start_map], endOffset := 1 }
    (-7) sampleMapTokens rfl rfl (by decide) (by decide) (by decide)

/-! ## Several values -/

/-- With `allow_multiple_values` the rounds from the state `parse_complete` are those
from the state `got_value`. -/
theorem rev_steps_multiple (env : ParseEnv) (len : Int) (ts : List LexResult)
    (hand : yajl_handle_t) (l : RevLocals) (st : List yajl_state) (hne : ts ≠ [])
    (hst : hand.stateStack = .parse_complete :: st) (hcont : l.cont = true)
    (hamv : hand.flags.allow_multiple_values = true) :
    rev_steps env len ts hand l =
      rev_steps env len ts { hand with stateStack := .got_value :: st } l := by
  cases ts with
  | nil => exact absurd rfl hne
  | cons t ts =>
    rw [rev_steps, rev_steps, rev_round_multiple env len hand l (some t) st hst hcont hamv]

/-- C26: several values.  With `allow_multiple_values` set, a round with
`parse_complete` on top of the stack is the round with `got_value` there; so after a
first complete value a second one is read, which ends in `parse_complete` again, with
the callbacks of both values called, whether `allow_trailing_garbage` is set or not.  At
the end of the chunk the call returns `yajl_status_ok`, the top then being
`got_value`. -/
theorem multiple_values (env : ParseEnv) (hand : yajl_handle_t) (len : Int)
    (tv1 tv2 : List LexResult) (ev1 ev2 : List yajl_event) (hcl : ∀ c, env.client c = true)
    (hst : hand.stateStack = [.start]) (hamv : hand.flags.allow_multiple_values = true)
    (h1 : Rev env hand .value tv1 ev1) (h2 : Rev env hand .value tv2 ev2) :
    (∃ ha la, rev_steps env len tv1 hand entryLocals = some (ha, la) ∧
      ha.stateStack = [.parse_complete] ∧ ha.ctx = hand.ctx ++ ev1 ∧
      ∀ next, rev_round env len ha la next =
        rev_round env len { ha with stateStack := [.got_value] } la next) ∧
    (∃ hb lb, rev_steps env len (tv1 ++ tv2) hand entryLocals = some (hb, lb) ∧
      hb.stateStack = [.parse_complete] ∧ hb.ctx = hand.ctx ++ (ev1 ++ ev2) ∧
      hb.parseError = hand.parseError) ∧
    ∃ h, yajl_rev_do_parse env hand len (tv1 ++ tv2) = some (.ok, h) ∧
      h.stateStack = [.got_value] ∧ h.ctx = hand.ctx ++ (ev1 ++ ev2) ∧
      h.parseError = hand.parseError := by
  have hl1 := (rev_value_iff_lang env hand tv1 ev1).1 h1
  have hl2 : Lang env hand .got_value tv2 ev2 [.parse_complete] := by
    have := rev_lang env hand .value tv2 ev2 h2 .got_value [] [] [.parse_complete] (by decide)
      Lang.done
    simpa using this
  obtain ⟨ha, la, hra, a1, a2, a3, a4, a5, a6⟩ :=
    lang_run env len hand hcl .start tv1 ev1 _ hl1 hand entryLocals [] rfl hst rfl
  have hamva : ha.flags.allow_multiple_values = true := by rw [a4]; exact hamv
  obtain ⟨hb, lb, hrb, b1, b2, b3, b4, b5, b6⟩ :=
    lang_run env len hand hcl .got_value tv2 ev2 _ hl2
      { ha with stateStack := .got_value :: [] } la [] a3 rfl a6
  have hrb2 : rev_steps env len tv2 ha la = some (hb, lb) := by
    rw [rev_steps_multiple env len tv2 ha la [] (rev_value_ne_nil env hand tv2 ev2 h2) a1 a6
      hamva]
    exact hrb
  have hsteps : rev_steps env len (tv1 ++ tv2) hand entryLocals = some (hb, lb) := by
    rw [rev_steps_append env len tv2 tv1 hand ha entryLocals la hra]
    exact hrb2
  have hamvb : hb.flags.allow_multiple_values = true := by rw [b4]; exact hamva
  refine ⟨⟨ha, la, hra, a1, a2,
    fun next => rev_round_multiple env len ha la next [] a1 a6 hamva⟩,
    ⟨hb, lb, hsteps, b1, ?_, b5.trans a5⟩, ?_⟩
  · rw [b2]
    change ha.ctx ++ ev2 = _
    rw [a2, List.append_assoc]
  · have hfin : rev_loop env len [] hb lb =
        some (.ok, { hb with stateStack := [.got_value],
                             bytesConsumed := toSizeT (len - len) }) := by
      rw [rev_loop, rev_round_multiple env len hb lb none [] b1 b6 hamvb,
        rev_round_eof_tok env len { hb with stateStack := [.got_value] } lb none .got_value []
          rfl b6 (by decide) rfl]
      rfl
    refine ⟨{ hb with stateStack := [.got_value], bytesConsumed := toSizeT (len - len) },
      ?_, rfl, ?_, b5.trans a5⟩
    · have := rev_loop_append env len [] (tv1 ++ tv2) hand hb entryLocals lb hsteps
      rw [List.append_nil] at this
      unfold yajl_rev_do_parse
      exact this.trans hfin
    · change hb.ctx = _
      rw [b2]
      change ha.ctx ++ ev2 = _
      rw [a2, List.append_assoc]

theorem multiple_values_witness :
    ∃ h, yajl_rev_do_parse plainEnv (multiHandle allCallbacks [.start]) (-3)
        ([{ tok := .integer, offset := -1, buf := [0x32] }] ++
          [{ tok := .integer, offset := -3, buf := [0x31] }]) = some (.ok, h) ∧
      h.stateStack = [.got_value] ∧
      h.ctx = (multiHandle allCallbacks [.start]).ctx ++ ([.number [0x32]] ++ [.number [0x31]]) ∧
      h.parseError = (multiHandle allCallbacks [.start]).parseError :=
  (multiple_values plainEnv (multiHandle allCallbacks [.start]) (-3)
    [{ tok := .integer, offset := -1, buf := [0x32] }]
    [{ tok := .integer, offset := -3, buf := [0x31] }] [.number [0x32]] [.number [0x31]]
    (fun _ => rfl) rfl rfl
    (Rev.scalar { tok := .integer, offset := -1, buf := [0x32] } (by decide) (by decide))
    (Rev.scalar { tok := .integer, offset := -3, buf := [0x31] } (by decide) (by decide))).2.2

/-! ## `yajl_parse_integer` on out-of-range input -/

theorem decimalValue_append_single (init : List Nat) (d : Nat) :
    decimalValue (init ++ [d]) = 10 * decimalValue init + (d - 0x30) := by
  simp only [decimalValue, List.reverse_append, List.reverse_cons, List.reverse_nil,
    List.nil_append, List.singleton_append, List.map_cons, Nat.ofDigits_cons]
  ring

/-- The loop on digits that, with the accumulator in front, fit a `long long`, followed
by more bytes: it reaches the rest with the value read so far in the accumulator. -/
theorem parse_integer_loop_append (sign : Int) (rest : List Nat) : ∀ (ds : List Nat)
    (ret : Int), 0 ≤ ret → (∀ c ∈ ds, 0x30 ≤ c ∧ c ≤ 0x39) →
    ret * 10 ^ ds.length + (decimalValue ds : Int) ≤ LLONG_MAX →
    parse_integer_loop sign (ds ++ rest) ret =
      parse_integer_loop sign rest (ret * 10 ^ ds.length + (decimalValue ds : Int)) := by
  intro ds
  induction ds with
  | nil =>
    intro ret _ _ _
    simp [decimalValue]
  | cons c ds ih =>
    intro ret h0 hd hr
    have hc := hd c (List.mem_cons_self _ _)
    have hp : (1 : Int) ≤ 10 ^ ds.length := one_le_pow₀ (by norm_num)
    have hv : (0 : Int) ≤ (decimalValue ds : Int) := Int.natCast_nonneg _
    have hcd : (((c - 0x30 : Nat) : Int)) = (c : Int) - 0x30 := by omega
    rw [decimalValue_cons] at hr
    push_cast at hr
    rw [hcd] at hr
    have hcn : (0 : Int) ≤ (c : Int) - 0x30 := by omega
    have e : ret * 10 ^ (c :: ds).length + (c - 0x30) * 10 ^ ds.length =
        (ret * 10 + ((c : Int) - 0x30)) * 10 ^ ds.length := by
      simp only [List.length_cons]; ring
    have hr2 : (ret * 10 + ((c : Int) - 0x30)) * 10 ^ ds.length + (decimalValue ds : Int) ≤
        LLONG_MAX := by
      rw [← e]; linarith
    have hacc : ret * 10 + ((c : Int) - 0x30) ≤ LLONG_MAX := by
      have h1 : ret * 10 + ((c : Int) - 0x30) ≤
          (ret * 10 + ((c : Int) - 0x30)) * 10 ^ ds.length :=
        le_mul_of_one_le_right (by linarith) hp
      linarith
    have hm : LLONG_MAX = 9223372036854775807 := rfl
    have w1 : wrap64 (ret * 10) = ret * 10 := wrap64_id _ (by omega) (by omega)
    have w2 : wrap64 (LLONG_MAX - ret * 10) = LLONG_MAX - ret * 10 :=
      wrap64_id _ (by omega) (by omega)
    have w3 : wrap64 (ret * 10 + ((c : Int) - 0x30)) = ret * 10 + ((c : Int) - 0x30) :=
      wrap64_id _ (by omega) (by omega)
    rw [List.cons_append, parse_integer_loop, w1, w2, w3,
      if_neg (by rw [max_value_to_multiply]; omega),
      if_neg (by omega), if_neg (by omega),
      ih _ (by linarith) (fun d hdm => hd d (List.mem_cons_of_mem _ hdm)) hr2,
      decimalValue_cons]
    push_cast
    rw [hcd, ← e]
    congr 1
    ring

/-- In the gap above `LLONG_MAX / 10` that the test `ret > MAX_VALUE_TO_MULTIPLY` lets
through, the product `ret * 10` wraps to a negative number and `LLONG_MAX - ret` wraps
to a negative number again, which is below every digit. -/
theorem parse_integer_gap (ret : Int) (h1 : LLONG_MAX / 10 + 1 ≤ ret)
    (h2 : ret ≤ MAX_VALUE_TO_MULTIPLY) :
    wrap64 (LLONG_MAX - wrap64 (ret * 10)) < 0 := by
  rw [max_value_to_multiply] at h2
  have hm : LLONG_MAX = 9223372036854775807 := rfl
  rw [hm] at h1 ⊢
  have w1 : wrap64 (ret * 10) = ret * 10 - 18446744073709551616 := by
    unfold wrap64; omega
  rw [w1]
  have w2 : wrap64 (9223372036854775807 - (ret * 10 - 18446744073709551616)) =
      9223372036854775807 - (ret * 10 - 18446744073709551616) - 18446744073709551616 := by
    unfold wrap64; omega
  rw [w2]
  omega

/-- The loop on digits whose value, with the accumulator in front, exceeds
`LLONG_MAX`. -/
theorem parse_integer_loop_overflow (sign : Int) : ∀ (ds : List Nat) (ret : Int), 0 ≤ ret →
    ret ≤ LLONG_MAX → (∀ c ∈ ds, 0x30 ≤ c ∧ c ≤ 0x39) →
    LLONG_MAX < ret * 10 ^ ds.length + (decimalValue ds : Int) →
    parse_integer_loop sign ds ret = parse_integer_erange sign := by
  intro ds
  induction ds with
  | nil =>
    intro ret _ h1 _ hr
    simp only [decimalValue, List.reverse_nil, List.map_nil, Nat.ofDigits_nil, Nat.cast_zero,
      add_zero, List.length_nil, pow_zero, mul_one] at hr
    omega
  | cons c ds ih =>
    intro ret h0 h1 hd hr
    have hc := hd c (List.mem_cons_self _ _)
    have hcd : (((c - 0x30 : Nat) : Int)) = (c : Int) - 0x30 := by omega
    have hm : LLONG_MAX = 9223372036854775807 := rfl
    rw [parse_integer_loop]
    by_cases hgt : ret > MAX_VALUE_TO_MULTIPLY
    · rw [if_pos hgt]
    rw [if_neg hgt]
    by_cases hgap : LLONG_MAX / 10 + 1 ≤ ret
    · rw [if_pos (by have := parse_integer_gap ret hgap (by omega); omega)]
    have hsmall : ret ≤ 922337203685477580 := by rw [hm] at hgap; omega
    have w1 : wrap64 (ret * 10) = ret * 10 := wrap64_id _ (by omega) (by omega)
    have w2 : wrap64 (LLONG_MAX - ret * 10) = LLONG_MAX - ret * 10 :=
      wrap64_id _ (by omega) (by omega)
    rw [w1, w2]
    by_cases hov : LLONG_MAX - ret * 10 < (c : Int) - 0x30
    · rw [if_pos hov]
    rw [if_neg hov, if_neg (by omega)]
    have w3 : wrap64 (ret * 10 + ((c : Int) - 0x30)) = ret * 10 + ((c : Int) - 0x30) :=
      wrap64_id _ (by omega) (by omega)
    rw [w3]
    refine ih _ (by omega) (by omega) (fun d hdm => hd d (List.mem_cons_of_mem _ hdm)) ?_
    rw [decimalValue_cons] at hr
    push_cast at hr
    rw [hcd] at hr
    have e : ret * 10 ^ (c :: ds).length + (c - 0x30) * 10 ^ ds.length =
        (ret * 10 + ((c : Int) - 0x30)) * 10 ^ ds.length := by
      simp only [List.length_cons]; ring
    rw [← e]
    linarith

/-- C31: `yajl_parse_integer` saturates on overflow.  On an optional `-` followed by
decimal digits whose magnitude exceeds `LLONG_MAX` it sets `errno` to `ERANGE` and
returns `LLONG_MAX` (no sign) or `LLONG_MIN` (with `-`), the 64-bit arithmetic being
wrapping.  When the magnitude lies between `10 * (LLONG_MAX / 10 + 1)` and
`10 * MAX_VALUE_TO_MULTIPLY + 9`, the loop reaches the last digit with the value of the
digits before it in the accumulator, the test `ret > MAX_VALUE_TO_MULTIPLY` does not
fire there, and the wrapped test `LLONG_MAX - ret < (*pos - '0')` does. -/
theorem parse_integer_saturates (neg : Bool) (ds : List Nat)
    (hd : ∀ c ∈ ds, 0x30 ≤ c ∧ c ≤ 0x39) (hr : LLONG_MAX < (decimalValue ds : Int)) :
    yajl_parse_integer ((if neg then [0x2d] else []) ++ ds) =
      some (if neg then LLONG_MIN else LLONG_MAX, true) ∧
    (10 * (LLONG_MAX / 10 + 1) ≤ (decimalValue ds : Int) →
      (decimalValue ds : Int) ≤ 10 * MAX_VALUE_TO_MULTIPLY + 9 →
      ∃ init d, ds = init ++ [d] ∧
        parse_integer_loop (if neg then -1 else 1) ds 0 =
          parse_integer_loop (if neg then -1 else 1) [d] (decimalValue init : Int) ∧
        ¬ (decimalValue init : Int) > MAX_VALUE_TO_MULTIPLY ∧
        wrap64 (LLONG_MAX - wrap64 ((decimalValue init : Int) * 10)) < (d : Int) - 0x30) := by
  have hm : LLONG_MAX = 9223372036854775807 := rfl
  have hne : ds ≠ [] := by
    rintro rfl
    simp [decimalValue, hm] at hr
  constructor
  · obtain ⟨c, rest, rfl⟩ := List.exists_cons_of_ne_nil hne
    have hc := hd c (List.mem_cons_self _ _)
    have h := parse_integer_loop_overflow (if neg then -1 else 1) (c :: rest) 0 (le_refl 0)
      (by decide) hd (by simpa using hr)
    cases neg
    · have h1 : ¬ c = 0x2d := by omega
      have h2 : ¬ c = 0x2b := by omega
      simpa [yajl_parse_integer, h1, h2, parse_integer_erange] using h
    · have h2 : ¬ c = 0x2b := by omega
      simpa [yajl_parse_integer, h2, parse_integer_erange] using h
  · intro hlo hhi
    obtain ⟨init, d, rfl⟩ : ∃ init d, ds = init ++ [d] :=
      ⟨ds.dropLast, ds.getLast hne, (List.dropLast_append_getLast hne).symm⟩
    have hdd := hd d (by simp)
    have hdi : ∀ c ∈ init, 0x30 ≤ c ∧ c ≤ 0x39 := fun c hc => hd c (by simp [hc])
    rw [decimalValue_append_single] at hlo hhi
    rw [max_value_to_multiply] at hhi
    rw [hm] at hlo
    push_cast at hlo hhi
    have hcd : (((d - 0x30 : Nat) : Int)) = (d : Int) - 0x30 := by omega
    rw [hcd] at hlo hhi
    have hi1 : (922337203685477581 : Int) ≤ decimalValue init := by omega
    have hi2 : (decimalValue init : Int) ≤ 922337203685477587 := by omega
    refine ⟨init, d, rfl, ?_, ?_, ?_⟩
    · have h := parse_integer_loop_append (if neg then -1 else 1) [d] init 0 (le_refl 0) hdi
        (by rw [hm]; simp only [zero_mul, zero_add]; omega)
      simpa using h
    · rw [max_value_to_multiply]; omega
    · have := parse_integer_gap (decimalValue init) (by rw [hm]; omega)
        (by rw [max_value_to_multiply]; omega)
      omega

theorem parse_integer_saturates_witness :
    yajl_parse_integer ((if true then [0x2d] else []) ++
        [0x39, 0x32, 0x32, 0x33, 0x33, 0x37, 0x32, 0x30, 0x33, 0x36, 0x38, 0x35, 0x34, 0x37,
          0x37, 0x35, 0x38, 0x31, 0x30]) =
      some (if true then LLONG_MIN else LLONG_MAX, true) :=
  (parse_integer_saturates true
    [0x39, 0x32, 0x32, 0x33, 0x33, 0x37, 0x32, 0x30, 0x33, 0x36, 0x38, 0x35, 0x34, 0x37,
      0x37, 0x35, 0x38, 0x31, 0x30] (by decide) (by decide)).1

/-! ## The messages of the rejected tokens -/

/-- C34: a token that the current state does not admit (and that is neither `eof` nor a
lexer error) sets the top of the stack to `parse_error`, with the message of the state:
in a value state a colon, a comma or an opener that does not match the top gives
"unallowed token at this point in JSON text"; in `map_need_key` a token that is not a
string gives "invalid object key (must be a string)"; in `map_sep` a token other than a
colon gives "object key and value must be separated by a colon (':')"; in `map_got_val`
a token other than `{` and `,` gives "before key and value, inside map, I expect ',' or
'{'"; in `array_got_val` a token other than `[` and `,` gives "before array element, I
expect ',' or '['". -/
theorem rejected_messages (env : ParseEnv) (len : Int) (hand : yajl_handle_t)
    (l : RevLocals) (t : LexResult) (s : yajl_state) (st : List yajl_state)
    (hst : hand.stateStack = s :: st) (hcont : l.cont = true)
    (hne : t.tok ≠ .eof) (hner : t.tok ≠ .error) :
    (isReadingState s → (∀ seg evs, ¬ Admits env hand s t seg evs) →
      ∃ h1 l1 msg, rev_round env len hand l (some t) = some (.again h1 l1) ∧
        h1.stateStack = .parse_error :: st ∧ h1.parseError = some msg) ∧
    (isValueState s →
      t.tok = .colon ∨ t.tok = .comma ∨ (t.tok = .left_brace ∧ s ≠ .array_start) ∨
        (t.tok = .left_bracket ∧ s ≠ .map_start) →
      rev_round env len hand l (some t) =
        some (.again { hand with
          stateStack := .parse_error :: st,
          parseError := some "unallowed token at this point in JSON text" }
          (lexLocals l t))) ∧
    (s = .map_need_key → ¬ isKeyTok t.tok →
      rev_round env len hand l (some t) =
        some (.again { hand with
          stateStack := .parse_error :: st,
          parseError := some "invalid object key (must be a string)" }
          (lexLocals l t))) ∧
    (s = .map_sep → t.tok ≠ .colon →
      rev_round env len hand l (some t) =
        some (.again { hand with
          stateStack := .parse_error :: st,
          parseError := some "object key and value must be separated by a colon (':')" }
          (lexLocals l t))) ∧
    (s = .map_got_val → t.tok ≠ .left_bracket → t.tok ≠ .comma →
      rev_round env len hand l (some t) =
        some (.again { hand with
          stateStack := .parse_error :: st,
          parseError := some "before key and value, inside map, I expect ',' or '\x7b'" }
          (lexLocals l t))) ∧
    (s = .array_got_val → t.tok ≠ .left_brace → t.tok ≠ .comma →
      rev_round env len hand l (some t) =
        some (.again { hand with
          stateStack := .parse_error :: st,
          parseError := some "before array element, I expect ',' or '['" }
          (lexLocals l t))) := by
  have pe : ∀ (msg : String), parse_error_again hand (lexLocals l t) msg =
      some (.again { hand with stateStack := .parse_error :: st, parseError := some msg }
        (lexLocals l t)) := by
    intro msg
    simp only [parse_error_again, hst, yajl_bs_set, Option.map_some']
  refine ⟨?_, ?_, ?_, ?_, ?_, ?_⟩
  · intro hs hna
    obtain ⟨h1, l1, msg, h, f1, _, _, _, f5, _⟩ :=
      round_rejected env len hand l t s st hst hcont hs hne hner hna
    exact ⟨h1, l1, msg, h, f1, f5⟩
  · intro hs ht
    rw [rev_round_value env len hand l _ s st hst hcont hs]
    unfold value_state
    simp only [lexNext, Option.getD_some]
    rcases ht with ht | ht | ⟨ht, hn⟩ | ⟨ht, hn⟩
    · rw [ht]; exact pe _
    · rw [ht]; exact pe _
    · rw [ht]
      simp only []
      rw [if_neg (by simpa [hst, yajl_bs_current] using hn)]
      exact pe _
    · rw [ht]
      simp only []
      rw [if_neg (by simpa [hst, yajl_bs_current] using hn)]
      exact pe _
  · rintro rfl hk
    simp only [rev_round, hcont, hst, yajl_bs_current, List.head?_cons, map_need_key_state,
      lexNext, Option.getD_some, Bool.not_true, Bool.false_eq_true, if_false]
    cases htok : t.tok <;> simp only []
    case eof => exact absurd htok hne
    case error => exact absurd htok hner
    case string => exact absurd (Or.inl htok) hk
    case string_with_escapes => exact absurd (Or.inr htok) hk
    all_goals exact pe _
  · rintro rfl hk
    simp only [rev_round, hcont, hst, yajl_bs_current, List.head?_cons, map_sep_state,
      lexNext, Option.getD_some, Bool.not_true, Bool.false_eq_true, if_false]
    cases htok : t.tok
    case eof => exact absurd htok hne
    case error => exact absurd htok hner
    case colon => exact absurd htok hk
    all_goals exact pe _
  · rintro rfl hk hc
    simp only [rev_round, hcont, hst, yajl_bs_current, List.head?_cons, map_got_val_state,
      lexNext, Option.getD_some, Bool.not_true, Bool.false_eq_true, if_false]
    cases htok : t.tok
    case eof => exact absurd htok hne
    case error => exact absurd htok hner
    case comma => exact absurd htok hc
    case left_bracket => exact absurd htok hk
    all_goals exact pe _
  · rintro rfl hk hc
    simp only [rev_round, hcont, hst, yajl_bs_current, List.head?_cons, array_got_val_state,
      lexNext, Option.getD_some, Bool.not_true, Bool.false_eq_true, if_false]
    cases htok : t.tok
    case eof => exact absurd htok hne
    case error => exact absurd htok hner
    case comma => exact absurd htok hc
    case left_brace => exact absurd htok hk
    all_goals exact pe _

theorem rejected_messages_witness :
    rev_round plainEnv (-3) (plainHandle [.map_got_val, .parse_complete]) entryLocals
        (some { tok := .colon, offset := -1, buf := [0x3a] }) =
      some (.again { plainHandle [.map_got_val, .parse_complete] with
          stateStack := .parse_error :: [.parse_complete],
          parseError := some "before key and value, inside map, I expect ',' or '\x7b'" }
          (lexLocals entryLocals { tok := .colon, offset := -1, buf := [0x3a] })) :=
  (rejected_messages plainEnv (-3) (plainHandle [.map_got_val, .parse_complete]) entryLocals
    { tok := .colon, offset := -1, buf := [0x3a] } .map_got_val [.parse_complete] rfl rfl
    (by decide) (by decide)).2.2.2.2.1 rfl (by decide) (by decide)

/-! ## The state stack is never empty -/

/-- A round on a stack that is not empty is defined. -/
theorem round_defined (env : ParseEnv) (len : Int) (hand : yajl_handle_t) (l : RevLocals)
    (next : Option LexResult) (hne : hand.stateStack ≠ []) :
    ∃ r, rev_round env len hand l next = some r := by
  obtain ⟨s, st, hst⟩ := List.exists_cons_of_ne_nil hne
  by_cases hcont : l.cont = true
  · have reading : ∀ (hd : yajl_handle_t) (s : yajl_state), hd.stateStack = s :: st →
        isReadingState s → ∃ r, rev_round env len hd l next = some r := by
      intro hd s hst hrs
      by_cases he : (lexNext len next).tok = .eof
      · exact ⟨_, rev_round_eof_tok env len hd l next s st hst hcont hrs he⟩
      · cases next with
        | none => exact absurd rfl he
        | some t =>
          obtain ⟨a, b, hab⟩ := reading_goes_again env len hd l t s st hst hcont hrs he
          exact ⟨_, hab⟩
    rcases state_cases s with hs | rfl | rfl | rfl
    · exact reading hand s hst hs
    · by_cases hamv : hand.flags.allow_multiple_values = true
      · rw [rev_round_multiple env len hand l next st hst hcont hamv]
        exact reading { hand with stateStack := .got_value :: st } .got_value rfl (by decide)
      · rw [rev_round_complete env len hand l next st hst hcont (by simpa using hamv)]
        rcases parse_complete_cases len hand l next st hst with ⟨e, _⟩ | ⟨e, _⟩ | ⟨e, _⟩ <;>
          exact ⟨_, e⟩
    · exact ⟨_, rev_round_error_state env len hand l next _ st hst hcont (Or.inl rfl)⟩
    · exact ⟨_, rev_round_error_state env len hand l next _ st hst hcont (Or.inr rfl)⟩
  · exact ⟨_, rev_round_cancelled env len hand l next s st hst (by simpa using hcont)⟩

/-- A round leaves a proper stack proper. -/
theorem round_proper (env : ParseEnv) (len : Int) (hand : yajl_handle_t) (l : RevLocals)
    (next : Option LexResult) (r : Round) (hp : Proper hand.stateStack)
    (h : rev_round env len hand l next = some r) : Proper r.handle.stateStack := by
  obtain ⟨s, st, hst⟩ := List.exists_cons_of_ne_nil (grounded_ne_nil _ (proper_grounded _ hp))
  rw [hst] at hp
  by_cases hcont : l.cont = true
  · have reading : ∀ (hd : yajl_handle_t) (s : yajl_state), hd.stateStack = s :: st →
        Proper (s :: st) → isReadingState s → rev_round env len hd l next = some r →
        Proper r.handle.stateStack := by
      intro hd s hst hps hrs hr
      by_cases he : (lexNext len next).tok = .eof
      · rw [rev_round_eof_tok env len hd l next s st hst hcont hrs he] at hr
        simp only [Option.some.injEq] at hr
        subst hr
        simpa [Round.handle, hst] using hps
      · cases next with
        | none => exact absurd rfl he
        | some t =>
          cases r with
          | ret status h1 =>
            obtain ⟨a, b, hab⟩ := reading_goes_again env len hd l t s st hst hcont hrs he
            rw [hab] at hr
            cases hr
          | again h1 l1 =>
            obtain ⟨t1, _, _, hc⟩ :=
              reading_again env len hd h1 l l1 (some t) s st hst hcont hrs hr
            rcases hc with ⟨_, rfl, rfl⟩ | ⟨seg, evs, ha, f1, _⟩ | ⟨_, _, f1, _⟩
            · exact proper_error s _ st hps (Or.inr rfl)
            · simp only [Round.handle]
              rw [f1]
              exact admits_proper env hd s t1 seg st evs ha hps
            · simp only [Round.handle]
              rw [f1]
              exact proper_error s _ st hps (Or.inl rfl)
    rcases state_cases s with hs | rfl | rfl | rfl
    · exact reading hand s hst hp hs h
    · have hst0 : st = [] := proper_bottom _ st hp (Or.inr (Or.inr rfl))
      by_cases hamv : hand.flags.allow_multiple_values = true
      · rw [rev_round_multiple env len hand l next st hst hcont hamv] at h
        refine reading { hand with stateStack := .got_value :: st } .got_value rfl ?_
          (by decide) h
        rw [hst0]
        exact (proper_single _).2 (by decide)
      · rw [rev_round_complete env len hand l next st hst hcont (by simpa using hamv)] at h
        rcases parse_complete_cases len hand l next st hst with ⟨e, _⟩ | ⟨e, _⟩ | ⟨e, _⟩
        · rw [e] at h
          simp only [Option.some.injEq] at h
          subst h
          exact proper_error _ _ st hp (Or.inl rfl)
        · rw [e] at h
          simp only [Option.some.injEq] at h
          subst h
          simpa [Round.handle, hst] using hp
        · rw [e] at h
          simp only [Option.some.injEq] at h
          subst h
          simpa [Round.handle, hst] using hp
    · rw [rev_round_error_state env len hand l next _ st hst hcont (Or.inl rfl)] at h
      simp only [Option.some.injEq] at h
      subst h
      simpa [Round.handle, hst] using hp
    · rw [rev_round_error_state env len hand l next _ st hst hcont (Or.inr rfl)] at h
      simp only [Option.some.injEq] at h
      subst h
      simpa [Round.handle, hst] using hp
  · rw [rev_round_cancelled env len hand l next s st hst (by simpa using hcont)] at h
    simp only [Option.some.injEq] at h
    subst h
    by_cases hr : hand.flags.resume_after_cancel = true
    · simpa [Round.handle, hr, hst] using hp
    · simp only [Round.handle, hr, if_false]
      exact proper_error s _ st hp (Or.inl rfl)

/-- The switch of `yajl_rev_do_finish` leaves a proper stack proper. -/
theorem finish_proper (h h1 : yajl_handle_t) (s : yajl_status) (hp : Proper h.stateStack)
    (hf : finish_switch h = some (s, h1)) : Proper h1.stateStack := by
  obtain ⟨a, st, hst⟩ := List.exists_cons_of_ne_nil (grounded_ne_nil _ (proper_grounded _ hp))
  rw [hst] at hp
  unfold finish_switch at hf
  rw [hst] at hf
  by_cases hpv : h.flags.allow_partial_values = true
  · cases a <;> simp [yajl_bs_current, hpv] at hf <;> (rw [← hf.2, hst]; exact hp)
  · cases a <;> simp [yajl_bs_current, hpv, yajl_bs_set] at hf <;>
      first
      | (rw [← hf.2, hst]; exact hp)
      | (rw [← hf.2]; exact proper_error _ _ st hp (Or.inl rfl))

/-- Every handle reachable from a handle with a proper stack has a proper stack. -/
theorem reached_proper (hand0 h : yajl_handle_t) (hp : Proper hand0.stateStack)
    (hr : Reached hand0 h) : Proper h.stateStack := by
  induction hr with
  | fresh => exact hp
  | round env len h l next r _ hround ih => exact round_proper env len h l next r ih hround
  | finish h h1 s _ hf ih => exact finish_proper h h1 s ih hf

/-- C38: state-stack safety.  On every handle reachable from a fresh handle (state stack
`[start]`) by rounds of `yajl_rev_do_parse` with any tokens and any callback results
(and by `yajl_rev_do_finish`): the state stack is not empty; its bottom is one of
`start`, `got_value`, `parse_complete`, `parse_error`, `lexical_error`; when the top is
a state in whose case `yajl_bs_pop` occurs, the stack has at least two entries; and
every round is defined: the switch finds a case for the top of the stack and does not
fall through to `abort()`, and the stack the round leaves is not empty. -/
theorem stack_safety (hand0 h : yajl_handle_t) (hfresh : hand0.stateStack = [.start])
    (hr : Reached hand0 h) :
    h.stateStack ≠ [] ∧
    (∃ b, h.stateStack.getLast? = some b ∧
      (b = .start ∨ b = .got_value ∨ b = .parse_complete ∨ b = .parse_error ∨
        b = .lexical_error)) ∧
    (∀ s st, h.stateStack = s :: st → isPoppingState s → 2 ≤ h.stateStack.length) ∧
    (∀ (env : ParseEnv) (len : Int) (l : RevLocals) (next : Option LexResult),
      ∃ r, rev_round env len h l next = some r ∧ r.handle.stateStack ≠ []) := by
  have hp : Proper h.stateStack :=
    reached_proper hand0 h (by rw [hfresh]; exact (proper_single _).2 (by decide)) hr
  have hg := proper_grounded _ hp
  refine ⟨grounded_ne_nil _ hg, hg, ?_, ?_⟩
  · intro s st hst hs
    rw [hst] at hp ⊢
    cases st with
    | nil =>
      have ht : topLevel s := (proper_single s).1 hp
      rcases hs with rfl | rfl | rfl | rfl <;> exact absurd ht (by decide)
    | cons b st => simp
  · intro env len l next
    obtain ⟨r, hround⟩ := round_defined env len h l next (grounded_ne_nil _ hg)
    exact ⟨r, hround, grounded_ne_nil _
      (proper_grounded _ (round_proper env len h l next r hp hround))⟩

theorem stack_safety_witness :
    (plainHandle [.array_start, .parse_complete]).stateStack ≠ [] ∧
    (∃ b, (plainHandle [.array_start, .parse_complete]).stateStack.getLast? = some b ∧
      (b = .start ∨ b = .got_value ∨ b = .parse_complete ∨ b = .parse_error ∨
        b = .lexical_error)) ∧
    (∀ s st, (plainHandle [.array_start, .parse_complete]).stateStack = s :: st →
      isPoppingState s → 2 ≤ (plainHandle [.array_start, .parse_complete]).stateStack.length) ∧
    (∀ (env : ParseEnv) (len : Int) (l : RevLocals) (next : Option LexResult),
      ∃ r, rev_round env len (plainHandle [.array_start, .parse_complete]) l next = some r ∧
        r.handle.stateStack ≠ []) :=
  stack_safety (plainHandle [.start]) (plainHandle [.array_start, .parse_complete]) rfl
    (Reached.round plainEnv (-2) (plainHandle [.start]) entryLocals
      (some { tok := .right_brace, offset := -1, buf := [0x5d] })
      (.again (plainHandle [.array_start, .parse_complete])
        { offset := -1, bufLen := 1, cont := true })
      Reached.fresh (by decide))

/-! ## The rounds that go round again -/

/-- What a round that goes round again has done, whatever the state: `cont` was set and
the token read has set an error state, or it was admitted (in the state on
top of the stack, or, under `allow_multiple_values`, in `got_value` for
`parse_complete`), or it was an `eof` read in the state `parse_complete`, which changes
nothing. -/
theorem round_again_cases (env : ParseEnv) (len : Int) (hand h1 : yajl_handle_t)
    (l l1 : RevLocals) (next : Option LexResult)
    (h : rev_round env len hand l next = some (.again h1 l1)) :
    l.cont = true ∧
      ((∃ e st, h1.stateStack = e :: st ∧ (e = .parse_error ∨ e = .lexical_error) ∧
          h1.ctx = hand.ctx) ∨
       (∃ t s st seg evs, next = some t ∧
          (hand.stateStack = s :: st ∨
            (hand.stateStack = .parse_complete :: st ∧ s = .got_value ∧
              hand.flags.allow_multiple_values = true)) ∧
          Admits env hand s t seg evs ∧ RoundTo env hand t (seg ++ st) evs h1 l1) ∨
       (∃ st, hand.stateStack = .parse_complete :: st ∧
          hand.flags.allow_multiple_values = false ∧ (lexNext len next).tok = .eof ∧
          h1 = hand ∧ l1 = lexLocals l (lexNext len next))) := by
  have hne : hand.stateStack ≠ [] := by
    intro hs
    by_cases hcont : l.cont = true
    · simp [rev_round, hcont, hs, yajl_bs_current] at h
    · simp only [rev_round, hcont, Bool.not_false, if_true, cancelled, hs, yajl_bs_set,
        Bool.not_eq_true', Option.map_none', Bool.false_eq_true] at h
      split_ifs at h
      cases h
  obtain ⟨s, st, hst⟩ := List.exists_cons_of_ne_nil hne
  have hcont : l.cont = true := by
    by_contra hc
    rw [rev_round_cancelled env len hand l next s st hst (by simpa using hc)] at h
    cases h
  refine ⟨hcont, ?_⟩
  have reading : ∀ (hd : yajl_handle_t) (s : yajl_state), hd.stateStack = s :: st →
      isReadingState s → hd.callbacks = hand.callbacks → hd.flags = hand.flags →
      hd.ctx = hand.ctx → hd.parseError = hand.parseError →
      rev_round env len hd l next = some (.again h1 l1) →
      (∃ e st, h1.stateStack = e :: st ∧ (e = .parse_error ∨ e = .lexical_error) ∧
          h1.ctx = hand.ctx) ∨
      (∃ t seg evs, next = some t ∧ Admits env hand s t seg evs ∧
          RoundTo env hand t (seg ++ st) evs h1 l1) := by
    intro hd s hsd hs hcb hfl hctx hpe hr
    obtain ⟨t, ht, _, hc⟩ := reading_again env len hd h1 l l1 next s st hsd hcont hs hr
    rcases hc with ⟨_, rfl, rfl⟩ | ⟨seg, evs, ha, f1, f2, f3, f4, f5, f6, f7⟩ |
      ⟨_, _, f1, g2, _⟩
    · exact Or.inl ⟨_, st, rfl, Or.inr rfl, hctx⟩
    · exact Or.inr ⟨t, seg, evs, ht, admits_congr env hd hand s t seg evs hcb ha, f1,
        by rw [f2, hctx], f3.trans hcb, f4.trans hfl, f5.trans hpe, by rw [f6, hctx], f7⟩
    · exact Or.inl ⟨_, st, f1, Or.inl rfl, g2.trans hctx⟩
  rcases state_cases s with hs | rfl | rfl | rfl
  · rcases reading hand s hst hs rfl rfl rfl rfl h with hc | ⟨t, seg, evs, ht, ha, hr⟩
    · exact Or.inl hc
    · exact Or.inr (Or.inl ⟨t, s, st, seg, evs, ht, Or.inl hst, ha, hr⟩)
  · by_cases hamv : hand.flags.allow_multiple_values = true
    · rw [rev_round_multiple env len hand l next st hst hcont hamv] at h
      rcases reading { hand with stateStack := .got_value :: st } .got_value
        rfl (by decide) rfl rfl rfl rfl h with hc | ⟨t, seg, evs, ht, ha, hr⟩
      · exact Or.inl hc
      · exact Or.inr (Or.inl ⟨t, .got_value, st, seg, evs, ht, Or.inr ⟨hst, rfl, hamv⟩, ha,
          hr⟩)
    · have hamv0 : hand.flags.allow_multiple_values = false := by simpa using hamv
      rw [rev_round_complete env len hand l next st hst hcont hamv0] at h
      rcases parse_complete_cases len hand l next st hst with ⟨e, _, _, he⟩ |
        ⟨e, _, _, he⟩ | ⟨e, _⟩
      · rw [e] at h
        simp only [Option.some.injEq, Round.again.injEq] at h
        obtain ⟨rfl, rfl⟩ := h
        exact Or.inl ⟨_, st, rfl, Or.inl rfl, rfl⟩
      · rw [e] at h
        simp only [Option.some.injEq, Round.again.injEq] at h
        obtain ⟨rfl, rfl⟩ := h
        exact Or.inr (Or.inr ⟨st, hst, hamv0, he, rfl, rfl⟩)
      · rw [e] at h
        cases h
  · rw [rev_round_error_state env len hand l next _ st hst hcont (Or.inl rfl)] at h
    cases h
  · rw [rev_round_error_state env len hand l next _ st hst hcont (Or.inr rfl)] at h
    cases h
/-- Once an error state is on top of the stack no round goes round again. -/
theorem steps_error_top (env : ParseEnv) (len : Int) (ts : List LexResult)
    (h1 h : yajl_handle_t) (l1 l2 : RevLocals) (e : yajl_state) (st : List yajl_state)
    (hst : h1.stateStack = e :: st) (he : e = .parse_error ∨ e = .lexical_error)
    (hs : rev_steps env len ts h1 l1 = some (h, l2)) : ts = [] ∧ h = h1 ∧ l2 = l1 := by
  cases ts with
  | nil =>
    simp only [rev_steps, Option.some.injEq, Prod.mk.injEq] at hs
    exact ⟨rfl, hs.1.symm, hs.2.symm⟩
  | cons t ts =>
    exfalso
    by_cases hcont : l1.cont = true
    · rw [rev_steps, rev_round_error_state env len h1 l1 (some t) e st hst hcont he] at hs
      cases hs
    · rw [rev_steps, rev_round_cancelled env len h1 l1 (some t) e st hst
        (by simpa using hcont)] at hs
      cases hs

/-- The rounds that read tokens and go round again, one token more. -/
theorem rev_steps_cons_some (env : ParseEnv) (len : Int) (t : LexResult)
    (ts : List LexResult) (hand h : yajl_handle_t) (l l2 : RevLocals)
    (hs : rev_steps env len (t :: ts) hand l = some (h, l2)) :
    ∃ h1 l1, rev_round env len hand l (some t) = some (.again h1 l1) ∧
      rev_steps env len ts h1 l1 = some (h, l2) := by
  rw [rev_steps] at hs
  cases hr : rev_round env len hand l (some t) with
  | none => rw [hr] at hs; cases hs
  | some r =>
    cases r with
    | ret s h1 => rw [hr] at hs; cases hs
    | again h1 l1 =>
      rw [hr] at hs
      exact ⟨h1, l1, rfl, hs⟩

/-- A call that returns: rounds that read tokens of the chunk and go round again, then
a round that returns (the round before it may have read the `eof` at the end of the
chunk in the state `parse_complete`, which changes the locals only: `cont` is set and
`offset` is the end of the chunk). -/
theorem rev_loop_split (env : ParseEnv) (len : Int) :
    ∀ (ts : List LexResult) (hand h : yajl_handle_t) (l : RevLocals) (s : yajl_status),
      rev_loop env len ts hand l = some (s, h) →
      ∃ p q hp lp lq next, ts = p ++ q ∧ rev_steps env len p hand l = some (hp, lp) ∧
        rev_round env len hp lq next = some (.ret s h) ∧
        (lq = lp ∨ (lq.cont = true ∧ lq.offset = len)) ∧
        (next = q.head? ∨ next = none) := by
  intro ts
  induction ts with
  | nil =>
    intro hand h l s hl
    rw [rev_loop] at hl
    cases hr : rev_round env len hand l none with
    | none => rw [hr] at hl; cases hl
    | some r =>
      cases r with
      | ret s1 h1 =>
        rw [hr] at hl
        simp only [Option.some.injEq, Prod.mk.injEq] at hl
        obtain ⟨rfl, rfl⟩ := hl
        exact ⟨[], [], hand, l, l, none, rfl, rfl, hr, Or.inl rfl, Or.inl rfl⟩
      | again h1 l1 =>
        rw [hr] at hl
        simp only [] at hl
        obtain ⟨hcont, hc⟩ := round_again_cases env len hand h1 l l1 none hr
        cases hr2 : rev_round env len h1 l1 none with
        | none => rw [hr2] at hl; cases hl
        | some r2 =>
          cases r2 with
          | again h2 l2 => rw [hr2] at hl; cases hl
          | ret s2 h2 =>
            rw [hr2] at hl
            simp only [Option.some.injEq, Prod.mk.injEq] at hl
            obtain ⟨rfl, rfl⟩ := hl
            rcases hc with ⟨e, st, hst, he, _⟩ | ⟨t, _, _, _, _, ht, _⟩ |
              ⟨st, _, _, _, rfl, rfl⟩
            · have hk : rev_round env len hand l none =
                  some (.again h1 l1) := hr
              have hne : hand.stateStack ≠ [] := by
                intro hs
                simp [rev_round, hcont, hs, yajl_bs_current] at hk
              obtain ⟨a, b, hab⟩ := List.exists_cons_of_ne_nil hne
              rcases state_cases a with ha | rfl | rfl | rfl
              · rw [rev_round_eof_tok env len hand l none a b hab hcont ha rfl] at hk
                cases hk
              · by_cases hamv : hand.flags.allow_multiple_values = true
                · rw [rev_round_multiple env len hand l none b hab hcont hamv,
                    rev_round_eof_tok env len _ l none .got_value b rfl hcont (by decide) rfl]
                    at hk
                  cases hk
                · rw [rev_round_complete env len hand l none b hab hcont
                    (by simpa using hamv)] at hk
                  rcases parse_complete_cases len hand l none b hab with ⟨_, _, _, x⟩ |
                    ⟨x, _⟩ | ⟨x, _⟩
                  · exact absurd rfl x
                  · rw [x] at hk
                    simp only [Option.some.injEq, Round.again.injEq] at hk
                    rw [← hk.1, hab] at hst
                    simp only [List.cons.injEq] at hst
                    rcases he with rfl | rfl <;> exact absurd hst.1 (by decide)
                  · rw [x] at hk
                    cases hk
              · rw [rev_round_error_state env len hand l none _ b hab hcont (Or.inl rfl)]
                  at hk
                cases hk
              · rw [rev_round_error_state env len hand l none _ b hab hcont (Or.inr rfl)]
                  at hk
                cases hk
            · cases ht
            · exact ⟨[], [], _, l, _, none, rfl, rfl, hr2, Or.inr ⟨hcont, rfl⟩, Or.inl rfl⟩
  | cons t ts ih =>
    intro hand h l s hl
    rw [rev_loop] at hl
    cases hr : rev_round env len hand l (some t) with
    | none => rw [hr] at hl; cases hl
    | some r =>
      cases r with
      | ret s1 h1 =>
        rw [hr] at hl
        simp only [Option.some.injEq, Prod.mk.injEq] at hl
        obtain ⟨rfl, rfl⟩ := hl
        exact ⟨[], t :: ts, hand, l, l, some t, rfl, rfl, hr, Or.inl rfl, Or.inl rfl⟩
      | again h1 l1 =>
        rw [hr] at hl
        simp only [] at hl
        obtain ⟨p, q, hp, lp, lq, next, e1, e2, e3, e4, e5⟩ := ih h1 h l1 s hl
        refine ⟨t :: p, q, hp, lp, lq, next, by rw [e1]; rfl, ?_, e3, e4, e5⟩
        rw [rev_steps_again env len t p hand h1 l l1 hr]
        exact e2

/-! ## Opens and closes balance -/

theorem nest_append (a b : List yajl_event) :
    ∀ (o : List Container), nest (a ++ b) o = (nest a o).bind (nest b) := by
  induction a with
  | nil => intro o; rfl
  | cons e a ih =>
    intro o
    simp only [List.cons_append, nest]
    cases nestStep e o with
    | none => rfl
    | some o1 => simpa using ih o1

/-- Properly nested events: as many containers have been opened beyond those closed as
there are more open containers, kind by kind. -/
theorem nest_count (evs : List yajl_event) :
    ∀ (o o1 : List Container), nest evs o = some o1 →
      evs.count .end_map + o.count .map = evs.count .start_map + o1.count .map ∧
      evs.count .end_array + o.count .array = evs.count .start_array + o1.count .array := by
  induction evs with
  | nil =>
    intro o o1 h
    simp only [nest, Option.some.injEq] at h
    subst h
    simp
  | cons e es ih =>
    intro o o1 h
    simp only [nest] at h
    cases hs : nestStep e o with
    | none => rw [hs] at h; cases h
    | some o2 =>
      rw [hs] at h
      obtain ⟨i1, i2⟩ := ih o2 o1 h
      cases e <;> simp only [nestStep, Option.some.injEq] at hs
      case end_array => subst hs; simp [List.count_cons] at i1 i2 ⊢; omega
      case end_map => subst hs; simp [List.count_cons] at i1 i2 ⊢; omega
      case start_array =>
        split_ifs at hs with hh
        simp only [Option.some.injEq] at hs
        subst hs
        cases o with
        | nil => simp at hh
        | cons c o =>
          simp only [List.head?_cons, Option.some.injEq] at hh
          subst hh
          simp [List.count_cons] at i1 i2 ⊢
          omega
      case start_map =>
        split_ifs at hs with hh
        simp only [Option.some.injEq] at hs
        subst hs
        cases o with
        | nil => simp at hh
        | cons c o =>
          simp only [List.head?_cons, Option.some.injEq] at hh
          subst hh
          simp [List.count_cons] at i1 i2 ⊢
          omega
      all_goals (subst hs; simp [List.count_cons] at i1 i2 ⊢; omega)
theorem frames_cons (s : yajl_state) (st : List yajl_state) :
    frames (s :: st) = (frameOf s).toList ++ frames st := by
  simp only [frames, List.filterMap_cons]
  cases frameOf s <;> rfl

theorem frameOf_scalarNext (s : yajl_state) (hs : isValueState s) :
    frameOf (scalarNext s) = frameOf s := by
  rcases hs with rfl | rfl | rfl | rfl | rfl | rfl <;> rfl

theorem emit_all (hand : yajl_handle_t) (f : yajl_callbacks → Bool) (e : yajl_event)
    (hf : registered hand f = true) : emit hand f e = [e] := by
  simp [emit, hf]

/-- With every callback registered, an admitted transition keeps the events properly
nested: a closer opens a container and pushes a state of its kind, an opener closes the
innermost container and pops its state, the other tokens keep both. -/
theorem admits_nest (env : ParseEnv) (hand : yajl_handle_t) (s : yajl_state)
    (t : LexResult) (seg st : List yajl_state) (evs : List yajl_event)
    (hcb : hand.callbacks = some allCallbacks) (ha : Admits env hand s t seg evs) :
    nest evs (frames (s :: st)) = some (frames (seg ++ st)) := by
  have reg : ∀ f : yajl_callbacks → Bool, f allCallbacks = true → registered hand f = true := by
    intro f hf
    simp [registered, hcb, hf]
  cases ha with
  | scalar _ _ hs ht hov =>
    simp only [List.singleton_append, frames_cons, frameOf_scalarNext s hs]
    have hn : registered hand (·.yajl_number) = true := reg _ rfl
    rcases ht with ht | ht | ht | ht | ht | ht <;>
      simp only [scalarEvents, ht, hn, if_true] <;>
      first
      | rfl
      | (rw [emit_all hand _ _ (reg _ rfl)]; rfl)
  | end_array _ _ hs ht =>
    rw [emit_all hand _ _ (reg _ rfl)]
    simp only [List.cons_append, List.nil_append, frames_cons, frameOf_scalarNext s hs]
    rfl
  | end_map _ _ hs ht =>
    rw [emit_all hand _ _ (reg _ rfl)]
    simp only [List.cons_append, List.nil_append, frames_cons, frameOf_scalarNext s hs]
    rfl
  | start_array _ _ hs ht =>
    rw [emit_all hand _ _ (reg _ rfl)]
    rcases hs with rfl | rfl <;> simp [frames_cons, frameOf, nest, nestStep]
  | start_map _ _ hs ht =>
    rw [emit_all hand _ _ (reg _ rfl)]
    rcases hs with rfl | rfl <;> simp [frames_cons, frameOf, nest, nestStep]
  | array_comma _ ht => rfl
  | map_comma _ ht => rfl
  | colon _ ht => rfl
  | key _ ht =>
    simp only [keyEvents]
    rw [emit_all hand _ _ (reg _ rfl)]
    rfl

/-- The rounds that read tokens and do not end in an error state keep the events
properly nested, the open containers being those of the state stack. -/
theorem steps_nest (env : ParseEnv) (len : Int) :
    ∀ (ts : List LexResult) (hand h : yajl_handle_t) (l l1 : RevLocals),
      hand.callbacks = some allCallbacks →
      rev_steps env len ts hand l = some (h, l1) →
      (∀ e st, h.stateStack = e :: st → e ≠ .parse_error ∧ e ≠ .lexical_error) →
      ∃ evs, h.ctx = hand.ctx ++ evs ∧
        nest evs (frames hand.stateStack) = some (frames h.stateStack) := by
  intro ts
  induction ts with
  | nil =>
    intro hand h l l1 _ hs _
    simp only [rev_steps, Option.some.injEq, Prod.mk.injEq] at hs
    rw [← hs.1]
    exact ⟨[], by simp, rfl⟩
  | cons t ts ih =>
    intro hand h l l1 hcb hs htop
    obtain ⟨h1, l2, hr, hs1⟩ := rev_steps_cons_some env len t ts hand h l l1 hs
    obtain ⟨_, hc⟩ := round_again_cases env len hand h1 l l2 (some t) hr
    rcases hc with ⟨e, st, hst, he, _⟩ | ⟨t1, s, st, seg, evs, ht, hst, ha, f1, f2, f3, _⟩ |
      ⟨st, _, _, _, e1, _⟩
    · obtain ⟨_, rfl, _⟩ := steps_error_top env len ts h1 h l2 l1 e st hst he hs1
      have := htop e st hst
      rcases he with rfl | rfl
      · exact absurd rfl this.1
      · exact absurd rfl this.2
    · obtain ⟨evs1, e1, e2⟩ := ih h1 h l2 l1 (f3.trans hcb) hs1 htop
      refine ⟨evs ++ evs1, by rw [e1, f2, List.append_assoc], ?_⟩
      have hfr : frames hand.stateStack = frames (s :: st) := by
        rcases hst with hst | ⟨hst, rfl, _⟩
        · rw [hst]
        · rw [hst]; rfl
      rw [nest_append, hfr, admits_nest env hand s t1 seg st evs hcb ha]
      rw [f1] at e2
      exact e2
    · rw [e1] at hs1
      exact ih hand h l2 l1 hcb hs1 htop

/-- The rounds that read tokens leave a proper stack proper. -/
theorem steps_proper (env : ParseEnv) (len : Int) :
    ∀ (ts : List LexResult) (hand h : yajl_handle_t) (l l1 : RevLocals),
      Proper hand.stateStack → rev_steps env len ts hand l = some (h, l1) →
      Proper h.stateStack := by
  intro ts
  induction ts with
  | nil =>
    intro hand h l l1 hp hs
    simp only [rev_steps, Option.some.injEq, Prod.mk.injEq] at hs
    rw [← hs.1]
    exact hp
  | cons t ts ih =>
    intro hand h l l1 hp hs
    obtain ⟨h1, l2, hr, hs1⟩ := rev_steps_cons_some env len t ts hand h l l1 hs
    exact ih h1 h l2 l1 (round_proper env len hand l (some t) _ hp hr) hs1

/-- A round that returns leaves the state stack as it is, or has set its top to
`parse_error` (a cancelled parse) or to `got_value` (under `allow_multiple_values`). -/
theorem round_ret_stack (env : ParseEnv) (len : Int) (hand h1 : yajl_handle_t)
    (l : RevLocals) (next : Option LexResult) (status : yajl_status)
    (h : rev_round env len hand l next = some (.ret status h1)) :
    h1.stateStack = hand.stateStack ∨
      ∃ e st, h1.stateStack = e :: st ∧ (e = .parse_error ∨ e = .got_value) := by
  cases hs : hand.stateStack with
  | nil =>
    by_cases hcont : l.cont = true
    · simp [rev_round, hcont, hs, yajl_bs_current] at h
    · simp only [rev_round, hcont, Bool.not_false, if_true, cancelled, hs, yajl_bs_set,
        Bool.not_eq_true', Option.map_none', Bool.false_eq_true] at h
      split_ifs at h
      simp only [Option.some.injEq, Round.ret.injEq] at h
      rw [← h.2]
      exact Or.inl rfl
  | cons s st =>
    by_cases hcont : l.cont = true
    · have reading : ∀ (hd : yajl_handle_t) (s : yajl_state), hd.stateStack = s :: st →
          isReadingState s → rev_round env len hd l next = some (.ret status h1) →
          h1.stateStack = s :: st := by
        intro hd s hst hrs hr
        by_cases he : (lexNext len next).tok = .eof
        · rw [rev_round_eof_tok env len hd l next s st hst hcont hrs he] at hr
          simp only [Option.some.injEq, Round.ret.injEq] at hr
          rw [← hr.2]; exact hst
        · cases next with
          | none => exact absurd rfl he
          | some t =>
            obtain ⟨a, b, hab⟩ := reading_goes_again env len hd l t s st hst hcont hrs he
            rw [hab] at hr
            cases hr
      rcases state_cases s with hrs | rfl | rfl | rfl
      · exact Or.inl (reading hand s hs hrs h)
      · by_cases hamv : hand.flags.allow_multiple_values = true
        · rw [rev_round_multiple env len hand l next st hs hcont hamv] at h
          exact Or.inr ⟨_, st, reading _ .got_value rfl (by decide) h, Or.inr rfl⟩
        · rw [rev_round_complete env len hand l next st hs hcont (by simpa using hamv)] at h
          rcases parse_complete_cases len hand l next st hs with ⟨e, _⟩ | ⟨e, _⟩ | ⟨e, _⟩
          · rw [e] at h; cases h
          · rw [e] at h; cases h
          · rw [e] at h
            simp only [Option.some.injEq, Round.ret.injEq] at h
            rw [← h.2]
            exact Or.inl hs
      · rw [rev_round_error_state env len hand l next _ st hs hcont (Or.inl rfl)] at h
        simp only [Option.some.injEq, Round.ret.injEq] at h
        rw [← h.2]
        exact Or.inl hs
      · rw [rev_round_error_state env len hand l next _ st hs hcont (Or.inr rfl)] at h
        simp only [Option.some.injEq, Round.ret.injEq] at h
        rw [← h.2]
        exact Or.inl hs
    · rw [rev_round_cancelled env len hand l next s st hs (by simpa using hcont)] at h
      simp only [Option.some.injEq, Round.ret.injEq] at h
      rw [← h.2]
      by_cases hr : hand.flags.resume_after_cancel = true
      · simp only [hr, if_true]
        exact Or.inl hs
      · simp only [hr, if_false]
        exact Or.inr ⟨_, st, rfl, Or.inl rfl⟩

/-- A call that returns with `parse_complete` on top: the rounds that have read tokens
have led to the stack and to the callbacks with which the call returns. -/
theorem call_complete_steps (env : ParseEnv) (len : Int) (ts : List LexResult)
    (hand h : yajl_handle_t) (l : RevLocals) (s : yajl_status)
    (hl : rev_loop env len ts hand l = some (s, h))
    (htop : yajl_bs_current h.stateStack = some .parse_complete) :
    ∃ p q hp lp, ts = p ++ q ∧ rev_steps env len p hand l = some (hp, lp) ∧
      hp.stateStack = h.stateStack ∧ hp.ctx = h.ctx := by
  obtain ⟨p, q, hp, lp, lq, next, e1, e2, e3, _⟩ := rev_loop_split env len ts hand h l s hl
  refine ⟨p, q, hp, lp, e1, e2, ?_, (round_ret_ctx env len hp h lq next s e3).symm⟩
  rcases round_ret_stack env len hp h lq next s e3 with hh | ⟨e, st, hh, he⟩
  · exact hh.symm
  · rw [hh] at htop
    simp only [yajl_bs_current, List.head?_cons, Option.some.injEq] at htop
    rcases he with rfl | rfl <;> exact absurd htop (by decide)

/-- C33: opens and closes balance.  On a fresh handle (state stack `[start]`) with every
callback registered, when the rounds of `yajl_rev_do_parse` on a token sequence lead to
a stack whose top is `parse_complete` (during a call, first part, or when a call
returns, second part), the stack has depth 1, the callbacks called contain as many
`start_map` as `end_map` events and as many `start_array` as `end_array` events, and
they are properly nested. -/
theorem events_balance (env : ParseEnv) (len : Int) (hand : yajl_handle_t)
    (hst : hand.stateStack = [.start]) (hcb : hand.callbacks = some allCallbacks) :
    (∀ (ts : List LexResult) (h : yajl_handle_t) (l : RevLocals),
      rev_steps env len ts hand entryLocals = some (h, l) →
      yajl_bs_current h.stateStack = some .parse_complete →
      h.stateStack.length = 1 ∧ ∃ evs, h.ctx = hand.ctx ++ evs ∧
        evs.count .start_map = evs.count .end_map ∧
        evs.count .start_array = evs.count .end_array ∧ nest evs [] = some []) ∧
    (∀ (ts : List LexResult) (h : yajl_handle_t) (s : yajl_status),
      yajl_rev_do_parse env hand len ts = some (s, h) →
      yajl_bs_current h.stateStack = some .parse_complete →
      h.stateStack.length = 1 ∧ ∃ evs, h.ctx = hand.ctx ++ evs ∧
        evs.count .start_map = evs.count .end_map ∧
        evs.count .start_array = evs.count .end_array ∧ nest evs [] = some []) := by
  have hp0 : Proper hand.stateStack := by rw [hst]; exact (proper_single _).2 (by decide)
  have steps : ∀ (ts : List LexResult) (hp : yajl_handle_t) (l : RevLocals),
      rev_steps env len ts hand entryLocals = some (hp, l) →
      yajl_bs_current hp.stateStack = some .parse_complete →
      hp.stateStack.length = 1 ∧ ∃ evs, hp.ctx = hand.ctx ++ evs ∧
        evs.count .start_map = evs.count .end_map ∧
        evs.count .start_array = evs.count .end_array ∧ nest evs [] = some [] := by
    intro ts h l hs htop
    have hp : Proper h.stateStack := steps_proper env len ts hand h entryLocals l hp0 hs
    obtain ⟨a, st, hst1⟩ := List.exists_cons_of_ne_nil (grounded_ne_nil _ (proper_grounded _ hp))
    rw [hst1] at hp htop
    simp only [yajl_bs_current, List.head?_cons, Option.some.injEq] at htop
    subst htop
    have hnil := proper_bottom _ st hp (Or.inr (Or.inr rfl))
    subst hnil
    obtain ⟨evs, e1, e2⟩ := steps_nest env len ts hand h entryLocals l hcb hs (by
      intro e st2 hh
      rw [hst1] at hh
      simp only [List.cons.injEq] at hh
      rw [← hh.1]
      exact ⟨by decide, by decide⟩)
    rw [hst, hst1] at e2
    have e3 : nest evs [] = some [] := e2
    obtain ⟨c1, c2⟩ := nest_count evs [] [] e3
    refine ⟨by rw [hst1]; rfl, evs, e1, ?_, ?_, e3⟩
    · simpa using c1.symm
    · simpa using c2.symm
  refine ⟨steps, ?_⟩
  intro ts h s hl htop
  obtain ⟨p, q, hp, lp, _, e2, e3, e4⟩ :=
    call_complete_steps env len ts hand h entryLocals s hl htop
  have := steps p hp lp e2 (by rw [e3]; exact htop)
  rw [e3, e4] at this
  exact this

theorem events_balance_witness :
    ({ handleWith allCallbacks [.parse_complete] with
        ctx := [.end_map, .number [0x31], .map_key [0x61], .start_map],
        endOffset := 1 } : yajl_handle_t).stateStack.length = 1 ∧
    ∃ evs, ({ handleWith allCallbacks [.parse_complete] with
        ctx := [.end_map, .number [0x31], .map_key [0x61], .start_map],
        endOffset := 1 } : yajl_handle_t).ctx = (handleWith allCallbacks [.start]).ctx ++ evs ∧
      evs.count .start_map = evs.count .end_map ∧
      evs.count .start_array = evs.count .end_array ∧ nest evs [] = some [] :=
  (events_balance plainEnv (-7) (handleWith allCallbacks [.start]) rfl rfl).2 sampleMapTokens
    { handleWith allCallbacks [.parse_complete] with
      ctx := [.end_map, .number [0x31], .map_key [0x61], .start_map], endOffset := 1 }
    .ok (by decide) (by decide)

/-! ## The reverse grammar is the grammar of JSON read backward -/

theorem json_elements_snoc (v : List LexResult) (sep : LexResult) (hv : Json .value v)
    (hsep : sep.tok = .comma) (k : JsonKind) (es : List LexResult) (h : Json k es) :
    k = .elements → Json .elements (es ++ sep :: v) := by
  induction h with
  | element tv htv _ => intro _; exact Json.elements tv sep v htv hsep (Json.element v hv)
  | elements tv sep1 ts htv hsep1 _ _ ih =>
    intro _
    rw [List.append_assoc, List.cons_append]
    exact Json.elements tv sep1 _ htv hsep1 (ih rfl)
  | _ => intro hk; cases hk

theorem json_members_snoc (m : List LexResult) (sep : LexResult) (hm : Json .member m)
    (hsep : sep.tok = .comma) (k : JsonKind) (es : List LexResult) (h : Json k es) :
    k = .members → Json .members (es ++ sep :: m) := by
  induction h with
  | last_member tm htm _ =>
    intro _; exact Json.members tm sep m htm hsep (Json.last_member m hm)
  | members tm sep1 ts htm hsep1 _ _ ih =>
    intro _
    rw [List.append_assoc, List.cons_append]
    exact Json.members tm sep1 _ htm hsep1 (ih rfl)
  | _ => intro hk; cases hk

/-- Every phrase of the reverse grammar, read backward, is a phrase of the grammar of
JSON. -/
theorem rev_json (env : ParseEnv) (hand : yajl_handle_t) (k : RevKind)
    (ts : List LexResult) (evs : List yajl_event) (h : Rev env hand k ts evs) :
    JsonRev k ts := by
  induction h with
  | scalar t ht _ => exact Json.scalar t ht
  | array c ts evs hc _ ih =>
    obtain ⟨o, es, e, ho, hes⟩ := ih
    simp only [JsonRev, List.reverse_cons, e, List.cons_append]
    rcases hes with rfl | hes
    · exact Json.empty_array o c ho hc
    · exact Json.array o c es ho hc hes
  | map c ts evs hc _ ih =>
    obtain ⟨o, es, e, ho, hes⟩ := ih
    simp only [JsonRev, List.reverse_cons, e, List.cons_append]
    rcases hes with rfl | hes
    · exact Json.empty_map o c ho hc
    · exact Json.map o c es ho hc hes
  | no_items o ho => exact ⟨o, [], rfl, ho, Or.inl rfl⟩
  | items tv ts ev evs _ _ ihv ihm =>
    obtain ⟨o, es, e, ho, hes⟩ := ihm
    refine ⟨o, es ++ tv.reverse, by rw [List.reverse_append, e]; rfl, ho, Or.inr ?_⟩
    rcases hes with rfl | ⟨es1, sep, rfl, hsep, hes1⟩
    · exact Json.element _ ihv
    · rw [List.append_assoc, List.singleton_append]
      exact json_elements_snoc _ sep ihv hsep _ es1 hes1 rfl
  | first_item o ho => exact ⟨o, [], rfl, ho, Or.inl rfl⟩
  | more_items sep tv ts ev evs hsep _ _ ihv ihm =>
    obtain ⟨o, es, e, ho, hes⟩ := ihm
    refine ⟨o, (es ++ tv.reverse) ++ [sep], by
      rw [List.reverse_cons, List.reverse_append, e]; simp, ho,
      Or.inr ⟨es ++ tv.reverse, sep, rfl, hsep, ?_⟩⟩
    rcases hes with rfl | ⟨es1, sep1, rfl, hsep1, hes1⟩
    · exact Json.element _ ihv
    · rw [List.append_assoc, List.singleton_append]
      exact json_elements_snoc _ sep1 ihv hsep1 _ es1 hes1 rfl
  | no_entries o ho => exact ⟨o, [], rfl, ho, Or.inl rfl⟩
  | entries te ts ee evs _ _ ihe ihm =>
    obtain ⟨o, es, e, ho, hes⟩ := ihm
    refine ⟨o, es ++ te.reverse, by rw [List.reverse_append, e]; rfl, ho, Or.inr ?_⟩
    rcases hes with rfl | ⟨es1, sep, rfl, hsep, hes1⟩
    · exact Json.last_member _ ihe
    · rw [List.append_assoc, List.singleton_append]
      exact json_members_snoc _ sep ihe hsep _ es1 hes1 rfl
  | first_entry o ho => exact ⟨o, [], rfl, ho, Or.inl rfl⟩
  | more_entries sep te ts ee evs hsep _ _ ihe ihm =>
    obtain ⟨o, es, e, ho, hes⟩ := ihm
    refine ⟨o, (es ++ te.reverse) ++ [sep], by
      rw [List.reverse_cons, List.reverse_append, e]; simp, ho,
      Or.inr ⟨es ++ te.reverse, sep, rfl, hsep, ?_⟩⟩
    rcases hes with rfl | ⟨es1, sep1, rfl, hsep1, hes1⟩
    · exact Json.last_member _ ihe
    · rw [List.append_assoc, List.singleton_append]
      exact json_members_snoc _ sep1 ihe hsep1 _ es1 hes1 rfl
  | entry tv ev colon key _ hcolon hkey ihv =>
    simp only [JsonRev, List.reverse_append, List.reverse_cons, List.reverse_nil,
      List.nil_append, List.cons_append]
    exact Json.member key colon _ hkey hcolon ihv

/-- Every phrase of the grammar of JSON in which no number overflows, read backward, is
a phrase of the reverse grammar. -/
theorem json_rev (env : ParseEnv) (hand : yajl_handle_t) (k : JsonKind)
    (fs : List LexResult) (h : Json k fs) :
    (∀ t ∈ fs, numericOverflow env hand t = false) → JsonLang env hand k fs := by
  induction h with
  | scalar t ht =>
    intro hov
    exact ⟨_, Rev.scalar t ht (hov t (by simp))⟩
  | empty_array o c ho hc =>
    intro _
    exact ⟨_, Rev.array c [o] _ hc (Rev.no_items o ho)⟩
  | array o c ts ho hc _ ih =>
    intro hov
    obtain ⟨⟨evs, he⟩, _⟩ := ih (fun t ht => hov t (by simp [ht])) [o] _ (Rev.first_item o ho)
    refine ⟨emit hand (·.yajl_end_array) .end_array ++ evs, ?_⟩
    have := Rev.array c _ evs hc he
    simpa [JsonLang] using this
  | empty_map o c ho hc =>
    intro _
    exact ⟨_, Rev.map c [o] _ hc (Rev.no_entries o ho)⟩
  | map o c ts ho hc _ ih =>
    intro hov
    obtain ⟨⟨evs, he⟩, _⟩ := ih (fun t ht => hov t (by simp [ht])) [o] _ (Rev.first_entry o ho)
    refine ⟨emit hand (·.yajl_end_map) .end_map ++ evs, ?_⟩
    have := Rev.map c _ evs hc he
    simpa [JsonLang] using this
  | element tv _ ih =>
    intro hov tail evt ht
    obtain ⟨ev, hv⟩ := ih hov
    exact ⟨⟨_, Rev.items _ tail ev evt hv ht⟩,
      fun sep hsep => ⟨_, Rev.more_items sep _ tail ev evt hsep hv ht⟩⟩
  | elements tv sep ts _ hsep _ ihv ihs =>
    intro hov tail evt ht
    obtain ⟨ev, hv⟩ := ihv (fun t ht => hov t (by simp [ht]))
    have hm := Rev.more_items sep _ tail ev evt hsep hv ht
    have := ihs (fun t ht => hov t (by simp [ht])) _ _ hm
    simpa using this
  | member key colon tv hkey hcolon _ ih =>
    intro hov
    obtain ⟨ev, hv⟩ := ih (fun t ht => hov t (by simp [ht]))
    refine ⟨ev ++ keyEvents env hand key, ?_⟩
    have := Rev.entry _ ev colon key hv hcolon hkey
    simpa [JsonLang] using this
  | last_member tm _ ih =>
    intro hov tail evt ht
    obtain ⟨ev, hv⟩ := ih hov
    exact ⟨⟨_, Rev.entries _ tail ev evt hv ht⟩,
      fun sep hsep => ⟨_, Rev.more_entries sep _ tail ev evt hsep hv ht⟩⟩
  | members tm sep ts _ hsep _ ihm ihs =>
    intro hov tail evt ht
    obtain ⟨ev, hv⟩ := ihm (fun t ht => hov t (by simp [ht]))
    have hm := Rev.more_entries sep _ tail ev evt hsep hv ht
    have := ihs (fun t ht => hov t (by simp [ht])) _ _ hm
    simpa using this

/-! ## Soundness of the reverse parser -/

/-- The rounds that read tokens other than `eof` and end with `parse_complete` on top
have read a sequence of the automaton. -/
theorem steps_stackLang (env : ParseEnv) (len : Int) (hand0 : yajl_handle_t) :
    ∀ (ts : List LexResult) (hand h : yajl_handle_t) (l l1 : RevLocals),
      hand.callbacks = hand0.callbacks → hand.flags.allow_multiple_values = false →
      (∀ t ∈ ts, t.tok ≠ .eof) → Proper hand.stateStack →
      rev_steps env len ts hand l = some (h, l1) →
      yajl_bs_current h.stateStack = some .parse_complete →
      ∃ evs, StackLang env hand0 hand.stateStack ts evs ∧ h.ctx = hand.ctx ++ evs ∧
        h.stateStack = [.parse_complete] := by
  intro ts
  induction ts with
  | nil =>
    intro hand h l l1 _ _ _ hp hs htop
    simp only [rev_steps, Option.some.injEq, Prod.mk.injEq] at hs
    obtain ⟨rfl, _⟩ := hs
    obtain ⟨a, st, hst⟩ := List.exists_cons_of_ne_nil (grounded_ne_nil _ (proper_grounded _ hp))
    rw [hst] at hp htop
    simp only [yajl_bs_current, List.head?_cons, Option.some.injEq] at htop
    subst htop
    have hnil := proper_bottom _ st hp (Or.inr (Or.inr rfl))
    subst hnil
    refine ⟨[], ?_, by simp, hst⟩
    rw [hst]
    exact Lang.done
  | cons t ts ih =>
    intro hand h l l1 hcb hamv htoks hp hs htop
    obtain ⟨h1, l2, hr, hs1⟩ := rev_steps_cons_some env len t ts hand h l l1 hs
    obtain ⟨_, hc⟩ := round_again_cases env len hand h1 l l2 (some t) hr
    rcases hc with ⟨e, st, hst, he, _⟩ | ⟨t1, s, st, seg, evs, ht, hst, ha, f1, f2, f3, f4, _⟩ |
      ⟨st, _, _, he, _⟩
    · obtain ⟨_, rfl, _⟩ := steps_error_top env len ts h1 h l2 l1 e st hst he hs1
      rw [hst] at htop
      simp only [yajl_bs_current, List.head?_cons, Option.some.injEq] at htop
      rcases he with rfl | rfl <;> exact absurd htop (by decide)
    · simp only [Option.some.injEq] at ht
      subst ht
      rcases hst with hst | ⟨_, _, hx⟩
      · have hp1 : Proper h1.stateStack := round_proper env len hand l (some t) _ hp hr
        obtain ⟨evs1, e1, e2, e3⟩ := ih h1 h l2 l1 (f3.trans hcb) (by rw [f4]; exact hamv)
          (fun x hx => htoks x (List.mem_cons_of_mem _ hx)) hp1 hs1 htop
        refine ⟨evs ++ evs1, ?_, by rw [e2, f2, List.append_assoc], e3⟩
        rw [hst]
        rw [f1] at e1
        exact stackLang_seg env hand0 s t seg st evs ts evs1
          (admits_congr env hand hand0 s t seg evs hcb ha) e1
      · rw [hamv] at hx
        cases hx
    · exact absurd he (htoks t (List.mem_cons_self _ _))

/-- C37: soundness of the reverse parser.  On a fresh handle (state stack `[start]`,
`allow_multiple_values` not set, as with the default flags), when the rounds of
`yajl_rev_do_parse` that read the tokens `ts` (none of them `eof`) lead to a stack with
`parse_complete` on top, the reversal of `ts` is the token sequence of one JSON value of
the grammar; and when a call returns `yajl_status_ok` with `parse_complete` on top, the
reversal of the tokens `tv` that it has read is one JSON value, tokens being left
unread only if trailing garbage is allowed or the chunk ended where the value began. -/
theorem reverse_sound (env : ParseEnv) (len : Int) (hand : yajl_handle_t)
    (hst : hand.stateStack = [.start]) (hamv : hand.flags.allow_multiple_values = false) :
    (∀ (ts : List LexResult) (h : yajl_handle_t) (l : RevLocals),
      (∀ t ∈ ts, t.tok ≠ .eof) → rev_steps env len ts hand entryLocals = some (h, l) →
      yajl_bs_current h.stateStack = some .parse_complete →
      Json .value ts.reverse ∧ h.stateStack = [.parse_complete]) ∧
    (∀ (ts : List LexResult) (h : yajl_handle_t),
      (∀ t ∈ ts, t.tok ≠ .eof) → yajl_rev_do_parse env hand len ts = some (.ok, h) →
      yajl_bs_current h.stateStack = some .parse_complete →
      ∃ tv rest, ts = tv ++ rest ∧ Json .value tv.reverse ∧
        h.stateStack = [.parse_complete] ∧
        (rest ≠ [] → hand.flags.allow_trailing_garbage = true ∨ lastOffset tv 0 = len)) := by
  have hp0 : Proper hand.stateStack := by rw [hst]; exact (proper_single _).2 (by decide)
  constructor
  · intro ts h l htoks hs htop
    obtain ⟨evs, e1, _, e3⟩ :=
      steps_stackLang env len hand ts hand h entryLocals l rfl hamv htoks hp0 hs htop
    rw [hst] at e1
    exact ⟨rev_json env hand .value ts evs ((rev_value_iff_lang env hand ts evs).2 e1), e3⟩
  · intro ts h htoks hacc htop
    obtain ⟨tv, rest, evs, e1, e2, _, e4, _, e6⟩ :=
      accepted_stackLang env len hand ts hand h entryLocals rfl hp0 rfl hamv htoks hacc htop
    rw [hst] at e2
    exact ⟨tv, rest, e1,
      rev_json env hand .value tv evs ((rev_value_iff_lang env hand tv evs).2 e2), e4, e6⟩

theorem reverse_sound_witness :
    Json .value sampleMapTokens.reverse ∧
      ({ handleWith allCallbacks [.parse_complete] with
          ctx := [.end_map, .number [0x31], .map_key [0x61], .start_map],
          startOffset := 0, endOffset := 1 } : yajl_handle_t).stateStack =
        [.parse_complete] :=
  (reverse_sound plainEnv (-7) (handleWith allCallbacks [.start]) rfl rfl).1 sampleMapTokens
    { handleWith allCallbacks [.parse_complete] with
      ctx := [.end_map, .number [0x31], .map_key [0x61], .start_map],
      startOffset := 0, endOffset := 1 }
    { offset := -7, bufLen := 1, cont := true } (by decide) (by decide) (by decide)

/-! ## Completeness of the reverse parser -/

theorem registered_none (hand : yajl_handle_t) (f : yajl_callbacks → Bool)
    (h : hand.callbacks = none) : registered hand f = false := by
  simp [registered, h]

/-- Without a callback table no number overflows. -/
theorem numericOverflow_none (env : ParseEnv) (hand : yajl_handle_t) (t : LexResult)
    (h : hand.callbacks = none) : numericOverflow env hand t = false := by
  simp [numericOverflow, registered_none hand _ h]

/-- Without a callback table an admitted transition calls no callback. -/
theorem admits_none (env : ParseEnv) (hand : yajl_handle_t) (s : yajl_state)
    (t : LexResult) (seg : List yajl_state) (evs : List yajl_event)
    (h : hand.callbacks = none) (ha : Admits env hand s t seg evs) : evs = [] := by
  have e : ∀ (f : yajl_callbacks → Bool) (x : yajl_event), emit hand f x = [] := by
    intro f x
    simp [emit, registered_none hand f h]
  cases ha with
  | scalar _ _ hs ht hov =>
    rcases ht with ht | ht | ht | ht | ht | ht <;>
      simp [scalarEvents, ht, e, registered_none hand _ h]
  | end_array _ _ hs ht => exact e _ _
  | end_map _ _ hs ht => exact e _ _
  | start_array _ _ hs ht => exact e _ _
  | start_map _ _ hs ht => exact e _ _
  | array_comma _ ht => rfl
  | map_comma _ ht => rfl
  | colon _ ht => rfl
  | key _ ht => exact e _ _

/-- The loop reads a sequence of the automaton when no callback that is called returns
0. -/
theorem lang_run_quiet (env : ParseEnv) (len : Int) (hand0 : yajl_handle_t)
    (hq : hand0.callbacks = none ∨ ∀ c, env.client c = true) (s : yajl_state)
    (ts : List LexResult) (evs : List yajl_event) (x : List yajl_state)
    (hl : Lang env hand0 s ts evs x) :
    ∀ (hand : yajl_handle_t) (l : RevLocals) (st : List yajl_state),
      hand.callbacks = hand0.callbacks → hand.stateStack = s :: st → l.cont = true →
      ∃ h1 l1, rev_steps env len ts hand l = some (h1, l1) ∧ h1.stateStack = x ++ st ∧
        h1.ctx = hand.ctx ++ evs ∧ h1.callbacks = hand.callbacks ∧ h1.flags = hand.flags ∧
        h1.parseError = hand.parseError ∧ l1.cont = true := by
  have hc : ∀ (ctx : List yajl_event) (s : yajl_state) (t : LexResult)
      (seg : List yajl_state) (evs : List yajl_event), Admits env hand0 s t seg evs →
      contAfter env ctx evs = true := by
    intro ctx s t seg evs ha
    rcases hq with hq | hq
    · rw [admits_none env hand0 s t seg evs hq ha]
      exact contAfter_nil env ctx
    · exact contAfter_true env hq _ _
  induction hl with
  | done =>
    intro hand l st _ hst hc
    exact ⟨hand, l, rfl, hst, by simp, rfl, rfl, rfl, hc⟩
  | pop s t evs ha =>
    intro hand l st hcb hst hcont
    obtain ⟨h1, l1, hr, f1, f2, f3, f4, f5, f6, _⟩ := round_admitted env len hand l t s st []
      evs hst hcont (admits_congr env hand0 hand s t [] evs hcb.symm ha)
    refine ⟨h1, l1, ?_, f1, f2, f3, f4, f5, ?_⟩
    · rw [rev_steps_again env len t [] hand h1 l l1 hr]; rfl
    · rw [f6]; exact hc _ _ _ _ _ ha
  | step s s1 t evs ts evs1 x ha _ ih =>
    intro hand l st hcb hst hcont
    obtain ⟨h1, l1, hr, f1, f2, f3, f4, f5, f6, _⟩ := round_admitted env len hand l t s st
      [s1] evs hst hcont (admits_congr env hand0 hand s t [s1] evs hcb.symm ha)
    obtain ⟨h2, l2, hr2, g1, g2, g3, g4, g5, g6⟩ := ih h1 l1 st (f3.trans hcb) f1
      (by rw [f6]; exact hc _ _ _ _ _ ha)
    refine ⟨h2, l2, ?_, g1, ?_, g3.trans f3, g4.trans f4, g5.trans f5, g6⟩
    · rw [rev_steps_again env len t ts hand h1 l l1 hr]; exact hr2
    · rw [g2, f2, List.append_assoc]
  | push s p s1 t evs ts1 evs1 ts2 evs2 x ha _ _ ih1 ih2 =>
    intro hand l st hcb hst hcont
    obtain ⟨h1, l1, hr, f1, f2, f3, f4, f5, f6, _⟩ := round_admitted env len hand l t s st
      [p, s1] evs hst hcont (admits_congr env hand0 hand s t [p, s1] evs hcb.symm ha)
    obtain ⟨h2, l2, hr2, g1, g2, g3, g4, g5, g6⟩ := ih1 h1 l1 (s1 :: st) (f3.trans hcb) f1
      (by rw [f6]; exact hc _ _ _ _ _ ha)
    obtain ⟨h3, l3, hr3, k1, k2, k3, k4, k5, k6⟩ := ih2 h2 l2 st ((g3.trans f3).trans hcb) g1
      g6
    refine ⟨h3, l3, ?_, k1, ?_, (k3.trans g3).trans f3, (k4.trans g4).trans f4,
      (k5.trans g5).trans f5, k6⟩
    · rw [rev_steps_again env len t _ hand h1 l l1 hr,
        rev_steps_append env len ts2 ts1 h1 h2 l1 l2 hr2]
      exact hr3
    · rw [k2, g2, f2]; simp only [List.append_assoc]

/-- An admitted transition puts no error state on the stack. -/
theorem admits_errorFree (env : ParseEnv) (hand : yajl_handle_t) (s : yajl_state)
    (t : LexResult) (seg : List yajl_state) (evs : List yajl_event)
    (ha : Admits env hand s t seg evs) : ErrorFree seg := by
  have sn : ∀ s, isValueState s → scalarNext s ≠ .parse_error ∧ scalarNext s ≠ .lexical_error := by
    intro s hs
    rcases hs with rfl | rfl | rfl | rfl | rfl | rfl <;> decide
  cases ha with
  | scalar _ _ hs ht hov =>
    intro x hx
    simp only [List.mem_singleton] at hx
    subst hx
    exact sn s hs
  | end_array _ _ hs ht =>
    intro x hx
    simp only [List.mem_cons, List.mem_singleton, List.not_mem_nil, or_false] at hx
    rcases hx with rfl | rfl
    · decide
    · exact sn s hs
  | end_map _ _ hs ht =>
    intro x hx
    simp only [List.mem_cons, List.mem_singleton, List.not_mem_nil, or_false] at hx
    rcases hx with rfl | rfl
    · decide
    · exact sn s hs
  | start_array _ _ hs ht => intro x hx; cases hx
  | start_map _ _ hs ht => intro x hx; cases hx
  | array_comma _ ht => intro x hx; simp only [List.mem_singleton] at hx; subst hx; decide
  | map_comma _ ht => intro x hx; simp only [List.mem_singleton] at hx; subst hx; decide
  | colon _ ht => intro x hx; simp only [List.mem_singleton] at hx; subst hx; decide
  | key _ ht => intro x hx; simp only [List.mem_singleton] at hx; subst hx; decide

/-- When the rounds that read tokens do not end in an error state, no round before has
set an error state or an error text. -/
theorem steps_clean (env : ParseEnv) (len : Int) (q : List LexResult) :
    ∀ (p : List LexResult) (hand h : yajl_handle_t) (l l1 : RevLocals),
      ErrorFree hand.stateStack → rev_steps env len (p ++ q) hand l = some (h, l1) →
      (∀ e st, h.stateStack = e :: st → e ≠ .parse_error ∧ e ≠ .lexical_error) →
      ∃ hp lp, rev_steps env len p hand l = some (hp, lp) ∧ ErrorFree hp.stateStack ∧
        hp.parseError = hand.parseError := by
  intro p
  induction p with
  | nil =>
    intro hand h l l1 hef _ _
    exact ⟨hand, l, rfl, hef, rfl⟩
  | cons t p ih =>
    intro hand h l l1 hef hs htop
    rw [List.cons_append] at hs
    obtain ⟨h1, l2, hr, hs1⟩ := rev_steps_cons_some env len t (p ++ q) hand h l l1 hs
    rw [rev_steps_again env len t p hand h1 l l2 hr]
    obtain ⟨_, hc⟩ := round_again_cases env len hand h1 l l2 (some t) hr
    rcases hc with ⟨e, st, hst, he, _⟩ |
      ⟨t1, s, st, seg, evs, ht, hst, ha, f1, f2, f3, f4, f5, _⟩ | ⟨st, _, _, _, e1, _⟩
    · obtain ⟨_, rfl, _⟩ := steps_error_top env len (p ++ q) h1 h l2 l1 e st hst he hs1
      have := htop e st hst
      rcases he with rfl | rfl
      · exact absurd rfl this.1
      · exact absurd rfl this.2
    · have hef1 : ErrorFree h1.stateStack := by
        rw [f1]
        intro x hx
        rcases List.mem_append.1 hx with hx | hx
        · exact admits_errorFree env hand s t1 seg evs ha x hx
        · apply hef
          rcases hst with hst | ⟨hst, _⟩ <;> rw [hst] <;> exact List.mem_cons_of_mem _ hx
      obtain ⟨hp, lp, g1, g2, g3⟩ := ih h1 h l2 l1 hef1 hs1 htop
      exact ⟨hp, lp, g1, g2, g3.trans f5⟩
    · rw [e1] at hs1 ⊢
      exact ih hand h l2 l1 hef hs1 htop

/-- C36 (amended): completeness of the reverse parser.  For every JSON value of the grammar
(scalar, array or object), on a fresh handle (state stack `[start]`,
`allow_multiple_values` not set, as with the default flags) on which no callback stops
the parse (there is no callback table, or every callback returns 1 and no number
overflows in its conversion), `yajl_rev_do_parse` on the reversal of the token sequence
returns `yajl_status_ok` with the state stack `[parse_complete]`: top `parse_complete`,
depth 1; and after every prefix of the tokens no error state is in the stack and the
error text is as before the call. -/
theorem reverse_complete (env : ParseEnv) (len : Int) (hand : yajl_handle_t)
    (fs : List LexResult) (hst : hand.stateStack = [.start])
    (hamv : hand.flags.allow_multiple_values = false) (hjson : Json .value fs)
    (hq : Quiet env hand fs) :
    ∃ h, yajl_rev_do_parse env hand len fs.reverse = some (.ok, h) ∧
      yajl_bs_current h.stateStack = some .parse_complete ∧ h.stateStack.length = 1 ∧
      h.parseError = hand.parseError ∧
      ∀ p q, fs.reverse = p ++ q →
        ∃ hp lp, rev_steps env len p hand entryLocals = some (hp, lp) ∧
          ErrorFree hp.stateStack ∧ hp.parseError = hand.parseError := by
  have hov : ∀ t ∈ fs, numericOverflow env hand t = false := by
    rcases hq with hq | ⟨_, hq⟩
    · exact fun t _ => numericOverflow_none env hand t hq
    · exact hq
  have hcl : hand.callbacks = none ∨ ∀ c, env.client c = true := by
    rcases hq with hq | ⟨hq, _⟩
    · exact Or.inl hq
    · exact Or.inr hq
  obtain ⟨evs, hrev⟩ := json_rev env hand .value fs hjson hov
  have hl := (rev_value_iff_lang env hand fs.reverse evs).1 hrev
  obtain ⟨h1, l1, hr, f1, f2, _, f4, f5, f6⟩ :=
    lang_run_quiet env len hand hcl .start fs.reverse evs _ hl hand entryLocals [] rfl hst rfl
  obtain ⟨b, hb⟩ := rev_loop_nil_complete env len h1 l1 [] f1 f6 (by rw [f4]; exact hamv)
  refine ⟨{ h1 with bytesConsumed := b }, ?_, by rw [f1]; rfl, by rw [f1]; rfl, f5, ?_⟩
  · have := rev_loop_append env len [] fs.reverse hand h1 entryLocals l1 hr
    rw [List.append_nil] at this
    unfold yajl_rev_do_parse
    exact this.trans hb
  · intro p q hpq
    rw [hpq] at hr
    refine steps_clean env len q p hand h1 entryLocals l1 ?_ hr ?_
    · rw [hst]
      intro x hx
      simp only [List.mem_singleton] at hx
      subst hx
      decide
    · intro e st hh
      rw [f1] at hh
      simp only [List.append_nil, List.cons.injEq] at hh
      rw [← hh.1]
      decide

theorem reverse_complete_witness :
    ∃ h, yajl_rev_do_parse plainEnv (handleWith allCallbacks [.start]) (-7)
        sampleMapTokens.reverse.reverse = some (.ok, h) ∧
      yajl_bs_current h.stateStack = some .parse_complete ∧ h.stateStack.length = 1 ∧
      h.parseError = (handleWith allCallbacks [.start]).parseError ∧
      ∀ p q, sampleMapTokens.reverse.reverse = p ++ q →
        ∃ hp lp, rev_steps plainEnv (-7) p (handleWith allCallbacks [.start]) entryLocals =
            some (hp, lp) ∧
          ErrorFree hp.stateStack ∧
          hp.parseError = (handleWith allCallbacks [.start]).parseError :=
  reverse_complete plainEnv (-7) (handleWith allCallbacks [.start]) sampleMapTokens.reverse
    rfl rfl
    (Json.map _ _ _ rfl rfl
      (Json.last_member _ (Json.member _ _ _ (Or.inl rfl) rfl (Json.scalar _ (by decide)))))
    (Or.inr ⟨fun _ => rfl, by decide⟩)

set_option maxRecDepth 100000 in
/-- The number 9223372036854775808 on a handle with an integer callback and no number
callback: the call returns an error with the text "integer overflow". -/
theorem overflow_run :
    yajl_rev_do_parse sourceEnv (handleWith typedCallbacks [.start]) (-19)
        [{ tok := .integer, offset := -19,
           buf := [0x39, 0x32, 0x32, 0x33, 0x33, 0x37, 0x32, 0x30, 0x33, 0x36, 0x38, 0x35,
                   0x34, 0x37, 0x37, 0x35, 0x38, 0x30, 0x38] }].reverse =
      some (.error, { handleWith typedCallbacks [.parse_error] with
        parseError := some "integer overflow" }) := by
  decide

/-- C36 (as stated) fails: a well-formed value on a fresh handle with the default flags
can end in `parse_error`.  The number 9223372036854775808, with an integer callback and
no number callback registered, overflows in `yajl_parse_integer`: the call returns
`yajl_status_error` with `parse_error` on top and the text "integer overflow".  The
array `[1]`, with a client whose callbacks return 0, is cancelled at its first callback:
the call returns `yajl_status_client_canceled` with `parse_error` on top. -/
theorem reverse_complete_counterexample :
    (Json .value
        [{ tok := .integer, offset := -19,
           buf := [0x39, 0x32, 0x32, 0x33, 0x33, 0x37, 0x32, 0x30, 0x33, 0x36, 0x38, 0x35,
                   0x34, 0x37, 0x37, 0x35, 0x38, 0x30, 0x38] }] ∧
      ∃ h, yajl_rev_do_parse sourceEnv (handleWith typedCallbacks [.start]) (-19)
          [{ tok := .integer, offset := -19,
             buf := [0x39, 0x32, 0x32, 0x33, 0x33, 0x37, 0x32, 0x30, 0x33, 0x36, 0x38,
                     0x35, 0x34, 0x37, 0x37, 0x35, 0x38, 0x30, 0x38] }].reverse =
          some (.error, h) ∧
        yajl_bs_current h.stateStack = some .parse_error ∧
        h.parseError = some "integer overflow") ∧
    (Json .value
        [{ tok := .left_brace, offset := -3, buf := [0x5b] },
         { tok := .integer, offset := -2, buf := [0x31] },
         { tok := .right_brace, offset := -1, buf := [0x5d] }] ∧
      ∃ h, yajl_rev_do_parse cancelEnv (handleWith allCallbacks [.start]) (-3)
          [{ tok := .left_brace, offset := -3, buf := [0x5b] },
           { tok := .integer, offset := -2, buf := [0x31] },
           { tok := .right_brace, offset := -1, buf := [0x5d] }].reverse =
          some (.client_canceled, h) ∧
        yajl_bs_current h.stateStack = some .parse_error ∧
        h.parseError = some "client cancelled parse via callback return value") :=
  ⟨⟨Json.scalar _ (by decide),
    { handleWith typedCallbacks [.parse_error] with
      parseError := some "integer overflow" }, overflow_run, rfl, rfl⟩,
   ⟨Json.array _ _ [{ tok := .integer, offset := -2, buf := [0x31] }] rfl rfl
      (Json.element _ (Json.scalar _ (by decide))),
    { handleWith allCallbacks [.parse_error, .parse_complete] with
      parseError := some "client cancelled parse via callback return value",
      ctx := [.end_array], bytesConsumed := 2, startOffset := 2, endOffset := 3 },
    by decide, rfl, rfl⟩⟩

/-! ## Missing callbacks do not change the validation -/

theorem overflows_numeric (env : ParseEnv) (hand : yajl_handle_t) (t : LexResult)
    (h : overflows env t = false) : numericOverflow env hand t = false := by
  simp only [overflows, Bool.or_eq_false_iff, Bool.and_eq_false_iff] at h
  simp only [numericOverflow, Bool.and_eq_false_iff, Bool.or_eq_false_iff]
  rcases h with ⟨h1, h2⟩
  refine Or.inr ⟨?_, ?_⟩
  · rcases h1 with h1 | h1
    · exact Or.inl (Or.inl h1)
    · exact Or.inr h1
  · rcases h2 with h2 | h2
    · exact Or.inl (Or.inl h2)
    · exact Or.inr h2

/-- Whether a token is admitted, and the states it puts on the stack, do not depend on
the callback table when no number overflows. -/
theorem admits_shape (env : ParseEnv) (a b : yajl_handle_t) (s : yajl_state)
    (t : LexResult) (seg : List yajl_state) (evs : List yajl_event)
    (hov : overflows env t = false) (ha : Admits env a s t seg evs) :
    ∃ evs1, Admits env b s t seg evs1 := by
  cases ha with
  | scalar _ _ hs ht _ => exact ⟨_, Admits.scalar s t hs ht (overflows_numeric env b t hov)⟩
  | end_array _ _ hs ht => exact ⟨_, Admits.end_array s t hs ht⟩
  | end_map _ _ hs ht => exact ⟨_, Admits.end_map s t hs ht⟩
  | start_array _ _ hs ht => exact ⟨_, Admits.start_array s t hs ht⟩
  | start_map _ _ hs ht => exact ⟨_, Admits.start_map s t hs ht⟩
  | array_comma _ ht => exact ⟨_, Admits.array_comma t ht⟩
  | map_comma _ ht => exact ⟨_, Admits.map_comma t ht⟩
  | colon _ ht => exact ⟨_, Admits.colon t ht⟩
  | key _ ht => exact ⟨_, Admits.key t ht⟩

/-- The events of an admitted transition are delivered through registered callbacks. -/
theorem admits_registered (env : ParseEnv) (hand : yajl_handle_t) (s : yajl_state)
    (t : LexResult) (seg : List yajl_state) (evs : List yajl_event)
    (ha : Admits env hand s t seg evs) :
    ∀ e ∈ evs, registered hand (callbackOf e) = true := by
  have em : ∀ (f : yajl_callbacks → Bool) (x : yajl_event), callbackOf x = f →
      ∀ e ∈ emit hand f x, registered hand (callbackOf e) = true := by
    intro f x hx e he
    unfold emit at he
    split_ifs at he with hr
    · simp only [List.mem_singleton] at he
      rw [he, hx]
      exact hr
    · cases he
  cases ha with
  | scalar _ _ hs ht _ =>
    rcases ht with ht | ht | ht | ht | ht | ht <;> simp only [scalarEvents, ht]
    · exact em _ _ rfl
    · exact em _ _ rfl
    · exact em _ _ rfl
    · exact em _ _ rfl
    · split_ifs with hn
      · intro e he
        simp only [List.mem_singleton] at he
        rw [he]
        exact hn
      · exact em _ _ rfl
    · split_ifs with hn
      · intro e he
        simp only [List.mem_singleton] at he
        rw [he]
        exact hn
      · exact em _ _ rfl
  | end_array _ _ hs ht => exact em _ _ rfl
  | end_map _ _ hs ht => exact em _ _ rfl
  | start_array _ _ hs ht => exact em _ _ rfl
  | start_map _ _ hs ht => exact em _ _ rfl
  | array_comma _ ht => intro e he; cases he
  | map_comma _ ht => intro e he; cases he
  | colon _ ht => intro e he; cases he
  | key _ ht => exact em _ _ rfl

/-- Two rounds on handles with the same state stack and the same flags end alike, when
no callback returns 0 and no number overflows. -/
theorem round_alike (env : ParseEnv) (len : Int) (hcl : ∀ c, env.client c = true)
    (a b : yajl_handle_t) (la lb : RevLocals) (next : Option LexResult)
    (hst : a.stateStack = b.stateStack) (hfl : a.flags = b.flags) (hca : la.cont = true)
    (hcb : lb.cont = true) (ho : la.offset = lb.offset)
    (hov : ∀ t, next = some t → overflows env t = false) :
    RoundAlike (rev_round env len a la next) (rev_round env len b lb next) := by
  cases hsa : a.stateStack with
  | nil =>
    have hsb : b.stateStack = [] := by rw [← hst, hsa]
    simp [rev_round, hca, hcb, hsa, hsb, yajl_bs_current, RoundAlike]
  | cons s st =>
    have hsb : b.stateStack = s :: st := by rw [← hst, hsa]
    have reading : ∀ (a b : yajl_handle_t) (s : yajl_state), a.stateStack = s :: st →
        b.stateStack = s :: st → a.flags = b.flags → isReadingState s →
        RoundAlike (rev_round env len a la next) (rev_round env len b lb next) := by
      intro a b s hsa hsb hfl hs
      by_cases he : (lexNext len next).tok = .eof
      · rw [rev_round_eof_tok env len a la next s st hsa hca hs he,
          rev_round_eof_tok env len b lb next s st hsb hcb hs he]
        exact ⟨rfl, by simp [hsa, hsb], hfl, rfl⟩
      · cases next with
        | none => exact absurd rfl he
        | some t =>
          have he1 : t.tok ≠ .eof := he
          by_cases her : t.tok = .error
          · rw [rev_round_error_tok env len a la t s st hsa hca hs her,
              rev_round_error_tok env len b lb t s st hsb hcb hs her]
            exact ⟨rfl, hfl, hca, hcb, rfl⟩
          by_cases had : ∃ seg evs, Admits env a s t seg evs
          · obtain ⟨seg, evs, had⟩ := had
            obtain ⟨evs1, hbd⟩ := admits_shape env a b s t seg evs (hov t rfl) had
            obtain ⟨a1, la1, e1, f1, _, _, f4, _, f6, f7⟩ :=
              round_admitted env len a la t s st seg evs hsa hca had
            obtain ⟨b1, lb1, e2, g1, _, _, g4, _, g6, g7⟩ :=
              round_admitted env len b lb t s st seg evs1 hsb hcb hbd
            rw [e1, e2]
            exact ⟨f1.trans g1.symm, (f4.trans hfl).trans g4.symm,
              by rw [f6]; exact contAfter_true env hcl _ _,
              by rw [g6]; exact contAfter_true env hcl _ _, f7.trans g7.symm⟩
          · have hna : ∀ seg evs, ¬ Admits env a s t seg evs :=
              fun seg evs hh => had ⟨seg, evs, hh⟩
            have hnb : ∀ seg evs, ¬ Admits env b s t seg evs := by
              intro seg evs hh
              obtain ⟨evs1, hx⟩ := admits_shape env b a s t seg evs (hov t rfl) hh
              exact hna seg evs1 hx
            obtain ⟨a1, la1, _, e1, f1, _, _, f4, _, f6, f7⟩ :=
              round_rejected env len a la t s st hsa hca hs he1 her hna
            obtain ⟨b1, lb1, _, e2, g1, _, _, g4, _, g6, g7⟩ :=
              round_rejected env len b lb t s st hsb hcb hs he1 her hnb
            rw [e1, e2]
            exact ⟨f1.trans g1.symm, (f4.trans hfl).trans g4.symm, f6, g6, f7.trans g7.symm⟩
    rcases state_cases s with hs | rfl | rfl | rfl
    · exact reading a b s hsa hsb hfl hs
    · by_cases hamv : a.flags.allow_multiple_values = true
      · rw [rev_round_multiple env len a la next st hsa hca hamv,
          rev_round_multiple env len b lb next st hsb hcb (by rw [← hfl]; exact hamv)]
        exact reading _ _ .got_value rfl rfl hfl (by decide)
      · have hamv0 : a.flags.allow_multiple_values = false := by simpa using hamv
        rw [rev_round_complete env len a la next st hsa hca hamv0,
          rev_round_complete env len b lb next st hsb hcb (by rw [← hfl]; exact hamv0)]
        by_cases h1 : a.flags.allow_trailing_garbage = true
        · have h1b : b.flags.allow_trailing_garbage = true := by rw [← hfl]; exact h1
          simp [parse_complete_state, h1, h1b, consumed_ret, RoundAlike, hsa, hsb, hfl, ho]
        have h1b : ¬ b.flags.allow_trailing_garbage = true := by rw [← hfl]; exact h1
        by_cases h2 : la.offset = len
        · have h2b : lb.offset = len := by rw [← ho]; exact h2
          simp [parse_complete_state, h2, h2b, consumed_ret, RoundAlike, hsa, hsb, hfl]
        have h2b : ¬ lb.offset = len := by rw [← ho]; exact h2
        by_cases h3 : (lexNext len next).tok = .eof
        · simp [parse_complete_state, h1, h1b, h2, h2b, h3, RoundAlike, hsa, hsb, hfl, hca,
            hcb, lexLocals]
        · simp [parse_complete_state, h1, h1b, h2, h2b, h3, parse_error_again, hsa, hsb,
            yajl_bs_set, RoundAlike, hfl, hca, hcb, lexLocals]
    · rw [rev_round_error_state env len a la next _ st hsa hca (Or.inl rfl),
        rev_round_error_state env len b lb next _ st hsb hcb (Or.inl rfl)]
      exact ⟨rfl, by simp [hsa, hsb], hfl, by simp [ho]⟩
    · rw [rev_round_error_state env len a la next _ st hsa hca (Or.inr rfl),
        rev_round_error_state env len b lb next _ st hsb hcb (Or.inr rfl)]
      exact ⟨rfl, by simp [hsa, hsb], hfl, by simp [ho]⟩
/-- The rounds that read tokens leave the same state stack on handles with the same
state stack and the same flags. -/
theorem steps_alike (env : ParseEnv) (len : Int) (hcl : ∀ c, env.client c = true) :
    ∀ (ts : List LexResult) (a b : yajl_handle_t) (la lb : RevLocals),
      a.stateStack = b.stateStack → a.flags = b.flags → la.cont = true → lb.cont = true →
      la.offset = lb.offset → (∀ t ∈ ts, overflows env t = false) →
      stackAfter (rev_steps env len ts a la) = stackAfter (rev_steps env len ts b lb) := by
  intro ts
  induction ts with
  | nil =>
    intro a b la lb hst _ _ _ _ _
    simp [rev_steps, stackAfter, hst]
  | cons t ts ih =>
    intro a b la lb hst hfl hca hcb ho hov
    have hra := round_alike env len hcl a b la lb (some t) hst hfl hca hcb ho
      (fun x hx => hov x (by simp only [Option.some.injEq] at hx; simp [hx]))
    rw [rev_steps, rev_steps]
    cases ha : rev_round env len a la (some t) with
    | none =>
      cases hb : rev_round env len b lb (some t) with
      | none => rfl
      | some rb => rw [ha, hb] at hra; exact hra.elim
    | some ra =>
      cases hb : rev_round env len b lb (some t) with
      | none => rw [ha, hb] at hra; cases ra <;> exact hra.elim
      | some rb =>
        rw [ha, hb] at hra
        cases ra with
        | ret s1 h1 =>
          cases rb with
          | ret s2 h2 => rfl
          | again h2 l2 => exact hra.elim
        | again h1 l1 =>
          cases rb with
          | ret s2 h2 => exact hra.elim
          | again h2 l2 =>
            obtain ⟨f1, f2, f3, f4, f5⟩ := hra
            exact ih h1 h2 l1 l2 f1 f2 f3 f4 f5 (fun x hx => hov x (List.mem_cons_of_mem _ hx))

/-- Calls on handles with the same state stack and the same flags return the same
status and leave the same state stack. -/
theorem loop_alike (env : ParseEnv) (len : Int) (hcl : ∀ c, env.client c = true) :
    ∀ (ts : List LexResult) (a b : yajl_handle_t) (la lb : RevLocals),
      a.stateStack = b.stateStack → a.flags = b.flags → la.cont = true → lb.cont = true →
      la.offset = lb.offset → (∀ t ∈ ts, overflows env t = false) →
      outcome (rev_loop env len ts a la) = outcome (rev_loop env len ts b lb) := by
  intro ts
  induction ts with
  | nil =>
    intro a b la lb hst hfl hca hcb ho _
    have hra := round_alike env len hcl a b la lb none hst hfl hca hcb ho
      (fun x hx => by cases hx)
    rw [rev_loop, rev_loop]
    cases ha : rev_round env len a la none with
    | none =>
      cases hb : rev_round env len b lb none with
      | none => rfl
      | some rb => rw [ha, hb] at hra; exact hra.elim
    | some ra =>
      cases hb : rev_round env len b lb none with
      | none => rw [ha, hb] at hra; cases ra <;> exact hra.elim
      | some rb =>
        rw [ha, hb] at hra
        cases ra with
        | ret s1 h1 =>
          cases rb with
          | ret s2 h2 =>
            obtain ⟨f1, f2, _⟩ := hra
            simp [outcome, f1, f2]
          | again h2 l2 => exact hra.elim
        | again h1 l1 =>
          cases rb with
          | ret s2 h2 => exact hra.elim
          | again h2 l2 =>
            obtain ⟨f1, f2, f3, f4, f5⟩ := hra
            have hrb := round_alike env len hcl h1 h2 l1 l2 none f1 f2 f3 f4 f5
              (fun x hx => by cases hx)
            simp only []
            cases ha2 : rev_round env len h1 l1 none with
            | none =>
              cases hb2 : rev_round env len h2 l2 none with
              | none => rfl
              | some rb => rw [ha2, hb2] at hrb; exact hrb.elim
            | some ra2 =>
              cases hb2 : rev_round env len h2 l2 none with
              | none => rw [ha2, hb2] at hrb; cases ra2 <;> exact hrb.elim
              | some rb2 =>
                rw [ha2, hb2] at hrb
                cases ra2 with
                | ret s1 h3 =>
                  cases rb2 with
                  | ret s2 h4 =>
                    obtain ⟨g1, g2, _⟩ := hrb
                    simp [outcome, g1, g2]
                  | again h4 l4 => exact hrb.elim
                | again h3 l3 =>
                  cases rb2 with
                  | ret s2 h4 => exact hrb.elim
                  | again h4 l4 => rfl
  | cons t ts ih =>
    intro a b la lb hst hfl hca hcb ho hov
    have hra := round_alike env len hcl a b la lb (some t) hst hfl hca hcb ho
      (fun x hx => hov x (by simp only [Option.some.injEq] at hx; simp [hx]))
    rw [rev_loop, rev_loop]
    cases ha : rev_round env len a la (some t) with
    | none =>
      cases hb : rev_round env len b lb (some t) with
      | none => rfl
      | some rb => rw [ha, hb] at hra; exact hra.elim
    | some ra =>
      cases hb : rev_round env len b lb (some t) with
      | none => rw [ha, hb] at hra; cases ra <;> exact hra.elim
      | some rb =>
        rw [ha, hb] at hra
        cases ra with
        | ret s1 h1 =>
          cases rb with
          | ret s2 h2 =>
            obtain ⟨f1, f2, _⟩ := hra
            simp [outcome, f1, f2]
          | again h2 l2 => exact hra.elim
        | again h1 l1 =>
          cases rb with
          | ret s2 h2 => exact hra.elim
          | again h2 l2 =>
            obtain ⟨f1, f2, f3, f4, f5⟩ := hra
            exact ih h1 h2 l1 l2 f1 f2 f3 f4 f5 (fun x hx => hov x (List.mem_cons_of_mem _ hx))

/-- The events of the rounds that read tokens are delivered through registered
callbacks. -/
theorem steps_registered (env : ParseEnv) (len : Int) :
    ∀ (ts : List LexResult) (hand h : yajl_handle_t) (l l1 : RevLocals),
      rev_steps env len ts hand l = some (h, l1) →
      ∃ evs, h.ctx = hand.ctx ++ evs ∧ ∀ e ∈ evs, registered hand (callbackOf e) = true := by
  intro ts
  induction ts with
  | nil =>
    intro hand h l l1 hs
    simp only [rev_steps, Option.some.injEq, Prod.mk.injEq] at hs
    rw [← hs.1]
    exact ⟨[], by simp, fun e he => by cases he⟩
  | cons t ts ih =>
    intro hand h l l1 hs
    obtain ⟨h1, l2, hr, hs1⟩ := rev_steps_cons_some env len t ts hand h l l1 hs
    obtain ⟨_, hc⟩ := round_again_cases env len hand h1 l l2 (some t) hr
    rcases hc with ⟨e, st, hst, he, hctx⟩ |
      ⟨t1, s, st, seg, evs, _, _, ha, _, f2, f3, _⟩ | ⟨st, _, _, _, e1, _⟩
    · obtain ⟨_, rfl, _⟩ := steps_error_top env len ts h1 h l2 l1 e st hst he hs1
      exact ⟨[], by simp [hctx], fun e he => by cases he⟩
    · obtain ⟨evs1, g1, g2⟩ := ih h1 h l2 l1 hs1
      refine ⟨evs ++ evs1, by rw [g1, f2, List.append_assoc], ?_⟩
      intro e he
      rcases List.mem_append.1 he with he | he
      · exact admits_registered env hand s t1 seg evs ha e he
      · rw [← registered_congr h1 hand _ f3]
        exact g2 e he
    · rw [e1] at hs1
      exact ih hand h l2 l1 hs1

/-- C35: missing callbacks do not change the validation.  For every token sequence in
which no number overflows in its conversion, with a client whose callbacks return 1, a
run of `yajl_rev_do_parse` on a handle with any callback table, or none, goes through
the same state stacks (after every prefix of the tokens) and returns the same status
with the same state stack as the run on the same handle with every callback registered;
and every event it emits is delivered through a callback that is registered. -/
theorem missing_callbacks (env : ParseEnv) (len : Int) (hand : yajl_handle_t)
    (ts : List LexResult) (hcl : ∀ c, env.client c = true)
    (hov : ∀ t ∈ ts, overflows env t = false) :
    (∀ p q, ts = p ++ q →
      stackAfter (rev_steps env len p hand entryLocals) =
        stackAfter (rev_steps env len p { hand with callbacks := some allCallbacks }
          entryLocals)) ∧
    outcome (yajl_rev_do_parse env hand len ts) =
      outcome (yajl_rev_do_parse env { hand with callbacks := some allCallbacks } len ts) ∧
    (∀ s h, yajl_rev_do_parse env hand len ts = some (s, h) →
      ∃ evs, h.ctx = hand.ctx ++ evs ∧ ∀ e ∈ evs, registered hand (callbackOf e) = true) := by
  refine ⟨?_, ?_, ?_⟩
  · intro p q hpq
    exact steps_alike env len hcl p hand _ entryLocals entryLocals rfl rfl rfl rfl rfl
      (fun t ht => hov t (by rw [hpq]; exact List.mem_append_left _ ht))
  · exact loop_alike env len hcl ts hand _ entryLocals entryLocals rfl rfl rfl rfl rfl hov
  · intro s h hl
    obtain ⟨p, q, hp, lp, lq, next, _, e2, e3, _⟩ :=
      rev_loop_split env len ts hand h entryLocals s hl
    obtain ⟨evs, g1, g2⟩ := steps_registered env len p hand hp entryLocals lp e2
    exact ⟨evs, by rw [round_ret_ctx env len hp h lq next s e3, g1], g2⟩

theorem missing_callbacks_witness :
    (∀ p q, sampleMapTokens = p ++ q →
      stackAfter (rev_steps plainEnv (-7) p (plainHandle [.start]) entryLocals) =
        stackAfter (rev_steps plainEnv (-7) p
          { plainHandle [.start] with callbacks := some allCallbacks } entryLocals)) ∧
    outcome (yajl_rev_do_parse plainEnv (plainHandle [.start]) (-7) sampleMapTokens) =
      outcome (yajl_rev_do_parse plainEnv
        { plainHandle [.start] with callbacks := some allCallbacks } (-7) sampleMapTokens) ∧
    (∀ s h, yajl_rev_do_parse plainEnv (plainHandle [.start]) (-7) sampleMapTokens =
        some (s, h) →
      ∃ evs, h.ctx = (plainHandle [.start]).ctx ++ evs ∧
        ∀ e ∈ evs, registered (plainHandle [.start]) (callbackOf e) = true) :=
  missing_callbacks plainEnv (-7) (plainHandle [.start]) sampleMapTokens (fun _ => rfl)
    (by decide)

/-! ## `bytesConsumed` is a position in the chunk of the call -/

theorem settled_of_cont (len : Int) (h : yajl_handle_t) (l : RevLocals)
    (hc : l.cont = true) : Settled len h l := by
  intro hf
  rw [hc] at hf
  cases hf

theorem settled_callback (env : ParseEnv) (hand : yajl_handle_t) (l : RevLocals) (len : Int)
    (e : yajl_event) :
    Settled len (callback env hand l len e).1 (callback env hand l len e).2 ∧
    (callback env hand l len e).2.offset = l.offset := by
  refine ⟨fun _ => ?_, rfl⟩
  simp [callback, mark]

theorem settled_callback_if (env : ParseEnv) (hand : yajl_handle_t) (l : RevLocals)
    (len : Int) (f : yajl_callbacks → Bool) (e : yajl_event) (hc : l.cont = true) :
    Settled len (callback_if env hand l len f e).1 (callback_if env hand l len f e).2 ∧
    (callback_if env hand l len f e).2.offset = l.offset := by
  unfold callback_if
  by_cases h : registered hand f = true
  · rw [if_pos h]; exact settled_callback env hand l len e
  · rw [if_neg h]; exact ⟨settled_of_cont len hand l hc, rfl⟩

theorem settles_value_done (len o : Int) (h : yajl_handle_t) (l : RevLocals) (p : yajl_state)
    (hs : Settled len h l ∧ l.offset = o) : Settles len o (value_done h l p) := by
  intro h1 l1 hr
  unfold value_done at hr
  cases hg : got_a_value h.stateStack with
  | none => rw [hg] at hr; cases hr
  | some st =>
    rw [hg] at hr
    simp only [Option.map_some', Option.some.injEq, Round.again.injEq] at hr
    obtain ⟨rfl, rfl⟩ := hr
    exact ⟨hs.2, hs.1⟩

theorem settles_set_again (len o : Int) (h : yajl_handle_t) (l : RevLocals) (v : yajl_state)
    (hs : Settled len h l ∧ l.offset = o) : Settles len o (set_again h l v) := by
  intro h1 l1 hr
  unfold set_again at hr
  cases hg : yajl_bs_set h.stateStack v with
  | none => rw [hg] at hr; cases hr
  | some st =>
    rw [hg] at hr
    simp only [Option.map_some', Option.some.injEq, Round.again.injEq] at hr
    obtain ⟨rfl, rfl⟩ := hr
    exact ⟨hs.2, hs.1⟩

theorem settles_pop_again (len o : Int) (h : yajl_handle_t) (l : RevLocals)
    (hs : Settled len h l ∧ l.offset = o) : Settles len o (pop_again h l) := by
  intro h1 l1 hr
  unfold pop_again at hr
  cases hg : yajl_bs_pop h.stateStack with
  | none => rw [hg] at hr; cases hr
  | some st =>
    rw [hg] at hr
    simp only [Option.map_some', Option.some.injEq, Round.again.injEq] at hr
    obtain ⟨rfl, rfl⟩ := hr
    exact ⟨hs.2, hs.1⟩

theorem settles_parse_error (len o : Int) (h : yajl_handle_t) (l : RevLocals) (msg : String)
    (hs : l.cont = true ∧ l.offset = o) : Settles len o (parse_error_again h l msg) := by
  intro h1 l1 hr
  unfold parse_error_again at hr
  cases hg : yajl_bs_set h.stateStack .parse_error with
  | none => rw [hg] at hr; cases hr
  | some st =>
    rw [hg] at hr
    simp only [Option.map_some', Option.some.injEq, Round.again.injEq] at hr
    obtain ⟨rfl, rfl⟩ := hr
    exact ⟨hs.2, settled_of_cont len _ _ hs.1⟩

theorem settles_ret (len o : Int) (hand : yajl_handle_t) (l : RevLocals) (s : yajl_status) :
    Settles len o (consumed_ret hand l len s) := by
  intro h1 l1 hr
  simp [consumed_ret] at hr

/-- The case of the value states leaves `bytesConsumed` settled. -/
theorem settles_value_state (env : ParseEnv) (len : Int) (hand : yajl_handle_t)
    (l : RevLocals) (next : Option LexResult) (hc : l.cont = true) :
    Settles len (lexNext len next).offset (value_state env len hand l next) := by
  have hl : (lexLocals l (lexNext len next)).cont = true := hc
  have hlo : (lexLocals l (lexNext len next)).offset = (lexNext len next).offset := rfl
  have c1 := fun (hd : yajl_handle_t) f e =>
    settled_callback_if env hd (lexLocals l (lexNext len next)) len f e hl
  have c2 := fun (hd : yajl_handle_t) e =>
    settled_callback env hd (lexLocals l (lexNext len next)) len e
  have c3 : ∀ hd : yajl_handle_t, Settled len hd (lexLocals l (lexNext len next)) ∧
      (lexLocals l (lexNext len next)).offset = (lexNext len next).offset :=
    fun hd => ⟨settled_of_cont len hd _ hl, rfl⟩
  unfold value_state
  simp only []
  cases htok : (lexNext len next).tok <;> simp only []
  case eof => exact settles_ret _ _ _ _ _
  case error => exact settles_set_again _ _ _ _ _ (c3 _)
  case string => exact settles_value_done _ _ _ _ _ (c1 _ _ _)
  case string_with_escapes =>
    split_ifs
    · exact settles_value_done _ _ _ _ _ (c2 _ _)
    · exact settles_value_done _ _ _ _ _ (c3 _)
  case bool => exact settles_value_done _ _ _ _ _ (c1 _ _ _)
  case null => exact settles_value_done _ _ _ _ _ (c1 _ _ _)
  case right_bracket => exact settles_value_done _ _ _ _ _ (c1 _ _ _)
  case right_brace => exact settles_value_done _ _ _ _ _ (c1 _ _ _)
  case integer =>
    split_ifs
    · exact settles_value_done _ _ _ _ _ (c2 _ _)
    · exact settles_parse_error _ _ _ _ _ ⟨hl, hlo⟩
    · exact settles_value_done _ _ _ _ _ (c2 _ _)
    · exact settles_value_done _ _ _ _ _ (c3 _)
  case double =>
    split_ifs
    · exact settles_value_done _ _ _ _ _ (c2 _ _)
    · exact settles_parse_error _ _ _ _ _ ⟨hl, hlo⟩
    · exact settles_value_done _ _ _ _ _ (c2 _ _)
    · exact settles_value_done _ _ _ _ _ (c3 _)
  case left_brace =>
    split_ifs
    · exact settles_pop_again _ _ _ _ (c1 _ _ _)
    · exact settles_parse_error _ _ _ _ _ ⟨hl, hlo⟩
  case left_bracket =>
    split_ifs
    · exact settles_pop_again _ _ _ _ (c1 _ _ _)
    · exact settles_parse_error _ _ _ _ _ ⟨hl, hlo⟩
  case colon => exact settles_parse_error _ _ _ _ _ ⟨hl, hlo⟩
  case comma => exact settles_parse_error _ _ _ _ _ ⟨hl, hlo⟩
  case comment => exact settles_parse_error _ _ _ _ _ ⟨hl, hlo⟩
/-- A round that goes round again leaves `offset` at the offset of the lexer result
and `bytesConsumed` settled. -/
theorem round_settles (env : ParseEnv) (len : Int) (hand : yajl_handle_t) (l : RevLocals)
    (next : Option LexResult) :
    Settles len (lexNext len next).offset (rev_round env len hand l next) := by
  intro h1 l1 hr
  have hc : l.cont = true := (round_again_cases env len hand h1 l l1 next hr).1
  have hl : (lexLocals l (lexNext len next)).cont = true := hc
  have hlo : (lexLocals l (lexNext len next)).offset = (lexNext len next).offset := rfl
  have c1 := fun (hd : yajl_handle_t) f e =>
    settled_callback_if env hd (lexLocals l (lexNext len next)) len f e hl
  have c2 := fun (hd : yajl_handle_t) (lx : RevLocals) e => settled_callback env hd lx len e
  have c3 : ∀ hd : yajl_handle_t, Settled len hd (lexLocals l (lexNext len next)) ∧
      (lexLocals l (lexNext len next)).offset = (lexNext len next).offset :=
    fun hd => ⟨settled_of_cont len hd _ hl, rfl⟩
  revert h1 l1
  change Settles len (lexNext len next).offset (rev_round env len hand l next)
  unfold rev_round
  rw [if_neg (by simp [hc])]
  cases hs : yajl_bs_current hand.stateStack with
  | none => intro h1 l1 hr; cases hr
  | some s =>
    cases s <;> simp only []
    case start => exact settles_value_state env len hand l next hc
    case got_value => exact settles_value_state env len hand l next hc
    case map_need_val => exact settles_value_state env len hand l next hc
    case map_start => exact settles_value_state env len hand l next hc
    case array_need_val => exact settles_value_state env len hand l next hc
    case array_start => exact settles_value_state env len hand l next hc
    case parse_error => exact settles_ret _ _ _ _ _
    case lexical_error => exact settles_ret _ _ _ _ _
    case parse_complete =>
      split_ifs
      · cases hset : yajl_bs_set hand.stateStack .got_value with
        | none => intro h1 l1 hr; cases hr
        | some st => exact settles_value_state env len _ l next hc
      · unfold parse_complete_state
        simp only []
        split_ifs
        · exact settles_parse_error _ _ _ _ _ ⟨hl, hlo⟩
        · intro h1 l1 hr
          simp only [Option.some.injEq, Round.again.injEq] at hr
          obtain ⟨rfl, rfl⟩ := hr
          exact ⟨rfl, settled_of_cont len _ _ hl⟩
        · exact settles_ret _ _ _ _ _
    case map_need_key =>
      unfold map_need_key_state
      simp only []
      cases htok : (lexNext len next).tok <;> simp only []
      case eof => exact settles_ret _ _ _ _ _
      case error => exact settles_set_again _ _ _ _ _ (c3 _)
      case string => exact settles_set_again _ _ _ _ _ (c1 _ _ _)
      case string_with_escapes =>
        split_ifs
        · exact settles_set_again _ _ _ _ _ (c2 _ _ _)
        · exact settles_set_again _ _ _ _ _ (c3 _)
      all_goals exact settles_parse_error _ _ _ _ _ ⟨hl, hlo⟩
    case map_sep =>
      unfold map_sep_state
      simp only []
      cases htok : (lexNext len next).tok <;> simp only []
      case eof => exact settles_ret _ _ _ _ _
      case error => exact settles_set_again _ _ _ _ _ (c3 _)
      case colon => exact settles_set_again _ _ _ _ _ (c3 _)
      all_goals exact settles_parse_error _ _ _ _ _ ⟨hl, hlo⟩
    case map_got_val =>
      unfold map_got_val_state
      simp only []
      cases htok : (lexNext len next).tok <;> simp only []
      case eof => exact settles_ret _ _ _ _ _
      case error => exact settles_set_again _ _ _ _ _ (c3 _)
      case comma => exact settles_set_again _ _ _ _ _ (c3 _)
      case left_bracket => exact settles_pop_again _ _ _ _ (c1 _ _ _)
      all_goals exact settles_parse_error _ _ _ _ _ ⟨hl, hlo⟩
    case array_got_val =>
      unfold array_got_val_state
      simp only []
      cases htok : (lexNext len next).tok <;> simp only []
      case eof => exact settles_ret _ _ _ _ _
      case error => exact settles_set_again _ _ _ _ _ (c3 _)
      case comma => exact settles_set_again _ _ _ _ _ (c3 _)
      case left_brace => exact settles_pop_again _ _ _ _ (c1 _ _ _)
      all_goals exact settles_parse_error _ _ _ _ _ ⟨hl, hlo⟩
/-- The cast to `size_t` of a difference that is not negative. -/
theorem toSizeT_of_nonneg (x : Int) (h0 : 0 ≤ x) (h1 : x < 18446744073709551616) :
    (toSizeT x : Int) = x := by
  unfold toSizeT
  rw [Int.emod_eq_of_lt h0 h1]
  exact Int.toNat_of_nonneg h0

/-- The offset with which a round returns is the offset at `around_again` or the offset
that the lexer call has written. -/
theorem ret_offset_cases (len : Int) (hand : yajl_handle_t) (l : RevLocals)
    (next : Option LexResult) :
    ret_offset len hand l next = l.offset ∨
      ret_offset len hand l next = (lexNext len next).offset := by
  unfold ret_offset
  by_cases hc : l.cont = true
  · rw [if_neg (by simp [hc])]
    cases yajl_bs_current hand.stateStack with
    | none => exact Or.inr rfl
    | some s =>
      cases s <;> simp only [] <;> first
        | exact Or.inl trivial
        | exact Or.inr trivial
        | (split_ifs <;> simp)
  · rw [if_pos (by simp [hc])]
    exact Or.inl rfl

/-- A round that returns leaves in `bytesConsumed` the position in the chunk of the
offset with which it returns. -/
theorem round_ret_offset (env : ParseEnv) (len : Int) (hand h1 : yajl_handle_t)
    (l : RevLocals) (next : Option LexResult) (status : yajl_status)
    (hs : Settled len hand l) (h : rev_round env len hand l next = some (.ret status h1)) :
    h1.bytesConsumed = toSizeT (ret_offset len hand l next - len) := by
  cases hst : hand.stateStack with
  | nil =>
    by_cases hcont : l.cont = true
    · simp [rev_round, hcont, hst, yajl_bs_current] at h
    · simp only [rev_round, hcont, Bool.not_false, if_true, cancelled, hst, yajl_bs_set,
        Bool.not_eq_true', Option.map_none', Bool.false_eq_true] at h
      split_ifs at h
      simp only [Option.some.injEq, Round.ret.injEq] at h
      rw [← h.2]
      have hc : l.cont = false := by simpa using hcont
      simp only [ret_offset, hc, Bool.not_false, if_true]
      exact hs hc
  | cons s st =>
    by_cases hcont : l.cont = true
    · have reading : ∀ (hd : yajl_handle_t) (s : yajl_state), hd.stateStack = s :: st →
          isReadingState s → rev_round env len hd l next = some (.ret status h1) →
          h1.bytesConsumed = toSizeT ((lexNext len next).offset - len) := by
        intro hd s hsd hrs hr
        by_cases he : (lexNext len next).tok = .eof
        · rw [rev_round_eof_tok env len hd l next s st hsd hcont hrs he] at hr
          simp only [Option.some.injEq, Round.ret.injEq] at hr
          rw [← hr.2]
        · cases next with
          | none => exact absurd rfl he
          | some t =>
            obtain ⟨a, b, hab⟩ := reading_goes_again env len hd l t s st hsd hcont hrs he
            rw [hab] at hr
            cases hr
      rcases state_cases s with hrs | rfl | rfl | rfl
      · have e : ret_offset len hand l next = (lexNext len next).offset := by
          rcases hrs with (rfl | rfl | rfl | rfl | rfl | rfl) | rfl | rfl | rfl | rfl <;>
            simp [ret_offset, hcont, hst, yajl_bs_current]
        rw [e]
        exact reading hand s hst hrs h
      · by_cases hamv : hand.flags.allow_multiple_values = true
        · rw [rev_round_multiple env len hand l next st hst hcont hamv] at h
          have e : ret_offset len hand l next = (lexNext len next).offset := by
            simp [ret_offset, hcont, hst, yajl_bs_current, hamv]
          rw [e]
          exact reading _ .got_value rfl (by decide) h
        · rw [rev_round_complete env len hand l next st hst hcont (by simpa using hamv)] at h
          have e : ret_offset len hand l next = l.offset := by
            simp [ret_offset, hcont, hst, yajl_bs_current, hamv]
          rw [e]
          rcases parse_complete_cases len hand l next st hst with ⟨e, _⟩ | ⟨e, _⟩ | ⟨e, _⟩
          · rw [e] at h; cases h
          · rw [e] at h; cases h
          · rw [e] at h
            simp only [Option.some.injEq, Round.ret.injEq] at h
            rw [← h.2]
      · rw [rev_round_error_state env len hand l next _ st hst hcont (Or.inl rfl)] at h
        simp only [Option.some.injEq, Round.ret.injEq] at h
        rw [← h.2]
        simp [ret_offset, hcont, hst, yajl_bs_current]
      · rw [rev_round_error_state env len hand l next _ st hst hcont (Or.inr rfl)] at h
        simp only [Option.some.injEq, Round.ret.injEq] at h
        rw [← h.2]
        simp [ret_offset, hcont, hst, yajl_bs_current]
    · rw [rev_round_cancelled env len hand l next s st hst (by simpa using hcont)] at h
      simp only [Option.some.injEq, Round.ret.injEq] at h
      rw [← h.2]
      have hc : l.cont = false := by simpa using hcont
      have := hs hc
      simp only [ret_offset, hc, Bool.not_false, if_true]
      split_ifs <;> exact this

/-- A call that returns leaves in `bytesConsumed` the position in the chunk of the
offset with which it returns, which is the offset at the entry of the loop, the end of
the chunk or the offset of a lexer result. -/
theorem loop_consumed (env : ParseEnv) (len : Int) (all : List LexResult) :
    ∀ (ts : List LexResult) (hand h : yajl_handle_t) (l : RevLocals) (s : yajl_status),
      (∀ t ∈ ts, t ∈ all) → stopOffset len all l.offset → Settled len hand l →
      rev_loop env len ts hand l = some (s, h) →
      ∃ o, rev_loop_offset env len ts hand l = some o ∧
        h.bytesConsumed = toSizeT (o - len) ∧ stopOffset len all o := by
  have mem : ∀ (hand : yajl_handle_t) (l : RevLocals) (next : Option LexResult),
      stopOffset len all l.offset → (∀ t, next = some t → t ∈ all) →
      stopOffset len all (ret_offset len hand l next) := by
    intro hand l next ho hn
    rcases ret_offset_cases len hand l next with e | e
    · rw [e]; exact ho
    · rw [e]
      cases next with
      | none => exact Or.inr (Or.inl rfl)
      | some t => exact Or.inr (Or.inr ⟨t, hn t rfl, rfl⟩)
  intro ts
  induction ts with
  | nil =>
    intro hand h l s _ ho hs hl
    rw [rev_loop] at hl
    rw [rev_loop_offset]
    cases hr : rev_round env len hand l none with
    | none => rw [hr] at hl; cases hl
    | some r =>
      cases r with
      | ret s1 h1 =>
        rw [hr] at hl
        simp only [Option.some.injEq, Prod.mk.injEq] at hl
        obtain ⟨rfl, rfl⟩ := hl
        exact ⟨_, rfl, round_ret_offset env len hand _ l none _ hs hr,
          mem hand l none ho (fun t ht => by cases ht)⟩
      | again h1 l1 =>
        rw [hr] at hl
        simp only [] at hl ⊢
        obtain ⟨e1, e2⟩ := round_settles env len hand l none h1 l1 hr
        cases hr2 : rev_round env len h1 l1 none with
        | none => rw [hr2] at hl; cases hl
        | some r2 =>
          cases r2 with
          | again h2 l2 => rw [hr2] at hl; cases hl
          | ret s2 h2 =>
            rw [hr2] at hl
            simp only [Option.some.injEq, Prod.mk.injEq] at hl
            obtain ⟨rfl, rfl⟩ := hl
            exact ⟨_, rfl, round_ret_offset env len h1 _ l1 none _ e2 hr2,
              mem h1 l1 none (Or.inr (Or.inl e1)) (fun t ht => by cases ht)⟩
  | cons t ts ih =>
    intro hand h l s hsub ho hs hl
    rw [rev_loop] at hl
    rw [rev_loop_offset]
    cases hr : rev_round env len hand l (some t) with
    | none => rw [hr] at hl; cases hl
    | some r =>
      cases r with
      | ret s1 h1 =>
        rw [hr] at hl
        simp only [Option.some.injEq, Prod.mk.injEq] at hl
        obtain ⟨rfl, rfl⟩ := hl
        refine ⟨_, rfl, round_ret_offset env len hand _ l (some t) _ hs hr,
          mem hand l (some t) ho (fun x hx => ?_)⟩
        simp only [Option.some.injEq] at hx
        rw [← hx]
        exact hsub t (List.mem_cons_self _ _)
      | again h1 l1 =>
        rw [hr] at hl
        simp only [] at hl ⊢
        obtain ⟨e1, e2⟩ := round_settles env len hand l (some t) h1 l1 hr
        exact ih h1 h l1 s (fun x hx => hsub x (List.mem_cons_of_mem _ hx))
          (Or.inr (Or.inr ⟨t, hsub t (List.mem_cons_self _ _), e1⟩)) e2 hl

/-- C32 (amended): after a call of `yajl_rev_do_parse`, whatever `bytesConsumed` was
before, `bytesConsumed` is `(size_t) (offset - jsonTextLen)` for the value `o` of the
local `offset` with which this call returns (`rev_loop_offset`): the offset where the
call stopped, and no other.  That offset is 0, the end of the chunk, or the offset of a
lexer result of this chunk, so `bytesConsumed` is a position in the chunk of this call,
at most the length of the chunk (the reverse lexer counts offsets from the end of the
chunk, from 0 down to `jsonTextLen`), and not a total over the calls. -/
theorem bytes_consumed_chunk (env : ParseEnv) (hand h : yajl_handle_t) (len : Int)
    (ts : List LexResult) (s : yajl_status)
    (hl : yajl_rev_do_parse env hand len ts = some (s, h)) :
    (∃ o, rev_loop_offset env len ts hand entryLocals = some o ∧
      h.bytesConsumed = toSizeT (o - len) ∧ stopOffset len ts o) ∧
    (-9223372036854775808 ≤ len → len ≤ 0 → (∀ t ∈ ts, len ≤ t.offset ∧ t.offset ≤ 0) →
      (h.bytesConsumed : Int) ≤ -len) := by
  obtain ⟨o, h1, h2, h3⟩ := loop_consumed env len ts ts hand h entryLocals s
    (fun _ ht => ht) (Or.inl rfl) (settled_of_cont len hand entryLocals rfl) hl
  refine ⟨⟨o, h1, h2, h3⟩, ?_⟩
  intro hmin hneg hoff
  have hrange : len ≤ o ∧ o ≤ 0 := by
    rcases h3 with rfl | rfl | ⟨t, ht, rfl⟩
    · exact ⟨hneg, le_refl 0⟩
    · exact ⟨le_refl _, hneg⟩
    · exact hoff t ht
  rw [h2, toSizeT_of_nonneg (o - len) (by omega) (by omega)]
  omega

theorem bytes_consumed_chunk_witness :
    rev_loop_offset plainEnv (-3)
        [{ tok := .integer, offset := -1, buf := [0x32] },
         { tok := .colon, offset := -2, buf := [0x3a] },
         { tok := .integer, offset := -3, buf := [0x31] }]
        (plainHandle [.start]) entryLocals = some (-2) ∧
    (∃ o, rev_loop_offset plainEnv (-3)
        [{ tok := .integer, offset := -1, buf := [0x32] },
         { tok := .colon, offset := -2, buf := [0x3a] },
         { tok := .integer, offset := -3, buf := [0x31] }]
        (plainHandle [.start]) entryLocals = some o ∧
      ({ plainHandle [.parse_error] with
          parseError := some "trailing garbage",
          bytesConsumed := 1 } : yajl_handle_t).bytesConsumed = toSizeT (o - (-3)) ∧
      stopOffset (-3)
        [{ tok := .integer, offset := -1, buf := [0x32] },
         { tok := .colon, offset := -2, buf := [0x3a] },
         { tok := .integer, offset := -3, buf := [0x31] }] o) ∧
    (({ plainHandle [.parse_error] with
        parseError := some "trailing garbage",
        bytesConsumed := 1 } : yajl_handle_t).bytesConsumed : Int) ≤ -(-3) :=
  ⟨by decide,
   (bytes_consumed_chunk plainEnv (plainHandle [.start])
      { plainHandle [.parse_error] with
        parseError := some "trailing garbage", bytesConsumed := 1 }
      (-3)
      [{ tok := .integer, offset := -1, buf := [0x32] },
       { tok := .colon, offset := -2, buf := [0x3a] },
       { tok := .integer, offset := -3, buf := [0x31] }] .error (by decide)).1,
   (bytes_consumed_chunk plainEnv (plainHandle [.start])
      { plainHandle [.parse_error] with
        parseError := some "trailing garbage", bytesConsumed := 1 }
      (-3)
      [{ tok := .integer, offset := -1, buf := [0x32] },
       { tok := .colon, offset := -2, buf := [0x3a] },
       { tok := .integer, offset := -3, buf := [0x31] }] .error (by decide)).2
      (by decide) (by decide) (by decide)⟩

/-- C32 (as stated) fails: `bytesConsumed` is not monotone across calls.  On a fresh
handle a first call on a chunk of 5 bytes whose last token is a comma returns an error
with `bytesConsumed` 4, and a second call on a chunk of 1 byte returns with
`bytesConsumed` 1; with `allow_trailing_garbage` a first call on a chunk of 4 bytes that
ends in a number returns `yajl_status_ok` with `bytesConsumed` 3, and a second call on a
chunk of 2 bytes returns `yajl_status_ok` with `bytesConsumed` 2. -/
theorem bytes_consumed_counterexample :
    (∃ h1 h2,
      yajl_rev_do_parse plainEnv (plainHandle [.start]) (-5)
        [{ tok := .comma, offset := -1, buf := [0x2c] }] = some (.error, h1) ∧
      yajl_rev_do_parse plainEnv h1 (-1) [] = some (.error, h2) ∧
      h1.bytesConsumed = 4 ∧ h2.bytesConsumed = 1) ∧
    (∃ h1 h2,
      yajl_rev_do_parse plainEnv
        { plainHandle [.start] with
          flags := { allow_trailing_garbage := true, allow_multiple_values := false,
                     allow_partial_values := false, resume_after_cancel := false } } (-4)
        [{ tok := .integer, offset := -1, buf := [0x31] }] = some (.ok, h1) ∧
      yajl_rev_do_parse plainEnv h1 (-2) [] = some (.ok, h2) ∧
      h1.bytesConsumed = 3 ∧ h2.bytesConsumed = 2) :=
  ⟨⟨{ plainHandle [.parse_error] with
        parseError := some "unallowed token at this point in JSON text",
        bytesConsumed := 4 },
    { plainHandle [.parse_error] with
        parseError := some "unallowed token at this point in JSON text",
        bytesConsumed := 1 }, by decide, by decide, rfl, rfl⟩,
   ⟨{ plainHandle [.parse_complete] with
        flags := { allow_trailing_garbage := true, allow_multiple_values := false,
                   allow_partial_values := false, resume_after_cancel := false },
        bytesConsumed := 3 },
    { plainHandle [.parse_complete] with
        flags := { allow_trailing_garbage := true, allow_multiple_values := false,
                   allow_partial_values := false, resume_after_cancel := false },
        bytesConsumed := 2 }, by decide, by decide, rfl, rfl⟩⟩

/-! ## The error code is written by the error paths only -/

theorem utf8_lead_err (l : yajl_lexer_t) (c : Nat) :
    StepErr (·.error) l.error (yajl_lex_utf8_char_lead l c) := by
  unfold yajl_lex_utf8_char_lead utf8_invalid
  split_ifs <;> simp [StepErr]

theorem utf8_step_err (k : Utf8PC) (l : yajl_lexer_t) (c : Nat) :
    StepErr (·.error) l.error (yajl_lex_utf8_char_step k l c) := by
  cases k <;> simp only [yajl_lex_utf8_char_step, utf8_invalid] <;> split_ifs <;>
    simp [StepErr]

theorem string_of_utf8_err (e : yajl_lex_error) (st : Step Utf8PC yajl_lexer_t)
    (h : StepErr (·.error) e st) : StepErr (·.error) e (string_of_utf8 st) := by
  cases st with
  | next k l => exact h
  | ret tok l u =>
    simp only [string_of_utf8]
    split_ifs with ht
    · exact h (by rw [ht]; decide)
    · exact h
  | fault => trivial

theorem string_char_err (l : yajl_lexer_t) (c : Nat) :
    StepErr (·.error) l.error (yajl_lex_string_char l c) := by
  unfold yajl_lex_string_char
  split_ifs
  · simp [StepErr]
  · simp [StepErr]
  · simp [StepErr]
  · exact string_of_utf8_err _ _ (utf8_lead_err _ c)
  · simp [StepErr]

theorem string_step_err (p : StrPC) (l : yajl_lexer_t) (c : Nat) :
    StepErr (·.error) l.error (yajl_lex_string_step p l c) := by
  cases p with
  | top =>
    simp only [yajl_lex_string_step]
    split_ifs
    · exact string_char_err l c
    · simp [StepErr]
  | e1 => exact string_char_err l c
  | e2 => simp only [yajl_lex_string_step]; split_ifs <;> simp [StepErr]
  | e3 => simp only [yajl_lex_string_step]; split_ifs <;> simp [StepErr]
  | utf8 k => exact string_of_utf8_err _ _ (utf8_step_err k l c)

theorem number_step_err (p : NumPC) (l : yajl_lexer_t) (c : Nat) :
    StepErr (·.error) l.error (yajl_lex_number_step p l c) := by
  cases p <;>
    simp only [yajl_lex_number_step, number_integer, number_fraction, number_exponent,
      number_exponent_digits] <;>
    split_ifs <;> simp [StepErr]

theorem comment_step_err (p : ComPC) (l : yajl_lexer_t) (c : Nat) :
    StepErr (·.error) l.error (yajl_lex_comment_step p l c) := by
  cases p <;> simp only [yajl_lex_comment_step] <;> split_ifs <;> simp [StepErr]

theorem liftStep_err {PC : Type} (f : PC → LexPC) (x : LexCtx) (e : yajl_lex_error)
    (st : Step PC yajl_lexer_t) (h : StepErr (·.error) e st) :
    StepErr (·.lexer.error) e (liftStep f x st) := by
  cases st <;> exact h

theorem step_err (pc : LexPC) (x : LexCtx) (c off : Nat) :
    StepErr (·.lexer.error) x.lexer.error (yajl_lex_lex_step pc x c off) := by
  cases pc with
  | top =>
    simp only [yajl_lex_lex_step]
    apply lex_switch_elim
    case h12 =>
      intro _
      exact liftStep_err .num x _ _ (number_step_err .e1 _ c)
    all_goals intros
    all_goals simp [StepErr]
  | expect =>
    simp only [yajl_lex_lex_step, lex_expect]
    cases expect.get? x.lexer.substate with
    | none => trivial
    | some e =>
      simp only []
      split_ifs
      · simp [StepErr]
      · cases expect.get? (uintSucc x.lexer.substate) with
        | none => trivial
        | some e1 =>
          simp only []
          split_ifs <;> simp [StepErr]
  | str p => exact liftStep_err .str x _ _ (string_step_err p x.lexer c)
  | num p => exact liftStep_err .num x _ _ (number_step_err p x.lexer c)
  | com p =>
    simp only [yajl_lex_lex_step]
    have h := comment_step_err p x.lexer c
    cases hs : yajl_lex_comment_step p x.lexer c with
    | next q l => rw [hs] at h; exact h
    | ret tok l u =>
      rw [hs] at h
      simp only [lex_of_comment]
      split_ifs with ht
      · exact h (by rw [ht]; decide)
      · exact h
    | fault => trivial

/-- A scan leaves the error code as it is unless it returns an error token. -/
theorem run_err (rest : List Nat) : ∀ (pc : LexPC) (x : LexCtx) (off : Nat),
    (∀ pc1 x1 o1, run yajl_lex_lex_step pc x rest off = .suspended pc1 x1 o1 →
      x1.lexer.error = x.lexer.error) ∧
    (∀ tok x1 o1, run yajl_lex_lex_step pc x rest off = .done tok x1 o1 → tok ≠ .error →
      x1.lexer.error = x.lexer.error) := by
  induction rest with
  | nil =>
    intro pc x off
    refine ⟨?_, ?_⟩
    · intro pc1 x1 o1 h
      simp only [run, Run.suspended.injEq] at h
      rw [← h.2.1]
    · intro tok x1 o1 h; simp [run] at h
  | cons c rest ih =>
    intro pc x off
    have hs := step_err pc x c (off + 1)
    rw [run_cons]
    cases hstep : yajl_lex_lex_step pc x c (off + 1) with
    | next pc2 x2 =>
      rw [hstep] at hs
      obtain ⟨i1, i2⟩ := ih pc2 x2 (off + 1)
      exact ⟨fun pc1 x1 o1 h => (i1 pc1 x1 o1 h).trans hs,
        fun tok x1 o1 h ht => (i2 tok x1 o1 h ht).trans hs⟩
    | ret tok2 x2 u =>
      rw [hstep] at hs
      refine ⟨?_, ?_⟩
      · intro pc1 x1 o1 h; simp [Step.cont] at h
      · intro tok x1 o1 h ht
        simp only [Step.cont, Run.done.injEq] at h
        obtain ⟨rfl, rfl, rfl⟩ := h
        exact hs ht
    | fault =>
      refine ⟨?_, ?_⟩
      · intro pc1 x1 o1 h; simp [Step.cont] at h
      · intro tok x1 o1 h; simp [Step.cont] at h
/-! ## Reset -/

/-- At `lexed`, after a scan entered in the start state, what the caller sees depends
on the token, the start of the token, the offset and the error code only. -/
theorem lexed_observed (tok : yajl_tok) (y1 y2 : LexCtx) (jsonText : List Nat) (o : Nat)
    (h1 : y1.entryState = .start) (h2 : y2.entryState = .start)
    (hso : y1.startOffset = y2.startOffset) (herr : y1.lexer.error = y2.lexer.error)
    (hne : tok ≠ .eof) :
    (lexed tok y1 jsonText o).map (·.observed jsonText) =
      (lexed tok y2 jsonText o).map (·.observed jsonText) := by
  have c1 : ¬ (tok = .eof ∨ y1.entryState ≠ .start) := by
    rintro (h | h)
    · exact hne h
    · exact h h1
  have c2 : ¬ (tok = .eof ∨ y2.entryState ≠ .start) := by
    rintro (h | h)
    · exact hne h
    · exact h h2
  unfold lexed
  rw [if_neg c1, if_neg c2, hso]
  unfold skip_quotes
  split_ifs <;> simp [LexOut.observed, LexOut.payload, herr]

/-- C40: reset restores the behaviour of a fresh lexer.  For every lexer (whatever its
state, `substate`, `subsubstate`, `resultTok`, error code and buffer), every input and
every offset, the call of `yajl_lex_lex` after `yajl_lex_reset` is defined exactly when
the call on a freshly allocated lexer with the same flags is, and returns the same
token, the same payload bytes, the same final offset and the same error code. -/
theorem reset_fresh (l : yajl_lexer_t) (jsonText : List Nat) (offset : Nat) :
    (yajl_lex_lex (yajl_lex_reset l) jsonText offset).map (·.observed jsonText) =
      (yajl_lex_lex (yajl_lex_alloc l.allowComments l.validateUTF8) jsonText offset).map
        (·.observed jsonText) := by
  by_cases ho : offset ≤ jsonText.length
  · rw [lex_start _ jsonText offset rfl ho, lex_start _ jsonText offset rfl ho]
    have hsim : Sim 0 0 [] .top (ctx0 (yajl_lex_reset l) offset)
        (ctx0 (yajl_lex_alloc l.allowComments l.validateUTF8) offset) :=
      ⟨⟨rfl, rfl, trivial, (fun h => absurd rfl h), (fun h => by cases h),
          (fun h => by cases h)⟩,
        ⟨rfl, Or.inl ⟨rfl, by simp [ctx0]⟩⟩, (fun h => absurd rfl h)⟩
    have hrs := run_sim 0 0 [] (jsonText.drop offset) .top .top _ _ offset (Or.inl rfl)
      (fun h => absurd rfl h) hsim
    rw [Nat.zero_add] at hrs
    have e1 := run_err (jsonText.drop offset) .top (ctx0 (yajl_lex_reset l) offset) offset
    have e2 := run_err (jsonText.drop offset) .top
      (ctx0 (yajl_lex_alloc l.allowComments l.validateUTF8) offset) offset
    have hinv2 := inv_ctx0 (yajl_lex_alloc l.allowComments l.validateUTF8) offset rfl
    cases hr1 : run yajl_lex_lex_step .top (ctx0 (yajl_lex_reset l) offset)
        (jsonText.drop offset) offset with
    | suspended pc1 x1 o1 =>
      cases hr2 : run yajl_lex_lex_step .top
          (ctx0 (yajl_lex_alloc l.allowComments l.validateUTF8) offset)
          (jsonText.drop offset) offset with
      | suspended pc2 x2 o2 =>
        rw [hr1, hr2] at hrs
        obtain ⟨_, _, ho12⟩ := hrs
        have k1 := e1.1 pc1 x1 o1 hr1
        have k2 := e2.1 pc2 x2 o2 hr2
        simp only [lex_finish, lexed_eof, Option.map_some', LexOut.observed, LexOut.payload,
          (susp_state pc1 x1).2.2.1, (susp_state pc2 x2).2.2.1, k1, k2, ho12, Nat.zero_add]
        rfl
      | done t2 x2 o2 => rw [hr1, hr2] at hrs; exact hrs.elim
      | fault => rw [hr1, hr2] at hrs; exact hrs.elim
    | done t1 x1 o1 =>
      cases hr2 : run yajl_lex_lex_step .top
          (ctx0 (yajl_lex_alloc l.allowComments l.validateUTF8) offset)
          (jsonText.drop offset) offset with
      | suspended pc2 x2 o2 => rw [hr1, hr2] at hrs; exact hrs.elim
      | done t2 x2 o2 =>
        rw [hr1, hr2] at hrs
        obtain ⟨rfl, ho12, hne, herr, hes1, hform⟩ := hrs
        have d6 := (run_inv_done _ _ _ _ _ _ _ hinv2 hr2).2.2.2.2.2 rfl
        rw [Nat.zero_add] at ho12
        subst ho12
        have hso : x1.startOffset = x2.startOffset := by
          rcases hform with ⟨_, f2⟩ | ⟨f1, _⟩
          · simpa using f2
          · exact absurd d6 f1
        have herr2 : x1.lexer.error = x2.lexer.error := by
          by_cases hte : t1 = .error
          · exact herr hte
          · rw [e1.2 t1 x1 o1 hr1 hte, e2.2 t1 x2 o1 hr2 hte]
            rfl
        simp only [lex_finish]
        exact lexed_observed t1 x1 x2 jsonText o1 hes1 d6 hso herr2 hne
      | fault => rw [hr1, hr2] at hrs; exact hrs.elim
    | fault =>
      cases hr2 : run yajl_lex_lex_step .top
          (ctx0 (yajl_lex_alloc l.allowComments l.validateUTF8) offset)
          (jsonText.drop offset) offset with
      | suspended pc2 x2 o2 => rw [hr1, hr2] at hrs; exact hrs.elim
      | done t2 x2 o2 => rw [hr1, hr2] at hrs; exact hrs.elim
      | fault => rfl
  · simp [yajl_lex_lex, lex_entry, yajl_lex_reset, yajl_lex_alloc, ho]

/-! ## The offset of the lexer -/

/-- A scan that returns a token ends at or behind the offset at which it began: at most
one `unreadChar` follows the last `readChar`. -/
theorem run_done_ge (rest : List Nat) : ∀ (pc : LexPC) (x : LexCtx) (off : Nat)
    (tok : yajl_tok) (x1 : LexCtx) (off1 : Nat), Inv pc x off →
    run yajl_lex_lex_step pc x rest off = .done tok x1 off1 → off ≤ off1 := by
  induction rest with
  | nil => intro pc x off tok x1 off1 _ h; simp [run] at h
  | cons c rest ih =>
    intro pc x off tok x1 off1 hi h
    have hs := step_inv pc x c off hi
    rw [run_cons] at h
    cases hstep : yajl_lex_lex_step pc x c (off + 1) with
    | next pc2 x2 =>
      rw [hstep] at h hs
      simp only [StepInv] at hs
      have := ih pc2 x2 (off + 1) tok x1 off1 hs.1 h
      omega
    | ret tok2 x2 u =>
      rw [hstep] at h hs
      simp only [StepInv] at hs
      simp only [Step.cont, Run.done.injEq] at h
      obtain ⟨_, _, hu, _⟩ := hs
      omega
    | fault => rw [hstep] at h; simp [Step.cont] at h

/-- Where a call of `yajl_lex_lex` on a lexer reachable from a fresh one is defined, with
the initial offset at most the length of the input: the final offset is between the
initial offset and the length, and it is the length when the call returns `eof`. -/
theorem lex_offset_bounds (l : yajl_lexer_t) (hl : Reachable l) (jsonText : List Nat)
    (off : Nat) (r : LexOut) (ho : off ≤ jsonText.length)
    (h : yajl_lex_lex l jsonText off = some r) :
    off ≤ r.offset ∧ r.offset ≤ jsonText.length ∧
    (r.tok = .eof → r.offset = jsonText.length) := by
  obtain ⟨pc, x, he, hf⟩ := call_split l jsonText off r h
  obtain ⟨hinv, -⟩ := entry_held l (reachable_held l hl) jsonText off pc x he
  have hlen : off + (jsonText.drop off).length = jsonText.length := by
    rw [List.length_drop]; omega
  cases hr : run yajl_lex_lex_step pc x (jsonText.drop off) off with
  | fault => rw [hr] at hf; cases hf
  | suspended pc1 x1 o1 =>
    rw [hr] at hf
    have ho1 := run_suspended_offset _ _ _ _ _ _ _ _ hr
    simp only [lex_finish] at hf
    obtain ⟨_, k2, _⟩ := lexed_props _ _ _ _ _ hf
    rw [k2, ho1, hlen]
    exact ⟨ho, le_refl _, fun _ => rfl⟩
  | done tok x1 o1 =>
    rw [hr] at hf
    obtain ⟨d1, _, _, d4, _⟩ := run_inv_done _ _ _ _ _ _ _ hinv hr
    have dge := run_done_ge _ _ _ _ _ _ _ hinv hr
    simp only [lex_finish] at hf
    obtain ⟨k1, k2, _⟩ := lexed_props _ _ _ _ _ hf
    rw [k2, k1]
    exact ⟨dge, by omega, fun g => absurd g d1⟩

/-- C39, evaluated.  A fresh lexer called on the one byte `1` returns `eof` inside a
number (state `number`, the label of the suspension in `substate`).  The next call
jumps to that label, which lies behind the end-of-input test of `CHECK_EOF`, and reads
a byte without a test: on an empty chunk, or at an offset equal to the length of the
chunk, it reads `jsonText[jsonTextLen]`, outside the input (in the model: the call is
undefined). -/
theorem resume_reads_past_end :
    ∃ r, yajl_lex_lex (yajl_lex_alloc false true) [0x31] 0 = some r ∧ r.tok = .eof ∧
      r.offset = 1 ∧ r.lexer.state = .number ∧ Reachable r.lexer ∧
      lex_entry r.lexer [] 0 = none ∧ yajl_lex_lex r.lexer [] 0 = none ∧
      yajl_lex_lex r.lexer [0x31] 1 = none :=
  ⟨{ tok := .eof,
     lexer := { yajl_lex_alloc false true with
       buf := [0x31], state := .number, substate := 4, resultTok := .integer },
     offset := 1, outBuf := .null, outLen := 0 },
   by decide, rfl, rfl, rfl,
   Reachable.lex (yajl_lex_alloc false true) [0x31] 0 _ (Reachable.fresh false true)
     (by decide) (by decide),
   by decide, by decide, by decide⟩

end Yajl
